import Mathlib

/-!
# Option pricing and hedging: lattice engine and finite-difference solver

A shallow embedding of the binomial-lattice part of the C++ library
(`Option`, `European`, `American`, `Asian`, `Payoff`) and of its PDE solver
(`ParabPDE`, `Diffusion`, `FDMethod`, `ImplicitScheme`, `CNMethod`), and the
properties proved about them.

Conventions of the embedding.

* `double` is an arbitrary linear ordered field `α`: the theorems hold in
  exact (real) arithmetic, and every definition can be evaluated over `ℚ`.
  `std::sqrt` is a parameter `sqrt : α → α` of the constructor, the only
  place where the source calls it.
* `std::vector<double>` is `List α`, `std::vector<std::vector<double>>` is
  `List (List α)`; `V[n][i]` is `get2 V n i`.  The shape of every tree is
  proved separately, so that every read the theorems speak about is in bounds.
* `int` indices and sizes are natural numbers once the constructor has
  checked `N > 0`; the step count itself is an `Int`, as in the source.
  `1 << n`, `j >> 1` and `j & 1` are the same operations on naturals; the
  wrap-around of a 32-bit `int` (a tree of `2^31` nodes or more) is not modelled.
* `/` is the division of the field, in which a quotient by zero is `0`; in
  double arithmetic it is NaN or an infinity.  A property of a quotient whose
  divisor can vanish on an accepted input (the hedge ratios, whose divisor is
  `S_up - S_down`) is stated under the hypothesis that the divisor is not zero.
* a `throw` is `Except.error`.
* `std::exp` is a parameter `exp : α → α` of the `Diffusion` methods that call
  it; `(int)x` is `toInt x`, the truncation toward zero, on a floor ring.
* an abstract class is a structure whose pure virtual methods are fields; the
  constructor of a derived class fills them with its overrides.
* a loop whose body may throw is `forUpE`: the first exception leaves it.
* `popcount`, `binomialSum` and `ImplicitScheme.pivot` are not functions of the
  library: they are the quantities in which the properties are stated.  The
  Black-Scholes closed form, the reference value of the convergence property,
  is defined over the reals from the normal density.
* rounding is not modelled: a property that holds here holds for the algorithm
  in exact arithmetic.  Where rounding changes what the program does, not only
  the last digits of a value, no property is stated: the last sample time
  `T*10/10.0` of `grid()` can round above `T`, and the row index `(int)(t/dt_)`
  of `v` can round up to `imax` for `t` just below `T`.
-/

/-- The two kinds of `std::exception` the library throws. -/
inductive Exception where
  | invalid_argument (msg : String)
  | out_of_range (msg : String)
deriving DecidableEq, Repr

/-- Read `v[i]` of a `std::vector<double>`. -/
def get1 {α : Type} [Zero α] (v : List α) (i : Nat) : α :=
  v.getD i 0

/-- Read `V[n][i]` of a `std::vector<std::vector<double>>`. -/
def get2 {α : Type} [Zero α] (V : List (List α)) (n i : Nat) : α :=
  get1 (V.getD n []) i

/-- The loop `for (n = k - 1; n >= 0; --n)` that fills `V[n]` with `row V n`,
entered with `k` levels still to fill. -/
def loopDown {α : Type} (row : List (List α) → Nat → List α) :
    Nat → List (List α) → List (List α)
  | 0, V => V
  | n + 1, V => loopDown row n (V.set n (row V n))

/-- The loop `for (n = n0; n <= N; ++n)` that fills `V[n]` with `row V n`,
entered at level `n` with `k` levels still to fill. -/
def loopUp {α : Type} (row : List (List α) → Nat → List α) :
    Nat → Nat → List (List α) → List (List α)
  | 0, _, V => V
  | k + 1, n, V => loopUp row k (n + 1) (V.set n (row V n))

/-- The loop `for (j = start; j < start + count; ++j) body(j)` on a state. -/
def forUp {σ : Type} (body : Nat → σ → σ) : Nat → Nat → σ → σ
  | 0, _, s => s
  | k + 1, j, s => forUp body k (j + 1) (body j s)

/-- The loop `for (j = start; j < start + count; ++j) body(j)` on a state, with
a body that may throw: the first exception leaves the loop. -/
def forUpE {σ : Type} (body : Nat → σ → Except Exception σ) :
    Nat → Nat → σ → Except Exception σ
  | 0, _, s => .ok s
  | k + 1, j, s =>
    match body j s with
    | .error err => .error err
    | .ok s => forUpE body k (j + 1) s

/-- The loop `for (j = k; j > 0; --j) body(j)` on a state. -/
def forDown {σ : Type} (body : Nat → σ → σ) : Nat → σ → σ
  | 0, s => s
  | j + 1, s => forDown body j (body (j + 1) s)

/-- The assignment `V[i][j] = x`. -/
def set2 {α : Type} (V : List (List α)) (i j : Nat) (x : α) : List (List α) :=
  V.set i ((V.getD i []).set j x)

/-- The conversion `(int)x` of a `double`: truncation toward zero. -/
def toInt {α : Type} [LinearOrderedField α] [FloorRing α] (x : α) : Int :=
  if x < 0 then ⌈x⌉ else ⌊x⌋

/-- The number of 1-bits of `j`, the count of up moves on the path that the
index `j` encodes in a non-recombining tree. -/
def popcount : Nat → Nat
  | 0 => 0
  | j + 1 => (j + 1) % 2 + popcount ((j + 1) / 2)
decreasing_by omega

/-- The sum of `choose N i * f i` over `0 <= i <= N`, computed with one
multiplication and one division per term: the loop carries the index `i`, the
binomial coefficient `c = choose N i` and the partial sum. -/
def binomialSumAux (N : Nat) (f : Nat → Nat) : Nat → Nat → Nat → Nat → Nat
  | 0, _, _, acc => acc
  | fuel + 1, i, c, acc =>
    binomialSumAux N f fuel (i + 1) (c * (N - i) / (i + 1)) (acc + c * f i)

/-- The sum of `choose N i * f i` over `0 <= i <= N`. -/
def binomialSum (N : Nat) (f : Nat → Nat) : Nat :=
  binomialSumAux N f (N + 1) 0 1 0

namespace opt

variable {α : Type} [LinearOrderedField α]

/-- Class `PayoffCall`: the strike. -/
structure PayoffCall (α : Type) where
  K_ : α

/-- Constructor `PayoffCall::PayoffCall(double K)`. -/
def PayoffCall.new (K : α) : Except Exception (PayoffCall α) :=
  if K < 0 then .error (.invalid_argument "Strike K doit être non-négatif")
  else .ok ⟨K⟩

/-- Method `PayoffCall::operator()`. -/
def PayoffCall.eval (p : PayoffCall α) (S : α) : α :=
  max (S - p.K_) 0

/-- Class `PayoffPut`: the strike. -/
structure PayoffPut (α : Type) where
  K_ : α

/-- Constructor `PayoffPut::PayoffPut(double K)`. -/
def PayoffPut.new (K : α) : Except Exception (PayoffPut α) :=
  if K < 0 then .error (.invalid_argument "Strike K doit être non-négatif")
  else .ok ⟨K⟩

/-- Method `PayoffPut::operator()`. -/
def PayoffPut.eval (p : PayoffPut α) (S : α) : α :=
  max (p.K_ - S) 0

/-- Class `PayoffDigitCall`: the strike. -/
structure PayoffDigitCall (α : Type) where
  K_ : α

/-- Constructor `PayoffDigitCall::PayoffDigitCall(double K)`. -/
def PayoffDigitCall.new (K : α) : Except Exception (PayoffDigitCall α) :=
  if K < 0 then .error (.invalid_argument "Strike K doit être non-négatif")
  else .ok ⟨K⟩

/-- Method `PayoffDigitCall::operator()`. -/
def PayoffDigitCall.eval (p : PayoffDigitCall α) (S : α) : α :=
  if S > p.K_ then 1 else 0

/-- Class `PayoffDigitPut`: the strike. -/
structure PayoffDigitPut (α : Type) where
  K_ : α

/-- Constructor `PayoffDigitPut::PayoffDigitPut(double K)`. -/
def PayoffDigitPut.new (K : α) : Except Exception (PayoffDigitPut α) :=
  if K < 0 then .error (.invalid_argument "Strike K doit être non-négatif")
  else .ok ⟨K⟩

/-- Method `PayoffDigitPut::operator()`. -/
def PayoffDigitPut.eval (p : PayoffDigitPut α) (S : α) : α :=
  if S < p.K_ then 1 else 0

/-- Class `PayoffDoubleDigit`: the lower and the upper strike. -/
structure PayoffDoubleDigit (α : Type) where
  K1_ : α
  K2_ : α

/-- Constructor `PayoffDoubleDigit::PayoffDoubleDigit(double K1, double K2)`. -/
def PayoffDoubleDigit.new (K1 K2 : α) : Except Exception (PayoffDoubleDigit α) :=
  if K1 < 0 ∨ K2 < 0 ∨ K1 > K2 then .error (.invalid_argument "Strike incorrect")
  else .ok ⟨K1, K2⟩

/-- Method `PayoffDoubleDigit::operator()`. -/
def PayoffDoubleDigit.eval (p : PayoffDoubleDigit α) (S : α) : α :=
  if S > p.K1_ ∧ S < p.K2_ then 1 else 0

/-- Class `PayoffBull`: the lower and the upper strike. -/
structure PayoffBull (α : Type) where
  K1_ : α
  K2_ : α

/-- Constructor `PayoffBull::PayoffBull(double K1, double K2)`. -/
def PayoffBull.new (K1 K2 : α) : Except Exception (PayoffBull α) :=
  if K1 < 0 ∨ K2 < 0 ∨ K1 > K2 then .error (.invalid_argument "Strike incorrect")
  else .ok ⟨K1, K2⟩

/-- Method `PayoffBull::operator()`. -/
def PayoffBull.eval (p : PayoffBull α) (S : α) : α :=
  if S < p.K1_ then 0 else if S > p.K2_ then p.K2_ - p.K1_ else S - p.K1_

/-- Class `PayoffBear`: the lower and the upper strike. -/
structure PayoffBear (α : Type) where
  K1_ : α
  K2_ : α

/-- Constructor `PayoffBear::PayoffBear(double K1, double K2)`. -/
def PayoffBear.new (K1 K2 : α) : Except Exception (PayoffBear α) :=
  if K1 < 0 ∨ K2 < 0 ∨ K1 > K2 then .error (.invalid_argument "Strike incorrect")
  else .ok ⟨K1, K2⟩

/-- Method `PayoffBear::operator()`. -/
def PayoffBear.eval (p : PayoffBear α) (S : α) : α :=
  if S < p.K1_ then p.K2_ - p.K1_ else if S > p.K2_ then 0 else p.K2_ - S

/-- Class `PayoffStrangle`: the lower and the upper strike. -/
structure PayoffStrangle (α : Type) where
  K1_ : α
  K2_ : α

/-- Constructor `PayoffStrangle::PayoffStrangle(double K1, double K2)`. -/
def PayoffStrangle.new (K1 K2 : α) : Except Exception (PayoffStrangle α) :=
  if K1 < 0 ∨ K2 < 0 ∨ K1 > K2 then .error (.invalid_argument "Strike incorrect")
  else .ok ⟨K1, K2⟩

/-- Method `PayoffStrangle::operator()`. -/
def PayoffStrangle.eval (p : PayoffStrangle α) (S : α) : α :=
  if S < p.K1_ then p.K1_ - S else if S > p.K2_ then S - p.K2_ else 0

/-- Class `PayoffButterfly`: the lower and the upper strike. -/
structure PayoffButterfly (α : Type) where
  K1_ : α
  K2_ : α

/-- Constructor `PayoffButterfly::PayoffButterfly(double K1, double K2)`. -/
def PayoffButterfly.new (K1 K2 : α) : Except Exception (PayoffButterfly α) :=
  if K1 < 0 ∨ K2 < 0 ∨ K1 > K2 then .error (.invalid_argument "Strike incorrect")
  else .ok ⟨K1, K2⟩

/-- Method `PayoffButterfly::operator()`. -/
def PayoffButterfly.eval (p : PayoffButterfly α) (S : α) : α :=
  if S > p.K1_ ∧ S ≤ 1 / 2 * (p.K1_ + p.K2_) then S - p.K1_
  else if S > 1 / 2 * (p.K1_ + p.K2_) ∧ S < p.K2_ then p.K2_ - S else 0

end opt

namespace crr

variable {α : Type} [LinearOrderedField α]

/-- Class `Option`: the parameters of the model and the per-step quantities
derived from them. -/
structure Option (α : Type) where
  S0_ : α
  R_ : α
  sigma_ : α
  T_ : α
  N_ : Int
  u_ : α
  d_ : α
  discount_ : α

/-- The body of `Option::Option` after its four checks: the member
initialisers and the per-step quantities `u_`, `d_`, `discount_`. -/
def Option.init (sqrt : α → α) (S0 R sigma T : α) (N : Int) : Option α :=
  let dt := T / (N : α)
  let sq := sigma * sqrt dt
  let rN := R * dt
  { S0_ := S0, R_ := R, sigma_ := sigma, T_ := T, N_ := N,
    u_ := rN + sq, d_ := rN - sq, discount_ := 1 / (1 + rN) }

/-- Constructor `Option::Option(S0, R, sigma, T, N)`. -/
def Option.new (sqrt : α → α) (S0 R sigma T : α) (N : Int) :
    Except Exception (Option α) :=
  if S0 < 0 then .error (.invalid_argument "S0 doit être >= 0")
  else if sigma < 0 then .error (.invalid_argument "Sigma doit être >= 0")
  else if T < 0 then .error (.invalid_argument "T doit être >= 0")
  else if N ≤ 0 then .error (.invalid_argument "N doit être > 0")
  else .ok (Option.init sqrt S0 R sigma T N)

/-- Struct `Option::HedgingStrategy`. -/
structure HedgingStrategy (α : Type) where
  delta : List (List α)
  bond : List (List α)

/-- The recombining price tree written by `buildStockTree` (the same loop in
`European` and `American`). -/
def buildStockTree (o : Option α) : List (List α) :=
  (List.range (o.N_.toNat + 1)).map fun n =>
    (List.range (n + 1)).map fun i =>
      o.S0_ * (1 + o.u_) ^ i * (1 + o.d_) ^ (n - i)

/-! ## European -/

/-- Class `European<TPayoff>`. -/
structure European (α : Type) extends Option α where
  payoff_ : α → α
  stockTree_ : List (List α)

/-- Method `European::buildStockTree`. -/
def European.buildStockTree (e : European α) : European α :=
  { e with stockTree_ := crr.buildStockTree e.toOption }

/-- Constructor `European::European(S0, R, sigma, T, N, payoff)`. -/
def European.new (sqrt : α → α) (S0 R sigma T : α) (N : Int) (payoff : α → α) :
    Except Exception (European α) :=
  match Option.new sqrt S0 R sigma T N with
  | .error err => .error err
  | .ok o => .ok (European.buildStockTree { toOption := o, payoff_ := payoff, stockTree_ := [] })

/-- One pass of the inner loop of `European::treePrice`: level `n` from the
level `n + 1` already stored in `V`. -/
def European.level (e : European α) (V : List (List α)) (n : Nat) : List α :=
  (List.range (n + 1)).map fun i =>
    e.discount_ * (1 / 2) * (get2 V (n + 1) (i + 1) + get2 V (n + 1) i)

/-- Method `European::treePrice`. -/
def European.treePrice (e : European α) : List (List α) :=
  let N := e.N_.toNat
  let V : List (List α) := List.replicate (N + 1) []
  let V := V.set N ((List.range (N + 1)).map fun i => e.payoff_ (get2 e.stockTree_ N i))
  loopDown (European.level e) N V

/-- Method `Option::price`, for a European option. -/
def European.price (e : European α) : α :=
  get2 e.treePrice 0 0

/-- Method `European::hedgingStrategy`.  The quotient `dlt` is the quotient of
the field: at a node with `Su = Sd`, where double arithmetic returns NaN or an
infinity, it carries no information. -/
def European.hedgingStrategy (e : European α) : HedgingStrategy α :=
  let V := e.treePrice
  let dlt := fun n i =>
    (get2 V (n + 1) (i + 1) - get2 V (n + 1) i) /
      (get2 e.stockTree_ (n + 1) (i + 1) - get2 e.stockTree_ (n + 1) i)
  { delta := (List.range e.N_.toNat).map fun n => (List.range (n + 1)).map fun i => dlt n i
    bond := (List.range e.N_.toNat).map fun n => (List.range (n + 1)).map fun i =>
      get2 V n i - dlt n i * get2 e.stockTree_ n i }

/-! ## Non-recombining price tree -/

/-- One pass of the inner loop of `buildStockTreeNR`: level `n` from the level
`n - 1` already stored in `tree`. -/
def levelNR (o : Option α) (tree : List (List α)) (n : Nat) : List α :=
  (List.range (1 <<< n)).map fun j =>
    let up : Bool := (j &&& 1) != 0
    let prev := get2 tree (n - 1) (j >>> 1)
    prev * (1 + (if up then o.u_ else o.d_))

/-- The non-recombining price tree written by `Asian::buildStockTreeNR` and by
step 0 of `American::hedgingStrategy` (the same loop). -/
def buildStockTreeNR (o : Option α) : List (List α) :=
  let N := o.N_.toNat
  let tree : List (List α) := List.replicate (N + 1) []
  let tree := tree.set 0 [o.S0_]
  loopUp (levelNR o) N 1 tree

/-! ## American -/

/-- Class `American<TPayoff>`. -/
structure American (α : Type) extends Option α where
  payoff_ : α → α
  stockTree_ : List (List α)

/-- Method `American::buildStockTree`. -/
def American.buildStockTree (a : American α) : American α :=
  { a with stockTree_ := crr.buildStockTree a.toOption }

/-- Constructor `American::American(S0, R, sigma, T, N, payoff)`. -/
def American.new (sqrt : α → α) (S0 R sigma T : α) (N : Int) (payoff : α → α) :
    Except Exception (American α) :=
  match Option.new sqrt S0 R sigma T N with
  | .error err => .error err
  | .ok o => .ok (American.buildStockTree { toOption := o, payoff_ := payoff, stockTree_ := [] })

/-- One pass of the inner loop of `American::treePrice`: level `n` from the
level `n + 1` already stored in `V`. -/
def American.level (a : American α) (V : List (List α)) (n : Nat) : List α :=
  (List.range (n + 1)).map fun i =>
    let cont := a.discount_ * (1 / 2) * (get2 V (n + 1) (i + 1) + get2 V (n + 1) i)
    let exer := a.payoff_ (get2 a.stockTree_ n i)
    max exer cont

/-- Method `American::treePrice`. -/
def American.treePrice (a : American α) : List (List α) :=
  let N := a.N_.toNat
  let V : List (List α) := List.replicate (N + 1) []
  let V := V.set N ((List.range (N + 1)).map fun i => a.payoff_ (get2 a.stockTree_ N i))
  loopDown (American.level a) N V

/-- Method `Option::price`, for an American option. -/
def American.price (a : American α) : α :=
  get2 a.treePrice 0 0

/-- Inner loop of step 1 of `American::hedgingStrategy`: level `n` of `VNR`. -/
def American.levelVNR (a : American α) (tree VNR : List (List α)) (n : Nat) : List α :=
  (List.range (1 <<< n)).map fun j =>
    let cont := a.discount_ * (1 / 2) * (get2 VNR (n + 1) (2 * j) + get2 VNR (n + 1) (2 * j + 1))
    max (a.payoff_ (get2 tree n j)) cont

/-- Step 1 of `American::hedgingStrategy`: the local `VNR`. -/
def American.VNR (a : American α) : List (List α) :=
  let N := a.N_.toNat
  let tree := buildStockTreeNR a.toOption
  let VNR : List (List α) := List.replicate (N + 1) []
  let VNR := VNR.set N ((List.range (1 <<< N)).map fun j => a.payoff_ (get2 tree N j))
  loopDown (American.levelVNR a tree) N VNR

/-- Step 2 of `American::hedgingStrategy`: the local `incr`. -/
def American.incr (a : American α) : List (List α) :=
  let VNR := a.VNR
  (List.range a.N_.toNat).map fun n =>
    (List.range (1 <<< n)).map fun j =>
      let cont := a.discount_ * (1 / 2) * (get2 VNR (n + 1) (2 * j) + get2 VNR (n + 1) (2 * j + 1))
      get2 VNR n j - cont

/-- Inner loop of step 3 of `American::hedgingStrategy`: level `n` of `A`. -/
def American.levelA (a : American α) (incr A : List (List α)) (n : Nat) : List α :=
  (List.range (1 <<< n)).map fun j =>
    let prevA := get2 A (n - 1) (j >>> 1)
    let inc := get2 incr (n - 1) (j >>> 1)
    (prevA + inc) / a.discount_

/-- The forward loop of step 3 of `American::hedgingStrategy` on the pair of
locals `(A, M)`, entered at level `n` with `k` levels still to fill. -/
def American.forwardAM (a : American α) (VNR incr : List (List α)) :
    Nat → Nat → List (List α) × List (List α) → List (List α) × List (List α)
  | 0, _, AM => AM
  | k + 1, n, (A, M) =>
    let A := A.set n (American.levelA a incr A n)
    let M := M.set n ((List.range (1 <<< n)).map fun j => get2 VNR n j + get2 A n j)
    American.forwardAM a VNR incr k (n + 1) (A, M)

/-- Step 3 of `American::hedgingStrategy`: the pair of locals `(A, M)`. -/
def American.AM (a : American α) : List (List α) × List (List α) :=
  let N := a.N_.toNat
  let VNR := a.VNR
  let A : List (List α) := List.replicate (N + 1) []
  let M : List (List α) := List.replicate (N + 1) []
  let A := A.set 0 [0]
  let M := M.set 0 [get2 VNR 0 0]
  American.forwardAM a VNR a.incr N 1 (A, M)

/-- Step 3 of `American::hedgingStrategy`: the local `A`, the cumulative
compensator. -/
def American.A (a : American α) : List (List α) :=
  a.AM.1

/-- Step 3 of `American::hedgingStrategy`: the local `M`, the martingale. -/
def American.M (a : American α) : List (List α) :=
  a.AM.2

/-- Method `American::hedgingStrategy` (step 4, on the locals of steps 0 to 3).
The quotient `dlt` is the quotient of the field: at a node with `Su = Sd`,
where double arithmetic returns NaN or an infinity, it carries no information. -/
def American.hedgingStrategy (a : American α) : HedgingStrategy α :=
  let tree := buildStockTreeNR a.toOption
  let M := a.M
  let dlt := fun n j =>
    (get2 M (n + 1) (2 * j + 1) - get2 M (n + 1) (2 * j)) /
      (get2 tree (n + 1) (2 * j + 1) - get2 tree (n + 1) (2 * j))
  { delta := (List.range a.N_.toNat).map fun n => (List.range (1 <<< n)).map fun j => dlt n j
    bond := (List.range a.N_.toNat).map fun n => (List.range (1 <<< n)).map fun j =>
      get2 M n j - dlt n j * get2 tree n j }

/-! ## Asian -/

/-- Class `Asian<TPayoff, TAggregator>`. -/
structure Asian (α : Type) extends Option α where
  payoff_ : α → α
  aggregator_ : α → α → Nat → α
  stockTreeNR_ : List (List α)

/-- Method `Asian::buildStockTreeNR`. -/
def Asian.buildStockTreeNR (s : Asian α) : Asian α :=
  { s with stockTreeNR_ := crr.buildStockTreeNR s.toOption }

/-- Constructor `Asian::Asian(S0, R, sigma, T, N, payoff, aggregator)`. -/
def Asian.new (sqrt : α → α) (S0 R sigma T : α) (N : Int) (payoff : α → α)
    (aggregator : α → α → Nat → α) : Except Exception (Asian α) :=
  match Option.new sqrt S0 R sigma T N with
  | .error err => .error err
  | .ok o => .ok (Asian.buildStockTreeNR
      { toOption := o, payoff_ := payoff, aggregator_ := aggregator, stockTreeNR_ := [] })

/-- Method `Asian::terminalValues`. -/
def Asian.terminalValues (s : Asian α) : List α :=
  let N := s.N_.toNat
  (List.range (1 <<< N)).map fun j =>
    let agg := (List.range' 1 N).foldl
      (fun agg n => s.aggregator_ agg (get2 s.stockTreeNR_ n (j >>> (N - n))) n) s.S0_
    s.payoff_ agg

/-- The running aggregate along the path to leaf `j` in the words of the
specification: `a_0 = S0` and `a_n = aggregator(a_(n-1), s_n, n)`, where
`s_n = stockTreeNR[n][j >> (N - n)]` is the price of the ancestor of leaf `j` at
level `n`. -/
def Asian.pathAggregate (s : Asian α) (j : Nat) : Nat → α
  | 0 => s.S0_
  | n + 1 =>
    s.aggregator_ (Asian.pathAggregate s j n)
      (get2 s.stockTreeNR_ (n + 1) (j >>> (s.N_.toNat - (n + 1)))) (n + 1)

/-- One pass of the inner loop of `Asian::treePrice`: level `n` from the level
`n + 1` already stored in `V`. -/
def Asian.level (s : Asian α) (V : List (List α)) (n : Nat) : List α :=
  (List.range (1 <<< n)).map fun j =>
    s.discount_ * (1 / 2) * (get2 V (n + 1) (2 * j + 1) + get2 V (n + 1) (2 * j))

/-- Method `Asian::treePrice`. -/
def Asian.treePrice (s : Asian α) : List (List α) :=
  let terminal := s.terminalValues
  let N := s.N_.toNat
  let V : List (List α) := List.replicate (N + 1) []
  let V := V.set N ((List.range (1 <<< N)).map fun j => get1 terminal j)
  loopDown (Asian.level s) N V

/-- Method `Option::price`, for a path-dependent option. -/
def Asian.price (s : Asian α) : α :=
  get2 s.treePrice 0 0

/-- Method `Asian::hedgingStrategy`.  The quotient `dlt` is the quotient of the
field: at a node with `Su = Sd`, where double arithmetic returns NaN or an
infinity, it carries no information. -/
def Asian.hedgingStrategy (s : Asian α) : HedgingStrategy α :=
  let V := s.treePrice
  let dlt := fun n j =>
    (get2 V (n + 1) (2 * j + 1) - get2 V (n + 1) (2 * j)) /
      (get2 s.stockTreeNR_ (n + 1) (2 * j + 1) - get2 s.stockTreeNR_ (n + 1) (2 * j))
  { delta := (List.range s.N_.toNat).map fun n => (List.range (1 <<< n)).map fun j => dlt n j
    bond := (List.range s.N_.toNat).map fun n => (List.range (1 <<< n)).map fun j =>
      get2 V n j - dlt n j * get2 s.stockTreeNR_ n j }

/-! ## Richardson extrapolation of the American price -/

/-- The first loop of `American::priceRR`: `A[i][0]` is the price of a new
`American` with `Ns[i]` steps, entered at row `i` with `k` rows still to fill. -/
def American.priceRR_fill (sqrt : α → α) (a : American α) (Ns : List Int) :
    Nat → Nat → List (List α) → Except Exception (List (List α))
  | 0, _, A => .ok A
  | k + 1, i, A =>
    match American.new sqrt a.S0_ a.R_ a.sigma_ a.T_ (Ns.getD i 0) a.payoff_ with
    | .error err => .error err
    | .ok opt => American.priceRR_fill sqrt a Ns k (i + 1) (set2 A i 0 opt.price)

/-- Method `American::priceRR`. -/
def American.priceRR (sqrt : α → α) (a : American α) : Except Exception α :=
  let Ns : List Int := [100, 200, 400]
  let n := Ns.length
  let m := 2
  let A : List (List α) := List.replicate n (List.replicate (m + 1) 0)
  match American.priceRR_fill sqrt a Ns n 0 A with
  | .error err => .error err
  | .ok A =>
    let A := forUp (fun k A =>
      forUp (fun i A =>
        let ratio : α := ((Ns.getD (i + k) 0 / Ns.getD i 0 : Int) : α)
        set2 A i k (get2 A (i + 1) (k - 1) +
          (get2 A (i + 1) (k - 1) - get2 A i (k - 1)) / (ratio - 1))) (n - k) 0 A) m 1 A
    .ok (get2 A 0 m)

/-- The triangular extrapolation table in the words of the specification:
`T[i][0] = P i` and `T[i][k] = T[i+1][k-1] + (T[i+1][k-1] - T[i][k-1]) / (rho - 1)`
where, in every column, `rho` is the ratio of the step counts of the adjacent
rows `i` and `i + 1`, `rho = Ns[i+1] / Ns[i]`. -/
def tableAdjacentRatio (Ns : List Int) (P : Nat → α) : Nat → Nat → α
  | i, 0 => P i
  | i, k + 1 =>
    tableAdjacentRatio Ns P (i + 1) k +
      (tableAdjacentRatio Ns P (i + 1) k - tableAdjacentRatio Ns P i k) /
        ((Ns.getD (i + 1) 0 : α) / (Ns.getD i 0 : α) - 1)

/-- The triangular extrapolation table with, in column `k`, the ratio of the
step counts of the rows `i` and `i + k`: `T[i][0] = P i` and
`T[i][k] = T[i+1][k-1] + (T[i+1][k-1] - T[i][k-1]) / (rho - 1)` with
`rho = Ns[i+k] / Ns[i]`. -/
def tableSpanRatio (Ns : List Int) (P : Nat → α) : Nat → Nat → α
  | i, 0 => P i
  | i, k + 1 =>
    tableSpanRatio Ns P (i + 1) k +
      (tableSpanRatio Ns P (i + 1) k - tableSpanRatio Ns P i k) /
        ((Ns.getD (i + k + 1) 0 : α) / (Ns.getD i 0 : α) - 1)

/-! ## The Black-Scholes closed form

The reference value that the specification compares the lattice price with.  It
is not code of the library: it is the textbook formula, over the reals. -/

/-- The standard normal distribution function, `Phi(x)`, the integral of the
standard normal density over `(-inf, x]`. -/
noncomputable def stdNormalCdf (x : ℝ) : ℝ :=
  ∫ t in Set.Iic x, ProbabilityTheory.gaussianPDFReal 0 1 t

/-- The Black-Scholes closed-form price of a European call,
`S0 * Phi(d1) - K * exp(-r*T) * Phi(d2)` with
`d1 = (log(S0/K) + (r + sigma^2/2)*T) / (sigma*sqrt(T))` and
`d2 = d1 - sigma*sqrt(T)`. -/
noncomputable def blackScholesCall (S0 K r sigma T : ℝ) : ℝ :=
  S0 * stdNormalCdf ((Real.log (S0 / K) + (r + sigma ^ 2 / 2) * T) / (sigma * Real.sqrt T)) -
    K * Real.exp (-r * T) *
      stdNormalCdf ((Real.log (S0 / K) + (r + sigma ^ 2 / 2) * T) / (sigma * Real.sqrt T) -
        sigma * Real.sqrt T)

end crr

namespace pde

variable {α : Type} [LinearOrderedField α]

/-! ## The parabolic PDE -/

/-- Class `ParabPDE`: the domain, and the pure virtual methods as fields. -/
structure ParabPDE (α : Type) where
  T_ : α
  Smin_ : α
  Smax_ : α
  a : α → α → α
  b : α → α → α
  c : α → α → α
  d : α → α → α
  Terminal : α → α
  Lower : α → α
  Upper : α → α

/-- Constructor `ParabPDE::ParabPDE(T, Smin, Smax)`, run by the constructor of a
derived class whose overrides of the virtual methods are `a`, ..., `Upper`. -/
def ParabPDE.new (T Smin Smax : α) (a b c d : α → α → α) (Terminal Lower Upper : α → α) :
    Except Exception (ParabPDE α) :=
  if T ≤ 0 ∨ Smin ≥ Smax ∨ Smin < 0 then .error (.invalid_argument "Domaine EDP invalide")
  else .ok { T_ := T, Smin_ := Smin, Smax_ := Smax, a := a, b := b, c := c, d := d,
             Terminal := Terminal, Lower := Lower, Upper := Upper }

/-- Accessor `ParabPDE::T`. -/
def ParabPDE.T (p : ParabPDE α) : α := p.T_

/-- Accessor `ParabPDE::Smin`. -/
def ParabPDE.Smin (p : ParabPDE α) : α := p.Smin_

/-- Accessor `ParabPDE::Smax`. -/
def ParabPDE.Smax (p : ParabPDE α) : α := p.Smax_

/-- Method `Diffusion::a`, a function of the member `vol_`. -/
def Diffusion.a (vol : α → α → α) (t S : α) : α :=
  -(1 / 2) * (vol t S * S) ^ 2

/-- Method `Diffusion::b`, a function of the member `R_`. -/
def Diffusion.b (R : α) (_t S : α) : α :=
  -R * S

/-- Method `Diffusion::c`, a function of the member `R_`. -/
def Diffusion.c (R : α) (_t _S : α) : α :=
  R

/-- Method `Diffusion::d`. -/
def Diffusion.d (_t _S : α) : α :=
  0

/-- Method `Diffusion::Terminal`, a function of the member `payoff_`. -/
def Diffusion.Terminal (payoff : α → α) (S : α) : α :=
  payoff S

/-- Method `Diffusion::Lower`, a function of the members `payoff_`, `R_`, `T_`
and `Smin_`; `exp` is `std::exp`. -/
def Diffusion.Lower (exp : α → α) (payoff : α → α) (R T Smin : α) (t : α) : α :=
  payoff Smin * exp (-R * (T - t))

/-- Method `Diffusion::Upper`, a function of the members `payoff_`, `R_`, `T_`
and `Smax_`; `exp` is `std::exp`. -/
def Diffusion.Upper (exp : α → α) (payoff : α → α) (R T Smax : α) (t : α) : α :=
  payoff Smax * exp (-R * (T - t))

/-- Constructor `Diffusion::Diffusion(T, Smin, Smax, R, payoff, vol)`. -/
def Diffusion.new (exp : α → α) (T Smin Smax R : α) (payoff : α → α) (vol : α → α → α) :
    Except Exception (ParabPDE α) :=
  ParabPDE.new T Smin Smax (Diffusion.a vol) (Diffusion.b R) (Diffusion.c R) Diffusion.d
    (Diffusion.Terminal payoff) (Diffusion.Lower exp payoff R T Smin)
    (Diffusion.Upper exp payoff R T Smax)

/-! ## The finite-difference grid -/

/-- Class `FDMethod<TPDE>`. -/
structure FDMethod (α : Type) where
  pde_ : ParabPDE α
  imax_ : Int
  jmax_ : Int
  dt_ : α
  dS_ : α
  V : List (List α)

/-- Constructor `FDMethod::FDMethod(pde, imax, jmax)`. -/
def FDMethod.new (pde : ParabPDE α) (imax jmax : Int) : Except Exception (FDMethod α) :=
  if imax ≤ 0 then .error (.invalid_argument "Nt doit être >= 1")
  else if jmax ≤ 1 then .error (.invalid_argument "NS doit être >= 2")
  else .ok { pde_ := pde, imax_ := imax, jmax_ := jmax,
             dS_ := (pde.Smax - pde.Smin) / (jmax : α),
             dt_ := pde.T / (imax : α),
             V := List.replicate (imax.toNat + 1) (List.replicate (jmax.toNat + 1) 0) }

/-- Method `FDMethod::t`. -/
def FDMethod.t (m : FDMethod α) (i : α) : α := m.dt_ * i

/-- Method `FDMethod::S`. -/
def FDMethod.S (m : FDMethod α) (j : Int) : α := m.pde_.Smin + m.dS_ * (j : α)

/-- Method `FDMethod::a`. -/
def FDMethod.a (m : FDMethod α) (i : α) (j : Int) : α := m.pde_.a (m.t i) (m.S j)

/-- Method `FDMethod::b`. -/
def FDMethod.b (m : FDMethod α) (i : α) (j : Int) : α := m.pde_.b (m.t i) (m.S j)

/-- Method `FDMethod::c`. -/
def FDMethod.c (m : FDMethod α) (i : α) (j : Int) : α := m.pde_.c (m.t i) (m.S j)

/-- Method `FDMethod::d`. -/
def FDMethod.d (m : FDMethod α) (i : α) (j : Int) : α := m.pde_.d (m.t i) (m.S j)

/-- Method `FDMethod::f`. -/
def FDMethod.f (m : FDMethod α) (j : Int) : α := m.pde_.Terminal (m.S j)

/-- Method `FDMethod::fu`. -/
def FDMethod.fu (m : FDMethod α) (i : Int) : α := m.pde_.Upper (m.t (i : α))

/-- Method `FDMethod::fl`. -/
def FDMethod.fl (m : FDMethod α) (i : Int) : α := m.pde_.Lower (m.t (i : α))

/-- Method `FDMethod::v`.  The indices `i`, `j` are the truncations of the exact
quotients; the rounding of `t / dt_` in double arithmetic is not modelled. -/
def FDMethod.v [FloorRing α] (m : FDMethod α) (t S : α) : Except Exception α :=
  if t < 0 ∨ t > m.pde_.T then .error (.out_of_range "t hors du domaine")
  else if S < m.pde_.Smin ∨ S > m.pde_.Smax then
    .error (.invalid_argument "S hors du domaine")
  else if S = m.pde_.Smax then .ok (m.pde_.Upper t)
  else if t = m.pde_.T then .ok (m.pde_.Terminal S)
  else
    let i : Int := toInt (t / m.dt_)
    let j : Int := toInt ((S - m.pde_.Smin) / m.dS_)
    let l1 := (t - m.t (i : α)) / m.dt_
    let l0 := 1 - l1
    let w1 := (S - m.S j) / m.dS_
    let w0 := 1 - w1
    .ok (l1 * w1 * get2 m.V (i + 1).toNat (j + 1).toNat + l1 * w0 * get2 m.V (i + 1).toNat j.toNat
      + l0 * w1 * get2 m.V i.toNat (j + 1).toNat + l0 * w0 * get2 m.V i.toNat j.toNat)

/-- Method `FDMethod::delta`. -/
def FDMethod.delta [FloorRing α] (m : FDMethod α) (t S : α) : Except Exception α :=
  if t < 0 ∨ t > m.pde_.T then .error (.out_of_range "t hors du domaine")
  else if S < m.pde_.Smin ∨ S > m.pde_.Smax then
    .error (.invalid_argument "S hors du domaine")
  else
    let i : Int := toInt (t / m.dt_)
    let j : Int := toInt ((S - m.pde_.Smin) / m.dS_)
    let dlt :=
      if j = 0 then (get2 m.V i.toNat 1 - get2 m.V i.toNat 0) / m.dS_
      else if j = m.jmax_ then
        (get2 m.V i.toNat m.jmax_.toNat - get2 m.V i.toNat (m.jmax_ - 1).toNat) / m.dS_
      else (get2 m.V i.toNat (j + 1).toNat - get2 m.V i.toNat (j - 1).toNat) / (2 * m.dS_)
    .ok (min 1 (max (-1) dlt))

/-- Struct `FDMethod::Grid`. -/
structure Grid (α : Type) where
  val : List (List α)
  del : List (List α)

/-- Method `FDMethod::grid`.  The sample points are the exact quotients; their
rounding in double arithmetic is not modelled. -/
def FDMethod.grid [FloorRing α] (m : FDMethod α) : Except Exception (Grid α) :=
  let N : Nat := 10
  let tvals : List α := List.replicate (N + 1) 0
  let Svals : List α := List.replicate (N + 1) 0
  let tvals := forUp (fun i tvals => tvals.set i (m.pde_.T * (i : α) / (N : α))) (N + 1) 0 tvals
  let Svals := forUp (fun j Svals =>
    Svals.set j (m.pde_.Smin + (m.pde_.Smax - m.pde_.Smin) * (j : α) / (N : α))) (N + 1) 0 Svals
  let M : Grid α :=
    { val := List.replicate (N + 1) (List.replicate (N + 1) 0)
      del := List.replicate (N + 1) (List.replicate (N + 1) 0) }
  forUpE (fun i M =>
    forUpE (fun j M =>
      match m.v (get1 tvals i) (get1 Svals j) with
      | .error err => .error err
      | .ok x =>
        match m.delta (get1 tvals i) (get1 Svals j) with
        | .error err => .error err
        | .ok y => .ok { val := set2 M.val i j x, del := set2 M.del i j y })
      (N + 1) 0 M) (N + 1) 0 M

/-! ## The implicit scheme -/

/-- Class `ImplicitScheme<TPDE>`: the grid, and the pure virtual coefficient
methods `A(i, j)`, ..., `G(i, j)` as fields (they do not read `V`). -/
structure ImplicitScheme (α : Type) extends FDMethod α where
  A : Int → Int → α
  B : Int → Int → α
  C : Int → Int → α
  D : Int → Int → α
  E : Int → Int → α
  F : Int → Int → α
  G : Int → Int → α

/-- Constructor `ImplicitScheme::ImplicitScheme(pde, imax, jmax)`, run by the
constructor of a derived class whose overrides of the coefficient methods are
`A`, ..., `G`, functions of the `FDMethod` members. -/
def ImplicitScheme.new (pde : ParabPDE α) (imax jmax : Int)
    (A B C D E F G : FDMethod α → Int → Int → α) : Except Exception (ImplicitScheme α) :=
  match FDMethod.new pde imax jmax with
  | .error err => .error err
  | .ok m => .ok { toFDMethod := m, A := A m, B := B m, C := C m, D := D m,
                   E := E m, F := F m, G := G m }

/-- Method `ImplicitScheme::w`. -/
def ImplicitScheme.w (s : ImplicitScheme α) (i : Int) : List α :=
  let jmax := s.jmax_.toNat
  let w : List α := List.replicate (jmax + 1) 0
  let w := w.set 1 (s.D i 1 + s.A i 1 * s.fl i - s.E i 1 * s.fl (i - 1))
  let w := forUp (fun j w => w.set j (s.D i j)) (jmax - 1 - 2) 2 w
  let w := w.set (jmax - 1) (s.D i (s.jmax_ - 1) + s.C i (s.jmax_ - 1) * s.fu i
    - s.G i (s.jmax_ - 1) * s.fu (i - 1))
  w

/-- Method `ImplicitScheme::A`, the overload `A(int i, std::vector<double> q)`. -/
def ImplicitScheme.Aq (s : ImplicitScheme α) (i : Int) (q : List α) : List α :=
  let jmax := s.jmax_.toNat
  let p : List α := List.replicate (jmax + 1) 0
  let p := p.set 1 (s.B i 1 * get1 q 1 + s.C i 1 * get1 q 2)
  let p := forUp (fun j p =>
    p.set j (s.A i j * get1 q (j - 1) + s.B i j * get1 q j + s.C i j * get1 q (j + 1)))
    (jmax - 1 - 2) 2 p
  let p := p.set (jmax - 1) (s.A i (s.jmax_ - 1) * get1 q (jmax - 2)
    + s.B i (s.jmax_ - 1) * get1 q (jmax - 1))
  p

/-- Method `ImplicitScheme::LUDecomposition`. -/
def ImplicitScheme.LUDecomposition (s : ImplicitScheme α) (i : Int) (q : List α) : List α :=
  let jmax := s.jmax_.toNat
  let p : List α := List.replicate (jmax + 1) 0
  let r : List α := List.replicate (jmax + 1) 0
  let y : List α := List.replicate (jmax + 1) 0
  let r := r.set 1 (s.F i 1)
  let y := y.set 1 (get1 q 1)
  let ry := forUp (fun j (ry : List α × List α) =>
    let r := ry.1.set j (s.F i j - s.E i j * s.G i (j - 1) / get1 ry.1 (j - 1))
    let y := ry.2.set j (get1 q j - s.E i j * get1 ry.2 (j - 1) / get1 ry.1 (j - 1))
    (r, y)) (jmax - 2) 2 (r, y)
  let p := p.set (jmax - 1) (get1 ry.2 (jmax - 1) / get1 ry.1 (jmax - 1))
  forDown (fun j p => p.set j ((get1 ry.2 j - s.G i j * get1 p (j + 1)) / get1 ry.1 j))
    (jmax - 2) p

/-- The vectors `r` and `y` of `ImplicitScheme::LUDecomposition` when its forward
elimination loop has run, before the back-substitution: the first part of the
body of the method, named so that the pivots `r[j]` can be spoken of. -/
def ImplicitScheme.forwardElimination (s : ImplicitScheme α) (i : Int) (q : List α) :
    List α × List α :=
  let jmax := s.jmax_.toNat
  let r : List α := List.replicate (jmax + 1) 0
  let y : List α := List.replicate (jmax + 1) 0
  let r := r.set 1 (s.F i 1)
  let y := y.set 1 (get1 q 1)
  forUp (fun j (ry : List α × List α) =>
    let r := ry.1.set j (s.F i j - s.E i j * s.G i (j - 1) / get1 ry.1 (j - 1))
    let y := ry.2.set j (get1 q j - s.E i j * get1 ry.2 (j - 1) / get1 ry.1 (j - 1))
    (r, y)) (jmax - 2) 2 (r, y)

/-- The pivots of the Thomas algorithm in the words of the specification:
`r[1] = F(i,1)` and `r[j] = F(i,j) - E(i,j)*G(i,j-1)/r[j-1]` for `j >= 2`
(`r[0]`, which no step reads, is the `0` of the freshly sized vector). -/
def ImplicitScheme.pivot (s : ImplicitScheme α) (i : Int) : Nat → α
  | 0 => 0
  | 1 => s.F i 1
  | j + 2 =>
    s.F i ((j + 2 : Nat) : Int) -
      s.E i ((j + 2 : Nat) : Int) * s.G i (((j + 2 : Nat) : Int) - 1) /
        ImplicitScheme.pivot s i (j + 1)

/-- Method `ImplicitScheme::SolvePDE`. -/
def ImplicitScheme.SolvePDE (s : ImplicitScheme α) : ImplicitScheme α :=
  let imax := s.imax_.toNat
  let jmax := s.jmax_.toNat
  let V := forUp (fun j V => set2 V imax j (s.f j)) (jmax + 1) 0 s.V
  let V := forDown (fun i V =>
    let pvec := s.Aq i (V.getD i [])
    let wvec := s.w i
    let pvec := forUp (fun j pvec => pvec.set j (get1 pvec j + get1 wvec j)) (jmax + 1) 0 pvec
    let V := V.set (i - 1) (s.LUDecomposition i pvec)
    let V := set2 V (i - 1) 0 (s.fl ((i : Int) - 1))
    let V := set2 V (i - 1) jmax (s.fu ((i : Int) - 1))
    V) imax V
  { s with V := V }

/-- The row `V[i - 1]` left by pass `i` of the time loop of `SolvePDE`, as a
function of the row `V[i]` that the pass reads. -/
def ImplicitScheme.newRow (s : ImplicitScheme α) (i : Nat) (row : List α) : List α :=
  let jmax := s.jmax_.toNat
  let pvec := s.Aq i row
  let wvec := s.w i
  let pvec := forUp (fun j pvec => pvec.set j (get1 pvec j + get1 wvec j)) (jmax + 1) 0 pvec
  ((s.LUDecomposition i pvec).set 0 (s.fl ((i : Int) - 1))).set jmax (s.fu ((i : Int) - 1))

/-! ## Crank-Nicolson -/

/-- Method `CNMethod::A`. -/
def CNMethod.A (m : FDMethod α) (i j : Int) : α :=
  1 / 2 * m.dt_ * (m.b ((i : α) - 1 / 2) j / 2 - m.a ((i : α) - 1 / 2) j / m.dS_) / m.dS_

/-- Method `CNMethod::B`. -/
def CNMethod.B (m : FDMethod α) (i j : Int) : α :=
  1 + 1 / 2 * m.dt_ * (2 * m.a ((i : α) - 1 / 2) j / (m.dS_ * m.dS_) - m.c ((i : α) - 1 / 2) j)

/-- Method `CNMethod::C`. -/
def CNMethod.C (m : FDMethod α) (i j : Int) : α :=
  -(1 / 2) * m.dt_ * (m.b ((i : α) - 1 / 2) j / 2 + m.a ((i : α) - 1 / 2) j / m.dS_) / m.dS_

/-- Method `CNMethod::D`. -/
def CNMethod.D (m : FDMethod α) (i j : Int) : α :=
  -m.dt_ * m.d ((i : α) - 1 / 2) j

/-- Method `CNMethod::E`. -/
def CNMethod.E (m : FDMethod α) (i j : Int) : α :=
  -CNMethod.A m i j

/-- Method `CNMethod::F`. -/
def CNMethod.F (m : FDMethod α) (i j : Int) : α :=
  2 - CNMethod.B m i j

/-- Method `CNMethod::G`. -/
def CNMethod.G (m : FDMethod α) (i j : Int) : α :=
  -CNMethod.C m i j

/-- Constructor `CNMethod::CNMethod(pde, imax, jmax)`. -/
def CNMethod.new (pde : ParabPDE α) (imax jmax : Int) : Except Exception (ImplicitScheme α) :=
  ImplicitScheme.new pde imax jmax CNMethod.A CNMethod.B CNMethod.C CNMethod.D CNMethod.E
    CNMethod.F CNMethod.G

end pde

/-! ## Reading vectors -/

section vectors

variable {α : Type} [Zero α]

theorem get1_map_range (f : Nat → α) {m i : Nat} (h : i < m) :
    get1 ((List.range m).map f) i = f i := by
  simp [get1, List.getD_eq_getElem?_getD, List.getElem?_range h]

theorem getD_map_range {β : Type} (f : Nat → β) (d : β) {m i : Nat} (h : i < m) :
    ((List.range m).map f).getD i d = f i := by
  simp [List.getD_eq_getElem?_getD, List.getElem?_range h]

theorem getD_set_self {β : Type} (V : List β) (d x : β) {n : Nat} (h : n < V.length) :
    (V.set n x).getD n d = x := by
  simp [List.getD_eq_getElem?_getD, List.getElem?_set, h]

theorem getD_set_other {β : Type} (V : List β) (d x : β) {n m : Nat} (h : n ≠ m) :
    (V.set n x).getD m d = V.getD m d := by
  simp [List.getD_eq_getElem?_getD, List.getElem?_set, h]

theorem get2_map_range (f : Nat → Nat → α) (len : Nat → Nat) {m n i : Nat} (hn : n < m)
    (hi : i < len n) :
    get2 ((List.range m).map fun n => (List.range (len n)).map fun i => f n i) n i = f n i := by
  unfold get2
  rw [getD_map_range _ _ hn, get1_map_range _ hi]

end vectors

/-! ## The level loops -/

section loops

variable {α : Type}

theorem length_loopDown (row : List (List α) → Nat → List α) (k : Nat) (V : List (List α)) :
    (loopDown row k V).length = V.length := by
  induction k generalizing V with
  | zero => rfl
  | succ n ih => rw [loopDown, ih, List.length_set]

theorem loopDown_getD_ge (row : List (List α) → Nat → List α) (k : Nat) (V : List (List α))
    {m : Nat} (h : k ≤ m) : (loopDown row k V).getD m [] = V.getD m [] := by
  induction k generalizing V with
  | zero => rfl
  | succ n ih =>
    rw [loopDown, ih _ (Nat.le_of_succ_le h), getD_set_other _ _ _ (by omega)]

theorem loopDown_getD_lt (row : List (List α) → Nat → List α)
    (hrow : ∀ V W n, V.getD (n + 1) [] = W.getD (n + 1) [] → row V n = row W n)
    (k : Nat) (V : List (List α)) (hk : k ≤ V.length) {m : Nat} (h : m < k) :
    (loopDown row k V).getD m [] = row (loopDown row k V) m := by
  induction k generalizing V with
  | zero => omega
  | succ n ih =>
    rw [loopDown]
    rcases Nat.lt_succ_iff_lt_or_eq.mp h with hlt | rfl
    · exact ih _ (by rw [List.length_set]; omega) hlt
    · rw [loopDown_getD_ge _ _ _ (le_refl m), getD_set_self _ _ _ (by omega)]
      apply hrow
      rw [loopDown_getD_ge _ _ _ (Nat.le_succ m), getD_set_other _ _ _ (by omega)]

theorem length_loopUp (row : List (List α) → Nat → List α) (k n : Nat) (V : List (List α)) :
    (loopUp row k n V).length = V.length := by
  induction k generalizing n V with
  | zero => rfl
  | succ k ih => rw [loopUp, ih, List.length_set]

theorem loopUp_getD_lt (row : List (List α) → Nat → List α) (k n : Nat) (V : List (List α))
    {m : Nat} (h : m < n) : (loopUp row k n V).getD m [] = V.getD m [] := by
  induction k generalizing n V with
  | zero => rfl
  | succ k ih =>
    rw [loopUp, ih _ _ (Nat.lt_succ_of_lt h), getD_set_other _ _ _ (by omega)]

theorem loopUp_getD_ge (row : List (List α) → Nat → List α)
    (hrow : ∀ V W n, V.getD (n - 1) [] = W.getD (n - 1) [] → row V n = row W n)
    (k n : Nat) (V : List (List α)) (hn : 0 < n) (hk : n + k ≤ V.length) {m : Nat}
    (h1 : n ≤ m) (h2 : m < n + k) :
    (loopUp row k n V).getD m [] = row (loopUp row k n V) m := by
  induction k generalizing n V with
  | zero => omega
  | succ k ih =>
    rw [loopUp]
    rcases Nat.eq_or_lt_of_le h1 with rfl | hlt
    · rw [loopUp_getD_lt _ _ _ _ (Nat.lt_succ_self n), getD_set_self _ _ _ (by omega)]
      apply hrow
      rw [loopUp_getD_lt _ _ _ _ (by omega), getD_set_other _ _ _ (by omega)]
    · exact ih _ _ (Nat.succ_pos n) (by rw [List.length_set]; omega) hlt (by omega)

end loops

/-! ## The constructors -/

namespace crr

variable {α : Type} [LinearOrderedField α]

theorem Option.new_of_valid_opt (sqrt : α → α) {S0 sigma T : α} (R : α) {N : Int}
    (hS : 0 ≤ S0) (hs : 0 ≤ sigma) (hT : 0 ≤ T) (hN : 0 < N) :
    Option.new sqrt S0 R sigma T N = .ok (Option.init sqrt S0 R sigma T N) := by
  simp [Option.new, not_lt.mpr hS, not_lt.mpr hs, not_lt.mpr hT, not_le.mpr hN]

theorem Option.new_eq_ok_opt {sqrt : α → α} {S0 R sigma T : α} {N : Int} {o : Option α}
    (h : Option.new sqrt S0 R sigma T N = .ok o) :
    (0 ≤ S0 ∧ 0 ≤ sigma ∧ 0 ≤ T ∧ 0 < N) ∧ o = Option.init sqrt S0 R sigma T N := by
  unfold Option.new at h
  split_ifs at h with h1 h2 h3 h4
  refine ⟨⟨not_lt.mp h1, not_lt.mp h2, not_lt.mp h3, not_le.mp h4⟩, ?_⟩
  simp only [Except.ok.injEq] at h
  exact h.symm

theorem European.new_eq_ok_eu {sqrt : α → α} {S0 R sigma T : α} {N : Int} {payoff : α → α}
    {e : European α} (h : European.new sqrt S0 R sigma T N payoff = .ok e) :
    (0 ≤ S0 ∧ 0 ≤ sigma ∧ 0 ≤ T ∧ 0 < N) ∧
      e.toOption = Option.init sqrt S0 R sigma T N ∧ e.payoff_ = payoff ∧
      e.stockTree_ = crr.buildStockTree e.toOption := by
  unfold European.new at h
  cases ho : Option.new sqrt S0 R sigma T N with
  | error err => rw [ho] at h; cases h
  | ok o =>
    rw [ho] at h
    obtain ⟨hv, rfl⟩ := Option.new_eq_ok_opt ho
    simp only [Except.ok.injEq] at h
    subst h
    exact ⟨hv, rfl, rfl, rfl⟩

theorem American.new_eq_ok_am {sqrt : α → α} {S0 R sigma T : α} {N : Int} {payoff : α → α}
    {a : American α} (h : American.new sqrt S0 R sigma T N payoff = .ok a) :
    (0 ≤ S0 ∧ 0 ≤ sigma ∧ 0 ≤ T ∧ 0 < N) ∧
      a.toOption = Option.init sqrt S0 R sigma T N ∧ a.payoff_ = payoff ∧
      a.stockTree_ = crr.buildStockTree a.toOption := by
  unfold American.new at h
  cases ho : Option.new sqrt S0 R sigma T N with
  | error err => rw [ho] at h; cases h
  | ok o =>
    rw [ho] at h
    obtain ⟨hv, rfl⟩ := Option.new_eq_ok_opt ho
    simp only [Except.ok.injEq] at h
    subst h
    exact ⟨hv, rfl, rfl, rfl⟩

theorem Asian.new_eq_ok_as {sqrt : α → α} {S0 R sigma T : α} {N : Int} {payoff : α → α}
    {aggregator : α → α → Nat → α}
    {s : Asian α} (h : Asian.new sqrt S0 R sigma T N payoff aggregator = .ok s) :
    (0 ≤ S0 ∧ 0 ≤ sigma ∧ 0 ≤ T ∧ 0 < N) ∧
      s.toOption = Option.init sqrt S0 R sigma T N ∧ s.payoff_ = payoff ∧
      s.aggregator_ = aggregator ∧
      s.stockTreeNR_ = crr.buildStockTreeNR s.toOption := by
  unfold Asian.new at h
  cases ho : Option.new sqrt S0 R sigma T N with
  | error err => rw [ho] at h; cases h
  | ok o =>
    rw [ho] at h
    obtain ⟨hv, rfl⟩ := Option.new_eq_ok_opt ho
    simp only [Except.ok.injEq] at h
    subst h
    exact ⟨hv, rfl, rfl, rfl, rfl⟩

/-! ## The recombining price tree -/

theorem length_buildStockTree (o : Option α) :
    (buildStockTree o).length = o.N_.toNat + 1 := by
  simp [buildStockTree]

theorem length_level_buildStockTree (o : Option α) {n : Nat} (hn : n ≤ o.N_.toNat) :
    ((buildStockTree o).getD n []).length = n + 1 := by
  unfold buildStockTree
  rw [getD_map_range _ _ (Nat.lt_succ_of_le hn)]
  simp

theorem get2_buildStockTree (o : Option α) {n i : Nat} (hi : i ≤ n) (hn : n ≤ o.N_.toNat) :
    get2 (buildStockTree o) n i = o.S0_ * (1 + o.u_) ^ i * (1 + o.d_) ^ (n - i) := by
  unfold buildStockTree
  exact get2_map_range (fun n i => o.S0_ * (1 + o.u_) ^ i * (1 + o.d_) ^ (n - i))
    (fun n => n + 1) (Nat.lt_succ_of_le hn) (Nat.lt_succ_of_le hi)

theorem get2_buildStockTree_up (o : Option α) {n i : Nat} (hi : i ≤ n) (hn : n < o.N_.toNat) :
    get2 (buildStockTree o) (n + 1) (i + 1) = get2 (buildStockTree o) n i * (1 + o.u_) := by
  rw [get2_buildStockTree o (Nat.succ_le_succ hi) hn, get2_buildStockTree o hi (le_of_lt hn),
    Nat.succ_sub_succ, pow_succ]
  ring

theorem get2_buildStockTree_down (o : Option α) {n i : Nat} (hi : i ≤ n)
    (hn : n < o.N_.toNat) :
    get2 (buildStockTree o) (n + 1) i = get2 (buildStockTree o) n i * (1 + o.d_) := by
  rw [get2_buildStockTree o (Nat.le_succ_of_le hi) hn, get2_buildStockTree o hi (le_of_lt hn),
    Nat.succ_sub hi, pow_succ]
  ring

end crr

/-! ## The value trees on the recombining lattice -/

namespace crr

variable {α : Type} [LinearOrderedField α]

theorem European.level_congr_eu (e : European α) (V W : List (List α)) (n : Nat)
    (h : V.getD (n + 1) [] = W.getD (n + 1) []) : European.level e V n = European.level e W n := by
  simp only [European.level, get2, h]

theorem European.length_treePrice_eu (e : European α) :
    e.treePrice.length = e.N_.toNat + 1 := by
  simp [European.treePrice, length_loopDown]

theorem European.treePrice_last_eu (e : European α) :
    e.treePrice.getD e.N_.toNat [] =
      (List.range (e.N_.toNat + 1)).map fun i => e.payoff_ (get2 e.stockTree_ e.N_.toNat i) := by
  simp only [European.treePrice]
  rw [loopDown_getD_ge _ _ _ (le_refl _), getD_set_self _ _ _ (by simp)]

theorem European.treePrice_level_eu (e : European α) {n : Nat} (hn : n < e.N_.toNat) :
    e.treePrice.getD n [] = European.level e e.treePrice n := by
  simp only [European.treePrice]
  exact loopDown_getD_lt _ (European.level_congr_eu e) _ _ (by simp) hn

theorem European.length_treePrice_level_eu (e : European α) {n : Nat} (hn : n ≤ e.N_.toNat) :
    (e.treePrice.getD n []).length = n + 1 := by
  rcases Nat.eq_or_lt_of_le hn with rfl | hlt
  · rw [European.treePrice_last_eu]; simp
  · rw [European.treePrice_level_eu e hlt]; simp [European.level]

theorem European.get2_treePrice_last_eu (e : European α) {i : Nat} (hi : i ≤ e.N_.toNat) :
    get2 e.treePrice e.N_.toNat i = e.payoff_ (get2 e.stockTree_ e.N_.toNat i) := by
  unfold get2
  rw [European.treePrice_last_eu, get1_map_range _ (Nat.lt_succ_of_le hi)]
  rfl

theorem European.get2_treePrice_step_eu (e : European α) {n i : Nat} (hi : i ≤ n)
    (hn : n < e.N_.toNat) :
    get2 e.treePrice n i =
      e.discount_ * (1 / 2) * (get2 e.treePrice (n + 1) (i + 1) + get2 e.treePrice (n + 1) i) := by
  conv_lhs => unfold get2
  rw [European.treePrice_level_eu e hn, European.level, get1_map_range _ (Nat.lt_succ_of_le hi)]

theorem American.level_congr_am (a : American α) (V W : List (List α)) (n : Nat)
    (h : V.getD (n + 1) [] = W.getD (n + 1) []) : American.level a V n = American.level a W n := by
  simp only [American.level, get2, h]

theorem American.length_treePrice_am (a : American α) :
    a.treePrice.length = a.N_.toNat + 1 := by
  simp [American.treePrice, length_loopDown]

theorem American.treePrice_last_am (a : American α) :
    a.treePrice.getD a.N_.toNat [] =
      (List.range (a.N_.toNat + 1)).map fun i => a.payoff_ (get2 a.stockTree_ a.N_.toNat i) := by
  simp only [American.treePrice]
  rw [loopDown_getD_ge _ _ _ (le_refl _), getD_set_self _ _ _ (by simp)]

theorem American.treePrice_level_am (a : American α) {n : Nat} (hn : n < a.N_.toNat) :
    a.treePrice.getD n [] = American.level a a.treePrice n := by
  simp only [American.treePrice]
  exact loopDown_getD_lt _ (American.level_congr_am a) _ _ (by simp) hn

theorem American.length_treePrice_level_am (a : American α) {n : Nat} (hn : n ≤ a.N_.toNat) :
    (a.treePrice.getD n []).length = n + 1 := by
  rcases Nat.eq_or_lt_of_le hn with rfl | hlt
  · rw [American.treePrice_last_am]; simp
  · rw [American.treePrice_level_am a hlt]; simp [American.level]

theorem American.get2_treePrice_last_am (a : American α) {i : Nat} (hi : i ≤ a.N_.toNat) :
    get2 a.treePrice a.N_.toNat i = a.payoff_ (get2 a.stockTree_ a.N_.toNat i) := by
  unfold get2
  rw [American.treePrice_last_am, get1_map_range _ (Nat.lt_succ_of_le hi)]
  rfl

theorem American.get2_treePrice_step_am (a : American α) {n i : Nat} (hi : i ≤ n)
    (hn : n < a.N_.toNat) :
    get2 a.treePrice n i =
      max (a.payoff_ (get2 a.stockTree_ n i))
        (a.discount_ * (1 / 2) *
          (get2 a.treePrice (n + 1) (i + 1) + get2 a.treePrice (n + 1) i)) := by
  conv_lhs => unfold get2
  rw [American.treePrice_level_am a hn, American.level, get1_map_range _ (Nat.lt_succ_of_le hi)]

end crr

/-! ## Accepted parameters -/

namespace crr

variable {α : Type} [LinearOrderedField α]

theorem European.new_of_valid_eu (sqrt : α → α) {S0 sigma T : α} (R : α) {N : Int}
    (payoff : α → α) (hS : 0 ≤ S0) (hs : 0 ≤ sigma) (hT : 0 ≤ T) (hN : 0 < N) :
    European.new sqrt S0 R sigma T N payoff =
      .ok (European.buildStockTree
        { toOption := Option.init sqrt S0 R sigma T N, payoff_ := payoff, stockTree_ := [] }) := by
  rw [European.new, Option.new_of_valid_opt sqrt R hS hs hT hN]

theorem American.new_of_valid_am (sqrt : α → α) {S0 sigma T : α} (R : α) {N : Int}
    (payoff : α → α) (hS : 0 ≤ S0) (hs : 0 ≤ sigma) (hT : 0 ≤ T) (hN : 0 < N) :
    American.new sqrt S0 R sigma T N payoff =
      .ok (American.buildStockTree
        { toOption := Option.init sqrt S0 R sigma T N, payoff_ := payoff, stockTree_ := [] }) := by
  rw [American.new, Option.new_of_valid_opt sqrt R hS hs hT hN]

theorem Asian.new_of_valid_as (sqrt : α → α) {S0 sigma T : α} (R : α) {N : Int}
    (payoff : α → α) (aggregator : α → α → Nat → α)
    (hS : 0 ≤ S0) (hs : 0 ≤ sigma) (hT : 0 ≤ T) (hN : 0 < N) :
    Asian.new sqrt S0 R sigma T N payoff aggregator =
      .ok (Asian.buildStockTreeNR
        { toOption := Option.init sqrt S0 R sigma T N, payoff_ := payoff,
          aggregator_ := aggregator, stockTreeNR_ := [] }) := by
  rw [Asian.new, Option.new_of_valid_opt sqrt R hS hs hT hN]

theorem Option.init_N (sqrt : α → α) (S0 R sigma T : α) (N : Int) :
    (Option.init sqrt S0 R sigma T N).N_ = N := rfl

theorem Option.init_S0 (sqrt : α → α) (S0 R sigma T : α) (N : Int) :
    (Option.init sqrt S0 R sigma T N).S0_ = S0 := rfl

theorem Option.init_u (sqrt : α → α) (S0 R sigma T : α) (N : Int) :
    (Option.init sqrt S0 R sigma T N).u_ = R * (T / (N : α)) + sigma * sqrt (T / (N : α)) := rfl

theorem Option.init_d (sqrt : α → α) (S0 R sigma T : α) (N : Int) :
    (Option.init sqrt S0 R sigma T N).d_ = R * (T / (N : α)) - sigma * sqrt (T / (N : α)) := rfl

theorem Option.init_discount (sqrt : α → α) (S0 R sigma T : α) (N : Int) :
    (Option.init sqrt S0 R sigma T N).discount_ = 1 / (1 + R * T / (N : α)) := by
  simp only [Option.init, mul_div_assoc]

/-- The one-step drift of the lattice: the mean of the two gross returns is
the gross riskless return. -/
theorem Option.init_drift (sqrt : α → α) (S0 R sigma T : α) (N : Int) :
    (1 + (Option.init sqrt S0 R sigma T N).u_) + (1 + (Option.init sqrt S0 R sigma T N).d_) =
      2 * (1 + R * T / (N : α)) := by
  simp only [Option.init, mul_div_assoc]
  ring

end crr

/-! ## One-step identities on the recombining lattice -/

namespace crr

variable {α : Type} [LinearOrderedField α]

/-- Induction from the last level of a tree down to its root. -/
theorem downward_induction (N : Nat) (P : Nat → Prop) (base : P N)
    (step : ∀ n, n < N → P (n + 1) → P n) : ∀ n, n ≤ N → P n := by
  have key : ∀ k n, n + k = N → P n := by
    intro k
    induction k with
    | zero => intro n hn; rw [Nat.add_zero] at hn; rw [hn]; exact base
    | succ k ih =>
      intro n hn
      exact step n (by omega) (ih (n + 1) (by omega))
  intro n hn
  exact key (N - n) n (by omega)

/-- The two successors of a node sum to the node's price times the sum of the
two gross returns. -/
theorem get2_buildStockTree_sum (o : Option α) {n i : Nat} (hi : i ≤ n)
    (hn : n < o.N_.toNat) :
    get2 (buildStockTree o) (n + 1) (i + 1) + get2 (buildStockTree o) (n + 1) i =
      get2 (buildStockTree o) n i * ((1 + o.u_) + (1 + o.d_)) := by
  rw [get2_buildStockTree_up o hi hn, get2_buildStockTree_down o hi hn]
  ring

/-- The discounted price is a martingale for the weights `1/2, 1/2`. -/
theorem get2_buildStockTree_martingale (sqrt : α → α) (S0 R sigma T : α) (N : Int)
    (hR : 1 + R * T / (N : α) ≠ 0) {n i : Nat} (hi : i ≤ n) (hn : n < N.toNat) :
    1 / (1 + R * T / (N : α)) * (1 / 2) *
        (get2 (buildStockTree (Option.init sqrt S0 R sigma T N)) (n + 1) (i + 1) +
          get2 (buildStockTree (Option.init sqrt S0 R sigma T N)) (n + 1) i) =
      get2 (buildStockTree (Option.init sqrt S0 R sigma T N)) n i := by
  rw [get2_buildStockTree_sum _ hi (by rw [Option.init_N]; exact hn), Option.init_drift]
  have hg : 1 / (1 + R * T / (N : α)) * (1 + R * T / (N : α)) = 1 := one_div_mul_cancel hR
  linear_combination get2 (buildStockTree (Option.init sqrt S0 R sigma T N)) n i * hg

theorem European.get2_delta (e : European α) {n i : Nat} (hi : i ≤ n) (hn : n < e.N_.toNat) :
    get2 e.hedgingStrategy.delta n i =
      (get2 e.treePrice (n + 1) (i + 1) - get2 e.treePrice (n + 1) i) /
        (get2 e.stockTree_ (n + 1) (i + 1) - get2 e.stockTree_ (n + 1) i) := by
  simp only [European.hedgingStrategy]
  exact get2_map_range (fun n i =>
      (get2 e.treePrice (n + 1) (i + 1) - get2 e.treePrice (n + 1) i) /
        (get2 e.stockTree_ (n + 1) (i + 1) - get2 e.stockTree_ (n + 1) i))
    (fun n => n + 1) hn (Nat.lt_succ_of_le hi)

theorem European.get2_bond (e : European α) {n i : Nat} (hi : i ≤ n) (hn : n < e.N_.toNat) :
    get2 e.hedgingStrategy.bond n i =
      get2 e.treePrice n i - get2 e.hedgingStrategy.delta n i * get2 e.stockTree_ n i := by
  rw [European.get2_delta e hi hn]
  simp only [European.hedgingStrategy]
  exact get2_map_range (fun n i =>
      get2 e.treePrice n i - (get2 e.treePrice (n + 1) (i + 1) - get2 e.treePrice (n + 1) i) /
        (get2 e.stockTree_ (n + 1) (i + 1) - get2 e.stockTree_ (n + 1) i) *
          get2 e.stockTree_ n i)
    (fun n => n + 1) hn (Nat.lt_succ_of_le hi)

theorem European.shape_hedgingStrategy (e : European α) :
    e.hedgingStrategy.delta.length = e.N_.toNat ∧
    e.hedgingStrategy.bond.length = e.N_.toNat ∧
    ∀ n, n < e.N_.toNat →
      (e.hedgingStrategy.delta.getD n []).length = n + 1 ∧
      (e.hedgingStrategy.bond.getD n []).length = n + 1 := by
  refine ⟨by simp [European.hedgingStrategy], by simp [European.hedgingStrategy], ?_⟩
  intro n hn
  simp only [European.hedgingStrategy]
  rw [getD_map_range _ _ hn, getD_map_range _ _ hn]
  simp

end crr

/-! ## The vanilla payoffs -/

namespace opt

variable {α : Type} [LinearOrderedField α]

theorem PayoffCall.new_eq_ok_call {K : α} {p : PayoffCall α} (h : PayoffCall.new K = .ok p) :
    0 ≤ K ∧ p.K_ = K := by
  unfold PayoffCall.new at h
  split_ifs at h with hK
  simp only [Except.ok.injEq] at h
  exact ⟨not_lt.mp hK, by rw [← h]⟩

theorem PayoffPut.new_eq_ok_put {K : α} {p : PayoffPut α} (h : PayoffPut.new K = .ok p) :
    0 ≤ K ∧ p.K_ = K := by
  unfold PayoffPut.new at h
  split_ifs at h with hK
  simp only [Except.ok.injEq] at h
  exact ⟨not_lt.mp hK, by rw [← h]⟩

theorem PayoffCall.new_of_nonneg {K : α} (hK : 0 ≤ K) : PayoffCall.new K = .ok ⟨K⟩ := by
  simp [PayoffCall.new, not_lt.mpr hK]

theorem PayoffPut.new_of_nonneg_put {K : α} (hK : 0 ≤ K) : PayoffPut.new K = .ok ⟨K⟩ := by
  simp [PayoffPut.new, not_lt.mpr hK]

/-- A call pays what the put pays plus the forward `S - K`. -/
theorem eval_call_sub_eval_put (c : PayoffCall α) (p : PayoffPut α) (h : c.K_ = p.K_) (S : α) :
    c.eval S - p.eval S = S - p.K_ := by
  unfold PayoffCall.eval PayoffPut.eval
  rw [h]
  rcases le_total (S - p.K_) 0 with h1 | h1
  · rw [max_eq_right h1, max_eq_left (by linarith)]; ring
  · rw [max_eq_left h1, max_eq_right (by linarith)]; ring

theorem PayoffCall.eval_nonneg (c : PayoffCall α) (S : α) : 0 ≤ c.eval S :=
  le_max_right _ _

theorem PayoffCall.sub_le_eval (c : PayoffCall α) (S : α) : S - c.K_ ≤ c.eval S :=
  le_max_left _ _

theorem PayoffPut.eval_nonneg_put (p : PayoffPut α) (S : α) : 0 ≤ p.eval S :=
  le_max_right _ _

end opt

/-! ## American against European values -/

namespace crr

variable {α : Type} [LinearOrderedField α]

/-- Early exercise has non-negative value at every node when the one-step
discount factor is non-negative: two options on the same tree, with the same
payoff and discount factor. -/
theorem American.treePrice_ge_european (a : American α) (e : European α)
    (hN : a.N_ = e.N_) (hd : a.discount_ = e.discount_) (hp : a.payoff_ = e.payoff_)
    (ht : a.stockTree_ = e.stockTree_) (hpos : 0 ≤ e.discount_) :
    ∀ n, n ≤ e.N_.toNat → ∀ i, i ≤ n → get2 e.treePrice n i ≤ get2 a.treePrice n i := by
  apply downward_induction
  · intro i hi
    have h1 := American.get2_treePrice_last_am a (i := i) (by rw [hN]; exact hi)
    rw [hN] at h1
    rw [European.get2_treePrice_last_eu e hi, h1, hp, ht]
  · intro n hn ih i hi
    rw [European.get2_treePrice_step_eu e hi hn,
      American.get2_treePrice_step_am a hi (by rw [hN]; exact hn), hd]
    refine le_trans ?_ (le_max_right _ _)
    have hu := ih (i + 1) (Nat.succ_le_succ hi)
    have hd := ih i (Nat.le_succ_of_le hi)
    exact mul_le_mul_of_nonneg_left (add_le_add hu hd) (mul_nonneg hpos (by norm_num))

/-- The one-step discount factor is positive when `1 + R*T/N` is. -/
theorem Option.init_discount_pos (sqrt : α → α) (S0 R sigma T : α) (N : Int)
    (h : 0 < 1 + R * T / (N : α)) : 0 < (Option.init sqrt S0 R sigma T N).discount_ := by
  rw [Option.init_discount]
  exact one_div_pos.mpr h

/-- For a non-negative rate the one-step growth factor is at least one. -/
theorem one_le_growth {R T : α} {N : Int} (hR : 0 ≤ R) (hT : 0 ≤ T) (hN : 0 < N) :
    1 ≤ 1 + R * T / (N : α) := by
  have : (0 : α) < (N : α) := by exact_mod_cast hN
  have : 0 ≤ R * T / (N : α) := div_nonneg (mul_nonneg hR hT) (le_of_lt this)
  linarith

end crr

/-! ## Hedging on the non-recombining tree -/

namespace crr

variable {α : Type} [LinearOrderedField α]

theorem American.forwardAM_fst (a : American α) (VNR incr : List (List α)) (k n : Nat)
    (A M : List (List α)) :
    (American.forwardAM a VNR incr k n (A, M)).1 = loopUp (American.levelA a incr) k n A := by
  induction k generalizing n A M with
  | zero => rfl
  | succ k ih => rw [American.forwardAM, loopUp, ih]

theorem American.forwardAM_snd_lt (a : American α) (VNR incr : List (List α)) (k n : Nat)
    (A M : List (List α)) {m : Nat} (h : m < n) :
    (American.forwardAM a VNR incr k n (A, M)).2.getD m [] = M.getD m [] := by
  induction k generalizing n A M with
  | zero => rfl
  | succ k ih =>
    rw [American.forwardAM, ih _ _ _ (Nat.lt_succ_of_lt h), getD_set_other _ _ _ (by omega)]

theorem American.forwardAM_snd_ge (a : American α) (VNR incr : List (List α)) (k n : Nat)
    (A M : List (List α)) (hA : n + k ≤ A.length) (hM : n + k ≤ M.length) {m : Nat}
    (h1 : n ≤ m) (h2 : m < n + k) :
    (American.forwardAM a VNR incr k n (A, M)).2.getD m [] =
      (List.range (1 <<< m)).map fun j =>
        get2 VNR m j + get2 (American.forwardAM a VNR incr k n (A, M)).1 m j := by
  induction k generalizing n A M with
  | zero => omega
  | succ k ih =>
    rw [American.forwardAM]
    rcases Nat.eq_or_lt_of_le h1 with rfl | hlt
    · rw [American.forwardAM_snd_lt _ _ _ _ _ _ _ (Nat.lt_succ_self n),
        getD_set_self _ _ _ (by omega)]
      have hrow : ∀ M' : List (List α), (American.forwardAM a VNR incr k (n + 1)
          (A.set n (American.levelA a incr A n), M')).1.getD n [] =
          (A.set n (American.levelA a incr A n)).getD n [] := by
        intro M'
        rw [American.forwardAM_fst, loopUp_getD_lt _ _ _ _ (Nat.lt_succ_self n)]
      simp only [get2, hrow]
    · exact ih _ _ _ (by rw [List.length_set]; omega) (by rw [List.length_set]; omega) hlt
        (by omega)

/-- The local `M` of `American::hedgingStrategy` is `VNR + A` at every node. -/
theorem American.get2_M (a : American α) {n j : Nat} (hn : n ≤ a.N_.toNat) (hj : j < 2 ^ n) :
    get2 a.M n j = get2 a.VNR n j + get2 a.A n j := by
  unfold American.M American.A American.AM
  simp only []
  rcases Nat.eq_zero_or_pos n with rfl | hpos
  · have hj0 : j = 0 := by simpa using hj
    subst hj0
    unfold get2
    rw [American.forwardAM_snd_lt _ _ _ _ _ _ _ Nat.zero_lt_one, American.forwardAM_fst,
      loopUp_getD_lt _ _ _ _ Nat.zero_lt_one, getD_set_self _ _ _ (by simp),
      getD_set_self _ _ _ (by simp)]
    simp [get1]
  · conv_lhs => unfold get2
    rw [American.forwardAM_snd_ge _ _ _ _ _ _ _ (by simp; omega) (by simp; omega) hpos
      (by omega), get1_map_range _ (by rw [Nat.one_shiftLeft]; exact hj)]
    rfl

theorem American.get2_delta_am (a : American α) {n j : Nat} (hn : n < a.N_.toNat)
    (hj : j < 2 ^ n) :
    get2 a.hedgingStrategy.delta n j =
      (get2 a.M (n + 1) (2 * j + 1) - get2 a.M (n + 1) (2 * j)) /
        (get2 (buildStockTreeNR a.toOption) (n + 1) (2 * j + 1) -
          get2 (buildStockTreeNR a.toOption) (n + 1) (2 * j)) := by
  simp only [American.hedgingStrategy]
  exact get2_map_range (fun n j =>
      (get2 a.M (n + 1) (2 * j + 1) - get2 a.M (n + 1) (2 * j)) /
        (get2 (buildStockTreeNR a.toOption) (n + 1) (2 * j + 1) -
          get2 (buildStockTreeNR a.toOption) (n + 1) (2 * j)))
    (fun n => 1 <<< n) hn (by show j < 1 <<< n; rw [Nat.one_shiftLeft]; exact hj)

theorem American.get2_bond_am (a : American α) {n j : Nat} (hn : n < a.N_.toNat)
    (hj : j < 2 ^ n) :
    get2 a.hedgingStrategy.bond n j =
      get2 a.M n j - get2 a.hedgingStrategy.delta n j * get2 (buildStockTreeNR a.toOption) n j := by
  rw [American.get2_delta_am a hn hj]
  simp only [American.hedgingStrategy]
  exact get2_map_range (fun n j =>
      get2 a.M n j - (get2 a.M (n + 1) (2 * j + 1) - get2 a.M (n + 1) (2 * j)) /
        (get2 (buildStockTreeNR a.toOption) (n + 1) (2 * j + 1) -
          get2 (buildStockTreeNR a.toOption) (n + 1) (2 * j)) *
          get2 (buildStockTreeNR a.toOption) n j)
    (fun n => 1 <<< n) hn (by show j < 1 <<< n; rw [Nat.one_shiftLeft]; exact hj)

theorem American.shape_hedgingStrategy_am (a : American α) :
    a.hedgingStrategy.delta.length = a.N_.toNat ∧
    a.hedgingStrategy.bond.length = a.N_.toNat ∧
    ∀ n, n < a.N_.toNat →
      (a.hedgingStrategy.delta.getD n []).length = 2 ^ n ∧
      (a.hedgingStrategy.bond.getD n []).length = 2 ^ n := by
  refine ⟨by simp [American.hedgingStrategy], by simp [American.hedgingStrategy], ?_⟩
  intro n hn
  simp only [American.hedgingStrategy]
  rw [getD_map_range _ _ hn, getD_map_range _ _ hn]
  simp [Nat.one_shiftLeft]

theorem Asian.get2_delta_as (s : Asian α) {n j : Nat} (hn : n < s.N_.toNat)
    (hj : j < 2 ^ n) :
    get2 s.hedgingStrategy.delta n j =
      (get2 s.treePrice (n + 1) (2 * j + 1) - get2 s.treePrice (n + 1) (2 * j)) /
        (get2 s.stockTreeNR_ (n + 1) (2 * j + 1) - get2 s.stockTreeNR_ (n + 1) (2 * j)) := by
  simp only [Asian.hedgingStrategy]
  exact get2_map_range (fun n j =>
      (get2 s.treePrice (n + 1) (2 * j + 1) - get2 s.treePrice (n + 1) (2 * j)) /
        (get2 s.stockTreeNR_ (n + 1) (2 * j + 1) - get2 s.stockTreeNR_ (n + 1) (2 * j)))
    (fun n => 1 <<< n) hn (by show j < 1 <<< n; rw [Nat.one_shiftLeft]; exact hj)

theorem Asian.get2_bond_as (s : Asian α) {n j : Nat} (hn : n < s.N_.toNat)
    (hj : j < 2 ^ n) :
    get2 s.hedgingStrategy.bond n j =
      get2 s.treePrice n j - get2 s.hedgingStrategy.delta n j * get2 s.stockTreeNR_ n j := by
  rw [Asian.get2_delta_as s hn hj]
  simp only [Asian.hedgingStrategy]
  exact get2_map_range (fun n j =>
      get2 s.treePrice n j -
        (get2 s.treePrice (n + 1) (2 * j + 1) - get2 s.treePrice (n + 1) (2 * j)) /
          (get2 s.stockTreeNR_ (n + 1) (2 * j + 1) - get2 s.stockTreeNR_ (n + 1) (2 * j)) *
          get2 s.stockTreeNR_ n j)
    (fun n => 1 <<< n) hn (by show j < 1 <<< n; rw [Nat.one_shiftLeft]; exact hj)

theorem Asian.shape_hedgingStrategy_as (s : Asian α) :
    s.hedgingStrategy.delta.length = s.N_.toNat ∧
    s.hedgingStrategy.bond.length = s.N_.toNat ∧
    ∀ n, n < s.N_.toNat →
      (s.hedgingStrategy.delta.getD n []).length = 2 ^ n ∧
      (s.hedgingStrategy.bond.getD n []).length = 2 ^ n := by
  refine ⟨by simp [Asian.hedgingStrategy], by simp [Asian.hedgingStrategy], ?_⟩
  intro n hn
  simp only [Asian.hedgingStrategy]
  rw [getD_map_range _ _ hn, getD_map_range _ _ hn]
  simp [Nat.one_shiftLeft]

end crr

/-! ## The PDE domain and the grid constructor -/

namespace pde

variable {α : Type} [LinearOrderedField α]

theorem ParabPDE.new_of_valid_pde {T Smin Smax : α} (a b c d : α → α → α)
    (Terminal Lower Upper : α → α) (hT : 0 < T) (hS : Smin < Smax) (h0 : 0 ≤ Smin) :
    ParabPDE.new T Smin Smax a b c d Terminal Lower Upper =
      .ok { T_ := T, Smin_ := Smin, Smax_ := Smax, a := a, b := b, c := c, d := d,
            Terminal := Terminal, Lower := Lower, Upper := Upper } := by
  unfold ParabPDE.new
  rw [if_neg]
  simp only [not_or, not_le, ge_iff_le, not_lt]
  exact ⟨hT, hS, h0⟩

theorem ParabPDE.new_eq_ok_pde {T Smin Smax : α} {a b c d : α → α → α}
    {Terminal Lower Upper : α → α} {p : ParabPDE α}
    (h : ParabPDE.new T Smin Smax a b c d Terminal Lower Upper = .ok p) :
    (0 < T ∧ Smin < Smax ∧ 0 ≤ Smin) ∧
      p = { T_ := T, Smin_ := Smin, Smax_ := Smax, a := a, b := b, c := c, d := d,
            Terminal := Terminal, Lower := Lower, Upper := Upper } := by
  unfold ParabPDE.new at h
  split_ifs at h with hc
  simp only [not_or, not_le, ge_iff_le, not_lt] at hc
  simp only [Except.ok.injEq] at h
  exact ⟨hc, h.symm⟩

theorem FDMethod.new_of_valid_fd (pde : ParabPDE α) (imax jmax : Int) (hi : 0 < imax)
    (hj : 1 < jmax) :
    FDMethod.new pde imax jmax =
      .ok { pde_ := pde, imax_ := imax, jmax_ := jmax,
            dS_ := (pde.Smax - pde.Smin) / (jmax : α),
            dt_ := pde.T / (imax : α),
            V := List.replicate (imax.toNat + 1) (List.replicate (jmax.toNat + 1) 0) } := by
  unfold FDMethod.new
  rw [if_neg (not_le.mpr hi), if_neg (not_le.mpr hj)]

theorem FDMethod.new_eq_ok_fd {pde : ParabPDE α} {imax jmax : Int} {m : FDMethod α}
    (h : FDMethod.new pde imax jmax = .ok m) :
    (0 < imax ∧ 1 < jmax) ∧
      m = { pde_ := pde, imax_ := imax, jmax_ := jmax,
            dS_ := (pde.Smax - pde.Smin) / (jmax : α),
            dt_ := pde.T / (imax : α),
            V := List.replicate (imax.toNat + 1) (List.replicate (jmax.toNat + 1) 0) } := by
  unfold FDMethod.new at h
  split_ifs at h with h1 h2
  simp only [Except.ok.injEq] at h
  exact ⟨⟨not_le.mp h1, not_le.mp h2⟩, h.symm⟩

theorem ImplicitScheme.new_eq_ok_is {pde : ParabPDE α} {imax jmax : Int}
    {A B C D E F G : FDMethod α → Int → Int → α} {s : ImplicitScheme α}
    (h : ImplicitScheme.new pde imax jmax A B C D E F G = .ok s) :
    FDMethod.new pde imax jmax = .ok s.toFDMethod ∧
      s.A = A s.toFDMethod ∧ s.B = B s.toFDMethod ∧ s.C = C s.toFDMethod ∧
      s.D = D s.toFDMethod ∧ s.E = E s.toFDMethod ∧ s.F = F s.toFDMethod ∧
      s.G = G s.toFDMethod := by
  unfold ImplicitScheme.new at h
  cases hm : FDMethod.new pde imax jmax with
  | error err => rw [hm] at h; cases h
  | ok m =>
    rw [hm] at h
    simp only [Except.ok.injEq] at h
    subst h
    exact ⟨rfl, rfl, rfl, rfl, rfl, rfl, rfl, rfl⟩

theorem ImplicitScheme.new_of_valid_is (pde : ParabPDE α) (imax jmax : Int)
    (A B C D E F G : FDMethod α → Int → Int → α) (hi : 0 < imax) (hj : 1 < jmax) :
    ∃ s : ImplicitScheme α, ImplicitScheme.new pde imax jmax A B C D E F G = .ok s := by
  unfold ImplicitScheme.new
  rw [FDMethod.new_of_valid_fd pde imax jmax hi hj]
  exact ⟨_, rfl⟩

theorem Diffusion.new_eq_ok_df {exp : α → α} {T Smin Smax R : α} {payoff : α → α}
    {vol : α → α → α} {p : ParabPDE α}
    (h : Diffusion.new exp T Smin Smax R payoff vol = .ok p) :
    (0 < T ∧ Smin < Smax ∧ 0 ≤ Smin) ∧
      (p.T_ = T ∧ p.Smin_ = Smin ∧ p.Smax_ = Smax) ∧
      (p.a = Diffusion.a vol ∧ p.b = Diffusion.b R ∧ p.c = Diffusion.c R ∧
        p.d = Diffusion.d) ∧
      p.Terminal = Diffusion.Terminal payoff ∧
      p.Lower = Diffusion.Lower exp payoff R T Smin ∧
      p.Upper = Diffusion.Upper exp payoff R T Smax := by
  obtain ⟨hv, rfl⟩ := ParabPDE.new_eq_ok_pde h
  exact ⟨hv, ⟨rfl, rfl, rfl⟩, ⟨rfl, rfl, rfl, rfl⟩, rfl, rfl, rfl⟩

theorem FDMethod.new_eq_ok_fields {pde : ParabPDE α} {imax jmax : Int} {m : FDMethod α}
    (h : FDMethod.new pde imax jmax = .ok m) :
    (0 < imax ∧ 1 < jmax) ∧ m.pde_ = pde ∧ m.imax_ = imax ∧ m.jmax_ = jmax ∧
      m.dt_ = pde.T_ / (imax : α) ∧ m.dS_ = (pde.Smax_ - pde.Smin_) / (jmax : α) ∧
      m.V = List.replicate (imax.toNat + 1) (List.replicate (jmax.toNat + 1) 0) := by
  obtain ⟨hv, rfl⟩ := FDMethod.new_eq_ok_fd h
  exact ⟨hv, rfl, rfl, rfl, rfl, rfl, rfl⟩

/-- The shape of the grid allocated by the constructor. -/
theorem FDMethod.shape_of_new {pde : ParabPDE α} {imax jmax : Int} {m : FDMethod α}
    (h : FDMethod.new pde imax jmax = .ok m) :
    m.V.length = m.imax_.toNat + 1 ∧
      (m.V.getD m.imax_.toNat []).length = m.jmax_.toNat + 1 := by
  obtain ⟨-, -, hi, hj, -, -, hV⟩ := FDMethod.new_eq_ok_fields h
  rw [hV, hi, hj]
  simp [List.getD_eq_getElem?_getD, List.getElem?_replicate]

end pde

/-! ## The point queries -/

namespace pde

variable {α : Type} [LinearOrderedField α] [FloorRing α]

theorem FDMethod.v_of_t_out (m : FDMethod α) {t : α} (S : α) (h : t < 0 ∨ t > m.pde_.T) :
    m.v t S = .error (.out_of_range "t hors du domaine") := by
  unfold FDMethod.v
  rw [if_pos h]

theorem FDMethod.v_of_S_out (m : FDMethod α) {t S : α} (ht : ¬ (t < 0 ∨ t > m.pde_.T))
    (h : S < m.pde_.Smin ∨ S > m.pde_.Smax) :
    m.v t S = .error (.invalid_argument "S hors du domaine") := by
  unfold FDMethod.v
  rw [if_neg ht, if_pos h]

theorem FDMethod.v_of_in (m : FDMethod α) {t S : α} (ht : ¬ (t < 0 ∨ t > m.pde_.T))
    (hS : ¬ (S < m.pde_.Smin ∨ S > m.pde_.Smax)) : ∃ x, m.v t S = .ok x := by
  unfold FDMethod.v
  rw [if_neg ht, if_neg hS]
  split_ifs
  · exact ⟨_, rfl⟩
  · exact ⟨_, rfl⟩
  · exact ⟨_, rfl⟩

theorem FDMethod.delta_of_t_out (m : FDMethod α) {t : α} (S : α)
    (h : t < 0 ∨ t > m.pde_.T) :
    m.delta t S = .error (.out_of_range "t hors du domaine") := by
  unfold FDMethod.delta
  rw [if_pos h]

theorem FDMethod.delta_of_S_out (m : FDMethod α) {t S : α} (ht : ¬ (t < 0 ∨ t > m.pde_.T))
    (h : S < m.pde_.Smin ∨ S > m.pde_.Smax) :
    m.delta t S = .error (.invalid_argument "S hors du domaine") := by
  unfold FDMethod.delta
  rw [if_neg ht, if_pos h]

theorem FDMethod.delta_of_in (m : FDMethod α) {t S : α} (ht : ¬ (t < 0 ∨ t > m.pde_.T))
    (hS : ¬ (S < m.pde_.Smin ∨ S > m.pde_.Smax)) :
    ∃ x, m.delta t S = .ok x ∧ -1 ≤ x ∧ x ≤ 1 := by
  unfold FDMethod.delta
  rw [if_neg ht, if_neg hS]
  exact ⟨_, rfl, le_min (by norm_num) (le_max_left _ _), min_le_left _ _⟩

end pde

/-! ## Element loops -/

section forloops

variable {β : Type}

/-- Two vectors of vectors of the same length with the same rows are equal. -/
theorem getD_ext {V W : List (List β)} (hl : V.length = W.length)
    (h : ∀ m, V.getD m [] = W.getD m []) : V = W := by
  apply List.ext_getElem hl
  intro n h1 h2
  have := h n
  rwa [List.getD_eq_getElem _ _ h1, List.getD_eq_getElem _ _ h2] at this

theorem set_getD_self (V : List (List β)) (i : Nat) : V.set i (V.getD i []) = V := by
  apply getD_ext (by simp)
  intro m
  by_cases hm : i = m
  · subst hm
    by_cases hi : i < V.length
    · rw [getD_set_self _ _ _ hi]
    · rw [List.set_eq_of_length_le (not_lt.mp hi)]
  · rw [getD_set_other _ _ _ hm]

theorem length_forUp {σ : Type} (len : σ → Nat) (body : Nat → σ → σ)
    (hb : ∀ j s, len (body j s) = len s) (c start : Nat) (s : σ) :
    len (forUp body c start s) = len s := by
  induction c generalizing start s with
  | zero => rfl
  | succ c ih => rw [forUp, ih, hb]

theorem length_forDown {σ : Type} (len : σ → Nat) (body : Nat → σ → σ)
    (hb : ∀ j s, len (body j s) = len s) (k : Nat) (s : σ) :
    len (forDown body k s) = len s := by
  induction k generalizing s with
  | zero => rfl
  | succ k ih => rw [forDown, ih, hb]

/-- An element loop `v[j] = g(j)` leaves `g` on the indices it visits. -/
theorem forUp_set_getD (g : Nat → β) (d : β) (c start : Nat) (v : List β) (k : Nat) :
    (forUp (fun j v => v.set j (g j)) c start v).getD k d =
      if start ≤ k ∧ k < start + c ∧ k < v.length then g k else v.getD k d := by
  induction c generalizing start v with
  | zero =>
    rw [forUp, if_neg]
    omega
  | succ c ih =>
    rw [forUp, ih, List.length_set]
    by_cases hk : start = k
    · subst hk
      by_cases hlen : start < v.length
      · rw [if_neg (by omega), if_pos ⟨le_refl _, by omega, hlen⟩,
          List.getD_eq_getElem?_getD, List.getElem?_set]
        simp [hlen]
      · rw [if_neg (by omega), if_neg (by omega),
          List.set_eq_of_length_le (not_lt.mp hlen)]
    · have hset : (v.set start (g start)).getD k d = v.getD k d := by
        simp [List.getD_eq_getElem?_getD, List.getElem?_set, hk]
      rw [hset]
      by_cases hcond : start + 1 ≤ k ∧ k < start + 1 + c ∧ k < v.length
      · rw [if_pos hcond, if_pos ⟨by omega, by omega, hcond.2.2⟩]
      · rw [if_neg hcond, if_neg (by omega)]

/-- The loop `for (j = 0; j < c; ++j) v[j] = g(j)` over a whole vector. -/
theorem forUp_set_all (d : β) (g : Nat → β) (c : Nat) (v : List β) (hv : v.length = c) :
    forUp (fun j v => v.set j (g j)) c 0 v = (List.range c).map g := by
  apply List.ext_getElem
  · rw [length_forUp List.length _ (fun j s => List.length_set s j (g j))]
    simp [hv]
  · intro n h1 h2
    have hn : n < c := by simpa using h2
    have := forUp_set_getD g d c 0 v n
    rw [if_pos ⟨Nat.zero_le _, by omega, by omega⟩, List.getD_eq_getElem _ _ h1] at this
    rw [this]
    simp

/-- The loop `V[i][j] = g(j)` writes in the row `V[i]` only. -/
theorem forUp_set2 (g : Nat → β) (i c start : Nat) (V : List (List β)) :
    forUp (fun j V => set2 V i j (g j)) c start V =
      V.set i (forUp (fun j v => v.set j (g j)) c start (V.getD i [])) := by
  induction c generalizing start V with
  | zero => rw [forUp, forUp, set_getD_self]
  | succ c ih =>
    rw [forUp, forUp, ih, set2, List.set_set]
    by_cases hi : i < V.length
    · rw [getD_set_self _ _ _ hi]
    · rw [List.set_eq_of_length_le (not_lt.mp hi), List.set_eq_of_length_le (not_lt.mp hi)]

theorem forDown_eq_loopDown (step : Nat → List β → List β) (k : Nat) (V : List (List β)) :
    forDown (fun i V => V.set (i - 1) (step i (V.getD i []))) k V =
      loopDown (fun V n => step (n + 1) (V.getD (n + 1) [])) k V := by
  induction k generalizing V with
  | zero => rfl
  | succ k ih => rw [forDown, loopDown, ih, Nat.add_sub_cancel]

/-- A level loop forgets the rows it overwrites. -/
theorem loopDown_congr (row : List (List β) → Nat → List β)
    (hrow : ∀ V W n, V.getD (n + 1) [] = W.getD (n + 1) [] → row V n = row W n)
    (k : Nat) (V W : List (List β)) (hl : V.length = W.length)
    (h : ∀ m, k ≤ m → V.getD m [] = W.getD m []) :
    loopDown row k V = loopDown row k W := by
  induction k generalizing V W with
  | zero => exact getD_ext hl (fun m => h m (Nat.zero_le m))
  | succ k ih =>
    rw [loopDown, loopDown, hrow V W k (h (k + 1) (le_refl _))]
    apply ih _ _ (by simp [hl])
    intro m hm
    rcases Nat.eq_or_lt_of_le hm with rfl | hlt
    · by_cases hk : k < V.length
      · rw [getD_set_self _ _ _ hk, getD_set_self _ _ _ (hl ▸ hk)]
      · rw [List.set_eq_of_length_le (not_lt.mp hk),
          List.set_eq_of_length_le (hl ▸ not_lt.mp hk),
          List.getD_eq_default _ _ (not_lt.mp hk),
          List.getD_eq_default _ _ (hl ▸ not_lt.mp hk)]
    · rw [getD_set_other _ _ _ (by omega), getD_set_other _ _ _ (by omega)]
      exact h m hlt

/-- The assignment `V[k][j] = x` after the assignment `V[k] = L`. -/
theorem set2_set (V : List (List β)) (k j : Nat) (L : List β) (x : β) :
    set2 (V.set k L) k j x = V.set k (L.set j x) := by
  rw [set2, List.set_set]
  by_cases hk : k < V.length
  · rw [getD_set_self _ _ _ hk]
  · rw [List.set_eq_of_length_le (not_lt.mp hk), List.set_eq_of_length_le (not_lt.mp hk)]

end forloops

/-! ## The time loop of the implicit scheme -/

namespace pde

variable {α : Type} [LinearOrderedField α]

theorem ImplicitScheme.length_LUDecomposition (s : ImplicitScheme α) (i : Int) (q : List α) :
    (s.LUDecomposition i q).length = s.jmax_.toNat + 1 := by
  unfold ImplicitScheme.LUDecomposition
  simp only []
  rw [length_forDown List.length _ (fun j p => List.length_set p j _)]
  simp

theorem ImplicitScheme.length_newRow (s : ImplicitScheme α) (i : Nat) (row : List α) :
    (s.newRow i row).length = s.jmax_.toNat + 1 := by
  unfold ImplicitScheme.newRow
  simp only [List.length_set]
  exact ImplicitScheme.length_LUDecomposition s _ _

theorem ImplicitScheme.get1_newRow_zero (s : ImplicitScheme α) (i : Nat) (row : List α)
    (hj : 0 < s.jmax_.toNat) : get1 (s.newRow i row) 0 = s.fl ((i : Int) - 1) := by
  unfold ImplicitScheme.newRow get1
  simp only []
  rw [getD_set_other _ _ _ (ne_of_gt hj),
    getD_set_self _ _ _ (by rw [ImplicitScheme.length_LUDecomposition]; omega)]

theorem ImplicitScheme.get1_newRow_last (s : ImplicitScheme α) (i : Nat) (row : List α) :
    get1 (s.newRow i row) s.jmax_.toNat = s.fu ((i : Int) - 1) := by
  unfold ImplicitScheme.newRow get1
  simp only []
  rw [getD_set_self _ _ _
    (by rw [List.length_set, ImplicitScheme.length_LUDecomposition]; omega)]

/-- The grid left by `SolvePDE`: the last row is filled with the terminal
condition, then the rows `imax - 1, ..., 0` are computed one from the other. -/
theorem ImplicitScheme.SolvePDE_V (s : ImplicitScheme α) :
    s.SolvePDE.V =
      loopDown (fun V n => s.newRow (n + 1) (V.getD (n + 1) [])) s.imax_.toNat
        (s.V.set s.imax_.toNat
          (forUp (fun j v => v.set j (s.f j)) (s.jmax_.toNat + 1) 0
            (s.V.getD s.imax_.toNat []))) := by
  unfold ImplicitScheme.SolvePDE
  simp only []
  rw [← forDown_eq_loopDown, forUp_set2 (fun j => s.f (j : Int))]
  congr 1
  funext i V
  rw [set2_set, set2_set]
  rfl

theorem ImplicitScheme.newRow_congr (s : ImplicitScheme α) (V W : List (List α)) (n : Nat)
    (h : V.getD (n + 1) [] = W.getD (n + 1) []) :
    s.newRow (n + 1) (V.getD (n + 1) []) = s.newRow (n + 1) (W.getD (n + 1) []) := by
  rw [h]

theorem ImplicitScheme.length_SolvePDE_V (s : ImplicitScheme α) :
    s.SolvePDE.V.length = s.V.length := by
  rw [ImplicitScheme.SolvePDE_V, length_loopDown, List.length_set]

theorem ImplicitScheme.SolvePDE_last (s : ImplicitScheme α)
    (hV : s.V.length = s.imax_.toNat + 1)
    (hrow : (s.V.getD s.imax_.toNat []).length = s.jmax_.toNat + 1) :
    s.SolvePDE.V.getD s.imax_.toNat [] =
      (List.range (s.jmax_.toNat + 1)).map fun j : Nat => s.f (j : Int) := by
  rw [ImplicitScheme.SolvePDE_V, loopDown_getD_ge _ _ _ (le_refl _),
    getD_set_self _ _ _ (by omega), forUp_set_all 0 (fun j => s.f (j : Int)) _ _ hrow]

theorem ImplicitScheme.SolvePDE_row (s : ImplicitScheme α)
    (hV : s.V.length = s.imax_.toNat + 1) {n : Nat} (hn : n < s.imax_.toNat) :
    s.SolvePDE.V.getD n [] = s.newRow (n + 1) (s.SolvePDE.V.getD (n + 1) []) := by
  rw [ImplicitScheme.SolvePDE_V]
  exact loopDown_getD_lt (fun V n => s.newRow (n + 1) (V.getD (n + 1) []))
    (ImplicitScheme.newRow_congr s) _ _ (by rw [List.length_set]; omega) hn

/-- The grid left by `SolvePDE` does not depend on the grid it starts from. -/
theorem ImplicitScheme.SolvePDE_V_indep (s : ImplicitScheme α) (V' : List (List α))
    (hV : s.V.length = s.imax_.toNat + 1)
    (hrow : (s.V.getD s.imax_.toNat []).length = s.jmax_.toNat + 1)
    (hV' : V'.length = s.imax_.toNat + 1)
    (hrow' : (V'.getD s.imax_.toNat []).length = s.jmax_.toNat + 1) :
    ({ s with V := V' } : ImplicitScheme α).SolvePDE.V = s.SolvePDE.V := by
  rw [ImplicitScheme.SolvePDE_V, ImplicitScheme.SolvePDE_V]
  show loopDown (fun V n => s.newRow (n + 1) (V.getD (n + 1) [])) s.imax_.toNat
      (V'.set s.imax_.toNat (forUp (fun j v => v.set j (s.f j)) (s.jmax_.toNat + 1) 0
        (V'.getD s.imax_.toNat []))) = _
  apply loopDown_congr _ (ImplicitScheme.newRow_congr s)
  · simp [hV, hV']
  · intro m hm
    rcases Nat.eq_or_lt_of_le hm with rfl | hlt
    · rw [getD_set_self _ _ _ (by omega), getD_set_self _ _ _ (by omega),
        forUp_set_all 0 (fun j => s.f (j : Int)) _ _ hrow,
        forUp_set_all 0 (fun j => s.f (j : Int)) _ _ hrow']
    · rw [List.getD_eq_default _ _ (by rw [List.length_set]; omega),
        List.getD_eq_default _ _ (by rw [List.length_set]; omega)]

end pde

/-! ## The value tree on the non-recombining lattice -/

namespace crr

variable {α : Type} [LinearOrderedField α]

theorem Asian.level_congr_as (s : Asian α) (V W : List (List α)) (n : Nat)
    (h : V.getD (n + 1) [] = W.getD (n + 1) []) : Asian.level s V n = Asian.level s W n := by
  simp only [Asian.level, get2, h]

theorem Asian.length_terminalValues (s : Asian α) :
    s.terminalValues.length = 2 ^ s.N_.toNat := by
  simp [Asian.terminalValues, Nat.one_shiftLeft]

theorem Asian.length_treePrice_as (s : Asian α) : s.treePrice.length = s.N_.toNat + 1 := by
  simp [Asian.treePrice, length_loopDown]

theorem Asian.treePrice_last_as (s : Asian α) :
    s.treePrice.getD s.N_.toNat [] =
      (List.range (1 <<< s.N_.toNat)).map fun j => get1 s.terminalValues j := by
  simp only [Asian.treePrice]
  rw [loopDown_getD_ge _ _ _ (le_refl _), getD_set_self _ _ _ (by simp)]

theorem Asian.treePrice_level_as (s : Asian α) {n : Nat} (hn : n < s.N_.toNat) :
    s.treePrice.getD n [] = Asian.level s s.treePrice n := by
  simp only [Asian.treePrice]
  exact loopDown_getD_lt _ (Asian.level_congr_as s) _ _ (by simp) hn

theorem Asian.length_treePrice_level_as (s : Asian α) {n : Nat} (hn : n ≤ s.N_.toNat) :
    (s.treePrice.getD n []).length = 2 ^ n := by
  rcases Nat.eq_or_lt_of_le hn with rfl | hlt
  · rw [Asian.treePrice_last_as]; simp [Nat.one_shiftLeft]
  · rw [Asian.treePrice_level_as s hlt]; simp [Asian.level, Nat.one_shiftLeft]

theorem Asian.get2_treePrice_last_as (s : Asian α) {j : Nat} (hj : j < 2 ^ s.N_.toNat) :
    get2 s.treePrice s.N_.toNat j = get1 s.terminalValues j := by
  unfold get2
  rw [Asian.treePrice_last_as, get1_map_range _ (by rw [Nat.one_shiftLeft]; exact hj)]

theorem Asian.get2_treePrice_step_as (s : Asian α) {n j : Nat} (hn : n < s.N_.toNat)
    (hj : j < 2 ^ n) :
    get2 s.treePrice n j =
      s.discount_ * (1 / 2) *
        (get2 s.treePrice (n + 1) (2 * j + 1) + get2 s.treePrice (n + 1) (2 * j)) := by
  conv_lhs => unfold get2
  rw [Asian.treePrice_level_as s hn, Asian.level,
    get1_map_range _ (by rw [Nat.one_shiftLeft]; exact hj)]

/-- The value at a node is the discounted equally weighted mean of the leaves
below it. -/
theorem Asian.get2_treePrice_closed (s : Asian α) :
    ∀ n, n ≤ s.N_.toNat → ∀ j, j < 2 ^ n →
      get2 s.treePrice n j =
        (s.discount_ * (1 / 2)) ^ (s.N_.toNat - n) *
          ∑ k in Finset.range (2 ^ (s.N_.toNat - n)),
            get1 s.terminalValues (j * 2 ^ (s.N_.toNat - n) + k) := by
  apply downward_induction
  · intro j hj
    rw [Asian.get2_treePrice_last_as s hj]
    simp
  · intro n hn ih j hj
    have hu := ih (2 * j + 1) (by rw [pow_succ]; omega)
    have hd := ih (2 * j) (by rw [pow_succ]; omega)
    rw [Asian.get2_treePrice_step_as s hn hj, hu, hd]
    obtain ⟨m, hm⟩ : ∃ m, s.N_.toNat - n = m + 1 := ⟨s.N_.toNat - n - 1, by omega⟩
    have hm' : s.N_.toNat - (n + 1) = m := by omega
    rw [hm, hm', pow_succ (s.discount_ * (1 / 2)) m, pow_succ 2 m, mul_two,
      Finset.sum_range_add]
    have e1 : ∀ k, j * (2 ^ m + 2 ^ m) + k = 2 * j * 2 ^ m + k := by intro k; ring
    have e2 : ∀ k, j * (2 ^ m + 2 ^ m) + (2 ^ m + k) = (2 * j + 1) * 2 ^ m + k := by
      intro k; ring
    have s1 : ∑ k in Finset.range (2 ^ m), get1 s.terminalValues (j * (2 ^ m + 2 ^ m) + k) =
        ∑ k in Finset.range (2 ^ m), get1 s.terminalValues (2 * j * 2 ^ m + k) :=
      Finset.sum_congr rfl (fun k _ => by rw [e1])
    have s2 : ∑ k in Finset.range (2 ^ m),
          get1 s.terminalValues (j * (2 ^ m + 2 ^ m) + (2 ^ m + k)) =
        ∑ k in Finset.range (2 ^ m), get1 s.terminalValues ((2 * j + 1) * 2 ^ m + k) :=
      Finset.sum_congr rfl (fun k _ => by rw [e2])
    rw [s1, s2]
    generalize ∑ k in Finset.range (2 ^ m), get1 s.terminalValues (2 * j * 2 ^ m + k) = X
    generalize ∑ k in Finset.range (2 ^ m),
      get1 s.terminalValues ((2 * j + 1) * 2 ^ m + k) = Y
    ring

end crr

/-! ## Richardson extrapolation -/

namespace crr

variable {α : Type} [LinearOrderedField α]

/-- What `priceRR` returns, from the three prices it computes. -/
theorem American.priceRR_eq (sqrt : α → α) (a a100 a200 a400 : American α)
    (h100 : American.new sqrt a.S0_ a.R_ a.sigma_ a.T_ 100 a.payoff_ = .ok a100)
    (h200 : American.new sqrt a.S0_ a.R_ a.sigma_ a.T_ 200 a.payoff_ = .ok a200)
    (h400 : American.new sqrt a.S0_ a.R_ a.sigma_ a.T_ 400 a.payoff_ = .ok a400) :
    a.priceRR sqrt =
      .ok (a400.price + (a400.price - a200.price) / (2 - 1) +
        (a400.price + (a400.price - a200.price) / (2 - 1) -
          (a200.price + (a200.price - a100.price) / (2 - 1))) / (4 - 1)) := by
  simp [American.priceRR, American.priceRR_fill, h100, h200, h400, forUp, set2, get2, get1,
    List.replicate]

/-- With a zero spot every price of the tree is zero; when the discount factor
is at least one, an American option is then worth its payoff at zero
compounded at every step. -/
theorem American.price_of_zero_spot (a : American α) (hS : a.S0_ = 0)
    (ht : a.stockTree_ = crr.buildStockTree a.toOption) (hc : 0 ≤ a.payoff_ 0)
    (hD : 1 ≤ a.discount_) : a.price = a.payoff_ 0 * a.discount_ ^ a.N_.toNat := by
  have hst : ∀ n i, i ≤ n → n ≤ a.N_.toNat → get2 a.stockTree_ n i = 0 := by
    intro n i hi hn
    rw [ht, get2_buildStockTree _ hi hn, hS, zero_mul, zero_mul]
  have key : ∀ n, n ≤ a.N_.toNat → ∀ i, i ≤ n →
      get2 a.treePrice n i = a.payoff_ 0 * a.discount_ ^ (a.N_.toNat - n) := by
    apply downward_induction
    · intro i hi
      rw [American.get2_treePrice_last_am a hi, hst _ _ hi (le_refl _)]
      simp
    · intro n hn ih i hi
      rw [American.get2_treePrice_step_am a hi hn, hst _ _ hi (le_of_lt hn),
        ih (i + 1) (Nat.succ_le_succ hi), ih i (Nat.le_succ_of_le hi)]
      have hpow : a.discount_ ^ (a.N_.toNat - n) =
          a.discount_ * a.discount_ ^ (a.N_.toNat - (n + 1)) := by
        rw [← pow_succ']
        congr 1
        omega
      have hcont : a.discount_ * (1 / 2) *
          (a.payoff_ 0 * a.discount_ ^ (a.N_.toNat - (n + 1)) +
            a.payoff_ 0 * a.discount_ ^ (a.N_.toNat - (n + 1))) =
          a.payoff_ 0 * a.discount_ ^ (a.N_.toNat - n) := by
        rw [hpow]; ring
      rw [hcont]
      apply max_eq_right
      calc a.payoff_ 0 = a.payoff_ 0 * 1 := (mul_one _).symm
        _ ≤ a.payoff_ 0 * a.discount_ ^ (a.N_.toNat - n) :=
          mul_le_mul_of_nonneg_left (one_le_pow₀ hD) hc
  have h0 := key 0 (Nat.zero_le _) 0 (le_refl 0)
  rw [Nat.sub_zero] at h0
  exact h0

end crr

/-! ## The non-recombining price tree -/

theorem popcount_zero : popcount 0 = 0 := by
  rw [popcount]

theorem popcount_double (j : Nat) : popcount (2 * j) = popcount j := by
  rcases Nat.eq_zero_or_pos j with rfl | hj
  · rfl
  · obtain ⟨k, hk⟩ : ∃ k, 2 * j = k + 1 := ⟨2 * j - 1, by omega⟩
    rw [hk, popcount, ← hk]
    have h1 : 2 * j % 2 = 0 := by omega
    have h2 : 2 * j / 2 = j := by omega
    rw [h1, h2, Nat.zero_add]

theorem popcount_double_succ (j : Nat) : popcount (2 * j + 1) = popcount j + 1 := by
  rw [popcount]
  have h1 : (2 * j + 1) % 2 = 1 := by omega
  have h2 : (2 * j + 1) / 2 = j := by omega
  rw [h1, h2, Nat.add_comm]

theorem popcount_le {n j : Nat} (hj : j < 2 ^ n) : popcount j ≤ n := by
  induction n generalizing j with
  | zero =>
    have : j = 0 := by simpa using hj
    subst this
    rw [popcount_zero]
  | succ n ih =>
    have hhalf : j / 2 < 2 ^ n := by
      rw [pow_succ] at hj
      omega
    have := ih hhalf
    rcases Nat.mod_two_eq_zero_or_one j with h | h
    · have hj2 : j = 2 * (j / 2) := by omega
      rw [hj2, popcount_double]
      omega
    · have hj2 : j = 2 * (j / 2) + 1 := by omega
      rw [hj2, popcount_double_succ]
      omega

namespace crr

variable {α : Type} [LinearOrderedField α]

theorem levelNR_congr (o : Option α) (V W : List (List α)) (n : Nat)
    (h : V.getD (n - 1) [] = W.getD (n - 1) []) : levelNR o V n = levelNR o W n := by
  unfold levelNR get2
  rw [h]

theorem length_buildStockTreeNR (o : Option α) :
    (buildStockTreeNR o).length = o.N_.toNat + 1 := by
  unfold buildStockTreeNR
  simp only []
  rw [length_loopUp]
  simp

/-- Level `0` of the non-recombining tree is the single price `S0`. -/
theorem buildStockTreeNR_zero (o : Option α) : (buildStockTreeNR o).getD 0 [] = [o.S0_] := by
  unfold buildStockTreeNR
  simp only []
  rw [loopUp_getD_lt _ _ _ _ Nat.zero_lt_one, getD_set_self _ _ _ (by simp)]

/-- Level `n >= 1` of the non-recombining tree is computed from level `n - 1`. -/
theorem buildStockTreeNR_level (o : Option α) {n : Nat} (h1 : 1 ≤ n) (hn : n ≤ o.N_.toNat) :
    (buildStockTreeNR o).getD n [] = levelNR o (buildStockTreeNR o) n := by
  unfold buildStockTreeNR
  simp only []
  exact loopUp_getD_ge (levelNR o) (levelNR_congr o) _ _ _ Nat.zero_lt_one
    (by simp; omega) h1 (by omega)

theorem length_level_buildStockTreeNR (o : Option α) {n : Nat} (hn : n ≤ o.N_.toNat) :
    ((buildStockTreeNR o).getD n []).length = 2 ^ n := by
  rcases Nat.eq_zero_or_pos n with rfl | hpos
  · rw [buildStockTreeNR_zero]; rfl
  · rw [buildStockTreeNR_level o hpos hn]
    simp [levelNR, Nat.one_shiftLeft]

theorem get2_buildStockTreeNR_zero (o : Option α) : get2 (buildStockTreeNR o) 0 0 = o.S0_ := by
  unfold get2
  rw [buildStockTreeNR_zero]
  rfl

/-- The child `2j` of node `j` is its down move. -/
theorem get2_buildStockTreeNR_down (o : Option α) {n j : Nat} (hn : n < o.N_.toNat)
    (hj : j < 2 ^ n) :
    get2 (buildStockTreeNR o) (n + 1) (2 * j) = get2 (buildStockTreeNR o) n j * (1 + o.d_) := by
  conv_lhs => unfold get2
  rw [buildStockTreeNR_level o (Nat.succ_pos n) hn]
  unfold levelNR
  rw [get1_map_range _ (by rw [Nat.one_shiftLeft, pow_succ]; omega)]
  have h1 : (2 * j) &&& 1 = 0 := by
    rw [Nat.and_one_is_mod]; omega
  have h2 : (2 * j) >>> 1 = j := by
    rw [Nat.shiftRight_eq_div_pow]; omega
  simp [h1, h2]

/-- The child `2j + 1` of node `j` is its up move. -/
theorem get2_buildStockTreeNR_up (o : Option α) {n j : Nat} (hn : n < o.N_.toNat)
    (hj : j < 2 ^ n) :
    get2 (buildStockTreeNR o) (n + 1) (2 * j + 1) =
      get2 (buildStockTreeNR o) n j * (1 + o.u_) := by
  conv_lhs => unfold get2
  rw [buildStockTreeNR_level o (Nat.succ_pos n) hn]
  unfold levelNR
  rw [get1_map_range _ (by rw [Nat.one_shiftLeft, pow_succ]; omega)]
  have h1 : (2 * j + 1) &&& 1 = 1 := by
    rw [Nat.and_one_is_mod]; omega
  have h2 : (2 * j + 1) >>> 1 = j := by
    rw [Nat.shiftRight_eq_div_pow]; omega
  simp [h1, h2]

/-- The closed form of the non-recombining tree: the price at node `j` of level
`n` has taken `popcount j` up moves and `n - popcount j` down moves. -/
theorem get2_buildStockTreeNR (o : Option α) {n j : Nat} (hn : n ≤ o.N_.toNat)
    (hj : j < 2 ^ n) :
    get2 (buildStockTreeNR o) n j =
      o.S0_ * (1 + o.u_) ^ popcount j * (1 + o.d_) ^ (n - popcount j) := by
  induction n generalizing j with
  | zero =>
    have : j = 0 := by simpa using hj
    subst this
    rw [get2_buildStockTreeNR_zero, popcount_zero]
    simp
  | succ n ih =>
    have hhalf : j / 2 < 2 ^ n := by
      rw [pow_succ] at hj
      omega
    have hp := popcount_le hhalf
    rcases Nat.mod_two_eq_zero_or_one j with h | h
    · have hj2 : j = 2 * (j / 2) := by omega
      rw [hj2, get2_buildStockTreeNR_down o (by omega) hhalf, ih (by omega) hhalf,
        popcount_double, show n + 1 - popcount (j / 2) = (n - popcount (j / 2)) + 1 by omega,
        pow_succ]
      ring
    · have hj2 : j = 2 * (j / 2) + 1 := by omega
      rw [hj2, get2_buildStockTreeNR_up o (by omega) hhalf, ih (by omega) hhalf,
        popcount_double_succ,
        show n + 1 - (popcount (j / 2) + 1) = n - popcount (j / 2) by omega, pow_succ]
      ring

/-- The non-recombining tree reads the recombining one at the number of up
moves. -/
theorem get2_buildStockTreeNR_eq (o : Option α) {n j : Nat} (hn : n ≤ o.N_.toNat)
    (hj : j < 2 ^ n) :
    get2 (buildStockTreeNR o) n j = get2 (buildStockTree o) n (popcount j) := by
  rw [get2_buildStockTreeNR o hn hj, get2_buildStockTree o (popcount_le hj) hn]

end crr

/-! ## The valuation on the non-recombining tree and its compensator -/

namespace crr

variable {α : Type} [LinearOrderedField α]

theorem American.levelVNR_congr (a : American α) (tree V W : List (List α)) (n : Nat)
    (h : V.getD (n + 1) [] = W.getD (n + 1) []) :
    American.levelVNR a tree V n = American.levelVNR a tree W n := by
  simp only [American.levelVNR, get2, h]

theorem American.length_VNR (a : American α) : a.VNR.length = a.N_.toNat + 1 := by
  simp [American.VNR, length_loopDown]

theorem American.VNR_last (a : American α) :
    a.VNR.getD a.N_.toNat [] =
      (List.range (1 <<< a.N_.toNat)).map fun j =>
        a.payoff_ (get2 (buildStockTreeNR a.toOption) a.N_.toNat j) := by
  simp only [American.VNR]
  rw [loopDown_getD_ge _ _ _ (le_refl _), getD_set_self _ _ _ (by simp)]

theorem American.VNR_level (a : American α) {n : Nat} (hn : n < a.N_.toNat) :
    a.VNR.getD n [] = American.levelVNR a (buildStockTreeNR a.toOption) a.VNR n := by
  simp only [American.VNR]
  exact loopDown_getD_lt _ (American.levelVNR_congr a _) _ _ (by simp) hn

theorem American.length_VNR_level (a : American α) {n : Nat} (hn : n ≤ a.N_.toNat) :
    (a.VNR.getD n []).length = 2 ^ n := by
  rcases Nat.eq_or_lt_of_le hn with rfl | hlt
  · rw [American.VNR_last]; simp [Nat.one_shiftLeft]
  · rw [American.VNR_level a hlt]; simp [American.levelVNR, Nat.one_shiftLeft]

theorem American.get2_VNR_last (a : American α) {j : Nat} (hj : j < 2 ^ a.N_.toNat) :
    get2 a.VNR a.N_.toNat j = a.payoff_ (get2 (buildStockTreeNR a.toOption) a.N_.toNat j) := by
  unfold get2
  rw [American.VNR_last, get1_map_range _ (by rw [Nat.one_shiftLeft]; exact hj)]
  rfl

theorem American.get2_VNR_step (a : American α) {n j : Nat} (hn : n < a.N_.toNat)
    (hj : j < 2 ^ n) :
    get2 a.VNR n j =
      max (a.payoff_ (get2 (buildStockTreeNR a.toOption) n j))
        (a.discount_ * (1 / 2) *
          (get2 a.VNR (n + 1) (2 * j) + get2 a.VNR (n + 1) (2 * j + 1))) := by
  conv_lhs => unfold get2
  rw [American.VNR_level a hn, American.levelVNR,
    get1_map_range _ (by rw [Nat.one_shiftLeft]; exact hj)]

/-- The valuation on the non-recombining tree reads the recombining valuation
at the number of up moves. -/
theorem American.get2_VNR_popcount (a : American α)
    (ht : a.stockTree_ = crr.buildStockTree a.toOption) {n j : Nat} (hn : n ≤ a.N_.toNat)
    (hj : j < 2 ^ n) :
    get2 a.VNR n j = get2 a.treePrice n (popcount j) := by
  refine downward_induction a.N_.toNat
    (fun n => ∀ j, j < 2 ^ n → get2 a.VNR n j = get2 a.treePrice n (popcount j)) ?_ ?_ n hn j hj
  · intro j hj
    rw [American.get2_VNR_last a hj, American.get2_treePrice_last_am a (popcount_le hj), ht,
      get2_buildStockTreeNR_eq _ (le_refl _) hj]
  · intro n hn ih j hj
    have h2 : 2 * j < 2 ^ (n + 1) := by rw [pow_succ]; omega
    have h3 : 2 * j + 1 < 2 ^ (n + 1) := by rw [pow_succ]; omega
    rw [American.get2_VNR_step a hn hj, American.get2_treePrice_step_am a (popcount_le hj) hn,
      ih _ h2, ih _ h3, popcount_double, popcount_double_succ, ht,
      get2_buildStockTreeNR_eq _ (le_of_lt hn) hj, add_comm (get2 a.treePrice (n + 1) _)]

theorem American.get2_incr (a : American α) {n j : Nat} (hn : n < a.N_.toNat)
    (hj : j < 2 ^ n) :
    get2 a.incr n j =
      get2 a.VNR n j - a.discount_ * (1 / 2) *
        (get2 a.VNR (n + 1) (2 * j) + get2 a.VNR (n + 1) (2 * j + 1)) := by
  simp only [American.incr]
  exact get2_map_range (fun n j =>
      get2 a.VNR n j - a.discount_ * (1 / 2) *
        (get2 a.VNR (n + 1) (2 * j) + get2 a.VNR (n + 1) (2 * j + 1)))
    (fun n => 1 <<< n) hn (by show j < 1 <<< n; rw [Nat.one_shiftLeft]; exact hj)

/-- The increment of the compensator is not negative: the value is the larger
of the exercise value and the continuation value. -/
theorem American.get2_incr_nonneg (a : American α) {n j : Nat} (hn : n < a.N_.toNat)
    (hj : j < 2 ^ n) : 0 ≤ get2 a.incr n j := by
  rw [American.get2_incr a hn hj, American.get2_VNR_step a hn hj]
  exact sub_nonneg.mpr (le_max_right _ _)

theorem American.levelA_congr (a : American α) (incr V W : List (List α)) (n : Nat)
    (h : V.getD (n - 1) [] = W.getD (n - 1) []) :
    American.levelA a incr V n = American.levelA a incr W n := by
  simp only [American.levelA, get2, h]

theorem American.A_eq (a : American α) :
    a.A = loopUp (American.levelA a a.incr) a.N_.toNat 1
      ((List.replicate (a.N_.toNat + 1) ([] : List α)).set 0 [0]) := by
  unfold American.A American.AM
  simp only []
  rw [American.forwardAM_fst]

theorem American.get2_A_zero (a : American α) : get2 a.A 0 0 = 0 := by
  unfold get2
  rw [American.A_eq, loopUp_getD_lt _ _ _ _ Nat.zero_lt_one, getD_set_self _ _ _ (by simp)]
  rfl

theorem American.get2_A_succ (a : American α) {n j : Nat} (hn : n < a.N_.toNat)
    (hj : j < 2 ^ (n + 1)) :
    get2 a.A (n + 1) j =
      (get2 a.A n (j >>> 1) + get2 a.incr n (j >>> 1)) / a.discount_ := by
  conv_lhs => unfold get2
  rw [American.A_eq, loopUp_getD_ge _ (American.levelA_congr a a.incr) _ _ _ Nat.zero_lt_one
    (by simp; omega) (Nat.succ_pos n) (by omega), ← American.A_eq, American.levelA,
    get1_map_range _ (by rw [Nat.one_shiftLeft]; exact hj)]
  rfl

end crr

namespace crr

variable {α : Type} [LinearOrderedField α]

end crr

/-! ## The Thomas algorithm -/

section thomas

variable {α : Type} [LinearOrderedField α]

theorem get1_set_self (v : List α) (x : α) {n : Nat} (h : n < v.length) :
    get1 (v.set n x) n = x :=
  getD_set_self v 0 x h

theorem get1_set_other (v : List α) (x : α) {n m : Nat} (h : n ≠ m) :
    get1 (v.set n x) m = get1 v m :=
  getD_set_other v 0 x h

theorem get1_replicate_zero (n j : Nat) : get1 (List.replicate n (0 : α)) j = 0 := by
  unfold get1
  by_cases h : j < n
  · rw [List.getD_eq_getElem _ _ (by simpa using h)]; simp
  · rw [List.getD_eq_default _ _ (by simpa using h)]

/-- The forward elimination pass: the entries below `start` are kept, and every
entry written by the loop satisfies the recurrence on the entry before it. -/
theorem forUp_elimination (f e g : Nat → α) (q : List α) (c start : Nat) (r y : List α)
    (hr : start + c ≤ r.length) (hy : start + c ≤ y.length) (hs : 1 ≤ start) :
    (∀ j, j < start →
      get1 (forUp (fun j (ry : List α × List α) =>
        (ry.1.set j (f j - e j * g j / get1 ry.1 (j - 1)),
          ry.2.set j (get1 q j - e j * get1 ry.2 (j - 1) / get1 ry.1 (j - 1))))
        c start (r, y)).1 j = get1 r j ∧
      get1 (forUp (fun j (ry : List α × List α) =>
        (ry.1.set j (f j - e j * g j / get1 ry.1 (j - 1)),
          ry.2.set j (get1 q j - e j * get1 ry.2 (j - 1) / get1 ry.1 (j - 1))))
        c start (r, y)).2 j = get1 y j) ∧
    (∀ j, start ≤ j → j < start + c →
      get1 (forUp (fun j (ry : List α × List α) =>
        (ry.1.set j (f j - e j * g j / get1 ry.1 (j - 1)),
          ry.2.set j (get1 q j - e j * get1 ry.2 (j - 1) / get1 ry.1 (j - 1))))
        c start (r, y)).1 j =
        f j - e j * g j /
          get1 (forUp (fun j (ry : List α × List α) =>
            (ry.1.set j (f j - e j * g j / get1 ry.1 (j - 1)),
              ry.2.set j (get1 q j - e j * get1 ry.2 (j - 1) / get1 ry.1 (j - 1))))
            c start (r, y)).1 (j - 1) ∧
      get1 (forUp (fun j (ry : List α × List α) =>
        (ry.1.set j (f j - e j * g j / get1 ry.1 (j - 1)),
          ry.2.set j (get1 q j - e j * get1 ry.2 (j - 1) / get1 ry.1 (j - 1))))
        c start (r, y)).2 j =
        get1 q j - e j *
          get1 (forUp (fun j (ry : List α × List α) =>
            (ry.1.set j (f j - e j * g j / get1 ry.1 (j - 1)),
              ry.2.set j (get1 q j - e j * get1 ry.2 (j - 1) / get1 ry.1 (j - 1))))
            c start (r, y)).2 (j - 1) /
          get1 (forUp (fun j (ry : List α × List α) =>
            (ry.1.set j (f j - e j * g j / get1 ry.1 (j - 1)),
              ry.2.set j (get1 q j - e j * get1 ry.2 (j - 1) / get1 ry.1 (j - 1))))
            c start (r, y)).1 (j - 1)) := by
  induction c generalizing start r y with
  | zero =>
    refine ⟨fun j _ => ⟨rfl, rfl⟩, fun j h1 h2 => ?_⟩
    omega
  | succ c ih =>
    rw [forUp]
    obtain ⟨ihA, ihB⟩ := ih (start + 1)
      (r.set start (f start - e start * g start / get1 r (start - 1)))
      (y.set start (get1 q start - e start * get1 y (start - 1) / get1 r (start - 1)))
      (by rw [List.length_set]; omega) (by rw [List.length_set]; omega) (by omega)
    constructor
    · intro j hj
      obtain ⟨h1, h2⟩ := ihA j (by omega)
      rw [h1, h2, get1_set_other _ _ (by omega), get1_set_other _ _ (by omega)]
      exact ⟨rfl, rfl⟩
    · intro j h1 h2
      rcases Nat.eq_or_lt_of_le h1 with rfl | hlt
      · obtain ⟨e1, e2⟩ := ihA start (by omega)
        obtain ⟨e3, e4⟩ := ihA (start - 1) (by omega)
        rw [e1, e2, e3, e4, get1_set_self _ _ (by omega), get1_set_self _ _ (by omega),
          get1_set_other _ _ (by omega), get1_set_other _ _ (by omega)]
        exact ⟨rfl, rfl⟩
      · exact ihB j (by omega) (by omega)

/-- The back-substitution pass: the entries above `k` and the entry `0` are
kept, and every entry written by the loop satisfies the recurrence on the
entry after it. -/
theorem forDown_substitution (y r g : Nat → α) (k : Nat) (p : List α) (hk : k < p.length) :
    (∀ j, j = 0 ∨ k < j →
      get1 (forDown (fun j p => p.set j ((y j - g j * get1 p (j + 1)) / r j)) k p) j =
        get1 p j) ∧
    (∀ j, 1 ≤ j → j ≤ k →
      get1 (forDown (fun j p => p.set j ((y j - g j * get1 p (j + 1)) / r j)) k p) j =
        (y j - g j *
          get1 (forDown (fun j p => p.set j ((y j - g j * get1 p (j + 1)) / r j)) k p) (j + 1)) /
          r j) := by
  induction k generalizing p with
  | zero =>
    refine ⟨fun j _ => rfl, fun j h1 h2 => ?_⟩
    omega
  | succ k ih =>
    rw [forDown]
    obtain ⟨ihA, ihB⟩ := ih
      (p.set (k + 1) ((y (k + 1) - g (k + 1) * get1 p (k + 1 + 1)) / r (k + 1)))
      (by rw [List.length_set]; omega)
    constructor
    · intro j hj
      rw [ihA j (by omega), get1_set_other _ _ (by omega)]
    · intro j h1 h2
      rcases Nat.eq_or_lt_of_le h2 with rfl | hlt
      · rw [ihA (k + 1) (by omega), ihA (k + 1 + 1) (by omega), get1_set_self _ _ hk,
          get1_set_other _ _ (by omega)]
      · exact ihB j h1 (by omega)

end thomas

namespace pde

variable {α : Type} [LinearOrderedField α]

/-- What `LUDecomposition` computes: with `r` the pivots and `y` the
right-hand side after the forward elimination, `y[1] = q[1]`,
`y[j] = q[j] - E(i,j)*y[j-1]/r[j-1]`, the result `p` has `p[0] = p[jmax] = 0` and
`p[j] = (y[j] - G(i,j)*p[j+1]) / r[j]` on the interior indices. -/
theorem ImplicitScheme.LUDecomposition_passes (s : ImplicitScheme α) (i : Int) (q : List α)
    (hjm : 2 ≤ s.jmax_.toNat) :
    ∃ y : Nat → α,
      y 1 = get1 q 1 ∧
      (∀ j : Nat, 2 ≤ j → j ≤ s.jmax_.toNat - 1 →
        y j = get1 q j - s.E i j * y (j - 1) / s.pivot i (j - 1)) ∧
      get1 (s.LUDecomposition i q) 0 = 0 ∧
      get1 (s.LUDecomposition i q) s.jmax_.toNat = 0 ∧
      (∀ j : Nat, 1 ≤ j → j ≤ s.jmax_.toNat - 1 →
        get1 (s.LUDecomposition i q) j =
          (y j - s.G i j * get1 (s.LUDecomposition i q) (j + 1)) / s.pivot i j) := by
  unfold ImplicitScheme.LUDecomposition
  simp only []
  obtain ⟨fA, fB⟩ := forUp_elimination (fun j : Nat => s.F i j) (fun j : Nat => s.E i j)
    (fun j : Nat => s.G i ((j : Int) - 1)) q (s.jmax_.toNat - 2) 2
    ((List.replicate (s.jmax_.toNat + 1) (0 : α)).set 1 (s.F i 1))
    ((List.replicate (s.jmax_.toNat + 1) (0 : α)).set 1 (get1 q 1))
    (by simp; omega) (by simp; omega) (by omega)
  generalize forUp (fun j (ry : List α × List α) =>
      (ry.1.set j (s.F i j - s.E i j * s.G i ((j : Int) - 1) / get1 ry.1 (j - 1)),
        ry.2.set j (get1 q j - s.E i j * get1 ry.2 (j - 1) / get1 ry.1 (j - 1))))
      (s.jmax_.toNat - 2) 2
      ((List.replicate (s.jmax_.toNat + 1) (0 : α)).set 1 (s.F i 1),
        (List.replicate (s.jmax_.toNat + 1) (0 : α)).set 1 (get1 q 1)) = ry at fA fB ⊢
  have hr1 : get1 ry.1 1 = s.F i 1 := by
    rw [(fA 1 (by omega)).1, get1_set_self _ _ (by simp; omega)]
  have hy1 : get1 ry.2 1 = get1 q 1 := by
    rw [(fA 1 (by omega)).2, get1_set_self _ _ (by simp; omega)]
  have hpiv : ∀ j : Nat, 1 ≤ j → j ≤ s.jmax_.toNat - 1 → get1 ry.1 j = s.pivot i j := by
    intro j
    induction j with
    | zero => intro h; omega
    | succ j ih =>
      intro _ h2
      rcases Nat.eq_zero_or_pos j with rfl | hpos
      · rw [hr1]; rfl
      · obtain ⟨k, rfl⟩ : ∃ k, j = k + 1 := ⟨j - 1, by omega⟩
        rw [(fB (k + 1 + 1) (by omega) (by omega)).1, ImplicitScheme.pivot,
          ← ih (by omega) (by omega)]
        rfl
  obtain ⟨bA, bB⟩ := forDown_substitution (fun j => get1 ry.2 j) (fun j => get1 ry.1 j)
    (fun j : Nat => s.G i j) (s.jmax_.toNat - 2)
    ((List.replicate (s.jmax_.toNat + 1) (0 : α)).set (s.jmax_.toNat - 1)
      (get1 ry.2 (s.jmax_.toNat - 1) / get1 ry.1 (s.jmax_.toNat - 1)))
    (by simp; omega)
  refine ⟨fun j => get1 ry.2 j, hy1, ?_, ?_, ?_, ?_⟩
  · intro j h1 h2
    show get1 ry.2 j = get1 q j - s.E i j * get1 ry.2 (j - 1) / s.pivot i (j - 1)
    rw [(fB j (by omega) (by omega)).2, hpiv (j - 1) (by omega) (by omega)]
  · rw [bA 0 (Or.inl rfl), get1_set_other _ _ (by omega), get1_replicate_zero]
  · rw [bA _ (Or.inr (by omega)), get1_set_other _ _ (by omega), get1_replicate_zero]
  · intro j h1 h2
    beta_reduce
    rcases Nat.eq_or_lt_of_le h2 with rfl | hlt
    · rw [bA _ (Or.inr (by omega)), get1_set_self _ _ (by simp; omega),
        show s.jmax_.toNat - 1 + 1 = s.jmax_.toNat by omega, bA _ (Or.inr (by omega)),
        get1_set_other _ _ (by omega), get1_replicate_zero, mul_zero, sub_zero,
        hpiv _ h1 (le_refl _)]
    · rw [bB j h1 (by omega), hpiv j h1 h2]

/-- One row of the tridiagonal system, from the two recurrences of the passes. -/
theorem thomas_row {r1 r2 y1 y2 p1 p2 p3 E2 F2 G1 G2 q2 : α} (hne : r1 ≠ 0)
    (h1 : r1 * p1 + G1 * p2 = y1) (h2 : r2 * p2 + G2 * p3 = y2)
    (h3 : y2 = q2 - E2 * y1 / r1) (h4 : r2 = F2 - E2 * G1 / r1) :
    E2 * p1 + F2 * p2 + G2 * p3 = q2 := by
  have hE : E2 = E2 / r1 * r1 := (div_mul_cancel₀ E2 hne).symm
  rw [h3, h4] at h2
  linear_combination h2 + E2 / r1 * h1 + p1 * hE

/-- Correctness of the Thomas algorithm when no pivot vanishes: the result of
`LUDecomposition` is zero at both ends and solves the tridiagonal system on the
interior indices. -/
theorem ImplicitScheme.LUDecomposition_tridiagonal (s : ImplicitScheme α) (i : Int)
    (q : List α) (hjm : 2 ≤ s.jmax_.toNat)
    (hpiv : ∀ j : Nat, 1 ≤ j → j ≤ s.jmax_.toNat - 1 → s.pivot i j ≠ 0) :
    get1 (s.LUDecomposition i q) 0 = 0 ∧
    get1 (s.LUDecomposition i q) s.jmax_.toNat = 0 ∧
    ∀ j : Nat, 1 ≤ j → j ≤ s.jmax_.toNat - 1 →
      s.E i j * get1 (s.LUDecomposition i q) (j - 1) +
        s.F i j * get1 (s.LUDecomposition i q) j +
        s.G i j * get1 (s.LUDecomposition i q) (j + 1) = get1 q j := by
  obtain ⟨y, hy1, hy, h0, hJ, hp⟩ := ImplicitScheme.LUDecomposition_passes s i q hjm
  refine ⟨h0, hJ, ?_⟩
  intro j h1 h2
  have hrel : ∀ k : Nat, 1 ≤ k → k ≤ s.jmax_.toNat - 1 →
      s.pivot i k * get1 (s.LUDecomposition i q) k +
        s.G i k * get1 (s.LUDecomposition i q) (k + 1) = y k := by
    intro k hk1 hk2
    rw [hp k hk1 hk2, mul_div_cancel₀ _ (hpiv k hk1 hk2)]
    ring
  rcases Nat.eq_or_lt_of_le h1 with rfl | hlt
  · have := hrel 1 (le_refl _) h2
    rw [show ImplicitScheme.pivot s i 1 = s.F i 1 from rfl] at this
    rw [Nat.sub_self, h0, mul_zero, zero_add, ← hy1, ← this]
    simp
  · obtain ⟨k, rfl⟩ : ∃ k, j = k + 2 := ⟨j - 2, by omega⟩
    have hk := hrel (k + 1) (by omega) (by omega)
    have hj := hrel (k + 2) (by omega) h2
    have hyj := hy (k + 2) (by omega) h2
    have hne := hpiv (k + 1) (by omega) (by omega)
    have hpj : s.pivot i (k + 2) = s.F i ((k + 2 : Nat) : Int) -
        s.E i ((k + 2 : Nat) : Int) * s.G i (((k + 2 : Nat) : Int) - 1) /
          s.pivot i (k + 1) := rfl
    have hc : (((k + 2 : Nat) : Int) - 1) = ((k + 1 : Nat) : Int) := by push_cast; ring
    rw [hc] at hpj
    rw [show k + 2 - 1 = k + 1 from rfl] at hyj ⊢
    rw [show k + 1 + 1 = k + 2 from rfl] at hk
    exact thomas_row hne hk hj hyj hpj

end pde

/-! ## The right-hand side of the implicit scheme -/

section addloop

variable {α : Type} [LinearOrderedField α]

theorem get1_forUp_set (g : Nat → α) (c start : Nat) (v : List α) (k : Nat) :
    get1 (forUp (fun j v => v.set j (g j)) c start v) k =
      if start ≤ k ∧ k < start + c ∧ k < v.length then g k else get1 v k :=
  forUp_set_getD g 0 c start v k

/-- The loop `pvec[j] += wvec[j]`. -/
theorem get1_forUp_add (w : List α) (c start : Nat) (v : List α) (k : Nat) :
    get1 (forUp (fun j p => p.set j (get1 p j + get1 w j)) c start v) k =
      if start ≤ k ∧ k < start + c ∧ k < v.length then get1 v k + get1 w k else get1 v k := by
  induction c generalizing start v with
  | zero =>
    rw [forUp, if_neg]
    omega
  | succ c ih =>
    rw [forUp, ih, List.length_set]
    by_cases hk : start = k
    · subst hk
      by_cases hl : start < v.length
      · rw [if_neg (by omega), if_pos (by omega), get1_set_self _ _ hl]
      · rw [if_neg (by omega), if_neg (by omega), List.set_eq_of_length_le (not_lt.mp hl)]
    · rw [get1_set_other _ _ hk]
      by_cases hc : start + 1 ≤ k ∧ k < start + 1 + c ∧ k < v.length
      · rw [if_pos hc, if_pos (by omega)]
      · rw [if_neg hc, if_neg (by omega)]

end addloop

namespace pde

variable {α : Type} [LinearOrderedField α]

theorem ImplicitScheme.length_w (s : ImplicitScheme α) (i : Int) :
    (s.w i).length = s.jmax_.toNat + 1 := by
  unfold ImplicitScheme.w
  simp only [List.length_set]
  rw [length_forUp List.length _ (fun j v => List.length_set v j _)]
  simp

/-- The last interior entry of the forcing vector: the upper boundary. -/
theorem ImplicitScheme.get1_w_last (s : ImplicitScheme α) (i : Int)
    (hjm : 1 ≤ s.jmax_.toNat) :
    get1 (s.w i) (s.jmax_.toNat - 1) =
      s.D i (s.jmax_ - 1) + s.C i (s.jmax_ - 1) * s.fu i - s.G i (s.jmax_ - 1) * s.fu (i - 1) := by
  unfold ImplicitScheme.w
  simp only []
  rw [get1_set_self _ _ (by
    rw [length_forUp List.length _ (fun j v => List.length_set v j _)]; simp; omega)]

/-- The first interior entry of the forcing vector, when it is not also the
last one: the lower boundary. -/
theorem ImplicitScheme.get1_w_first (s : ImplicitScheme α) (i : Int)
    (hjm : 3 ≤ s.jmax_.toNat) :
    get1 (s.w i) 1 = s.D i 1 + s.A i 1 * s.fl i - s.E i 1 * s.fl (i - 1) := by
  unfold ImplicitScheme.w
  simp only []
  rw [get1_set_other _ _ (by omega), get1_forUp_set, if_neg (by omega),
    get1_set_self _ _ (by simp; omega)]

/-- The entries of the forcing vector strictly between the first and the last
interior ones. -/
theorem ImplicitScheme.get1_w_mid (s : ImplicitScheme α) (i : Int) {j : Nat} (h1 : 2 ≤ j)
    (h2 : j < s.jmax_.toNat - 1) : get1 (s.w i) j = s.D i j := by
  unfold ImplicitScheme.w
  simp only []
  rw [get1_set_other _ _ (by omega), get1_forUp_set, if_pos (by simp; omega)]

theorem ImplicitScheme.length_Aq (s : ImplicitScheme α) (i : Int) (q : List α) :
    (s.Aq i q).length = s.jmax_.toNat + 1 := by
  unfold ImplicitScheme.Aq
  simp only [List.length_set]
  rw [length_forUp List.length _ (fun j v => List.length_set v j _)]
  simp

theorem ImplicitScheme.get1_Aq_last (s : ImplicitScheme α) (i : Int) (q : List α)
    (hjm : 1 ≤ s.jmax_.toNat) :
    get1 (s.Aq i q) (s.jmax_.toNat - 1) =
      s.A i (s.jmax_ - 1) * get1 q (s.jmax_.toNat - 2) +
        s.B i (s.jmax_ - 1) * get1 q (s.jmax_.toNat - 1) := by
  unfold ImplicitScheme.Aq
  simp only []
  rw [get1_set_self _ _ (by
    rw [length_forUp List.length _ (fun j v => List.length_set v j _)]; simp; omega)]

theorem ImplicitScheme.get1_Aq_first (s : ImplicitScheme α) (i : Int) (q : List α)
    (hjm : 3 ≤ s.jmax_.toNat) :
    get1 (s.Aq i q) 1 = s.B i 1 * get1 q 1 + s.C i 1 * get1 q 2 := by
  unfold ImplicitScheme.Aq
  simp only []
  rw [get1_set_other _ _ (by omega), get1_forUp_set, if_neg (by omega),
    get1_set_self _ _ (by simp; omega)]

theorem ImplicitScheme.get1_Aq_mid (s : ImplicitScheme α) (i : Int) (q : List α) {j : Nat}
    (h1 : 2 ≤ j) (h2 : j < s.jmax_.toNat - 1) :
    get1 (s.Aq i q) j =
      s.A i j * get1 q (j - 1) + s.B i j * get1 q j + s.C i j * get1 q (j + 1) := by
  unfold ImplicitScheme.Aq
  simp only []
  rw [get1_set_other _ _ (by omega), get1_forUp_set, if_pos (by simp; omega)]

/-- The interior entries of the row computed by a pass of the time loop are
those of the tridiagonal solve. -/
theorem ImplicitScheme.get1_newRow_interior (s : ImplicitScheme α) (i : Nat) (row : List α)
    {j : Nat} (h1 : 1 ≤ j) (h2 : j < s.jmax_.toNat) :
    get1 (s.newRow i row) j =
      get1 (s.LUDecomposition i
        (forUp (fun j pvec => pvec.set j (get1 pvec j + get1 (s.w i) j)) (s.jmax_.toNat + 1) 0
          (s.Aq i row))) j := by
  unfold ImplicitScheme.newRow
  simp only []
  rw [get1_set_other _ _ (by omega), get1_set_other _ _ (by omega)]

/-- The implicit difference equation satisfied by the row `V[i - 1]` that a pass
of the time loop computes from a row `V[i]` carrying the boundary values of
time `i`, on a grid with at least two interior prices. -/
theorem ImplicitScheme.newRow_equation (s : ImplicitScheme α) (i : Nat) (row : List α)
    (hjm : 3 ≤ s.jmax_.toNat)
    (hpiv : ∀ j : Nat, 1 ≤ j → j ≤ s.jmax_.toNat - 1 → s.pivot i j ≠ 0)
    (h0 : get1 row 0 = s.fl i) (hJ : get1 row s.jmax_.toNat = s.fu i)
    {j : Nat} (h1 : 1 ≤ j) (h2 : j ≤ s.jmax_.toNat - 1) :
    s.E i j * get1 (s.newRow i row) (j - 1) + s.F i j * get1 (s.newRow i row) j +
        s.G i j * get1 (s.newRow i row) (j + 1) =
      s.A i j * get1 row (j - 1) + s.B i j * get1 row j + s.C i j * get1 row (j + 1) +
        s.D i j := by
  obtain ⟨p0, pJ, hp⟩ := ImplicitScheme.LUDecomposition_tridiagonal s i
    (forUp (fun j pvec => pvec.set j (get1 pvec j + get1 (s.w i) j)) (s.jmax_.toNat + 1) 0
      (s.Aq i row)) (by omega) hpiv
  have hq : ∀ k, k ≤ s.jmax_.toNat →
      get1 (forUp (fun j pvec => pvec.set j (get1 pvec j + get1 (s.w i) j))
        (s.jmax_.toNat + 1) 0 (s.Aq i row)) k = get1 (s.Aq i row) k + get1 (s.w i) k := by
    intro k hk
    rw [get1_forUp_add, if_pos (by rw [ImplicitScheme.length_Aq]; omega)]
  have hjc : ((s.jmax_.toNat - 1 : Nat) : Int) = s.jmax_ - 1 := by omega
  have hlo : get1 (s.newRow i row) 0 = s.fl ((i : Int) - 1) :=
    ImplicitScheme.get1_newRow_zero s i row (by omega)
  have hup : get1 (s.newRow i row) s.jmax_.toNat = s.fu ((i : Int) - 1) :=
    ImplicitScheme.get1_newRow_last s i row
  have hrow := hp j h1 h2
  rw [hq j (by omega)] at hrow
  rcases Nat.eq_or_lt_of_le h1 with rfl | hlt
  · rw [ImplicitScheme.get1_Aq_first s i row hjm, ImplicitScheme.get1_w_first s i hjm,
      p0] at hrow
    rw [Nat.sub_self, hlo, ImplicitScheme.get1_newRow_interior s i row (le_refl 1) (by omega),
      ImplicitScheme.get1_newRow_interior s i row (j := 1 + 1) (by omega) (by omega), h0]
    simp only [Nat.cast_one] at hrow ⊢
    linear_combination hrow
  · rcases Nat.eq_or_lt_of_le h2 with rfl | hlt2
    · rw [ImplicitScheme.get1_Aq_last s i row (by omega), ImplicitScheme.get1_w_last s i
        (by omega), show s.jmax_.toNat - 1 + 1 = s.jmax_.toNat by omega, pJ] at hrow
      rw [show s.jmax_.toNat - 1 + 1 = s.jmax_.toNat by omega, hup,
        ImplicitScheme.get1_newRow_interior s i row (j := s.jmax_.toNat - 1 - 1) (by omega)
          (by omega),
        ImplicitScheme.get1_newRow_interior s i row (j := s.jmax_.toNat - 1) (by omega)
          (by omega), hJ]
      rw [show s.jmax_.toNat - 1 - 1 = s.jmax_.toNat - 2 by omega] at hrow ⊢
      rw [hjc] at hrow ⊢
      linear_combination hrow
    · rw [ImplicitScheme.get1_Aq_mid s i row (by omega) (by omega),
        ImplicitScheme.get1_w_mid s i (by omega) (by omega)] at hrow
      rw [ImplicitScheme.get1_newRow_interior s i row (j := j - 1) (by omega) (by omega),
        ImplicitScheme.get1_newRow_interior s i row (j := j) (by omega) (by omega),
        ImplicitScheme.get1_newRow_interior s i row (j := j + 1) (by omega) (by omega)]
      linear_combination hrow

end pde

namespace pde

variable {α : Type} [LinearOrderedField α]

/-- On a `Diffusion` model the terminal condition agrees with the boundary
conditions at the two corners of the maturity row. -/
theorem Diffusion.corner_compat {exp : α → α} (hexp : exp 0 = 1) {T Smin Smax R : α}
    {payoff : α → α} {vol : α → α → α} {pde : ParabPDE α} {imax jmax : Int} {m : FDMethod α}
    (hp : Diffusion.new exp T Smin Smax R payoff vol = .ok pde)
    (hm : FDMethod.new pde imax jmax = .ok m) :
    m.f 0 = m.fl m.imax_ ∧ m.f m.jmax_ = m.fu m.imax_ := by
  obtain ⟨-, ⟨hpT, hpSmin, hpSmax⟩, -, hTerm, hLow, hUpp⟩ := Diffusion.new_eq_ok_df hp
  obtain ⟨⟨hi, hj⟩, hpde, himax, hjmax, hdt, hdS, -⟩ := FDMethod.new_eq_ok_fields hm
  rw [hpT] at hdt
  rw [hpSmax, hpSmin] at hdS
  have hiα : (imax : α) ≠ 0 := by exact_mod_cast (ne_of_gt hi)
  have hjα : (jmax : α) ≠ 0 := by exact_mod_cast (ne_of_gt (lt_trans Int.zero_lt_one hj))
  have hT : m.t (imax : α) = T := by
    rw [FDMethod.t, hdt]; exact div_mul_cancel₀ T hiα
  have hS0 : m.S 0 = Smin := by simp [FDMethod.S, hpde, ParabPDE.Smin, hpSmin]
  have hSj : m.S jmax = Smax := by
    rw [FDMethod.S, hdS, hpde, div_mul_cancel₀ _ hjα]
    simp [ParabPDE.Smin, hpSmin]
  rw [himax, hjmax]
  unfold FDMethod.f FDMethod.fl FDMethod.fu
  rw [hT, hS0, hSj, hpde, hTerm, hLow, hUpp]
  unfold Diffusion.Terminal Diffusion.Lower Diffusion.Upper
  rw [sub_self, mul_zero, hexp, mul_one, mul_one]
  exact ⟨rfl, rfl⟩

/-- After `SolvePDE`, every time row carries the boundary values of its time in
its first and last columns, provided the terminal condition agrees with them
at the corners of the maturity row. -/
theorem ImplicitScheme.SolvePDE_boundary_rows (s : ImplicitScheme α)
    (hV : s.V.length = s.imax_.toNat + 1)
    (hrow : (s.V.getD s.imax_.toNat []).length = s.jmax_.toNat + 1)
    (hi : 0 ≤ s.imax_) (hj : 0 < s.jmax_)
    (hlo : s.f 0 = s.fl s.imax_) (hup : s.f s.jmax_ = s.fu s.imax_)
    {i : Nat} (hile : i ≤ s.imax_.toNat) :
    get1 (s.SolvePDE.V.getD i []) 0 = s.fl i ∧
      get1 (s.SolvePDE.V.getD i []) s.jmax_.toNat = s.fu i := by
  rcases Nat.eq_or_lt_of_le hile with rfl | hlt
  · rw [ImplicitScheme.SolvePDE_last s hV hrow, get1_map_range _ (by omega),
      get1_map_range _ (by omega), Int.toNat_of_nonneg hi, Int.toNat_of_nonneg (le_of_lt hj)]
    exact ⟨hlo, hup⟩
  · have hc : (((i + 1 : Nat) : Int) - 1 : Int) = (i : Int) := by push_cast; ring
    rw [ImplicitScheme.SolvePDE_row s hV hlt, ImplicitScheme.get1_newRow_zero s _ _ (by omega),
      ImplicitScheme.get1_newRow_last s, hc]
    exact ⟨rfl, rfl⟩

end pde

/-! ## The closed form of the European price -/

section binomial

theorem binomialSumAux_eq (N : Nat) (f : Nat → Nat) (fuel i acc : Nat) :
    binomialSumAux N f fuel i (N.choose i) acc =
      acc + ∑ k in Finset.range fuel, N.choose (i + k) * f (i + k) := by
  induction fuel generalizing i acc with
  | zero => simp [binomialSumAux]
  | succ fuel ih =>
    have hc : N.choose i * (N - i) / (i + 1) = N.choose (i + 1) := by
      rw [← Nat.choose_succ_right_eq, Nat.mul_div_cancel _ (Nat.succ_pos i)]
    rw [binomialSumAux, hc, ih, Finset.sum_range_succ', Nat.add_zero, Nat.add_assoc,
      Nat.add_comm (N.choose i * f i)]
    congr 2
    apply Finset.sum_congr rfl
    intro k _
    rw [Nat.add_assoc, Nat.add_comm 1 k]

theorem binomialSum_eq (N : Nat) (f : Nat → Nat) :
    binomialSum N f = ∑ k in Finset.range (N + 1), N.choose k * f k := by
  have h := binomialSumAux_eq N f (N + 1) 0 0
  rw [Nat.choose_zero_right] at h
  rw [binomialSum, h, Nat.zero_add]
  apply Finset.sum_congr rfl
  intro k _
  rw [Nat.zero_add]

/-- Pascal's rule under a sum. -/
theorem sum_choose_succ {α : Type} [Field α] (g : Nat → α) (m : Nat) :
    ∑ k in Finset.range (m + 2), ((m + 1).choose k : α) * g k =
      ∑ k in Finset.range (m + 1), (m.choose k : α) * g (k + 1) +
        ∑ k in Finset.range (m + 1), (m.choose k : α) * g k := by
  rw [Finset.sum_range_succ' _ (m + 1)]
  have h1 : ∑ k in Finset.range (m + 1), ((m + 1).choose (k + 1) : α) * g (k + 1) =
      ∑ k in Finset.range (m + 1), (m.choose k : α) * g (k + 1) +
        ∑ k in Finset.range (m + 1), (m.choose (k + 1) : α) * g (k + 1) := by
    rw [← Finset.sum_add_distrib]
    apply Finset.sum_congr rfl
    intro k _
    rw [Nat.choose_succ_succ, Nat.cast_add]
    ring
  have h2 : ∑ k in Finset.range (m + 1), (m.choose (k + 1) : α) * g (k + 1) =
      ∑ k in Finset.range m, (m.choose (k + 1) : α) * g (k + 1) := by
    rw [Finset.sum_range_succ, Nat.choose_succ_self]
    simp
  have h3 : ∑ k in Finset.range (m + 1), (m.choose k : α) * g k =
      ∑ k in Finset.range m, (m.choose (k + 1) : α) * g (k + 1) + g 0 := by
    rw [Finset.sum_range_succ']
    simp
  rw [h1, h2, h3]
  simp
  ring

end binomial

namespace crr

variable {α : Type} [LinearOrderedField α]

/-- The European value at a node is the discounted binomial mean of the
payoffs at the leaves below it. -/
theorem European.get2_treePrice_binomial (e : European α) :
    ∀ n, n ≤ e.N_.toNat → ∀ i, i ≤ n →
      get2 e.treePrice n i =
        (e.discount_ * (1 / 2)) ^ (e.N_.toNat - n) *
          ∑ k in Finset.range (e.N_.toNat - n + 1),
            ((e.N_.toNat - n).choose k : α) * e.payoff_ (get2 e.stockTree_ e.N_.toNat (i + k)) := by
  apply downward_induction
  · intro i hi
    rw [European.get2_treePrice_last_eu e hi]
    simp
  · intro n hn ih i hi
    have hu := ih (i + 1) (by omega)
    have hd := ih i (by omega)
    rw [European.get2_treePrice_step_eu e hi hn, hu, hd]
    obtain ⟨m, hm⟩ : ∃ m, e.N_.toNat - n = m + 1 := ⟨e.N_.toNat - n - 1, by omega⟩
    have hm' : e.N_.toNat - (n + 1) = m := by omega
    rw [hm, hm', pow_succ (e.discount_ * (1 / 2)) m,
      sum_choose_succ (fun k => e.payoff_ (get2 e.stockTree_ e.N_.toNat (i + k))) m]
    have s1 : ∑ k in Finset.range (m + 1),
          (m.choose k : α) * e.payoff_ (get2 e.stockTree_ e.N_.toNat (i + 1 + k)) =
        ∑ k in Finset.range (m + 1),
          (m.choose k : α) * e.payoff_ (get2 e.stockTree_ e.N_.toNat (i + (k + 1))) :=
      Finset.sum_congr rfl (fun k _ => by rw [Nat.add_assoc, Nat.add_comm 1 k])
    rw [s1]
    ring

end crr

namespace crr

open opt

variable {α : Type} [LinearOrderedField α]

/-- The price of an accepted European option as a binomial sum over the leaves
of the closed-form price tree. -/
theorem European.price_binomial {sqrt : α → α} {S0 R sigma T : α} {N : Int}
    {payoff : α → α} {e : European α}
    (he : European.new sqrt S0 R sigma T N payoff = .ok e) :
    e.price =
      (e.discount_ * (1 / 2)) ^ N.toNat *
        ∑ k in Finset.range (N.toNat + 1),
          (N.toNat.choose k : α) * payoff (S0 * (1 + e.u_) ^ k * (1 + e.d_) ^ (N.toNat - k)) := by
  obtain ⟨-, ho, hpay, ht⟩ := European.new_eq_ok_eu he
  have hN : e.N_ = N := by rw [ho]; rfl
  have hS : e.S0_ = S0 := by rw [ho]; rfl
  rw [European.price, European.get2_treePrice_binomial e 0 (Nat.zero_le _) 0 (le_refl 0), hN,
    Nat.sub_zero]
  congr 1
  apply Finset.sum_congr rfl
  intro k hk
  have hk' : k ≤ N.toNat := Nat.lt_succ_iff.mp (Finset.mem_range.mp hk)
  rw [Nat.zero_add, ht, get2_buildStockTree _ hk' (by rw [hN]), hpay, hS]

/-- The exercise value of a call of strike `K` at a leaf of a lattice with
gross returns `a/c` and `b/c`, as a natural number over the common denominator
`c^N`. -/
theorem call_leaf (K : α) (hK : 0 ≤ K) (a b c N k : Nat) (hc : 0 < c) (hk : k ≤ N) :
    max (K * ((a : α) / c) ^ k * ((b : α) / c) ^ (N - k) - K) 0 =
      K / (c : α) ^ N * ((a ^ k * b ^ (N - k) - c ^ N : Nat) : α) := by
  have h8 : (c : α) ^ N = (c : α) ^ k * (c : α) ^ (N - k) := by
    rw [← pow_add, Nat.add_sub_cancel' hk]
  have hc' : (0 : α) < c := by exact_mod_cast hc
  have hpos : (0 : α) < (c : α) ^ N := pow_pos hc' N
  have hx : K * ((a : α) / c) ^ k * ((b : α) / c) ^ (N - k) - K =
      K / (c : α) ^ N * (((a ^ k * b ^ (N - k) : Nat) : α) - ((c ^ N : Nat) : α)) := by
    rw [div_pow, div_pow, Nat.cast_mul, Nat.cast_pow, Nat.cast_pow, Nat.cast_pow, h8]
    field_simp
    ring
  rw [hx]
  rcases le_total (c ^ N) (a ^ k * b ^ (N - k)) with h | h
  · rw [Nat.cast_sub h, max_eq_left]
    exact mul_nonneg (div_nonneg hK (le_of_lt hpos)) (sub_nonneg.mpr (by exact_mod_cast h))
  · rw [Nat.sub_eq_zero_of_le h, Nat.cast_zero, mul_zero, max_eq_right]
    exact mul_nonpos_of_nonneg_of_nonpos (div_nonneg hK (le_of_lt hpos))
      (sub_nonpos.mpr (by exact_mod_cast h))

end crr

namespace crr

open opt

variable {α : Type} [LinearOrderedField α]

theorem lattice_scale (A : α) (n : Nat) :
    ((8000 : α) / 8001 * (1 / 2)) ^ n * (100 / (8000 : α) ^ n * A) = 100 * A / (16002 : α) ^ n := by
  have h1 : (16002 : α) = 8001 * 2 := by norm_num
  have h2 : (8000 : α) ^ n ≠ 0 := pow_ne_zero n (by norm_num)
  have h3 : (8001 : α) ^ n ≠ 0 := pow_ne_zero n (by norm_num)
  have h4 : (2 : α) ^ n ≠ 0 := pow_ne_zero n (by norm_num)
  rw [h1, mul_pow, mul_pow, div_pow, div_pow, one_pow]
  field_simp
  ring

/-- The numerator of the lattice price of the at-the-money call over the common
denominator `16002^400`, between two multiples of that denominator. -/
theorem binomialSum_400_bounds :
    104543 * 16002 ^ 400 <
        1000000 * binomialSum 400 (fun i => 8081 ^ i * 7921 ^ (400 - i) - 8000 ^ 400) ∧
      1000000 * binomialSum 400 (fun i => 8081 ^ i * 7921 ^ (400 - i) - 8000 ^ 400) <
        104544 * 16002 ^ 400 := by
  decide!

/-- The lattice price of the call of strike `100` at
`S0 = 100, R = 5/100, sigma = 2/10, T = 1, N = 400`, when `sqrt (1/400) = 1/20`:
a rational number between `10.4543` and `10.4544`. -/
theorem European.price_call_400 {sqrt : α → α} (hsq : sqrt (1 / 400) = 1 / 20)
    {e : European α}
    (he : European.new sqrt 100 (5 / 100) (2 / 10) 1 400 (PayoffCall.eval ⟨100⟩) = .ok e) :
    104543 / 10000 < e.price ∧ e.price < 104544 / 10000 := by
  obtain ⟨-, ho, -, -⟩ := European.new_eq_ok_eu he
  have h400 : (1 : α) / ((400 : Int) : α) = 1 / 400 := by
    rw [show ((400 : Int) : α) = 400 from Int.cast_ofNat 400]
  have hu : 1 + e.u_ = ((8081 : Nat) : α) / ((8000 : Nat) : α) := by
    rw [ho, Option.init_u, h400, hsq]; norm_num
  have hd : 1 + e.d_ = ((7921 : Nat) : α) / ((8000 : Nat) : α) := by
    rw [ho, Option.init_d, h400, hsq]; norm_num
  have hdisc : e.discount_ = 8000 / 8001 := by
    rw [ho, Option.init_discount, show ((400 : Int) : α) = 400 from Int.cast_ofNat 400]
    norm_num
  have hprice := European.price_binomial he
  rw [show (400 : Int).toNat = 400 from rfl, hu, hd, hdisc] at hprice
  have hsum : ∑ k in Finset.range (400 + 1), ((Nat.choose 400 k : Nat) : α) *
        PayoffCall.eval ⟨100⟩ ((100 : α) * (((8081 : Nat) : α) / ((8000 : Nat) : α)) ^ k *
          (((7921 : Nat) : α) / ((8000 : Nat) : α)) ^ (400 - k)) =
      100 / ((8000 : Nat) : α) ^ 400 *
        ((binomialSum 400 (fun i => 8081 ^ i * 7921 ^ (400 - i) - 8000 ^ 400) : Nat) : α) := by
    rw [binomialSum_eq, Nat.cast_sum, Finset.mul_sum]
    apply Finset.sum_congr rfl
    intro k hk
    have hk' : k ≤ 400 := Nat.lt_succ_iff.mp (Finset.mem_range.mp hk)
    rw [show PayoffCall.eval (⟨100⟩ : PayoffCall α) ((100 : α) *
        (((8081 : Nat) : α) / ((8000 : Nat) : α)) ^ k *
          (((7921 : Nat) : α) / ((8000 : Nat) : α)) ^ (400 - k)) =
        max ((100 : α) * (((8081 : Nat) : α) / ((8000 : Nat) : α)) ^ k *
          (((7921 : Nat) : α) / ((8000 : Nat) : α)) ^ (400 - k) - 100) 0 from rfl,
      call_leaf 100 (by norm_num) 8081 7921 8000 400 k (by norm_num) hk', Nat.cast_mul]
    ring
  rw [hsum, show ((8000 : Nat) : α) = 8000 from Nat.cast_ofNat, lattice_scale] at hprice
  obtain ⟨hlo, hhi⟩ := binomialSum_400_bounds
  have hlo' : (104543 : α) * (16002 : α) ^ 400 <
      1000000 * ((binomialSum 400 (fun i => 8081 ^ i * 7921 ^ (400 - i) - 8000 ^ 400) : Nat) : α) := by
    have := (Nat.cast_lt (α := α)).mpr hlo
    simpa only [Nat.cast_mul, Nat.cast_pow, Nat.cast_ofNat] using this
  have hhi' : (1000000 : α) *
        ((binomialSum 400 (fun i => 8081 ^ i * 7921 ^ (400 - i) - 8000 ^ 400) : Nat) : α) <
      104544 * (16002 : α) ^ 400 := by
    have := (Nat.cast_lt (α := α)).mpr hhi
    simpa only [Nat.cast_mul, Nat.cast_pow, Nat.cast_ofNat] using this
  have hpos : (0 : α) < (16002 : α) ^ 400 := pow_pos (by norm_num) 400
  rw [hprice]
  generalize ((binomialSum 400 (fun i => 8081 ^ i * 7921 ^ (400 - i) - 8000 ^ 400) : Nat) : α) = A
    at hlo' hhi'
  generalize (16002 : α) ^ 400 = D at hlo' hhi' hpos
  constructor
  · rw [div_lt_div_iff₀ (by norm_num) hpos]
    linarith
  · rw [div_lt_div_iff₀ hpos (by norm_num)]
    linarith

end crr

/-! ## The normal distribution function and the closed-form price -/

namespace crr

open MeasureTheory ProbabilityTheory

theorem gaussianPDFReal_std (t : ℝ) :
    gaussianPDFReal 0 1 t = (Real.sqrt (2 * Real.pi))⁻¹ * Real.exp (-(t ^ 2) / 2) := by
  simp [gaussianPDFReal]

theorem integral_Ioi_std : ∫ t in Set.Ioi (0 : ℝ), gaussianPDFReal 0 1 t = 1 / 2 := by
  simp_rw [gaussianPDFReal_std]
  rw [integral_mul_left]
  have h := integral_gaussian_Ioi (1 / 2)
  have e : (fun x : ℝ => Real.exp (-(1 / 2) * x ^ 2)) = fun x : ℝ => Real.exp (-(x ^ 2) / 2) := by
    funext x; congr 1; ring
  rw [e] at h
  rw [h, show Real.pi / (1 / 2) = 2 * Real.pi by ring]
  have hpos : 0 < Real.sqrt (2 * Real.pi) := Real.sqrt_pos.mpr (by positivity)
  field_simp

theorem integral_Iic_std : ∫ t in Set.Iic (0 : ℝ), gaussianPDFReal 0 1 t = 1 / 2 := by
  have htot := integral_gaussianPDFReal_eq_one 0 (one_ne_zero : (1 : NNReal) ≠ 0)
  have hint := integrable_gaussianPDFReal 0 1
  have hsplit := integral_add_compl (measurableSet_Iic (a := (0 : ℝ))) hint
  rw [Set.compl_Iic, integral_Ioi_std, htot] at hsplit
  linarith

theorem stdNormalCdf_eq {x : ℝ} (hx : 0 ≤ x) :
    stdNormalCdf x =
      1 / 2 + (Real.sqrt (2 * Real.pi))⁻¹ * ∫ t in (0 : ℝ)..x, Real.exp (-(t ^ 2) / 2) := by
  have hint := integrable_gaussianPDFReal 0 1
  have hu : Set.Iic x = Set.Iic 0 ∪ Set.Ioc 0 x := (Set.Iic_union_Ioc_eq_Iic hx).symm
  rw [stdNormalCdf, hu, setIntegral_union (Set.Iic_disjoint_Ioc (le_refl 0)) measurableSet_Ioc
    hint.integrableOn hint.integrableOn, integral_Iic_std, ← intervalIntegral.integral_of_le hx]
  simp_rw [gaussianPDFReal_std]
  rw [intervalIntegral.integral_const_mul]

theorem poly_int (x c : ℝ) :
    ∫ t in (0 : ℝ)..x, (1 - t ^ 2 / 2 + t ^ 4 / 8 + c * t ^ 6) =
      x - x ^ 3 / 6 + x ^ 5 / 40 + c * x ^ 7 / 7 := by
  have h : ∀ t ∈ Set.uIcc (0 : ℝ) x,
      HasDerivAt (fun t : ℝ => t - t ^ 3 / 6 + t ^ 5 / 40 + c * t ^ 7 / 7)
        (1 - t ^ 2 / 2 + t ^ 4 / 8 + c * t ^ 6) t := by
    intro t _
    have h1 := hasDerivAt_id t
    have h3 := (hasDerivAt_pow 3 t).div_const 6
    have h5 := (hasDerivAt_pow 5 t).div_const 40
    have h7 := ((hasDerivAt_pow 7 t).const_mul c).div_const 7
    convert ((h1.sub h3).add h5).add h7 using 1
    simp
    ring
  rw [intervalIntegral.integral_eq_sub_of_hasDerivAt h
    ((by continuity : Continuous fun t : ℝ => 1 - t ^ 2 / 2 + t ^ 4 / 8 + c * t ^ 6).intervalIntegrable _ _)]
  simp

theorem exp_taylor (t : ℝ) (h0 : 0 ≤ t) (h1 : t ≤ 1) :
    1 - t ^ 2 / 2 + t ^ 4 / 8 + (-(1 / 36)) * t ^ 6 ≤ Real.exp (-(t ^ 2) / 2) ∧
      Real.exp (-(t ^ 2) / 2) ≤ 1 - t ^ 2 / 2 + t ^ 4 / 8 + (1 / 36) * t ^ 6 := by
  have ht2 : t ^ 2 ≤ 1 := by nlinarith
  have habs : |(-(t ^ 2) / 2)| ≤ 1 := by
    rw [abs_le]; constructor <;> nlinarith [sq_nonneg t]
  have h := Real.exp_bound habs (n := 3) (by norm_num)
  have hy : |(-(t ^ 2) / 2)| = t ^ 2 / 2 := by
    rw [abs_of_nonpos (by nlinarith [sq_nonneg t])]; ring
  rw [hy] at h
  simp only [Finset.sum_range_succ, Finset.sum_range_zero, Nat.factorial] at h
  norm_num at h
  rw [abs_le] at h
  constructor <;> nlinarith [h.1, h.2]

theorem integral_exp_bounds {x : ℝ} (h0 : 0 ≤ x) (h1 : x ≤ 1) :
    x - x ^ 3 / 6 + x ^ 5 / 40 - x ^ 7 / 252 ≤ ∫ t in (0 : ℝ)..x, Real.exp (-(t ^ 2) / 2) ∧
      ∫ t in (0 : ℝ)..x, Real.exp (-(t ^ 2) / 2) ≤ x - x ^ 3 / 6 + x ^ 5 / 40 + x ^ 7 / 252 := by
  have hexp : IntervalIntegrable (fun t : ℝ => Real.exp (-(t ^ 2) / 2)) volume 0 x :=
    (by continuity : Continuous fun t : ℝ => Real.exp (-(t ^ 2) / 2)).intervalIntegrable _ _
  have hpoly : ∀ c : ℝ,
      IntervalIntegrable (fun t : ℝ => 1 - t ^ 2 / 2 + t ^ 4 / 8 + c * t ^ 6) volume 0 x :=
    fun c => (by continuity : Continuous fun t : ℝ =>
      1 - t ^ 2 / 2 + t ^ 4 / 8 + c * t ^ 6).intervalIntegrable _ _
  constructor
  · have h := intervalIntegral.integral_mono_on h0 (hpoly (-(1 / 36))) hexp
      (fun t ht => (exp_taylor t ht.1 (le_trans ht.2 h1)).1)
    rw [poly_int] at h
    linarith
  · have h := intervalIntegral.integral_mono_on h0 hexp (hpoly (1 / 36))
      (fun t ht => (exp_taylor t ht.1 (le_trans ht.2 h1)).2)
    rw [poly_int] at h
    linarith

theorem sqrt_two_pi_bounds :
    (250662 / 100000 : ℝ) < Real.sqrt (2 * Real.pi) ∧ Real.sqrt (2 * Real.pi) < 250663 / 100000 := by
  have h1 := Real.pi_gt_d20
  have h2 := Real.pi_lt_d20
  constructor
  · rw [Real.lt_sqrt (by norm_num)]
    norm_num at h1 ⊢
    linarith
  · rw [Real.sqrt_lt' (by norm_num)]
    norm_num at h2 ⊢
    linarith

theorem exp_neg_twentieth_bounds :
    (951228 / 1000000 : ℝ) < Real.exp (-(1 / 20)) ∧ Real.exp (-(1 / 20)) < 951230 / 1000000 := by
  have habs : |(-(1 / 20) : ℝ)| ≤ 1 := by rw [abs_le]; constructor <;> norm_num
  have h := Real.exp_bound habs (n := 4) (by norm_num)
  simp only [Finset.sum_range_succ, Finset.sum_range_zero, Nat.factorial] at h
  norm_num at h
  rw [abs_of_pos (by norm_num : (0 : ℝ) < 1 / 20), abs_le] at h
  norm_num at h
  constructor <;> linarith [h.1, h.2]

theorem inv_sqrt_two_pi_bounds :
    (398942 / 1000000 : ℝ) < (Real.sqrt (2 * Real.pi))⁻¹ ∧
      (Real.sqrt (2 * Real.pi))⁻¹ < 398944 / 1000000 := by
  obtain ⟨h1, h2⟩ := sqrt_two_pi_bounds
  have hpos : 0 < Real.sqrt (2 * Real.pi) := by linarith
  have hc : (Real.sqrt (2 * Real.pi))⁻¹ * Real.sqrt (2 * Real.pi) = 1 :=
    inv_mul_cancel₀ (ne_of_gt hpos)
  have hcpos : 0 < (Real.sqrt (2 * Real.pi))⁻¹ := inv_pos.mpr hpos
  constructor
  · by_contra h
    rw [not_lt] at h
    nlinarith
  · by_contra h
    rw [not_lt] at h
    nlinarith

/-- The normal distribution function at `7/20` and at `3/20`. -/
theorem stdNormalCdf_bounds :
    (636830 / 1000000 < stdNormalCdf (7 / 20) ∧ stdNormalCdf (7 / 20) < 636834 / 1000000) ∧
      (559617 / 1000000 < stdNormalCdf (3 / 20) ∧ stdNormalCdf (3 / 20) < 559619 / 1000000) := by
  obtain ⟨c1, c2⟩ := inv_sqrt_two_pi_bounds
  obtain ⟨a1, a2⟩ := integral_exp_bounds (x := 7 / 20) (by norm_num) (by norm_num)
  obtain ⟨b1, b2⟩ := integral_exp_bounds (x := 3 / 20) (by norm_num) (by norm_num)
  rw [stdNormalCdf_eq (by norm_num), stdNormalCdf_eq (by norm_num)]
  generalize (Real.sqrt (2 * Real.pi))⁻¹ = c at c1 c2
  generalize ∫ t in (0 : ℝ)..(7 / 20), Real.exp (-(t ^ 2) / 2) = I1 at a1 a2
  generalize ∫ t in (0 : ℝ)..(3 / 20), Real.exp (-(t ^ 2) / 2) = I2 at b1 b2
  norm_num at a1 a2 b1 b2
  have hI1 : (3429829 / 10000000 : ℝ) < I1 := by linarith
  have hI1' : I1 < 3429881 / 10000000 := by linarith
  have hI2 : (1494393 / 10000000 : ℝ) < I2 := by linarith
  have hI2' : I2 < 1494395 / 10000000 := by linarith
  refine ⟨⟨?_, ?_⟩, ?_, ?_⟩
  · nlinarith [mul_pos (sub_pos.mpr c1) (sub_pos.mpr hI1)]
  · nlinarith [mul_pos (sub_pos.mpr c2) (sub_pos.mpr hI1')]
  · nlinarith [mul_pos (sub_pos.mpr c1) (sub_pos.mpr hI2)]
  · nlinarith [mul_pos (sub_pos.mpr c2) (sub_pos.mpr hI2')]

/-- The closed-form price at `S0 = K = 100, r = 5/100, sigma = 2/10, T = 1`:
between `10.4503` and `10.4511`. -/
theorem blackScholesCall_bounds :
    104503 / 10000 < blackScholesCall 100 100 (5 / 100) (2 / 10) 1 ∧
      blackScholesCall 100 100 (5 / 100) (2 / 10) 1 < 104511 / 10000 := by
  have hd1 : (Real.log ((100 : ℝ) / 100) + (5 / 100 + (2 / 10 : ℝ) ^ 2 / 2) * 1) /
      (2 / 10 * Real.sqrt 1) = 7 / 20 := by
    rw [div_self (by norm_num : (100 : ℝ) ≠ 0), Real.log_one, Real.sqrt_one]; norm_num
  have hd2 : (7 / 20 : ℝ) - 2 / 10 * Real.sqrt 1 = 3 / 20 := by
    rw [Real.sqrt_one]; norm_num
  have hE : Real.exp (-(5 / 100 : ℝ) * 1) = Real.exp (-(1 / 20)) := by
    congr 1; norm_num
  unfold blackScholesCall
  rw [hd1, hd2, hE]
  obtain ⟨⟨p1, p2⟩, q1, q2⟩ := stdNormalCdf_bounds
  obtain ⟨e1, e2⟩ := exp_neg_twentieth_bounds
  generalize stdNormalCdf (7 / 20) = P at p1 p2
  generalize stdNormalCdf (3 / 20) = Q at q1 q2
  generalize Real.exp (-(1 / 20)) = E at e1 e2
  have hQ : 0 < Q := by linarith
  constructor
  · nlinarith [mul_pos (sub_pos.mpr e2) hQ]
  · nlinarith [mul_pos (sub_pos.mpr e1) hQ]

end crr

/-! ## The path to a leaf of the non-recombining tree -/

namespace crr

variable {α : Type} [LinearOrderedField α]

/-- The inner loop of `terminalValues` computes the running aggregate of the
path. -/
theorem Asian.foldl_pathAggregate (s : Asian α) (j n : Nat) :
    (List.range' 1 n).foldl
        (fun agg n => s.aggregator_ agg (get2 s.stockTreeNR_ n (j >>> (s.N_.toNat - n))) n)
        s.S0_ = s.pathAggregate j n := by
  induction n with
  | zero => rfl
  | succ n ih =>
    rw [List.range'_1_concat, List.foldl_append, ih, Nat.add_comm 1 n]
    rfl

theorem Asian.get1_terminalValues (s : Asian α) {j : Nat} (hj : j < 2 ^ s.N_.toNat) :
    get1 s.terminalValues j = s.payoff_ (s.pathAggregate j s.N_.toNat) := by
  unfold Asian.terminalValues
  simp only []
  rw [get1_map_range _ (by rw [Nat.one_shiftLeft]; exact hj), Asian.foldl_pathAggregate]

/-- The ancestor at level `n` of a leaf `j < 2^N` is a node of level `n`. -/
theorem shiftRight_lt_pow {N n j : Nat} (hn : n ≤ N) (hj : j < 2 ^ N) :
    j >>> (N - n) < 2 ^ n := by
  rw [Nat.shiftRight_eq_div_pow, Nat.div_lt_iff_lt_mul (Nat.pow_pos (by decide)), ← pow_add,
    Nat.add_sub_cancel' hn]
  exact hj

/-- The ancestor at level `n + 1` is the child of the ancestor at level `n`
chosen by the bit `N - (n + 1)` of the leaf. -/
theorem shiftRight_child {N n : Nat} (j : Nat) (hn : n < N) :
    j >>> (N - (n + 1)) =
      2 * (j >>> (N - n)) + (if j.testBit (N - (n + 1)) then 1 else 0) := by
  have hk : N - n = (N - (n + 1)) + 1 := by omega
  rw [hk, Nat.shiftRight_succ, Nat.testBit_to_div_mod, ← Nat.shiftRight_eq_div_pow]
  rcases Nat.mod_two_eq_zero_or_one (j >>> (N - (n + 1))) with h | h
  · simp [h]; omega
  · simp [h]; omega

/-- The prices along the path to a leaf: each one is the previous one moved up
or down according to a bit of the leaf. -/
theorem get2_buildStockTreeNR_path (o : Option α) {n j : Nat} (hn : n < o.N_.toNat)
    (hj : j < 2 ^ o.N_.toNat) :
    get2 (buildStockTreeNR o) (n + 1) (j >>> (o.N_.toNat - (n + 1))) =
      get2 (buildStockTreeNR o) n (j >>> (o.N_.toNat - n)) *
        (1 + (if j.testBit (o.N_.toNat - (n + 1)) then o.u_ else o.d_)) := by
  have hlt := shiftRight_lt_pow (le_of_lt hn) hj
  rw [shiftRight_child j hn]
  by_cases hb : j.testBit (o.N_.toNat - (n + 1))
  · rw [if_pos hb, if_pos hb, get2_buildStockTreeNR_up o hn hlt]
  · rw [if_neg hb, if_neg hb, add_zero, get2_buildStockTreeNR_down o hn hlt]

end crr

/-! ## The grid cell of a point query -/

section cell

variable {α : Type} [LinearOrderedField α] [FloorRing α]

/-- The conversion `(int)x` of a non-negative number is its floor. -/
theorem toInt_of_nonneg {x : α} (hx : 0 ≤ x) : toInt x = ⌊x⌋ := by
  unfold toInt
  rw [if_neg (not_lt.mpr hx)]

theorem toInt_natCast (n : Nat) : toInt (n : α) = (n : Int) := by
  rw [toInt_of_nonneg (Nat.cast_nonneg n), Int.floor_natCast]

/-- The floor of `x / h` is a cell index below `n` when `0 <= x < h * n`. -/
theorem floor_div_bounds {x h : α} {n : Int} (hh : 0 < h) (h0 : 0 ≤ x) (h1 : x < h * (n : α)) :
    0 ≤ ⌊x / h⌋ ∧ ⌊x / h⌋ ≤ n - 1 := by
  constructor
  · exact Int.floor_nonneg.mpr (div_nonneg h0 (le_of_lt hh))
  · have : ⌊x / h⌋ < n := by
      rw [Int.floor_lt, div_lt_iff₀ hh, mul_comm]
      exact h1
    omega

/-- The fractional offset within the cell is in `[0, 1)`. -/
theorem offset_bounds {x h : α} (hh : 0 < h) :
    0 ≤ (x - h * ((⌊x / h⌋ : Int) : α)) / h ∧ (x - h * ((⌊x / h⌋ : Int) : α)) / h < 1 := by
  have e : (x - h * ((⌊x / h⌋ : Int) : α)) / h = Int.fract (x / h) := by
    rw [Int.fract]
    field_simp
  rw [e]
  exact ⟨Int.fract_nonneg _, Int.fract_lt_one _⟩

end cell

namespace pde

variable {α : Type} [LinearOrderedField α] [FloorRing α]

/-- The hedge query in the domain: the clamped difference quotient on the row
and the columns chosen by the cell of `(t, S)`. -/
theorem FDMethod.delta_interior (m : FDMethod α) {t S : α} (ht : ¬ (t < 0 ∨ t > m.pde_.T))
    (hS : ¬ (S < m.pde_.Smin ∨ S > m.pde_.Smax)) :
    m.delta t S = .ok (min 1 (max (-1)
      (if toInt ((S - m.pde_.Smin) / m.dS_) = 0 then
        (get2 m.V (toInt (t / m.dt_)).toNat 1 - get2 m.V (toInt (t / m.dt_)).toNat 0) / m.dS_
      else if toInt ((S - m.pde_.Smin) / m.dS_) = m.jmax_ then
        (get2 m.V (toInt (t / m.dt_)).toNat m.jmax_.toNat -
          get2 m.V (toInt (t / m.dt_)).toNat (m.jmax_ - 1).toNat) / m.dS_
      else
        (get2 m.V (toInt (t / m.dt_)).toNat (toInt ((S - m.pde_.Smin) / m.dS_) + 1).toNat -
          get2 m.V (toInt (t / m.dt_)).toNat (toInt ((S - m.pde_.Smin) / m.dS_) - 1).toNat) /
            (2 * m.dS_)))) := by
  unfold FDMethod.delta
  rw [if_neg ht, if_neg hS]

end pde

namespace pde

variable {α : Type} [LinearOrderedField α]

/-- The steps of an accepted grid on an accepted domain are positive and span
the domain. -/
theorem FDMethod.steps_of_new {T Smin Smax : α} {a b c d : α → α → α}
    {Terminal Lower Upper : α → α} {pde : ParabPDE α} {imax jmax : Int} {m : FDMethod α}
    (hp : ParabPDE.new T Smin Smax a b c d Terminal Lower Upper = .ok pde)
    (hm : FDMethod.new pde imax jmax = .ok m) :
    (0 < m.dt_ ∧ m.dt_ * (imax : α) = T) ∧ (0 < m.dS_ ∧ m.dS_ * (jmax : α) = Smax - Smin) ∧
      (m.pde_.T = T ∧ m.pde_.Smin = Smin ∧ m.pde_.Smax = Smax) ∧
      (m.imax_ = imax ∧ m.jmax_ = jmax) ∧ (0 < imax ∧ 1 < jmax) ∧ (0 < T ∧ Smin < Smax) := by
  obtain ⟨⟨hT, hS, -⟩, rfl⟩ := ParabPDE.new_eq_ok_pde hp
  obtain ⟨⟨hi, hj⟩, hpde, himax, hjmax, hdt, hdS, -⟩ := FDMethod.new_eq_ok_fields hm
  have hiα : (0 : α) < (imax : α) := by exact_mod_cast hi
  have hjα : (0 : α) < (jmax : α) := by exact_mod_cast (lt_trans Int.zero_lt_one hj)
  refine ⟨⟨?_, ?_⟩, ⟨?_, ?_⟩, ⟨by rw [hpde]; rfl, by rw [hpde]; rfl, by rw [hpde]; rfl⟩,
    ⟨himax, hjmax⟩, ⟨hi, hj⟩, hT, hS⟩
  · rw [hdt]; exact div_pos hT hiα
  · rw [hdt]; exact div_mul_cancel₀ _ (ne_of_gt hiα)
  · rw [hdS]; exact div_pos (sub_pos.mpr hS) hjα
  · rw [hdS]; exact div_mul_cancel₀ _ (ne_of_gt hjα)

end pde

/-! ## The pivots of the forward elimination -/

namespace pde

variable {α : Type} [LinearOrderedField α]

/-- The method `LUDecomposition` is its back-substitution run on the vectors of
its forward elimination. -/
theorem ImplicitScheme.LUDecomposition_eq_back (s : ImplicitScheme α) (i : Int) (q : List α) :
    s.LUDecomposition i q =
      forDown (fun j p => p.set j
          ((get1 (s.forwardElimination i q).2 j - s.G i j * get1 p (j + 1)) /
            get1 (s.forwardElimination i q).1 j))
        (s.jmax_.toNat - 2)
        ((List.replicate (s.jmax_.toNat + 1) (0 : α)).set (s.jmax_.toNat - 1)
          (get1 (s.forwardElimination i q).2 (s.jmax_.toNat - 1) /
            get1 (s.forwardElimination i q).1 (s.jmax_.toNat - 1))) :=
  rfl

/-- The vector `r` of the forward elimination holds the pivots on the interior
indices. -/
theorem ImplicitScheme.get1_forwardElimination_pivot (s : ImplicitScheme α) (i : Int)
    (q : List α) (hjm : 2 ≤ s.jmax_.toNat) :
    ∀ j : Nat, 1 ≤ j → j ≤ s.jmax_.toNat - 1 →
      get1 (s.forwardElimination i q).1 j = s.pivot i j := by
  unfold ImplicitScheme.forwardElimination
  simp only []
  obtain ⟨fA, fB⟩ := forUp_elimination (fun j : Nat => s.F i j) (fun j : Nat => s.E i j)
    (fun j : Nat => s.G i ((j : Int) - 1)) q (s.jmax_.toNat - 2) 2
    ((List.replicate (s.jmax_.toNat + 1) (0 : α)).set 1 (s.F i 1))
    ((List.replicate (s.jmax_.toNat + 1) (0 : α)).set 1 (get1 q 1))
    (by simp; omega) (by simp; omega) (by omega)
  generalize forUp (fun j (ry : List α × List α) =>
      (ry.1.set j (s.F i j - s.E i j * s.G i ((j : Int) - 1) / get1 ry.1 (j - 1)),
        ry.2.set j (get1 q j - s.E i j * get1 ry.2 (j - 1) / get1 ry.1 (j - 1))))
      (s.jmax_.toNat - 2) 2
      ((List.replicate (s.jmax_.toNat + 1) (0 : α)).set 1 (s.F i 1),
        (List.replicate (s.jmax_.toNat + 1) (0 : α)).set 1 (get1 q 1)) = ry at fA fB ⊢
  have hr1 : get1 ry.1 1 = s.F i 1 := by
    rw [(fA 1 (by omega)).1, get1_set_self _ _ (by simp; omega)]
  intro j
  induction j with
  | zero => intro h; omega
  | succ j ih =>
    intro _ h2
    rcases Nat.eq_zero_or_pos j with rfl | hpos
    · rw [hr1]; rfl
    · obtain ⟨k, rfl⟩ : ∃ k, j = k + 1 := ⟨j - 1, by omega⟩
      rw [(fB (k + 1 + 1) (by omega) (by omega)).1, ImplicitScheme.pivot,
        ← ih (by omega) (by omega)]
      rfl

/-- Under strict diagonal dominance of the interior rows, every pivot exceeds in
absolute value the super-diagonal entry of its row. -/
theorem ImplicitScheme.pivot_dominant (s : ImplicitScheme α) (i : Int) (n : Nat)
    (hdom : ∀ j : Nat, 1 ≤ j → j ≤ n → |s.F i j| > |s.E i j| + |s.G i j|) :
    ∀ j : Nat, 1 ≤ j → j ≤ n → |s.pivot i j| > |s.G i j| := by
  intro j
  induction j with
  | zero => intro h; omega
  | succ j ih =>
    intro _ h2
    rcases Nat.eq_zero_or_pos j with rfl | hpos
    · have h := hdom 1 (le_refl _) h2
      have hE := abs_nonneg (s.E i ((1 : Nat) : Int))
      show |s.F i 1| > |s.G i ((0 + 1 : Nat) : Int)|
      have e : ((0 + 1 : Nat) : Int) = 1 := rfl
      rw [e]
      have e1 : ((1 : Nat) : Int) = 1 := rfl
      rw [e1] at h hE
      linarith
    · obtain ⟨k, rfl⟩ : ∃ k, j = k + 1 := ⟨j - 1, by omega⟩
      have hprev := ih (by omega) (by omega)
      have h := hdom (k + 1 + 1) (by omega) h2
      have hcast : (((k + 2 : Nat) : Int) - 1) = ((k + 1 : Nat) : Int) := by
        push_cast; ring
      have hne : 0 < |s.pivot i (k + 1)| := lt_of_le_of_lt (abs_nonneg _) hprev
      have hq : |s.E i ((k + 2 : Nat) : Int) * s.G i ((k + 1 : Nat) : Int) /
          s.pivot i (k + 1)| ≤ |s.E i ((k + 2 : Nat) : Int)| := by
        rw [abs_div, abs_mul, div_le_iff₀ hne]
        exact mul_le_mul_of_nonneg_left (le_of_lt hprev) (abs_nonneg _)
      have hp : s.pivot i (k + 1 + 1) = s.F i ((k + 2 : Nat) : Int) -
          s.E i ((k + 2 : Nat) : Int) * s.G i ((k + 1 : Nat) : Int) / s.pivot i (k + 1) := by
        rw [ImplicitScheme.pivot, hcast]
      rw [hp]
      have htri := abs_sub_abs_le_abs_sub (s.F i ((k + 2 : Nat) : Int))
        (s.E i ((k + 2 : Nat) : Int) * s.G i ((k + 1 : Nat) : Int) / s.pivot i (k + 1))
      have e2 : ((k + 1 + 1 : Nat) : Int) = ((k + 2 : Nat) : Int) := rfl
      rw [e2] at h ⊢
      linarith

end pde

/-! ## The Crank-Nicolson row of a diffusion -/

section cnrow

variable {α : Type} [LinearOrderedField α]

/-- The algebra of one Crank-Nicolson row of the Black-Scholes operator: with
`a = -(1/2) (v x)^2`, `b = -r x`, `c = r`, steps `dt, h > 0`, rate `r >= 0`,
price `x >= 0` and `v^2 x >= r h`, the coefficients `e = -A`, `f = 2 - B`,
`g = -C` satisfy `e <= 0`, `g <= 0`, `f > 0` and `f - |e| - |g| = 1 + dt r / 2`. -/
theorem cn_row_dominant {dt h r v x e f g : α} (hdt : 0 < dt) (hh : 0 < h) (hr : 0 ≤ r)
    (hx : 0 ≤ x) (hvol : r * h ≤ v ^ 2 * x)
    (he : e = -(1 / 2 * dt * (-r * x / 2 - -(1 / 2) * (v * x) ^ 2 / h) / h))
    (hf : f = 2 - (1 + 1 / 2 * dt * (2 * (-(1 / 2) * (v * x) ^ 2) / (h * h) - r)))
    (hg : g = -(-(1 / 2) * dt * (-r * x / 2 + -(1 / 2) * (v * x) ^ 2 / h) / h)) :
    (e ≤ 0 ∧ g ≤ 0 ∧ 0 < f) ∧ f - |e| - |g| = 1 + 1 / 2 * dt * r ∧
      1 + 1 / 2 * dt * r ≥ 1 ∧ |f| > |e| + |g| := by
  have h0 : h ≠ 0 := ne_of_gt hh
  have hdd : 0 < h * h := mul_pos hh hh
  have hv2 : 0 ≤ v ^ 2 := sq_nonneg v
  have hA : 0 ≤ 1 / 4 * dt * x * (v ^ 2 * x - r * h) / (h * h) :=
    div_nonneg (mul_nonneg (mul_nonneg (mul_nonneg (by norm_num) (le_of_lt hdt)) hx)
      (sub_nonneg.mpr hvol)) (le_of_lt hdd)
  have hC : 0 ≤ 1 / 4 * dt * x * (v ^ 2 * x + r * h) / (h * h) :=
    div_nonneg (mul_nonneg (mul_nonneg (mul_nonneg (by norm_num) (le_of_lt hdt)) hx)
      (add_nonneg (mul_nonneg hv2 hx) (mul_nonneg hr (le_of_lt hh)))) (le_of_lt hdd)
  have hQ : 0 ≤ 1 / 2 * dt * (v ^ 2 * x ^ 2) / (h * h) :=
    div_nonneg (mul_nonneg (mul_nonneg (by norm_num) (le_of_lt hdt))
      (mul_nonneg hv2 (sq_nonneg x))) (le_of_lt hdd)
  have hdtR : 0 ≤ 1 / 2 * dt * r := mul_nonneg (mul_nonneg (by norm_num) (le_of_lt hdt)) hr
  have he2 : e = -(1 / 4 * dt * x * (v ^ 2 * x - r * h) / (h * h)) := by
    rw [he]; field_simp; ring
  have hg2 : g = -(1 / 4 * dt * x * (v ^ 2 * x + r * h) / (h * h)) := by
    rw [hg]; field_simp; ring
  have hf2 : f = 1 + 1 / 2 * dt * r + 1 / 2 * dt * (v ^ 2 * x ^ 2) / (h * h) := by
    rw [hf]; field_simp; ring
  have hS : 1 / 2 * dt * (v ^ 2 * x ^ 2) / (h * h) -
      1 / 4 * dt * x * (v ^ 2 * x - r * h) / (h * h) -
      1 / 4 * dt * x * (v ^ 2 * x + r * h) / (h * h) = 0 := by
    field_simp; ring
  have hE0 : e ≤ 0 := by rw [he2]; exact neg_nonpos.mpr hA
  have hG0 : g ≤ 0 := by rw [hg2]; exact neg_nonpos.mpr hC
  have hF0 : 0 < f := by
    rw [hf2]
    exact add_pos_of_pos_of_nonneg (add_pos_of_pos_of_nonneg one_pos hdtR) hQ
  have hsum : f - |e| - |g| = 1 + 1 / 2 * dt * r := by
    rw [abs_of_nonpos hE0, abs_of_nonpos hG0, he2, hg2, hf2, neg_neg, neg_neg]
    linear_combination hS
  refine ⟨⟨hE0, hG0, hF0⟩, hsum, by linarith only [hdtR], ?_⟩
  rw [abs_of_pos hF0]
  linarith only [hsum, hdtR]

end cnrow

/-! ## The degenerate lattice -/

namespace crr

variable {α : Type} [LinearOrderedField α]

/-- With `sigma = 0` the two one-step returns of the lattice coincide. -/
theorem Option.init_u_eq_d (sqrt : α → α) (S0 R T : α) (N : Int) :
    (Option.init sqrt S0 R 0 T N).u_ = (Option.init sqrt S0 R 0 T N).d_ := by
  rw [Option.init_u, Option.init_d]
  ring

/-- When the two returns coincide, the two successors of a node of the
recombining tree carry the same price. -/
theorem get2_buildStockTree_succ_sub (o : Option α) (h : o.u_ = o.d_) {n i : Nat}
    (hi : i ≤ n) (hn : n < o.N_.toNat) :
    get2 (buildStockTree o) (n + 1) (i + 1) - get2 (buildStockTree o) (n + 1) i = 0 := by
  rw [get2_buildStockTree_up o hi hn, get2_buildStockTree_down o hi hn, h, sub_self]

/-- When the two returns coincide, the two children of a node of the
non-recombining tree carry the same price. -/
theorem get2_buildStockTreeNR_succ_sub (o : Option α) (h : o.u_ = o.d_) {n j : Nat}
    (hn : n < o.N_.toNat) (hj : j < 2 ^ n) :
    get2 (buildStockTreeNR o) (n + 1) (2 * j + 1) -
      get2 (buildStockTreeNR o) (n + 1) (2 * j) = 0 := by
  rw [get2_buildStockTreeNR_up o hn hj, get2_buildStockTreeNR_down o hn hj, h, sub_self]

end crr

/-! ## Claims -/

namespace crr

open opt

variable {α : Type} [LinearOrderedField α]

/-- C1: discounted put-call parity on the lattice.  For parameters accepted by
the `Option` constructor and a strike accepted by the payoff constructors,
with `1 + R*T/N != 0`, the price of the European call minus the price of the
European put is `S0 - K * discount^N`, where `discount = 1 / (1 + R*T/N)`. -/
theorem European.put_call_parity (sqrt : α → α) (S0 R sigma T K : α) (N : Int)
    (pc : PayoffCall α) (pp : PayoffPut α) (c p : European α)
    (hpc : PayoffCall.new K = .ok pc) (hpp : PayoffPut.new K = .ok pp)
    (hc : European.new sqrt S0 R sigma T N pc.eval = .ok c)
    (hp : European.new sqrt S0 R sigma T N pp.eval = .ok p)
    (hR : 1 + R * T / (N : α) ≠ 0) :
    c.price - p.price = S0 - K * (1 / (1 + R * T / (N : α))) ^ N.toNat := by
  obtain ⟨-, hKc⟩ := PayoffCall.new_eq_ok_call hpc
  obtain ⟨-, hKp⟩ := PayoffPut.new_eq_ok_put hpp
  obtain ⟨-, hoc, hfc, htc⟩ := European.new_eq_ok_eu hc
  obtain ⟨-, hop, hfp, htp⟩ := European.new_eq_ok_eu hp
  have hNc : c.N_.toNat = N.toNat := by rw [hoc]; rfl
  have hNp : p.N_.toNat = N.toNat := by rw [hop]; rfl
  have hdc : c.discount_ = 1 / (1 + R * T / (N : α)) := by
    rw [hoc]; exact Option.init_discount ..
  have hdp : p.discount_ = 1 / (1 + R * T / (N : α)) := by
    rw [hop]; exact Option.init_discount ..
  have htc' : c.stockTree_ = crr.buildStockTree (Option.init sqrt S0 R sigma T N) := by
    rw [htc, hoc]
  have htp' : p.stockTree_ = crr.buildStockTree (Option.init sqrt S0 R sigma T N) := by
    rw [htp, hop]
  have key : ∀ n, n ≤ N.toNat → ∀ i, i ≤ n →
      get2 c.treePrice n i - get2 p.treePrice n i =
        get2 (crr.buildStockTree (Option.init sqrt S0 R sigma T N)) n i -
          K * (1 / (1 + R * T / (N : α))) ^ (N.toNat - n) := by
    apply downward_induction
    · intro i hi
      have h1 := European.get2_treePrice_last_eu c (i := i) (by rw [hNc]; exact hi)
      have h2 := European.get2_treePrice_last_eu p (i := i) (by rw [hNp]; exact hi)
      rw [hNc] at h1
      rw [hNp] at h2
      rw [h1, h2, hfc, hfp, htc', htp', eval_call_sub_eval_put pc pp (by rw [hKc, hKp]), hKp]
      simp
    · intro n hn ih i hi
      rw [European.get2_treePrice_step_eu c hi (by rw [hNc]; exact hn),
        European.get2_treePrice_step_eu p hi (by rw [hNp]; exact hn), hdc, hdp]
      have hu := ih (i + 1) (Nat.succ_le_succ hi)
      have hd := ih i (Nat.le_succ_of_le hi)
      have hm := get2_buildStockTree_martingale sqrt S0 R sigma T N hR hi hn
      have hpow : (1 / (1 + R * T / (N : α))) ^ (N.toNat - n) =
          1 / (1 + R * T / (N : α)) * (1 / (1 + R * T / (N : α))) ^ (N.toNat - (n + 1)) := by
        rw [← pow_succ']
        congr 1
        omega
      rw [hpow]
      linear_combination (1 / (1 + R * T / (N : α)) * (1 / 2)) * (hu + hd) + hm
  have h0 := key 0 (Nat.zero_le _) 0 (le_refl 0)
  rw [get2_buildStockTree _ (le_refl 0) (Nat.zero_le _)] at h0
  simpa [European.price, Option.init_S0] using h0

/-- Witness of C1 at `S0 = 100, R = 1/20, sigma = 1/5, T = 1, N = 2, K = 100`. -/
theorem European.put_call_parity_witness :
    ∃ c p : European ℚ,
      European.new Rat.sqrt 100 (1 / 20) (1 / 5) 1 2 (PayoffCall.eval ⟨100⟩) = .ok c ∧
      European.new Rat.sqrt 100 (1 / 20) (1 / 5) 1 2 (PayoffPut.eval ⟨100⟩) = .ok p ∧
      c.price - p.price = 100 - 100 * (1 / (1 + 1 / 20 * 1 / ((2 : Int) : ℚ))) ^ (2 : Int).toNat :=
  ⟨_, _,
    European.new_of_valid_eu _ _ _ (by norm_num) (by norm_num) (by norm_num) (by norm_num),
    European.new_of_valid_eu _ _ _ (by norm_num) (by norm_num) (by norm_num) (by norm_num),
    European.put_call_parity Rat.sqrt 100 (1 / 20) (1 / 5) 1 100 2 ⟨100⟩ ⟨100⟩ _ _
      (PayoffCall.new_of_nonneg (by norm_num)) (PayoffPut.new_of_nonneg_put (by norm_num))
      (European.new_of_valid_eu _ _ _ (by norm_num) (by norm_num) (by norm_num) (by norm_num))
      (European.new_of_valid_eu _ _ _ (by norm_num) (by norm_num) (by norm_num) (by norm_num))
      (by norm_num)⟩

end crr

namespace crr

open opt

variable {α : Type} [LinearOrderedField α]

/-- C2, refuted as stated: at `S0 = 4, R = -3/2, sigma = 0, T = 2, N = 2, K = 4`
every constructor accepts its arguments, the one-step discount factor is
`1 / (1 + R*T/N) = -2`, the American put is worth `0` and the European put `12`. -/
theorem American.put_ge_european_counterexample :
    ∃ (pp : PayoffPut ℚ) (a : American ℚ) (e : European ℚ),
      PayoffPut.new 4 = .ok pp ∧
      American.new Rat.sqrt 4 (-3 / 2) 0 2 2 pp.eval = .ok a ∧
      European.new Rat.sqrt 4 (-3 / 2) 0 2 2 pp.eval = .ok e ∧
      a.price = 0 ∧ e.price = 12 ∧ ¬ (e.price ≤ a.price) := by
  have hD : (1 : ℚ) / (1 + -3 / 2 * (2 / ((2 : Int) : ℚ))) = -2 := by norm_num
  have hS : ∀ n i, i ≤ n → n ≤ 2 →
      get2 (crr.buildStockTree (Option.init Rat.sqrt 4 (-3 / 2) 0 2 2)) n i =
        4 * (-1 / 2 : ℚ) ^ n := by
    intro n i hi hn
    rw [get2_buildStockTree _ hi (by simpa [Option.init] using hn)]
    have hu : (Option.init Rat.sqrt (4 : ℚ) (-3 / 2) 0 2 2).u_ = -3 / 2 := by
      simp [Option.init]
    have hd : (Option.init Rat.sqrt (4 : ℚ) (-3 / 2) 0 2 2).d_ = -3 / 2 := by
      simp [Option.init]
    rw [hu, hd, Option.init_S0, mul_assoc, ← pow_add, Nat.add_sub_cancel' hi]
    norm_num
  have hp : ∀ x : ℚ, PayoffPut.eval ⟨4⟩ x = max (4 - x) 0 := fun _ => rfl
  refine ⟨⟨4⟩, _, _, PayoffPut.new_of_nonneg_put (by norm_num),
    American.new_of_valid_am _ _ _ (by norm_num) (by norm_num) (by norm_num) (by norm_num),
    European.new_of_valid_eu _ _ _ (by norm_num) (by norm_num) (by norm_num) (by norm_num),
    ?_⟩
  generalize ha : American.buildStockTree
    { toOption := Option.init Rat.sqrt (4 : ℚ) (-3 / 2) 0 2 2,
      payoff_ := PayoffPut.eval ⟨4⟩, stockTree_ := [] } = a
  generalize he : European.buildStockTree
    { toOption := Option.init Rat.sqrt (4 : ℚ) (-3 / 2) 0 2 2,
      payoff_ := PayoffPut.eval ⟨4⟩, stockTree_ := [] } = e
  have haN : a.N_.toNat = 2 := by rw [← ha]; rfl
  have heN : e.N_.toNat = 2 := by rw [← he]; rfl
  have haD : a.discount_ = -2 := by rw [← ha]; exact hD
  have heD : e.discount_ = -2 := by rw [← he]; exact hD
  have haP : a.payoff_ = PayoffPut.eval ⟨4⟩ := by rw [← ha]; rfl
  have heP : e.payoff_ = PayoffPut.eval ⟨4⟩ := by rw [← he]; rfl
  have haT : a.stockTree_ = crr.buildStockTree (Option.init Rat.sqrt 4 (-3 / 2) 0 2 2) := by
    rw [← ha]; rfl
  have heT : e.stockTree_ = crr.buildStockTree (Option.init Rat.sqrt 4 (-3 / 2) 0 2 2) := by
    rw [← he]; rfl
  -- the last level: the payoff at the price 1
  have a2 : ∀ i, i ≤ 2 → get2 a.treePrice 2 i = 3 := by
    intro i hi
    have h := American.get2_treePrice_last_am a (i := i) (by rw [haN]; exact hi)
    rw [haN, haP, haT, hS 2 i hi (le_refl 2), hp] at h
    rw [h]; norm_num
  have e2 : ∀ i, i ≤ 2 → get2 e.treePrice 2 i = 3 := by
    intro i hi
    have h := European.get2_treePrice_last_eu e (i := i) (by rw [heN]; exact hi)
    rw [heN, heP, heT, hS 2 i hi (le_refl 2), hp] at h
    rw [h]; norm_num
  -- level 1: the price is -2, exercising pays 6, continuing is worth -6
  have a1 : ∀ i, i ≤ 1 → get2 a.treePrice 1 i = 6 := by
    intro i hi
    rw [American.get2_treePrice_step_am a hi (by rw [haN]; decide), haD, haP, haT,
      hS 1 i hi (by decide), hp, a2 (i + 1) (by omega), a2 i (by omega)]
    norm_num
  have e1 : ∀ i, i ≤ 1 → get2 e.treePrice 1 i = -6 := by
    intro i hi
    rw [European.get2_treePrice_step_eu e hi (by rw [heN]; decide), heD,
      e2 (i + 1) (by omega), e2 i (by omega)]
    norm_num
  -- the root: the price is 4, exercising pays 0, continuing is worth -12 or 12
  have a0 : a.price = 0 := by
    rw [American.price, American.get2_treePrice_step_am a (le_refl 0) (by rw [haN]; decide),
      haD, haP, haT, hS 0 0 (le_refl 0) (by decide), hp, a1 1 (le_refl 1), a1 0 (by decide)]
    norm_num
  have e0 : e.price = 12 := by
    rw [European.price, European.get2_treePrice_step_eu e (le_refl 0) (by rw [heN]; decide),
      heD, e1 1 (le_refl 1), e1 0 (by decide)]
    norm_num
  refine ⟨a0, e0, ?_⟩
  rw [a0, e0]
  norm_num

/-- C2, amended: for parameters accepted by the constructors, a strike accepted
by the put constructor, and a positive one-step growth factor `1 + R*T/N > 0`,
the American put is worth at least the European put. -/
theorem American.put_ge_european (sqrt : α → α) (S0 R sigma T K : α) (N : Int)
    (pp : PayoffPut α) (a : American α) (e : European α)
    (_hpp : PayoffPut.new K = .ok pp)
    (ha : American.new sqrt S0 R sigma T N pp.eval = .ok a)
    (he : European.new sqrt S0 R sigma T N pp.eval = .ok e)
    (hR : 0 < 1 + R * T / (N : α)) :
    e.price ≤ a.price := by
  obtain ⟨-, hoa, hfa, hta⟩ := American.new_eq_ok_am ha
  obtain ⟨-, hoe, hfe, hte⟩ := European.new_eq_ok_eu he
  have hpos : 0 ≤ e.discount_ := by
    rw [hoe]; exact le_of_lt (Option.init_discount_pos sqrt S0 R sigma T N hR)
  exact American.treePrice_ge_european a e (by rw [hoa, hoe]) (by rw [hoa, hoe])
    (by rw [hfa, hfe]) (by rw [hta, hte, hoa, hoe]) hpos 0 (Nat.zero_le _) 0 (le_refl 0)

/-- Witness of the amended C2 at `S0 = 100, R = 1/20, sigma = 1/5, T = 1, N = 2,
K = 100`. -/
theorem American.put_ge_european_witness :
    ∃ (a : American ℚ) (e : European ℚ),
      American.new Rat.sqrt 100 (1 / 20) (1 / 5) 1 2 (PayoffPut.eval ⟨100⟩) = .ok a ∧
      European.new Rat.sqrt 100 (1 / 20) (1 / 5) 1 2 (PayoffPut.eval ⟨100⟩) = .ok e ∧
      e.price ≤ a.price :=
  ⟨_, _,
    American.new_of_valid_am _ _ _ (by norm_num) (by norm_num) (by norm_num) (by norm_num),
    European.new_of_valid_eu _ _ _ (by norm_num) (by norm_num) (by norm_num) (by norm_num),
    American.put_ge_european Rat.sqrt 100 (1 / 20) (1 / 5) 1 100 2 ⟨100⟩ _ _
      (PayoffPut.new_of_nonneg_put (by norm_num))
      (American.new_of_valid_am _ _ _ (by norm_num) (by norm_num) (by norm_num) (by norm_num))
      (European.new_of_valid_eu _ _ _ (by norm_num) (by norm_num) (by norm_num) (by norm_num))
      (by norm_num)⟩

end crr

namespace crr

open opt

variable {α : Type} [LinearOrderedField α]

/-- C3: for parameters accepted by the constructors, a rate `R >= 0` and a
strike accepted by the call constructor (`K >= 0`), the American call equals
the European call at every node `0 <= i <= n <= N` of `treePrice()`, hence the
two `price()` values are equal. -/
theorem American.call_eq_european (sqrt : α → α) (S0 R sigma T K : α) (N : Int)
    (pc : PayoffCall α) (a : American α) (e : European α)
    (hpc : PayoffCall.new K = .ok pc)
    (ha : American.new sqrt S0 R sigma T N pc.eval = .ok a)
    (he : European.new sqrt S0 R sigma T N pc.eval = .ok e)
    (hR : 0 ≤ R) :
    (∀ n i, i ≤ n → n ≤ N.toNat → get2 a.treePrice n i = get2 e.treePrice n i) ∧
    a.price = e.price := by
  obtain ⟨hK, hKc⟩ := PayoffCall.new_eq_ok_call hpc
  obtain ⟨⟨-, -, hT, hN0⟩, hoa, hfa, hta⟩ := American.new_eq_ok_am ha
  obtain ⟨-, hoe, hfe, hte⟩ := European.new_eq_ok_eu he
  have hNa : a.N_.toNat = N.toNat := by rw [hoa]; rfl
  have hNe : e.N_.toNat = N.toNat := by rw [hoe]; rfl
  have hg1 : 1 ≤ 1 + R * T / (N : α) := one_le_growth hR hT hN0
  have hg0 : 1 + R * T / (N : α) ≠ 0 := by linarith
  have hda : a.discount_ = 1 / (1 + R * T / (N : α)) := by
    rw [hoa]; exact Option.init_discount ..
  have hde : e.discount_ = 1 / (1 + R * T / (N : α)) := by
    rw [hoe]; exact Option.init_discount ..
  have hD0 : 0 ≤ 1 / (1 + R * T / (N : α)) := by
    apply div_nonneg <;> linarith
  have hD1 : 1 / (1 + R * T / (N : α)) ≤ 1 := by
    rw [div_le_one (by linarith)]; exact hg1
  have hta' : a.stockTree_ = crr.buildStockTree (Option.init sqrt S0 R sigma T N) := by
    rw [hta, hoa]
  have hte' : e.stockTree_ = crr.buildStockTree (Option.init sqrt S0 R sigma T N) := by
    rw [hte, hoe]
  -- the European call is never worth less than immediate exercise
  have hlow : ∀ n, n ≤ N.toNat → ∀ i, i ≤ n →
      0 ≤ get2 e.treePrice n i ∧
      get2 (crr.buildStockTree (Option.init sqrt S0 R sigma T N)) n i - K ≤
        get2 e.treePrice n i := by
    apply downward_induction
    · intro i hi
      have h := European.get2_treePrice_last_eu e (i := i) (by rw [hNe]; exact hi)
      rw [hNe, hfe, hte'] at h
      rw [h]
      exact ⟨PayoffCall.eval_nonneg _ _, by rw [← hKc]; exact PayoffCall.sub_le_eval _ _⟩
    · intro n hn ih i hi
      rw [European.get2_treePrice_step_eu e hi (by rw [hNe]; exact hn), hde]
      obtain ⟨hu0, hu⟩ := ih (i + 1) (Nat.succ_le_succ hi)
      obtain ⟨hd0, hd⟩ := ih i (Nat.le_succ_of_le hi)
      have hm := get2_buildStockTree_martingale sqrt S0 R sigma T N hg0 hi hn
      constructor
      · exact mul_nonneg (mul_nonneg hD0 (by norm_num)) (add_nonneg hu0 hd0)
      · have h1 : 1 / (1 + R * T / (N : α)) * (1 / 2) *
            ((get2 (crr.buildStockTree (Option.init sqrt S0 R sigma T N)) (n + 1) (i + 1) - K) +
              (get2 (crr.buildStockTree (Option.init sqrt S0 R sigma T N)) (n + 1) i - K)) ≤
            1 / (1 + R * T / (N : α)) * (1 / 2) *
              (get2 e.treePrice (n + 1) (i + 1) + get2 e.treePrice (n + 1) i) :=
          mul_le_mul_of_nonneg_left (add_le_add hu hd) (mul_nonneg hD0 (by norm_num))
        have h2 : 1 / (1 + R * T / (N : α)) * K ≤ K := by
          calc 1 / (1 + R * T / (N : α)) * K ≤ 1 * K := mul_le_mul_of_nonneg_right hD1 hK
            _ = K := one_mul K
        linarith
  have key : ∀ n, n ≤ N.toNat → ∀ i, i ≤ n →
      get2 a.treePrice n i = get2 e.treePrice n i := by
    apply downward_induction
    · intro i hi
      have h1 := American.get2_treePrice_last_am a (i := i) (by rw [hNa]; exact hi)
      have h2 := European.get2_treePrice_last_eu e (i := i) (by rw [hNe]; exact hi)
      rw [hNa] at h1
      rw [hNe] at h2
      rw [h1, h2, hfa, hfe, hta', hte']
    · intro n hn ih i hi
      rw [American.get2_treePrice_step_am a hi (by rw [hNa]; exact hn),
        ih (i + 1) (Nat.succ_le_succ hi), ih i (Nat.le_succ_of_le hi), hda, ← hde,
        ← European.get2_treePrice_step_eu e hi (by rw [hNe]; exact hn), hfa, hta']
      apply max_eq_right
      obtain ⟨h0, h1⟩ := hlow n (le_of_lt hn) i hi
      rw [← hKc] at h1
      exact max_le h1 h0
  exact ⟨fun n i hi hn => key n hn i hi, key 0 (Nat.zero_le _) 0 (le_refl 0)⟩

/-- Witness of C3 at `S0 = 100, R = 1/20, sigma = 1/5, T = 1, N = 2, K = 100`. -/
theorem American.call_eq_european_witness :
    ∃ (a : American ℚ) (e : European ℚ),
      American.new Rat.sqrt 100 (1 / 20) (1 / 5) 1 2 (PayoffCall.eval ⟨100⟩) = .ok a ∧
      European.new Rat.sqrt 100 (1 / 20) (1 / 5) 1 2 (PayoffCall.eval ⟨100⟩) = .ok e ∧
      a.price = e.price :=
  ⟨_, _,
    American.new_of_valid_am _ _ _ (by norm_num) (by norm_num) (by norm_num) (by norm_num),
    European.new_of_valid_eu _ _ _ (by norm_num) (by norm_num) (by norm_num) (by norm_num),
    (American.call_eq_european Rat.sqrt 100 (1 / 20) (1 / 5) 1 100 2 ⟨100⟩ _ _
      (PayoffCall.new_of_nonneg (by norm_num))
      (American.new_of_valid_am _ _ _ (by norm_num) (by norm_num) (by norm_num) (by norm_num))
      (European.new_of_valid_eu _ _ _ (by norm_num) (by norm_num) (by norm_num) (by norm_num))
      (by norm_num)).2⟩

end crr

namespace crr

open opt

variable {α : Type} [LinearOrderedField α]

/-- C4, the claim as stated fails where the two successor prices coincide: on
the put of strike `100` at `S0 = 100, R = 1/20, sigma = 0, T = 1, N = 2` (the
Asian option with the running mean as aggregator), an input that the three
constructors accept, the hedge ratio `delta[0][0]` of each of the three
`hedgingStrategy` methods is a quotient whose divisor `S_up - S_down` is zero.
In double arithmetic such a quotient is NaN or an infinity, and so is
`bond[0][0] = value - delta[0][0] * S0`; `bond + delta * S(node)` is then not
the finite value of the node.  (The quotient by zero of a field is `0`, so no
equation between field elements can show the failure itself.) -/
theorem hedge_replication_identity_counterexample :
    ∃ (e : European ℚ) (s : Asian ℚ) (a : American ℚ),
      European.new Rat.sqrt 100 (1 / 20) 0 1 2 (PayoffPut.eval ⟨100⟩) = .ok e ∧
      Asian.new Rat.sqrt 100 (1 / 20) 0 1 2 (PayoffPut.eval ⟨100⟩)
        (fun agg x n => (agg * n + x) / (n + 1)) = .ok s ∧
      American.new Rat.sqrt 100 (1 / 20) 0 1 2 (PayoffPut.eval ⟨100⟩) = .ok a ∧
      (get2 e.hedgingStrategy.delta 0 0 =
          (get2 e.treePrice 1 1 - get2 e.treePrice 1 0) /
            (get2 e.stockTree_ 1 1 - get2 e.stockTree_ 1 0) ∧
        get2 e.stockTree_ 1 1 - get2 e.stockTree_ 1 0 = 0) ∧
      (get2 s.hedgingStrategy.delta 0 0 =
          (get2 s.treePrice 1 1 - get2 s.treePrice 1 0) /
            (get2 s.stockTreeNR_ 1 1 - get2 s.stockTreeNR_ 1 0) ∧
        get2 s.stockTreeNR_ 1 1 - get2 s.stockTreeNR_ 1 0 = 0) ∧
      (get2 a.hedgingStrategy.delta 0 0 =
          (get2 a.M 1 1 - get2 a.M 1 0) /
            (get2 (buildStockTreeNR a.toOption) 1 1 - get2 (buildStockTreeNR a.toOption) 1 0) ∧
        get2 (buildStockTreeNR a.toOption) 1 1 - get2 (buildStockTreeNR a.toOption) 1 0 = 0) := by
  have he : European.new Rat.sqrt (100 : ℚ) (1 / 20) 0 1 2 (PayoffPut.eval ⟨100⟩) = _ :=
    European.new_of_valid_eu _ _ _ (by norm_num) (le_refl 0) (by norm_num) (by norm_num)
  have hs : Asian.new Rat.sqrt (100 : ℚ) (1 / 20) 0 1 2 (PayoffPut.eval ⟨100⟩)
      (fun agg x n => (agg * n + x) / (n + 1)) = _ :=
    Asian.new_of_valid_as _ _ _ _ (by norm_num) (le_refl 0) (by norm_num) (by norm_num)
  have ha : American.new Rat.sqrt (100 : ℚ) (1 / 20) 0 1 2 (PayoffPut.eval ⟨100⟩) = _ :=
    American.new_of_valid_am _ _ _ (by norm_num) (le_refl 0) (by norm_num) (by norm_num)
  refine ⟨_, _, _, he, hs, ha, ?_, ?_, ?_⟩
  · obtain ⟨-, ho, -, ht⟩ := European.new_eq_ok_eu he
    refine ⟨European.get2_delta _ (le_refl 0) (by rw [ho]; decide), ?_⟩
    rw [ht, ho]
    exact get2_buildStockTree_succ_sub _ (Option.init_u_eq_d ..) (le_refl 0) (by decide)
  · obtain ⟨-, ho, -, -, ht⟩ := Asian.new_eq_ok_as hs
    refine ⟨Asian.get2_delta_as _ (by rw [ho]; decide) (by decide), ?_⟩
    rw [ht, ho]
    exact get2_buildStockTreeNR_succ_sub _ (Option.init_u_eq_d ..) (n := 0) (j := 0)
      (by decide) (by decide)
  · obtain ⟨-, ho, -, -⟩ := American.new_eq_ok_am ha
    refine ⟨American.get2_delta_am _ (by rw [ho]; decide) (by decide), ?_⟩
    rw [ho]
    exact get2_buildStockTreeNR_succ_sub _ (Option.init_u_eq_d ..) (n := 0) (j := 0)
      (by decide) (by decide)

/-- C4, amended: hedge replication identity at the nodes whose two successor
prices differ.  For accepted European, Asian and American options,
`hedgingStrategy()` returns `N` levels of `delta` and `bond`, level `n` holding
`n + 1` nodes (European) or `2^n` nodes (Asian, American).  At every such node
at which `S_up != S_down`, `delta` is the quotient
`(V_up - V_down) / (S_up - S_down)`, that is
`delta * (S_up - S_down) = V_up - V_down`, and `bond + delta * S(node)` is the
node's value: `treePrice()[n][i]` on the recombining tree for European,
`treePrice()[n][j]` on the non-recombining tree for Asian, and the martingale
value `M[n][j] = VNR[n][j] + A[n][j]` for American. -/
theorem hedge_replication_identity (sqrt : α → α) (S0 R sigma T : α) (N : Int)
    (payoff : α → α) (aggregator : α → α → Nat → α)
    (e : European α) (s : Asian α) (a : American α)
    (he : European.new sqrt S0 R sigma T N payoff = .ok e)
    (hs : Asian.new sqrt S0 R sigma T N payoff aggregator = .ok s)
    (ha : American.new sqrt S0 R sigma T N payoff = .ok a) :
    (e.hedgingStrategy.delta.length = N.toNat ∧ e.hedgingStrategy.bond.length = N.toNat ∧
      ∀ n i, i ≤ n → n < N.toNat →
        (e.hedgingStrategy.delta.getD n []).length = n + 1 ∧
        (e.hedgingStrategy.bond.getD n []).length = n + 1 ∧
        (get2 e.stockTree_ (n + 1) (i + 1) ≠ get2 e.stockTree_ (n + 1) i →
          get2 e.hedgingStrategy.delta n i *
              (get2 e.stockTree_ (n + 1) (i + 1) - get2 e.stockTree_ (n + 1) i) =
            get2 e.treePrice (n + 1) (i + 1) - get2 e.treePrice (n + 1) i ∧
          get2 e.hedgingStrategy.bond n i + get2 e.hedgingStrategy.delta n i *
            get2 e.stockTree_ n i = get2 e.treePrice n i)) ∧
    (s.hedgingStrategy.delta.length = N.toNat ∧ s.hedgingStrategy.bond.length = N.toNat ∧
      ∀ n j, n < N.toNat → j < 2 ^ n →
        (s.hedgingStrategy.delta.getD n []).length = 2 ^ n ∧
        (s.hedgingStrategy.bond.getD n []).length = 2 ^ n ∧
        (get2 s.stockTreeNR_ (n + 1) (2 * j + 1) ≠ get2 s.stockTreeNR_ (n + 1) (2 * j) →
          get2 s.hedgingStrategy.delta n j *
              (get2 s.stockTreeNR_ (n + 1) (2 * j + 1) - get2 s.stockTreeNR_ (n + 1) (2 * j)) =
            get2 s.treePrice (n + 1) (2 * j + 1) - get2 s.treePrice (n + 1) (2 * j) ∧
          get2 s.hedgingStrategy.bond n j + get2 s.hedgingStrategy.delta n j *
            get2 s.stockTreeNR_ n j = get2 s.treePrice n j)) ∧
    (a.hedgingStrategy.delta.length = N.toNat ∧ a.hedgingStrategy.bond.length = N.toNat ∧
      ∀ n j, n < N.toNat → j < 2 ^ n →
        (a.hedgingStrategy.delta.getD n []).length = 2 ^ n ∧
        (a.hedgingStrategy.bond.getD n []).length = 2 ^ n ∧
        get2 a.M n j = get2 a.VNR n j + get2 a.A n j ∧
        (get2 (buildStockTreeNR a.toOption) (n + 1) (2 * j + 1) ≠
            get2 (buildStockTreeNR a.toOption) (n + 1) (2 * j) →
          get2 a.hedgingStrategy.delta n j *
              (get2 (buildStockTreeNR a.toOption) (n + 1) (2 * j + 1) -
                get2 (buildStockTreeNR a.toOption) (n + 1) (2 * j)) =
            get2 a.M (n + 1) (2 * j + 1) - get2 a.M (n + 1) (2 * j) ∧
          get2 a.hedgingStrategy.bond n j + get2 a.hedgingStrategy.delta n j *
            get2 (buildStockTreeNR a.toOption) n j = get2 a.M n j)) := by
  obtain ⟨-, hoe, -, -⟩ := European.new_eq_ok_eu he
  obtain ⟨-, hos, -, -, -⟩ := Asian.new_eq_ok_as hs
  obtain ⟨-, hoa, -, -⟩ := American.new_eq_ok_am ha
  have hNe : e.N_.toNat = N.toNat := by rw [hoe]; rfl
  have hNs : s.N_.toNat = N.toNat := by rw [hos]; rfl
  have hNa : a.N_.toNat = N.toNat := by rw [hoa]; rfl
  obtain ⟨he1, he2, he3⟩ := European.shape_hedgingStrategy e
  obtain ⟨hs1, hs2, hs3⟩ := Asian.shape_hedgingStrategy_as s
  obtain ⟨ha1, ha2, ha3⟩ := American.shape_hedgingStrategy_am a
  rw [hNe] at he1 he2 he3
  rw [hNs] at hs1 hs2 hs3
  rw [hNa] at ha1 ha2 ha3
  refine ⟨⟨he1, he2, ?_⟩, ⟨hs1, hs2, ?_⟩, ⟨ha1, ha2, ?_⟩⟩
  · intro n i hi hn
    refine ⟨(he3 n hn).1, (he3 n hn).2, fun hne => ⟨?_, ?_⟩⟩
    · rw [European.get2_delta e hi (by rw [hNe]; exact hn)]
      exact div_mul_cancel₀ _ (sub_ne_zero.mpr hne)
    · rw [European.get2_bond e hi (by rw [hNe]; exact hn)]
      ring
  · intro n j hn hj
    refine ⟨(hs3 n hn).1, (hs3 n hn).2, fun hne => ⟨?_, ?_⟩⟩
    · rw [Asian.get2_delta_as s (by rw [hNs]; exact hn) hj]
      exact div_mul_cancel₀ _ (sub_ne_zero.mpr hne)
    · rw [Asian.get2_bond_as s (by rw [hNs]; exact hn) hj]
      ring
  · intro n j hn hj
    refine ⟨(ha3 n hn).1, (ha3 n hn).2,
      American.get2_M a (by rw [hNa]; exact le_of_lt hn) hj, fun hne => ⟨?_, ?_⟩⟩
    · rw [American.get2_delta_am a (by rw [hNa]; exact hn) hj]
      exact div_mul_cancel₀ _ (sub_ne_zero.mpr hne)
    · rw [American.get2_bond_am a (by rw [hNa]; exact hn) hj]
      ring

/-- Witness of the amended C4 at `S0 = 100, R = 1/20, sigma = 1/5, T = 2, N = 2`
with a put of strike 100 and the arithmetic running mean as aggregator, at the
root, whose two successors carry the prices `125` and `85`. -/
theorem hedge_replication_identity_witness :
    ∃ (e : European ℚ) (s : Asian ℚ) (a : American ℚ),
      European.new Rat.sqrt 100 (1 / 20) (1 / 5) 2 2 (PayoffPut.eval ⟨100⟩) = .ok e ∧
      Asian.new Rat.sqrt 100 (1 / 20) (1 / 5) 2 2 (PayoffPut.eval ⟨100⟩)
        (fun agg x n => (agg * n + x) / (n + 1)) = .ok s ∧
      American.new Rat.sqrt 100 (1 / 20) (1 / 5) 2 2 (PayoffPut.eval ⟨100⟩) = .ok a ∧
      get2 e.stockTree_ (0 + 1) (0 + 1) ≠ get2 e.stockTree_ (0 + 1) 0 ∧
      get2 s.stockTreeNR_ (0 + 1) (2 * 0 + 1) ≠ get2 s.stockTreeNR_ (0 + 1) (2 * 0) ∧
      get2 (buildStockTreeNR a.toOption) (0 + 1) (2 * 0 + 1) ≠
        get2 (buildStockTreeNR a.toOption) (0 + 1) (2 * 0) ∧
      get2 e.hedgingStrategy.bond 0 0 + get2 e.hedgingStrategy.delta 0 0 *
        get2 e.stockTree_ 0 0 = get2 e.treePrice 0 0 ∧
      get2 s.hedgingStrategy.bond 0 0 + get2 s.hedgingStrategy.delta 0 0 *
        get2 s.stockTreeNR_ 0 0 = get2 s.treePrice 0 0 ∧
      get2 a.hedgingStrategy.bond 0 0 + get2 a.hedgingStrategy.delta 0 0 *
        get2 (buildStockTreeNR a.toOption) 0 0 = get2 a.M 0 0 := by
  obtain ⟨e, he⟩ : ∃ e, European.new Rat.sqrt (100 : ℚ) (1 / 20) (1 / 5) 2 2
      (PayoffPut.eval ⟨100⟩) = .ok e :=
    ⟨_, European.new_of_valid_eu _ _ _ (by norm_num) (by norm_num) (by norm_num) (by norm_num)⟩
  obtain ⟨s, hs⟩ : ∃ s, Asian.new Rat.sqrt (100 : ℚ) (1 / 20) (1 / 5) 2 2 (PayoffPut.eval ⟨100⟩)
      (fun agg x n => (agg * n + x) / (n + 1)) = .ok s :=
    ⟨_, Asian.new_of_valid_as _ _ _ _ (by norm_num) (by norm_num) (by norm_num) (by norm_num)⟩
  obtain ⟨a, ha⟩ : ∃ a, American.new Rat.sqrt (100 : ℚ) (1 / 20) (1 / 5) 2 2
      (PayoffPut.eval ⟨100⟩) = .ok a :=
    ⟨_, American.new_of_valid_am _ _ _ (by norm_num) (by norm_num) (by norm_num) (by norm_num)⟩
  have h := hedge_replication_identity Rat.sqrt 100 (1 / 20) (1 / 5) 2 2
    (PayoffPut.eval ⟨100⟩) (fun agg x n => (agg * n + x) / (n + 1)) e s a he hs ha
  have hsq : Rat.sqrt 1 = 1 := by simp
  have hn : (0 : Nat) < (2 : Int).toNat := by decide
  have hj : (0 : Nat) < 2 ^ 0 := by decide
  have hud : (Option.init Rat.sqrt (100 : ℚ) (1 / 20) (1 / 5) 2 2).u_ ≠
      (Option.init Rat.sqrt (100 : ℚ) (1 / 20) (1 / 5) 2 2).d_ := by
    rw [Option.init_u, Option.init_d]
    norm_num [hsq]
  have hNR : get2 (buildStockTreeNR (Option.init Rat.sqrt (100 : ℚ) (1 / 20) (1 / 5) 2 2))
      (0 + 1) (2 * 0 + 1) ≠
      get2 (buildStockTreeNR (Option.init Rat.sqrt (100 : ℚ) (1 / 20) (1 / 5) 2 2))
        (0 + 1) (2 * 0) := by
    rw [get2_buildStockTreeNR_up _ hn hj, get2_buildStockTreeNR_down _ hn hj,
      get2_buildStockTreeNR_zero, Option.init_S0]
    intro hc
    exact hud (by linarith)
  have hRt : get2 (buildStockTree (Option.init Rat.sqrt (100 : ℚ) (1 / 20) (1 / 5) 2 2))
      (0 + 1) (0 + 1) ≠
      get2 (buildStockTree (Option.init Rat.sqrt (100 : ℚ) (1 / 20) (1 / 5) 2 2)) (0 + 1) 0 := by
    rw [get2_buildStockTree_up _ (le_refl 0) hn, get2_buildStockTree_down _ (le_refl 0) hn,
      get2_buildStockTree _ (le_refl 0) (Nat.zero_le _), Option.init_S0]
    intro hc
    apply hud
    simp only [pow_zero, mul_one, Nat.sub_self] at hc
    linarith
  obtain ⟨-, hoe, -, hte⟩ := European.new_eq_ok_eu he
  obtain ⟨-, hos, -, -, hts⟩ := Asian.new_eq_ok_as hs
  obtain ⟨-, hoa, -, -⟩ := American.new_eq_ok_am ha
  have hE : get2 e.stockTree_ (0 + 1) (0 + 1) ≠ get2 e.stockTree_ (0 + 1) 0 := by
    rw [hte, hoe]; exact hRt
  have hS : get2 s.stockTreeNR_ (0 + 1) (2 * 0 + 1) ≠ get2 s.stockTreeNR_ (0 + 1) (2 * 0) := by
    rw [hts, hos]; exact hNR
  have hA : get2 (buildStockTreeNR a.toOption) (0 + 1) (2 * 0 + 1) ≠
      get2 (buildStockTreeNR a.toOption) (0 + 1) (2 * 0) := by
    rw [hoa]; exact hNR
  exact ⟨e, s, a, he, hs, ha, hE, hS, hA,
    ((h.1.2.2 0 0 (le_refl 0) (by decide)).2.2 hE).2,
    ((h.2.1.2.2 0 0 (by decide) (by decide)).2.2 hS).2,
    ((h.2.2.2.2 0 0 (by decide) (by decide)).2.2.2 hA).2⟩

end crr

namespace crr

open opt

variable {α : Type} [LinearOrderedField α]

/-- C5: the European hedge replicates the option at both successors.  For an
accepted European option and every node `0 <= i <= n < N`, if
`1 + R*T/N != 0` and `S[n+1][i+1] != S[n+1][i]`, then
`delta[n][i] * S[n+1][i+1] + bond[n][i] / discount = V[n+1][i+1]` and
`delta[n][i] * S[n+1][i] + bond[n][i] / discount = V[n+1][i]`, where
`discount = 1 / (1 + R*T/N)`, `V = treePrice()`, `S` is the recombining price
tree and `(delta, bond) = hedgingStrategy()`. -/
theorem European.hedge_replicates_successors (sqrt : α → α) (S0 R sigma T : α) (N : Int)
    (payoff : α → α) (e : European α)
    (he : European.new sqrt S0 R sigma T N payoff = .ok e)
    (n i : Nat) (hi : i ≤ n) (hn : n < N.toNat)
    (hR : 1 + R * T / (N : α) ≠ 0)
    (hS : get2 e.stockTree_ (n + 1) (i + 1) ≠ get2 e.stockTree_ (n + 1) i) :
    get2 e.hedgingStrategy.delta n i * get2 e.stockTree_ (n + 1) (i + 1) +
        get2 e.hedgingStrategy.bond n i / (1 / (1 + R * T / (N : α))) =
      get2 e.treePrice (n + 1) (i + 1) ∧
    get2 e.hedgingStrategy.delta n i * get2 e.stockTree_ (n + 1) i +
        get2 e.hedgingStrategy.bond n i / (1 / (1 + R * T / (N : α))) =
      get2 e.treePrice (n + 1) i := by
  obtain ⟨-, ho, -, ht⟩ := European.new_eq_ok_eu he
  have hN : e.N_ = N := by rw [ho]; rfl
  have hn' : n < e.N_.toNat := by rw [hN]; exact hn
  have hd : e.discount_ = 1 / (1 + R * T / (N : α)) := by rw [ho]; exact Option.init_discount ..
  have hV := European.get2_treePrice_step_eu e hi hn'
  have hSm : 1 / (1 + R * T / (N : α)) * (1 / 2) *
      (get2 e.stockTree_ (n + 1) (i + 1) + get2 e.stockTree_ (n + 1) i) =
      get2 e.stockTree_ n i := by
    rw [ht, ho]
    exact get2_buildStockTree_martingale sqrt S0 R sigma T N hR hi hn
  rw [hd] at hV
  rw [European.get2_bond e hi hn', hV]
  have hδ : get2 e.hedgingStrategy.delta n i *
      (get2 e.stockTree_ (n + 1) (i + 1) - get2 e.stockTree_ (n + 1) i) =
      get2 e.treePrice (n + 1) (i + 1) - get2 e.treePrice (n + 1) i := by
    rw [European.get2_delta e hi hn']
    exact div_mul_cancel₀ _ (sub_ne_zero.mpr hS)
  have hg : 1 / (1 + R * T / (N : α)) * (1 + R * T / (N : α)) = 1 := one_div_mul_cancel hR
  rw [one_div, div_inv_eq_mul]
  rw [one_div] at hSm hg
  generalize get2 e.hedgingStrategy.delta n i = δ at *
  generalize get2 e.stockTree_ (n + 1) (i + 1) = Su at *
  generalize get2 e.stockTree_ (n + 1) i = Sd at *
  generalize get2 e.stockTree_ n i = S at *
  generalize get2 e.treePrice (n + 1) (i + 1) = Vu at *
  generalize get2 e.treePrice (n + 1) i = Vd at *
  generalize (1 + R * T / (N : α)) = g at *
  constructor
  · linear_combination (1 / 2 : α) * hδ + (1 / 2 * (Vu + Vd) - δ * (1 / 2) * (Su + Sd)) * hg
      + δ * g * hSm
  · linear_combination (-1 / 2 : α) * hδ + (1 / 2 * (Vu + Vd) - δ * (1 / 2) * (Su + Sd)) * hg
      + δ * g * hSm

/-- Witness of C5 at `S0 = 100, R = 1/20, sigma = 1/5, T = 2, N = 2` with a call
of strike 100, at the node `(1, 0)`. -/
theorem European.hedge_replicates_successors_witness :
    ∃ e : European ℚ,
      European.new Rat.sqrt 100 (1 / 20) (1 / 5) 2 2 (PayoffCall.eval ⟨100⟩) = .ok e ∧
      get2 e.hedgingStrategy.delta 1 0 * get2 e.stockTree_ 2 1 +
          get2 e.hedgingStrategy.bond 1 0 / (1 / (1 + 1 / 20 * 2 / ((2 : Int) : ℚ))) =
        get2 e.treePrice 2 1 ∧
      get2 e.hedgingStrategy.delta 1 0 * get2 e.stockTree_ 2 0 +
          get2 e.hedgingStrategy.bond 1 0 / (1 / (1 + 1 / 20 * 2 / ((2 : Int) : ℚ))) =
        get2 e.treePrice 2 0 :=
  ⟨_, European.new_of_valid_eu _ _ _ (by norm_num) (by norm_num) (by norm_num) (by norm_num),
    European.hedge_replicates_successors Rat.sqrt 100 (1 / 20) (1 / 5) 2 2
      (PayoffCall.eval ⟨100⟩) _
      (European.new_of_valid_eu _ _ _ (by norm_num) (by norm_num) (by norm_num) (by norm_num))
      1 0 (by decide) (by decide) (by norm_num)
      (by
        have hsq : Rat.sqrt 1 = 1 := by simp
        simp [European.buildStockTree, crr.buildStockTree, Option.init, get2, get1,
          List.range_succ, hsq]
        norm_num)⟩

end crr

namespace crr

open opt

variable {α : Type} [LinearOrderedField α]

/-- C6: for an accepted European option, `treePrice` returns `N + 1` levels,
level `n` having `n + 1` entries; the last level is the payoff of the terminal
prices, every earlier node is `discount * 1/2 * (V[n+1][i+1] + V[n+1][i])` with
no early-exercise comparison, where `discount = 1 / (1 + R*T/N)`; and `price`
is `V[0][0]`. -/
theorem European.treePrice_backward_induction (sqrt : α → α) (S0 R sigma T : α) (N : Int)
    (payoff : α → α) (e : European α)
    (he : European.new sqrt S0 R sigma T N payoff = .ok e) :
    e.treePrice.length = N.toNat + 1 ∧
    (∀ n, n ≤ N.toNat → (e.treePrice.getD n []).length = n + 1) ∧
    (∀ i, i ≤ N.toNat →
      get2 e.treePrice N.toNat i = payoff (get2 e.stockTree_ N.toNat i)) ∧
    (∀ n i, i ≤ n → n < N.toNat →
      get2 e.treePrice n i =
        1 / (1 + R * T / (N : α)) * (1 / 2) *
          (get2 e.treePrice (n + 1) (i + 1) + get2 e.treePrice (n + 1) i)) ∧
    e.price = get2 e.treePrice 0 0 := by
  obtain ⟨-, ho, hp, -⟩ := European.new_eq_ok_eu he
  have hN : e.N_ = N := by rw [ho]; rfl
  have hd : e.discount_ = 1 / (1 + R * T / (N : α)) := by rw [ho]; exact Option.init_discount ..
  refine ⟨?_, ?_, ?_, ?_, rfl⟩
  · rw [← hN]; exact European.length_treePrice_eu e
  · intro n hn
    exact European.length_treePrice_level_eu e (by rw [hN]; exact hn)
  · intro i hi
    rw [← hN, ← hp]
    exact European.get2_treePrice_last_eu e (by rw [hN]; exact hi)
  · intro n i hi hn
    rw [← hd]
    exact European.get2_treePrice_step_eu e hi (by rw [hN]; exact hn)

/-- Witness of C6 at `S0 = 100, R = 1/20, sigma = 1/5, T = 1, N = 2` with a call
of strike 100. -/
theorem European.treePrice_backward_induction_witness :
    ∃ e : European ℚ,
      European.new Rat.sqrt 100 (1 / 20) (1 / 5) 1 2 (PayoffCall.eval ⟨100⟩) = .ok e ∧
      e.treePrice.length = 3 ∧
      get2 e.treePrice 0 0 =
        1 / (1 + 1 / 20 * 1 / ((2 : Int) : ℚ)) * (1 / 2) *
          (get2 e.treePrice 1 1 + get2 e.treePrice 1 0) :=
  ⟨_, European.new_of_valid_eu _ _ _ (by norm_num) (by norm_num) (by norm_num) (by norm_num),
    (European.treePrice_backward_induction Rat.sqrt 100 (1 / 20) (1 / 5) 1 2
      (PayoffCall.eval ⟨100⟩) _
      (European.new_of_valid_eu _ _ _ (by norm_num) (by norm_num) (by norm_num)
        (by norm_num))).1,
    (European.treePrice_backward_induction Rat.sqrt 100 (1 / 20) (1 / 5) 1 2
      (PayoffCall.eval ⟨100⟩) _
      (European.new_of_valid_eu _ _ _ (by norm_num) (by norm_num) (by norm_num)
        (by norm_num))).2.2.2.1 0 0 (le_refl 0) (by decide)⟩

/-- C7: for an accepted American option, `treePrice` has the payoff of the
terminal prices on its last level and, at every earlier node,
`V[n][i] = max(payoff(price[n][i]), discount * 1/2 * (V[n+1][i+1] + V[n+1][i]))`
with `discount = 1 / (1 + R*T/N)`; consequently `V[n][i] >= payoff(price[n][i])`
at every node of the tree. -/
theorem American.treePrice_early_exercise (sqrt : α → α) (S0 R sigma T : α) (N : Int)
    (payoff : α → α) (a : American α)
    (ha : American.new sqrt S0 R sigma T N payoff = .ok a) :
    (∀ i, i ≤ N.toNat →
      get2 a.treePrice N.toNat i = payoff (get2 a.stockTree_ N.toNat i)) ∧
    (∀ n i, i ≤ n → n < N.toNat →
      get2 a.treePrice n i =
        max (payoff (get2 a.stockTree_ n i))
          (1 / (1 + R * T / (N : α)) * (1 / 2) *
            (get2 a.treePrice (n + 1) (i + 1) + get2 a.treePrice (n + 1) i))) ∧
    (∀ n i, i ≤ n → n ≤ N.toNat →
      payoff (get2 a.stockTree_ n i) ≤ get2 a.treePrice n i) := by
  obtain ⟨-, ho, hp, -⟩ := American.new_eq_ok_am ha
  have hN : a.N_ = N := by rw [ho]; rfl
  have hd : a.discount_ = 1 / (1 + R * T / (N : α)) := by rw [ho]; exact Option.init_discount ..
  have hlast : ∀ i, i ≤ N.toNat →
      get2 a.treePrice N.toNat i = payoff (get2 a.stockTree_ N.toNat i) := by
    intro i hi
    rw [← hN, ← hp]
    exact American.get2_treePrice_last_am a (by rw [hN]; exact hi)
  refine ⟨hlast, ?_, ?_⟩
  · intro n i hi hn
    rw [← hd, ← hp]
    exact American.get2_treePrice_step_am a hi (by rw [hN]; exact hn)
  · intro n i hi hn
    rcases Nat.eq_or_lt_of_le hn with rfl | hlt
    · exact le_of_eq (hlast i hi).symm
    · rw [American.get2_treePrice_step_am a hi (by rw [hN]; exact hlt), ← hp]
      exact le_max_left _ _

/-- Witness of C7 at `S0 = 100, R = 1/20, sigma = 1/5, T = 1, N = 2` with a put
of strike 100. -/
theorem American.treePrice_early_exercise_witness :
    ∃ a : American ℚ,
      American.new Rat.sqrt 100 (1 / 20) (1 / 5) 1 2 (PayoffPut.eval ⟨100⟩) = .ok a ∧
      PayoffPut.eval ⟨100⟩ (get2 a.stockTree_ 1 0) ≤ get2 a.treePrice 1 0 :=
  ⟨_, American.new_of_valid_am _ _ _ (by norm_num) (by norm_num) (by norm_num) (by norm_num),
    (American.treePrice_early_exercise Rat.sqrt 100 (1 / 20) (1 / 5) 1 2
      (PayoffPut.eval ⟨100⟩) _
      (American.new_of_valid_am _ _ _ (by norm_num) (by norm_num) (by norm_num)
        (by norm_num))).2.2 1 0 (by decide) (by decide)⟩

/-- C8: the recombining price tree built by an accepted `European` and by an
accepted `American` has `N + 1` levels, level `n` holding `n + 1` prices, with
`price[n][i] = S0 * (1+up)^i * (1+down)^(n-i)` for `0 <= i <= n <= N`, where
`up = R*dt + sigma*sqrt(dt)`, `down = R*dt - sigma*sqrt(dt)`, `dt = T/N`; in
particular `price[0][0] = S0`, `price[n+1][i+1] = price[n][i] * (1+up)` and
`price[n+1][i] = price[n][i] * (1+down)`. -/
theorem stockTree_closed_form (sqrt : α → α) (S0 R sigma T : α) (N : Int)
    (payoff : α → α) (e : European α) (a : American α)
    (he : European.new sqrt S0 R sigma T N payoff = .ok e)
    (ha : American.new sqrt S0 R sigma T N payoff = .ok a) :
    a.stockTree_ = e.stockTree_ ∧
    e.u_ = R * (T / (N : α)) + sigma * sqrt (T / (N : α)) ∧
    e.d_ = R * (T / (N : α)) - sigma * sqrt (T / (N : α)) ∧
    e.stockTree_.length = N.toNat + 1 ∧
    (∀ n, n ≤ N.toNat → (e.stockTree_.getD n []).length = n + 1) ∧
    (∀ n i, i ≤ n → n ≤ N.toNat →
      get2 e.stockTree_ n i = S0 * (1 + e.u_) ^ i * (1 + e.d_) ^ (n - i)) ∧
    get2 e.stockTree_ 0 0 = S0 ∧
    (∀ n i, i ≤ n → n < N.toNat →
      get2 e.stockTree_ (n + 1) (i + 1) = get2 e.stockTree_ n i * (1 + e.u_) ∧
      get2 e.stockTree_ (n + 1) i = get2 e.stockTree_ n i * (1 + e.d_)) := by
  obtain ⟨-, ho, -, ht⟩ := European.new_eq_ok_eu he
  obtain ⟨-, ho', -, ht'⟩ := American.new_eq_ok_am ha
  have hN : e.N_ = N := by rw [ho]; rfl
  have hS : e.S0_ = S0 := by rw [ho]; rfl
  refine ⟨by rw [ht, ht', ho, ho'], by rw [ho]; rfl, by rw [ho]; rfl, ?_, ?_, ?_, ?_, ?_⟩
  · rw [ht, ← hN]; exact length_buildStockTree _
  · intro n hn
    rw [ht]; exact length_level_buildStockTree _ (by rw [hN]; exact hn)
  · intro n i hi hn
    rw [ht, ← hS]; exact get2_buildStockTree _ hi (by rw [hN]; exact hn)
  · rw [ht, get2_buildStockTree _ (le_refl 0) (Nat.zero_le _), hS]; simp
  · intro n i hi hn
    rw [ht]
    exact ⟨get2_buildStockTree_up _ hi (by rw [hN]; exact hn),
      get2_buildStockTree_down _ hi (by rw [hN]; exact hn)⟩

/-- Witness of C8 at `S0 = 100, R = 1/20, sigma = 1/5, T = 1, N = 2`. -/
theorem stockTree_closed_form_witness :
    ∃ (e : European ℚ) (a : American ℚ),
      European.new Rat.sqrt 100 (1 / 20) (1 / 5) 1 2 (PayoffCall.eval ⟨100⟩) = .ok e ∧
      American.new Rat.sqrt 100 (1 / 20) (1 / 5) 1 2 (PayoffCall.eval ⟨100⟩) = .ok a ∧
      a.stockTree_ = e.stockTree_ ∧ e.stockTree_.length = 3 ∧ get2 e.stockTree_ 0 0 = 100 :=
  have h := stockTree_closed_form Rat.sqrt 100 (1 / 20) (1 / 5) 1 2 (PayoffCall.eval ⟨100⟩) _ _
    (European.new_of_valid_eu _ _ _ (by norm_num) (by norm_num) (by norm_num) (by norm_num))
    (American.new_of_valid_am _ _ _ (by norm_num) (by norm_num) (by norm_num) (by norm_num))
  ⟨_, _, European.new_of_valid_eu _ _ _ (by norm_num) (by norm_num) (by norm_num) (by norm_num),
    American.new_of_valid_am _ _ _ (by norm_num) (by norm_num) (by norm_num) (by norm_num),
    h.1, h.2.2.2.1, h.2.2.2.2.2.2.1⟩

/-- C9: the constructor `Option(S0, R, sigma, T, N)` fails, with an
invalid-argument error, if and only if `S0 < 0` or `sigma < 0` or `T < 0` or
`N <= 0`; otherwise it returns an object, whatever the rate `R`. -/
theorem Option.new_fails_iff (sqrt : α → α) (S0 R sigma T : α) (N : Int) :
    ((∃ msg, Option.new sqrt S0 R sigma T N = .error (.invalid_argument msg)) ↔
      (S0 < 0 ∨ sigma < 0 ∨ T < 0 ∨ N ≤ 0)) ∧
    ((∃ o, Option.new sqrt S0 R sigma T N = .ok o) ↔
      ¬ (S0 < 0 ∨ sigma < 0 ∨ T < 0 ∨ N ≤ 0)) := by
  unfold Option.new
  constructor
  · constructor
    · rintro ⟨msg, h⟩
      by_contra hc
      push_neg at hc
      rw [if_neg (not_lt.mpr hc.1), if_neg (not_lt.mpr hc.2.1),
        if_neg (not_lt.mpr hc.2.2.1), if_neg (not_le.mpr hc.2.2.2)] at h
      cases h
    · intro h
      split_ifs with h1 h2 h3 h4
      · exact ⟨_, rfl⟩
      · exact ⟨_, rfl⟩
      · exact ⟨_, rfl⟩
      · exact ⟨_, rfl⟩
      · tauto
  · constructor
    · rintro ⟨o, h⟩
      split_ifs at h with h1 h2 h3 h4
      tauto
    · intro h
      push_neg at h
      rw [if_neg (not_lt.mpr h.1), if_neg (not_lt.mpr h.2.1),
        if_neg (not_lt.mpr h.2.2.1), if_neg (not_le.mpr h.2.2.2)]
      exact ⟨_, rfl⟩

end crr

namespace crr

open opt

variable {α : Type} [LinearOrderedField α]

/-- C10, refuted as stated: the constructor accepts `S0 = 100, R = 0, sigma = 0,
T = 1, N = 1`, and the model it derives has `discount = 1` and `up = down`, so
the discount factor is not strictly below one and the branches do not
separate. -/
theorem Option.new_invariant_counterexample :
    ∃ o : Option ℚ, Option.new Rat.sqrt 100 0 0 1 1 = .ok o ∧
      o.discount_ = 1 / (1 + 0 * 1 / ((1 : Int) : ℚ)) ∧ o.discount_ = 1 ∧ o.u_ = o.d_ ∧
      ¬ (0 < o.discount_ ∧ o.discount_ < 1 ∧ o.d_ < o.u_) := by
  refine ⟨_, Option.new_of_valid_opt _ _ (by norm_num) (by norm_num) (by norm_num)
    (by norm_num), ?_, ?_, ?_, ?_⟩
  · simp [Option.init]
  · simp [Option.init]
  · simp [Option.init]
  · simp [Option.init]

/-- C10, amended: for every lattice model that the `Option` constructor accepts,
the derived discount factor `1 / (1 + R*T/N)` lies strictly between 0 and 1
exactly when `R > 0` and `T > 0`, and `up > down` exactly when `sigma > 0` and
`T > 0`, where `up = R*dt + sigma*sqrt(dt)`, `down = R*dt - sigma*sqrt(dt)`,
`dt = T/N`, and `sqrt` vanishes at 0 and is positive on positive numbers. -/
theorem Option.new_invariant (sqrt : α → α) (hsqrt0 : sqrt 0 = 0)
    (hsqrt : ∀ x, 0 < x → 0 < sqrt x) (S0 R sigma T : α) (N : Int) (o : Option α)
    (ho : Option.new sqrt S0 R sigma T N = .ok o) :
    o.discount_ = 1 / (1 + R * T / (N : α)) ∧
    o.u_ = R * (T / (N : α)) + sigma * sqrt (T / (N : α)) ∧
    o.d_ = R * (T / (N : α)) - sigma * sqrt (T / (N : α)) ∧
    ((0 < o.discount_ ∧ o.discount_ < 1) ↔ (0 < R ∧ 0 < T)) ∧
    (o.d_ < o.u_ ↔ (0 < sigma ∧ 0 < T)) := by
  obtain ⟨⟨-, hsig, hT, hN⟩, rfl⟩ := Option.new_eq_ok_opt ho
  have hNα : (0 : α) < (N : α) := by exact_mod_cast hN
  refine ⟨Option.init_discount .., rfl, rfl, ?_, ?_⟩
  · rw [Option.init_discount]
    constructor
    · rintro ⟨h0, h1⟩
      have hg : 0 < 1 + R * T / (N : α) := one_div_pos.mp h0
      have hg1 : 1 < 1 + R * T / (N : α) := by
        rwa [div_lt_one hg] at h1
      have hRT : 0 < R * T := by
        have : 0 < R * T / (N : α) := by linarith
        exact (div_pos_iff_of_pos_right hNα).mp this
      have hT0 : 0 < T := by
        rcases eq_or_lt_of_le hT with h | h
        · rw [← h, mul_zero] at hRT; exact absurd hRT (lt_irrefl 0)
        · exact h
      exact ⟨pos_of_mul_pos_left hRT (le_of_lt hT0), hT0⟩
    · rintro ⟨hR, hT0⟩
      have hpos : 0 < R * T / (N : α) := div_pos (mul_pos hR hT0) hNα
      exact ⟨one_div_pos.mpr (by linarith), by rw [div_lt_one (by linarith)]; linarith⟩
  · rw [Option.init_u, Option.init_d]
    constructor
    · intro h
      have hprod : 0 < sigma * sqrt (T / (N : α)) := by linarith
      have hs0 : 0 < sigma := by
        rcases eq_or_lt_of_le hsig with h' | h'
        · rw [← h', zero_mul] at hprod; exact absurd hprod (lt_irrefl 0)
        · exact h'
      refine ⟨hs0, ?_⟩
      rcases eq_or_lt_of_le hT with h' | h'
      · rw [← h', zero_div, hsqrt0, mul_zero] at hprod; exact absurd hprod (lt_irrefl 0)
      · exact h'
    · rintro ⟨hs0, hT0⟩
      have := mul_pos hs0 (hsqrt _ (div_pos hT0 hNα))
      linarith

/-- Witness of the amended C10 over the reals, with the real square root, at
`S0 = 100, R = 1/20, sigma = 1/5, T = 1, N = 4`. -/
theorem Option.new_invariant_witness :
    ∃ o : Option ℝ, Option.new Real.sqrt 100 (1 / 20) (1 / 5) 1 4 = .ok o ∧
      (0 < o.discount_ ∧ o.discount_ < 1) ∧ o.d_ < o.u_ :=
  have h := Option.new_invariant Real.sqrt Real.sqrt_zero (fun _ hx => Real.sqrt_pos.mpr hx)
    100 (1 / 20) (1 / 5) 1 4 _
    (Option.new_of_valid_opt _ _ (by norm_num) (by norm_num) (by norm_num) (by norm_num))
  ⟨_, Option.new_of_valid_opt _ _ (by norm_num) (by norm_num) (by norm_num) (by norm_num),
    h.2.2.2.1.mpr ⟨by norm_num, by norm_num⟩, h.2.2.2.2.mpr ⟨by norm_num, by norm_num⟩⟩

end crr

namespace pde

open opt

variable {α : Type} [LinearOrderedField α]

/-- C11: after `SolvePDE` on a `Diffusion` model (`exp` being the exponential,
`exp 0 = 1`), for every time row `0 <= i <= imax` the boundary columns are
`V[i][0] = Lower(t(i))` and `V[i][jmax] = Upper(t(i))`, and the maturity row is
`V[imax][j] = Terminal(S(j))` for every `0 <= j <= jmax`, the corners included:
`Terminal(Smin) = Lower(T)` and `Terminal(Smax) = Upper(T)`. -/
theorem ImplicitScheme.SolvePDE_boundary (exp : α → α) (hexp : exp 0 = 1)
    (T Smin Smax R : α) (payoff : α → α) (vol : α → α → α) (pde : ParabPDE α)
    (imax jmax : Int) (A B C D E F G : FDMethod α → Int → Int → α) (s : ImplicitScheme α)
    (hp : Diffusion.new exp T Smin Smax R payoff vol = .ok pde)
    (hs : ImplicitScheme.new pde imax jmax A B C D E F G = .ok s) :
    (∀ i : Nat, i ≤ imax.toNat →
      get2 s.SolvePDE.V i 0 = pde.Lower (s.t (i : α)) ∧
      get2 s.SolvePDE.V i jmax.toNat = pde.Upper (s.t (i : α))) ∧
    (∀ j : Nat, j ≤ jmax.toNat →
      get2 s.SolvePDE.V imax.toNat j = pde.Terminal (s.S (j : Int))) ∧
    pde.Terminal Smin = pde.Lower T ∧ pde.Terminal Smax = pde.Upper T := by
  obtain ⟨-, ⟨hpT, hpSmin, hpSmax⟩, -, hTerm, hLow, hUpp⟩ := Diffusion.new_eq_ok_df hp
  obtain ⟨hm, -⟩ := ImplicitScheme.new_eq_ok_is hs
  obtain ⟨⟨hi, hj⟩, hpde, himax, hjmax, hdt, hdS, -⟩ := FDMethod.new_eq_ok_fields hm
  obtain ⟨hV, hrow⟩ := FDMethod.shape_of_new hm
  rw [hpT] at hdt
  rw [hpSmax, hpSmin] at hdS
  rw [hTerm, hLow, hUpp]
  have hiα : (imax : α) ≠ 0 := by exact_mod_cast (ne_of_gt hi)
  have hjα : (jmax : α) ≠ 0 := by exact_mod_cast (ne_of_gt (lt_trans Int.zero_lt_one hj))
  have hiN : ((imax.toNat : Int) : α) = (imax : α) := by
    rw [Int.toNat_of_nonneg (le_of_lt hi)]
  have hjpos : 0 < s.jmax_.toNat := by rw [hjmax]; omega
  have hT : s.t (imax : α) = T := by
    rw [FDMethod.t, hdt]; exact div_mul_cancel₀ T hiα
  have hS0 : s.S 0 = Smin := by simp [FDMethod.S, hpde, ParabPDE.Smin, hpSmin]
  have hSj : s.S jmax = Smax := by
    rw [FDMethod.S, hdS, hpde, div_mul_cancel₀ _ hjα]
    simp [ParabPDE.Smin, hpSmin]
  have hlast : ∀ j : Nat, j ≤ jmax.toNat →
      get2 s.SolvePDE.V imax.toNat j = Diffusion.Terminal payoff (s.S (j : Int)) := by
    intro j hjle
    unfold get2
    rw [← himax, ImplicitScheme.SolvePDE_last s hV hrow,
      get1_map_range _ (by rw [hjmax]; omega), FDMethod.f, hpde, hTerm]
  have hlow : ∀ t, t = T → Diffusion.Lower exp payoff R T Smin t = payoff Smin := by
    intro t ht
    rw [Diffusion.Lower, ht, sub_self, mul_zero, hexp, mul_one]
  have hupp : ∀ t, t = T → Diffusion.Upper exp payoff R T Smax t = payoff Smax := by
    intro t ht
    rw [Diffusion.Upper, ht, sub_self, mul_zero, hexp, mul_one]
  refine ⟨?_, hlast, ?_, ?_⟩
  · intro i hile
    rcases Nat.eq_or_lt_of_le hile with rfl | hlt
    · have hcast : ((imax.toNat : Nat) : α) = (imax : α) := by
        rw [← hiN, Int.cast_natCast]
      rw [hlast 0 (Nat.zero_le _), hlast _ (le_refl _), hcast, hlow _ hT, hupp _ hT]
      have h1 : s.S ((jmax.toNat : Nat) : Int) = Smax := by
        rw [Int.toNat_of_nonneg (le_of_lt (lt_trans Int.zero_lt_one hj))]; exact hSj
      have h0 : s.S ((0 : Nat) : Int) = Smin := by
        rw [Int.ofNat_zero]; exact hS0
      rw [h1, h0]
      exact ⟨rfl, rfl⟩
    · have hrowi := ImplicitScheme.SolvePDE_row s hV (n := i) (by rw [himax]; exact hlt)
      have hc : (((i + 1 : Nat) : Int) - 1 : Int) = (i : Int) := by push_cast; ring
      unfold get2
      rw [hrowi]
      constructor
      · rw [ImplicitScheme.get1_newRow_zero s _ _ hjpos, hc, FDMethod.fl, hpde, hLow,
          Int.cast_natCast]
      · rw [← hjmax, ImplicitScheme.get1_newRow_last s, hc, FDMethod.fu, hpde, hUpp,
          Int.cast_natCast]
  · exact (hlow T rfl).symm
  · exact (hupp T rfl).symm

/-- Witness of C11 over the reals with the real exponential: a call of strike
100 on the domain `T = 1, Smin = 0, Smax = 200`, rate `1/20`, volatility `1/5`,
solved by Crank-Nicolson with `imax = 2, jmax = 4`. -/
theorem ImplicitScheme.SolvePDE_boundary_witness :
    ∃ (pde : ParabPDE ℝ) (s : ImplicitScheme ℝ),
      Diffusion.new Real.exp 1 0 200 (1 / 20) (PayoffCall.eval ⟨100⟩) (fun _ _ => 1 / 5) =
        .ok pde ∧
      CNMethod.new pde 2 4 = .ok s ∧
      get2 s.SolvePDE.V 1 0 = pde.Lower (s.t ((1 : Nat) : ℝ)) ∧
      get2 s.SolvePDE.V 1 (4 : Int).toNat = pde.Upper (s.t ((1 : Nat) : ℝ)) ∧
      pde.Terminal 200 = pde.Upper 1 := by
  have hp := ParabPDE.new_of_valid_pde (Diffusion.a fun _ _ => (1 / 5 : ℝ))
    (Diffusion.b (1 / 20)) (Diffusion.c (1 / 20)) Diffusion.d
    (Diffusion.Terminal (PayoffCall.eval ⟨100⟩))
    (Diffusion.Lower Real.exp (PayoffCall.eval ⟨100⟩) (1 / 20) 1 0)
    (Diffusion.Upper Real.exp (PayoffCall.eval ⟨100⟩) (1 / 20) 1 200)
    (show (0 : ℝ) < 1 by norm_num) (show (0 : ℝ) < 200 by norm_num) (le_refl 0)
  obtain ⟨s, hs⟩ := ImplicitScheme.new_of_valid_is
    ({ T_ := 1, Smin_ := 0, Smax_ := 200, a := Diffusion.a fun _ _ => (1 / 5 : ℝ),
       b := Diffusion.b (1 / 20), c := Diffusion.c (1 / 20), d := Diffusion.d,
       Terminal := Diffusion.Terminal (PayoffCall.eval ⟨100⟩),
       Lower := Diffusion.Lower Real.exp (PayoffCall.eval ⟨100⟩) (1 / 20) 1 0,
       Upper := Diffusion.Upper Real.exp (PayoffCall.eval ⟨100⟩) (1 / 20) 1 200 } :
      ParabPDE ℝ) 2 4
    CNMethod.A CNMethod.B CNMethod.C CNMethod.D CNMethod.E CNMethod.F CNMethod.G
    (by decide) (by decide)
  have h := ImplicitScheme.SolvePDE_boundary Real.exp Real.exp_zero 1 0 200 (1 / 20)
    (PayoffCall.eval ⟨100⟩) (fun _ _ => 1 / 5) _ 2 4 _ _ _ _ _ _ _ s hp hs
  exact ⟨_, s, hp, hs, (h.1 1 (by decide)).1, (h.1 1 (by decide)).2, h.2.2.2⟩

end pde

namespace pde

open opt

variable {α : Type} [LinearOrderedField α] [FloorRing α]

/-- C12: for every solver state (every grid content) and every in-domain query
`0 <= t <= T`, `Smin <= S <= Smax`, `delta(t, S)` returns a value in the closed
interval `[-1, 1]`. -/
theorem FDMethod.delta_mem_Icc (m : FDMethod α) (t S : α) (ht0 : 0 ≤ t) (htT : t ≤ m.pde_.T)
    (hS0 : m.pde_.Smin ≤ S) (hS1 : S ≤ m.pde_.Smax) :
    ∃ x, m.delta t S = .ok x ∧ -1 ≤ x ∧ x ≤ 1 :=
  FDMethod.delta_of_in m (by push_neg; exact ⟨ht0, htT⟩) (by push_neg; exact ⟨hS0, hS1⟩)

/-- Witness of C12 on the domain `T = 1, Smin = 0, Smax = 200` with a grid of
`3 x 3` nodes whose values are far apart, at `t = 1/2, S = 120`. -/
theorem FDMethod.delta_mem_Icc_witness :
    ∃ x : ℚ,
      FDMethod.delta
        ({ pde_ := { T_ := 1, Smin_ := 0, Smax_ := 200, a := fun _ _ => 0, b := fun _ _ => 0,
                     c := fun _ _ => 0, d := fun _ _ => 0, Terminal := fun S => S,
                     Lower := fun _ => 0, Upper := fun _ => 200 },
           imax_ := 2, jmax_ := 2, dt_ := 1 / 2, dS_ := 100,
           V := [[0, 500, 1000], [0, 500, 1000], [0, 500, 1000]] } : FDMethod ℚ)
        (1 / 2) 120 = .ok x ∧
      -1 ≤ x ∧ x ≤ 1 :=
  FDMethod.delta_mem_Icc _ (1 / 2) 120 (by norm_num) (by norm_num [ParabPDE.T])
    (by norm_num [ParabPDE.Smin]) (by norm_num [ParabPDE.Smax])

end pde

namespace pde

open opt

variable {α : Type} [LinearOrderedField α]

/-- C13: `SolvePDE` is deterministic and idempotent.  For every solver built by
the constructor, the solver after calling `SolvePDE` twice in a row is
identical, entry by entry, to the solver after calling it once; and the result
does not depend on the previous grid contents: replacing the grid by any grid
of `imax + 1` rows of `jmax + 1` entries before the call gives the same
result. -/
theorem ImplicitScheme.SolvePDE_idempotent (pde : ParabPDE α) (imax jmax : Int)
    (A B C D E F G : FDMethod α → Int → Int → α) (s : ImplicitScheme α)
    (hs : ImplicitScheme.new pde imax jmax A B C D E F G = .ok s) :
    s.SolvePDE.SolvePDE = s.SolvePDE ∧
    (∀ i j, get2 s.SolvePDE.SolvePDE.V i j = get2 s.SolvePDE.V i j) ∧
    (∀ V' : List (List α), V'.length = imax.toNat + 1 →
      (∀ row ∈ V', row.length = jmax.toNat + 1) →
      ({ s with V := V' } : ImplicitScheme α).SolvePDE = s.SolvePDE) := by
  obtain ⟨hm, -⟩ := ImplicitScheme.new_eq_ok_is hs
  obtain ⟨-, -, himax, hjmax, -, -, -⟩ := FDMethod.new_eq_ok_fields hm
  obtain ⟨hV, hrow⟩ := FDMethod.shape_of_new hm
  have indep : ∀ V' : List (List α), V'.length = s.imax_.toNat + 1 →
      (V'.getD s.imax_.toNat []).length = s.jmax_.toNat + 1 →
      ({ s with V := V' } : ImplicitScheme α).SolvePDE = s.SolvePDE := by
    intro V' h1 h2
    have hV := ImplicitScheme.SolvePDE_V_indep s V' hV hrow h1 h2
    have e1 : ({ s with V := V' } : ImplicitScheme α).SolvePDE =
        { s with V := ({ s with V := V' } : ImplicitScheme α).SolvePDE.V } := rfl
    have e2 : s.SolvePDE = { s with V := s.SolvePDE.V } := rfl
    rw [e1, e2, hV]
  have hlen : s.SolvePDE.V.length = s.imax_.toNat + 1 := by
    rw [ImplicitScheme.length_SolvePDE_V, hV]
  have hlast : (s.SolvePDE.V.getD s.imax_.toNat []).length = s.jmax_.toNat + 1 := by
    rw [ImplicitScheme.SolvePDE_last s hV hrow]
    simp
  have idem : s.SolvePDE.SolvePDE = s.SolvePDE := indep s.SolvePDE.V hlen hlast
  refine ⟨idem, fun i j => by rw [idem], ?_⟩
  intro V' h1 h2
  apply indep V' (by rw [himax]; exact h1)
  rw [himax, hjmax]
  apply h2
  rw [List.getD_eq_getElem _ _ (by omega)]
  exact List.getElem_mem _

/-- Witness of C13: the Crank-Nicolson solver with `imax = 2, jmax = 3` on the
domain `T = 1, Smin = 0, Smax = 3` with coefficients `a = -S^2/2, b = -S, c = 1`. -/
theorem ImplicitScheme.SolvePDE_idempotent_witness :
    ∃ (pde : ParabPDE ℚ) (s : ImplicitScheme ℚ),
      ParabPDE.new 1 0 3 (fun _ S => -(1 / 2) * S ^ 2) (fun _ S => -S) (fun _ _ => 1)
        (fun _ _ => 0) (fun S => max (S - 1) 0) (fun _ => 0) (fun _ => 2) = .ok pde ∧
      CNMethod.new pde 2 3 = .ok s ∧
      s.SolvePDE.SolvePDE = s.SolvePDE := by
  have hp := ParabPDE.new_of_valid_pde (fun _ S : ℚ => -(1 / 2) * S ^ 2) (fun _ S => -S)
    (fun _ _ => 1) (fun _ _ => 0) (fun S => max (S - 1) 0) (fun _ => 0) (fun _ => 2)
    (show (0 : ℚ) < 1 by norm_num) (show (0 : ℚ) < 3 by norm_num) (le_refl 0)
  obtain ⟨s, hs⟩ := ImplicitScheme.new_of_valid_is
    ({ T_ := 1, Smin_ := 0, Smax_ := 3, a := fun _ S => -(1 / 2) * S ^ 2, b := fun _ S => -S,
       c := fun _ _ => 1, d := fun _ _ => 0, Terminal := fun S => max (S - 1) 0,
       Lower := fun _ => 0, Upper := fun _ => 2 } : ParabPDE ℚ) 2 3
    CNMethod.A CNMethod.B CNMethod.C CNMethod.D CNMethod.E CNMethod.F CNMethod.G
    (by decide) (by decide)
  exact ⟨_, s, hp, hs, (ImplicitScheme.SolvePDE_idempotent _ 2 3 _ _ _ _ _ _ _ s hs).1⟩

end pde

namespace pde

open opt

variable {α : Type} [LinearOrderedField α] [FloorRing α]

/-- C14: boundary short-circuits of the point query.  On a PDE accepted by its
constructor and for every solver state on it (every grid content),
`v(t, Smax) = Upper(t)` for every `t` in `[0, T]`, and `v(T, S) = Terminal(S)`
for every `S` in `[Smin, Smax)`. -/
theorem FDMethod.v_boundary (T Smin Smax : α) (a b c d : α → α → α)
    (Terminal Lower Upper : α → α) (m : FDMethod α)
    (hp : ParabPDE.new T Smin Smax a b c d Terminal Lower Upper = .ok m.pde_) :
    (∀ t, 0 ≤ t → t ≤ T → m.v t Smax = .ok (Upper t)) ∧
    (∀ S, Smin ≤ S → S < Smax → m.v T S = .ok (Terminal S)) := by
  obtain ⟨⟨hT, hS, -⟩, hpde⟩ := ParabPDE.new_eq_ok_pde hp
  have h1 : m.pde_.T = T := by rw [hpde]; rfl
  have h2 : m.pde_.Smin = Smin := by rw [hpde]; rfl
  have h3 : m.pde_.Smax = Smax := by rw [hpde]; rfl
  have h4 : m.pde_.Upper = Upper := by rw [hpde]
  have h5 : m.pde_.Terminal = Terminal := by rw [hpde]
  constructor
  · intro t ht0 htT
    unfold FDMethod.v
    rw [h1, h2, h3, h4, if_neg (by push_neg; exact ⟨ht0, htT⟩),
      if_neg (by push_neg; exact ⟨le_of_lt hS, le_refl _⟩), if_pos rfl]
  · intro S hS0 hS1
    unfold FDMethod.v
    rw [h1, h2, h3, h5, if_neg (by push_neg; exact ⟨le_of_lt hT, le_refl _⟩),
      if_neg (by push_neg; exact ⟨hS0, le_of_lt hS1⟩), if_neg (ne_of_lt hS1), if_pos rfl]

/-- Witness of C14 on the domain `T = 1, Smin = 0, Smax = 200`, with a grid
whose entries are all `7`. -/
theorem FDMethod.v_boundary_witness :
    FDMethod.v
        ({ pde_ := { T_ := 1, Smin_ := 0, Smax_ := 200, a := fun _ _ => 0, b := fun _ _ => 0,
                     c := fun _ _ => 0, d := fun _ _ => 0, Terminal := fun S => S,
                     Lower := fun _ => 0, Upper := fun t => 200 - t },
           imax_ := 2, jmax_ := 2, dt_ := 1 / 2, dS_ := 100,
           V := [[7, 7, 7], [7, 7, 7], [7, 7, 7]] } : FDMethod ℚ) (1 / 2) 200 =
      .ok (200 - 1 / 2) :=
  (FDMethod.v_boundary (1 : ℚ) 0 200 (fun _ _ => 0) (fun _ _ => 0) (fun _ _ => 0) (fun _ _ => 0)
    (fun S => S) (fun _ => 0) (fun t => 200 - t) _
    (ParabPDE.new_of_valid_pde _ _ _ _ _ _ _ (by norm_num) (by norm_num) (le_refl 0))).1
    (1 / 2) (by norm_num) (by norm_num)

end pde

namespace pde

open opt

variable {α : Type} [LinearOrderedField α] [FloorRing α]

/-- C15: on every solver state, each of the point queries `v(t, S)` and
`delta(t, S)` fails with an error if and only if `t < 0` or `t > T` or
`S < Smin` or `S > Smax`; for every `(t, S)` with `0 <= t <= T` and
`Smin <= S <= Smax` they return a value: an argument outside the domain is
never replaced by the nearest one inside. -/
theorem FDMethod.point_query_fails_iff (m : FDMethod α) (t S : α) :
    ((∃ err, m.v t S = .error err) ↔
      (t < 0 ∨ t > m.pde_.T ∨ S < m.pde_.Smin ∨ S > m.pde_.Smax)) ∧
    ((∃ err, m.delta t S = .error err) ↔
      (t < 0 ∨ t > m.pde_.T ∨ S < m.pde_.Smin ∨ S > m.pde_.Smax)) ∧
    ((0 ≤ t ∧ t ≤ m.pde_.T ∧ m.pde_.Smin ≤ S ∧ S ≤ m.pde_.Smax) →
      (∃ x, m.v t S = .ok x) ∧ (∃ x, m.delta t S = .ok x)) := by
  by_cases ht : t < 0 ∨ t > m.pde_.T
  · refine ⟨⟨fun _ => by tauto, fun _ => ⟨_, FDMethod.v_of_t_out m S ht⟩⟩,
      ⟨fun _ => by tauto, fun _ => ⟨_, FDMethod.delta_of_t_out m S ht⟩⟩, ?_⟩
    rintro ⟨h1, h2, -, -⟩
    rcases ht with h | h
    · exact absurd h1 (not_le.mpr h)
    · exact absurd h2 (not_le.mpr h)
  · by_cases hS : S < m.pde_.Smin ∨ S > m.pde_.Smax
    · refine ⟨⟨fun _ => by tauto, fun _ => ⟨_, FDMethod.v_of_S_out m ht hS⟩⟩,
        ⟨fun _ => by tauto, fun _ => ⟨_, FDMethod.delta_of_S_out m ht hS⟩⟩, ?_⟩
      rintro ⟨-, -, h1, h2⟩
      rcases hS with h | h
      · exact absurd h1 (not_le.mpr h)
      · exact absurd h2 (not_le.mpr h)
    · obtain ⟨x, hx⟩ := FDMethod.v_of_in m ht hS
      obtain ⟨y, hy, -⟩ := FDMethod.delta_of_in m ht hS
      refine ⟨⟨?_, fun h => by tauto⟩, ⟨?_, fun h => by tauto⟩, fun _ => ⟨⟨x, hx⟩, ⟨y, hy⟩⟩⟩
      · rintro ⟨err, he⟩
        rw [hx] at he
        cases he
      · rintro ⟨err, he⟩
        rw [hy] at he
        cases he

end pde

namespace pde

open opt

variable {α : Type} [LinearOrderedField α] [FloorRing α]

/-- C16, the code at an out-of-domain price: on the solver built on the domain
`T = 1, Smin = 0, Smax = 200` with `imax = 2, jmax = 2`, the queries
`v(1/2, 201)` and `delta(1/2, 201)`, whose time is in the domain and whose
price is above `Smax`, fail with an error of the invalid-argument kind, while
the query `v(2, 100)`, whose time is after `T`, fails with an error of the
out-of-range kind. -/
theorem FDMethod.price_out_of_domain_error_kind :
    ∃ (pde : ParabPDE ℚ) (m : FDMethod ℚ),
      ParabPDE.new 1 0 200 (fun _ _ => 0) (fun _ _ => 0) (fun _ _ => 0) (fun _ _ => 0)
        (fun S => S) (fun _ => 0) (fun _ => 200) = .ok pde ∧
      FDMethod.new pde 2 2 = .ok m ∧
      m.v (1 / 2) 201 = .error (.invalid_argument "S hors du domaine") ∧
      m.delta (1 / 2) 201 = .error (.invalid_argument "S hors du domaine") ∧
      m.v 2 100 = .error (.out_of_range "t hors du domaine") := by
  refine ⟨_, _, ParabPDE.new_of_valid_pde _ _ _ _ _ _ _ (by norm_num) (by norm_num)
    (le_refl 0), FDMethod.new_of_valid_fd _ 2 2 (by decide) (by decide), ?_, ?_, ?_⟩
  · exact FDMethod.v_of_S_out _ (by norm_num [ParabPDE.T]) (by norm_num [ParabPDE.Smax])
  · exact FDMethod.delta_of_S_out _ (by norm_num [ParabPDE.T]) (by norm_num [ParabPDE.Smax])
  · exact FDMethod.v_of_t_out _ _ (by norm_num [ParabPDE.T])

end pde

namespace pde

open opt

variable {α : Type} [LinearOrderedField α]

/-- C17: constructing a PDE domain `ParabPDE(T, Smin, Smax)`, and hence a
`Diffusion` model, fails, with an invalid-argument error, if and only if
`T <= 0` or `Smin >= Smax` or `Smin < 0`; otherwise it returns an object. -/
theorem ParabPDE.new_fails_iff_domain (T Smin Smax : α) (a b c d : α → α → α)
    (Terminal Lower Upper : α → α) (exp : α → α) (R : α) (payoff : α → α)
    (vol : α → α → α) :
    ((∃ msg, ParabPDE.new T Smin Smax a b c d Terminal Lower Upper =
        .error (.invalid_argument msg)) ↔ (T ≤ 0 ∨ Smin ≥ Smax ∨ Smin < 0)) ∧
    ((∃ p, ParabPDE.new T Smin Smax a b c d Terminal Lower Upper = .ok p) ↔
      ¬ (T ≤ 0 ∨ Smin ≥ Smax ∨ Smin < 0)) ∧
    ((∃ msg, Diffusion.new exp T Smin Smax R payoff vol = .error (.invalid_argument msg)) ↔
      (T ≤ 0 ∨ Smin ≥ Smax ∨ Smin < 0)) ∧
    ((∃ p, Diffusion.new exp T Smin Smax R payoff vol = .ok p) ↔
      ¬ (T ≤ 0 ∨ Smin ≥ Smax ∨ Smin < 0)) := by
  have key : ∀ (a b c d : α → α → α) (Terminal Lower Upper : α → α),
      ((∃ msg, ParabPDE.new T Smin Smax a b c d Terminal Lower Upper =
          .error (.invalid_argument msg)) ↔ (T ≤ 0 ∨ Smin ≥ Smax ∨ Smin < 0)) ∧
      ((∃ p, ParabPDE.new T Smin Smax a b c d Terminal Lower Upper = .ok p) ↔
        ¬ (T ≤ 0 ∨ Smin ≥ Smax ∨ Smin < 0)) := by
    intro a b c d Terminal Lower Upper
    unfold ParabPDE.new
    by_cases hc : T ≤ 0 ∨ Smin ≥ Smax ∨ Smin < 0
    · rw [if_pos hc]
      exact ⟨⟨fun _ => hc, fun _ => ⟨_, rfl⟩⟩,
        ⟨fun ⟨p, hp⟩ => (by cases hp), fun h => absurd hc h⟩⟩
    · rw [if_neg hc]
      exact ⟨⟨fun ⟨msg, hm⟩ => (by cases hm), fun h => absurd h hc⟩,
        ⟨fun _ => hc, fun _ => ⟨_, rfl⟩⟩⟩
  exact ⟨(key a b c d Terminal Lower Upper).1, (key a b c d Terminal Lower Upper).2,
    (key _ _ _ _ _ _ _).1, (key _ _ _ _ _ _ _).2⟩

end pde

namespace pde

open opt

variable {α : Type} [LinearOrderedField α]

/-- C18: for a PDE accepted by its constructor, `FDMethod(pde, imax, jmax)`
fails, with an invalid-argument error, if and only if `imax <= 0` or
`jmax <= 1`; on success the grid has exactly `imax + 1` rows of `jmax + 1`
entries, `dt = T / imax` and `dS = (Smax - Smin) / jmax`, so that `t(0) = 0`,
`t(imax) = T`, `S(0) = Smin` and `S(jmax) = Smax`, with `dt > 0` and `dS > 0`. -/
theorem FDMethod.new_spec (T Smin Smax : α) (a b c d : α → α → α)
    (Terminal Lower Upper : α → α) (pde : ParabPDE α) (imax jmax : Int)
    (hp : ParabPDE.new T Smin Smax a b c d Terminal Lower Upper = .ok pde) :
    ((∃ msg, FDMethod.new pde imax jmax = .error (.invalid_argument msg)) ↔
      (imax ≤ 0 ∨ jmax ≤ 1)) ∧
    ((∃ m, FDMethod.new pde imax jmax = .ok m) ↔ ¬ (imax ≤ 0 ∨ jmax ≤ 1)) ∧
    (∀ m, FDMethod.new pde imax jmax = .ok m →
      m.V.length = imax.toNat + 1 ∧
      (∀ row ∈ m.V, row.length = jmax.toNat + 1) ∧
      m.dt_ = T / (imax : α) ∧ m.dS_ = (Smax - Smin) / (jmax : α) ∧
      m.t 0 = 0 ∧ m.t (imax : α) = T ∧ m.S 0 = Smin ∧ m.S jmax = Smax ∧
      0 < m.dt_ ∧ 0 < m.dS_) := by
  obtain ⟨⟨hT, hS, -⟩, rfl⟩ := ParabPDE.new_eq_ok_pde hp
  refine ⟨?_, ?_, ?_⟩
  · unfold FDMethod.new
    constructor
    · rintro ⟨msg, h⟩
      by_contra hc
      push_neg at hc
      rw [if_neg (not_le.mpr hc.1), if_neg (not_le.mpr hc.2)] at h
      cases h
    · intro h
      split_ifs with h1 h2
      · exact ⟨_, rfl⟩
      · exact ⟨_, rfl⟩
      · tauto
  · unfold FDMethod.new
    constructor
    · rintro ⟨m, h⟩
      split_ifs at h with h1 h2
      tauto
    · intro h
      push_neg at h
      rw [if_neg (not_le.mpr h.1), if_neg (not_le.mpr h.2)]
      exact ⟨_, rfl⟩
  · intro m hm
    obtain ⟨⟨hi, hj⟩, rfl⟩ := FDMethod.new_eq_ok_fd hm
    have hiα : (0 : α) < (imax : α) := by exact_mod_cast hi
    have hjα : (0 : α) < (jmax : α) := by exact_mod_cast lt_trans Int.zero_lt_one hj
    refine ⟨by simp, ?_, rfl, rfl, ?_, ?_, ?_, ?_, ?_, ?_⟩
    · intro row hrow
      rw [List.eq_of_mem_replicate hrow]
      simp
    · simp [FDMethod.t]
    · simp only [FDMethod.t, ParabPDE.T]
      exact div_mul_cancel₀ T (ne_of_gt hiα)
    · simp [FDMethod.S, ParabPDE.Smin]
    · simp only [FDMethod.S, ParabPDE.Smin, ParabPDE.Smax]
      rw [div_mul_cancel₀ _ (ne_of_gt hjα)]
      ring
    · exact div_pos hT hiα
    · exact div_pos (sub_pos.mpr hS) hjα

/-- Witness of C18 on the domain `T = 1, Smin = 0, Smax = 200` with
`imax = 2, jmax = 4`. -/
theorem FDMethod.new_spec_witness :
    ∃ (pde : ParabPDE ℚ) (m : FDMethod ℚ),
      ParabPDE.new 1 0 200 (fun _ _ => 0) (fun _ _ => 0) (fun _ _ => 0) (fun _ _ => 0)
        (fun S => S) (fun _ => 0) (fun _ => 200) = .ok pde ∧
      FDMethod.new pde 2 4 = .ok m ∧
      m.V.length = 3 ∧ m.dt_ = 1 / ((2 : Int) : ℚ) ∧ m.dS_ = (200 - 0) / ((4 : Int) : ℚ) ∧
      0 < m.dt_ ∧ 0 < m.dS_ :=
  have hp := ParabPDE.new_of_valid_pde (fun _ _ => (0 : ℚ)) (fun _ _ => 0) (fun _ _ => 0)
    (fun _ _ => 0) (fun S => S) (fun _ => 0) (fun _ => 200)
    (show (0 : ℚ) < 1 by norm_num) (show (0 : ℚ) < 200 by norm_num) (le_refl 0)
  have hm := FDMethod.new_of_valid_fd
    ({ T_ := 1, Smin_ := 0, Smax_ := 200, a := fun _ _ => 0, b := fun _ _ => 0,
       c := fun _ _ => 0, d := fun _ _ => 0, Terminal := fun S => S, Lower := fun _ => 0,
       Upper := fun _ => 200 } : ParabPDE ℚ) 2 4 (by decide) (by decide)
  have h := (FDMethod.new_spec 1 0 200 _ _ _ _ _ _ _ _ 2 4 hp).2.2 _ hm
  ⟨_, _, hp, hm, h.1, h.2.2.1, h.2.2.2.1, h.2.2.2.2.2.2.2.2.1, h.2.2.2.2.2.2.2.2.2⟩

end pde

namespace crr

open opt

variable {α : Type} [LinearOrderedField α]

/-- C19, refuted as stated: on the American put of strike 1 with `S0 = 0,
R = -50, sigma = 0, T = 1` (any `N`, here 1) the prices at 100, 200 and 400
steps are `2^100`, `(4/3)^200` and `(8/7)^400`, and `priceRR` does not return
the corner `T[0][2]` of the table whose ratio is, in every column, the ratio of
the step counts of adjacent rows. -/
theorem American.priceRR_adjacent_counterexample :
    ∃ (a a100 a200 a400 : American ℚ) (x : ℚ),
      American.new Rat.sqrt 0 (-50) 0 1 1 (PayoffPut.eval ⟨1⟩) = .ok a ∧
      American.new Rat.sqrt 0 (-50) 0 1 100 (PayoffPut.eval ⟨1⟩) = .ok a100 ∧
      American.new Rat.sqrt 0 (-50) 0 1 200 (PayoffPut.eval ⟨1⟩) = .ok a200 ∧
      American.new Rat.sqrt 0 (-50) 0 1 400 (PayoffPut.eval ⟨1⟩) = .ok a400 ∧
      a100.price = 2 ^ 100 ∧ a200.price = (4 / 3) ^ 200 ∧ a400.price = (8 / 7) ^ 400 ∧
      a.priceRR Rat.sqrt = .ok x ∧
      x ≠ tableAdjacentRatio [100, 200, 400]
        (fun i => get1 [a100.price, a200.price, a400.price] i) 0 2 := by
  have hnew : ∀ N : Int, 0 < N →
      American.new Rat.sqrt (0 : ℚ) (-50) 0 1 N (PayoffPut.eval ⟨1⟩) = .ok _ :=
    fun N hN => American.new_of_valid_am Rat.sqrt (-50) (PayoffPut.eval ⟨1⟩)
      (le_refl 0) (le_refl 0) (by norm_num) hN
  have hprice : ∀ N : Int, 0 < N → (1 : ℚ) ≤ 1 / (1 + -50 * 1 / (N : ℚ)) →
      (American.buildStockTree
        { toOption := Option.init Rat.sqrt (0 : ℚ) (-50) 0 1 N,
          payoff_ := PayoffPut.eval ⟨1⟩, stockTree_ := [] }).price =
        (1 / (1 + -50 * 1 / (N : ℚ))) ^ N.toNat := by
    intro N _ hD
    rw [American.price_of_zero_spot _ rfl rfl (by simp [American.buildStockTree, PayoffPut.eval])
      (by
        show 1 ≤ (Option.init Rat.sqrt (0 : ℚ) (-50) 0 1 N).discount_
        rw [Option.init_discount]; exact hD)]
    show PayoffPut.eval ⟨1⟩ (0 : ℚ) *
      (Option.init Rat.sqrt (0 : ℚ) (-50) 0 1 N).discount_ ^ N.toNat = _
    rw [Option.init_discount]
    simp [PayoffPut.eval]
  have p100 := hprice 100 (by decide) (by norm_num)
  have p200 := hprice 200 (by decide) (by norm_num)
  have p400 := hprice 400 (by decide) (by norm_num)
  have e100 : (1 / (1 + -50 * 1 / ((100 : Int) : ℚ))) ^ (100 : Int).toNat = (2 : ℚ) ^ 100 := by
    rw [show (100 : Int).toNat = 100 from rfl,
      show (1 / (1 + -50 * 1 / ((100 : Int) : ℚ))) = 2 by norm_num]
  have e200 : (1 / (1 + -50 * 1 / ((200 : Int) : ℚ))) ^ (200 : Int).toNat = (4 / 3 : ℚ) ^ 200 := by
    rw [show (200 : Int).toNat = 200 from rfl,
      show (1 / (1 + -50 * 1 / ((200 : Int) : ℚ))) = 4 / 3 by norm_num]
  have e400 : (1 / (1 + -50 * 1 / ((400 : Int) : ℚ))) ^ (400 : Int).toNat = (8 / 7 : ℚ) ^ 400 := by
    rw [show (400 : Int).toNat = 400 from rfl,
      show (1 / (1 + -50 * 1 / ((400 : Int) : ℚ))) = 8 / 7 by norm_num]
  rw [e100] at p100
  rw [e200] at p200
  rw [e400] at p400
  refine ⟨_, _, _, _, _, hnew 1 (by decide), hnew 100 (by decide), hnew 200 (by decide),
    hnew 400 (by decide), p100, p200, p400,
    American.priceRR_eq Rat.sqrt _ _ _ _ (hnew 100 (by decide)) (hnew 200 (by decide))
      (hnew 400 (by decide)), ?_⟩
  rw [p100, p200, p400]
  simp only [tableAdjacentRatio, get1, List.getD_cons_zero, List.getD_cons_succ]
  norm_num

/-- C19, amended: for every accepted American instance, `priceRR` evaluates the
American price `P(n)` (same `S0`, `R`, `sigma`, `T` and payoff, `n` steps) at
the step counts `Ns = (100, 200, 400)` and returns the corner `T[0][2]` of the
triangular table defined by `T[i][0] = P(Ns[i])` and
`T[i][k] = T[i+1][k-1] + (T[i+1][k-1] - T[i][k-1]) / (rho - 1)`, where in
column `k` the ratio `rho` is the ratio of the step counts of the rows `i` and
`i + k`, `rho = Ns[i+k] / Ns[i]` (2 in column 1 and 4 in column 2). -/
theorem American.priceRR_table (sqrt : α → α) (S0 R sigma T : α) (N : Int)
    (payoff : α → α) (a : American α)
    (ha : American.new sqrt S0 R sigma T N payoff = .ok a) :
    ∃ a100 a200 a400 : American α,
      American.new sqrt S0 R sigma T 100 payoff = .ok a100 ∧
      American.new sqrt S0 R sigma T 200 payoff = .ok a200 ∧
      American.new sqrt S0 R sigma T 400 payoff = .ok a400 ∧
      a.priceRR sqrt = .ok (tableSpanRatio [100, 200, 400]
        (fun i => get1 [a100.price, a200.price, a400.price] i) 0 2) := by
  obtain ⟨⟨hS, hsig, hT, -⟩, ho, hf, -⟩ := American.new_eq_ok_am ha
  have h100 := American.new_of_valid_am sqrt R payoff hS hsig hT (N := 100) (by decide)
  have h200 := American.new_of_valid_am sqrt R payoff hS hsig hT (N := 200) (by decide)
  have h400 := American.new_of_valid_am sqrt R payoff hS hsig hT (N := 400) (by decide)
  have hS0 : a.S0_ = S0 := by rw [ho]; rfl
  have hR : a.R_ = R := by rw [ho]; rfl
  have hsg : a.sigma_ = sigma := by rw [ho]; rfl
  have hTT : a.T_ = T := by rw [ho]; rfl
  refine ⟨_, _, _, h100, h200, h400, ?_⟩
  rw [American.priceRR_eq sqrt a _ _ _ (by rw [hS0, hR, hsg, hTT, hf]; exact h100)
    (by rw [hS0, hR, hsg, hTT, hf]; exact h200) (by rw [hS0, hR, hsg, hTT, hf]; exact h400)]
  simp only [tableSpanRatio, get1, List.getD_cons_zero, List.getD_cons_succ]
  norm_num

/-- Witness of the amended C19 at `S0 = 100, R = 1/20, sigma = 1/5, T = 1, N = 3`
with a put of strike 100. -/
theorem American.priceRR_table_witness :
    ∃ a a100 a200 a400 : American ℚ,
      American.new Rat.sqrt 100 (1 / 20) (1 / 5) 1 3 (PayoffPut.eval ⟨100⟩) = .ok a ∧
      American.new Rat.sqrt 100 (1 / 20) (1 / 5) 1 100 (PayoffPut.eval ⟨100⟩) = .ok a100 ∧
      American.new Rat.sqrt 100 (1 / 20) (1 / 5) 1 200 (PayoffPut.eval ⟨100⟩) = .ok a200 ∧
      American.new Rat.sqrt 100 (1 / 20) (1 / 5) 1 400 (PayoffPut.eval ⟨100⟩) = .ok a400 ∧
      a.priceRR Rat.sqrt = .ok (tableSpanRatio [100, 200, 400]
        (fun i => get1 [a100.price, a200.price, a400.price] i) 0 2) := by
  obtain ⟨a100, a200, a400, h1, h2, h4, h⟩ :=
    American.priceRR_table Rat.sqrt 100 (1 / 20) (1 / 5) 1 3 (PayoffPut.eval ⟨100⟩) _
      (American.new_of_valid_am _ _ _ (by norm_num) (by norm_num) (by norm_num) (by norm_num))
  exact ⟨_, a100, a200, a400,
    American.new_of_valid_am _ _ _ (by norm_num) (by norm_num) (by norm_num) (by norm_num),
    h1, h2, h4, h⟩

end crr

namespace crr

open opt

variable {α : Type} [LinearOrderedField α]

/-- C20: for every accepted Asian instance with `1 + R*T/N != 0`, `price()` is
the equally weighted discounted average of the leaf payoffs,
`price() = discount^N * (1/2^N) * (sum over j < 2^N of terminalValues()[j])`
with `discount = 1 / (1 + R*T/N)`; `terminalValues()` has `2^N` entries, the
last level of `treePrice()` is `terminalValues()`, and every earlier node is
`discount * 1/2 * (V[n+1][2j+1] + V[n+1][2j])`, with no early-exercise
comparison at any level. -/
theorem Asian.price_eq_average (sqrt : α → α) (S0 R sigma T : α) (N : Int) (payoff : α → α)
    (aggregator : α → α → Nat → α) (s : Asian α)
    (hs : Asian.new sqrt S0 R sigma T N payoff aggregator = .ok s)
    (_hR : 1 + R * T / (N : α) ≠ 0) :
    s.price = (1 / (1 + R * T / (N : α))) ^ N.toNat * (1 / 2 ^ N.toNat) *
      ∑ j in Finset.range (2 ^ N.toNat), get1 s.terminalValues j ∧
    s.terminalValues.length = 2 ^ N.toNat ∧
    (∀ j, j < 2 ^ N.toNat → get2 s.treePrice N.toNat j = get1 s.terminalValues j) ∧
    (∀ n j, n < N.toNat → j < 2 ^ n →
      get2 s.treePrice n j =
        1 / (1 + R * T / (N : α)) * (1 / 2) *
          (get2 s.treePrice (n + 1) (2 * j + 1) + get2 s.treePrice (n + 1) (2 * j))) := by
  obtain ⟨-, ho, -, -, -⟩ := Asian.new_eq_ok_as hs
  have hN : s.N_.toNat = N.toNat := by rw [ho]; rfl
  have hd : s.discount_ = 1 / (1 + R * T / (N : α)) := by
    rw [ho]; exact Option.init_discount ..
  refine ⟨?_, ?_, ?_, ?_⟩
  · have h := Asian.get2_treePrice_closed s 0 (Nat.zero_le _) 0 (by norm_num)
    rw [Asian.price, h, hN, hd]
    simp only [Nat.sub_zero, zero_mul, zero_add, mul_pow, one_div, inv_pow]
  · rw [← hN]; exact Asian.length_terminalValues s
  · intro j hj
    rw [← hN]
    exact Asian.get2_treePrice_last_as s (by rw [hN]; exact hj)
  · intro n j hn hj
    rw [← hd]
    exact Asian.get2_treePrice_step_as s (by rw [hN]; exact hn) hj

/-- Witness of C20 at `S0 = 100, R = 1/20, sigma = 1/5, T = 1, N = 2` with a
call of strike 100 on the arithmetic running mean. -/
theorem Asian.price_eq_average_witness :
    ∃ s : Asian ℚ,
      Asian.new Rat.sqrt 100 (1 / 20) (1 / 5) 1 2 (PayoffCall.eval ⟨100⟩)
        (fun agg x n => (agg * n + x) / (n + 1)) = .ok s ∧
      s.price = (1 / (1 + 1 / 20 * 1 / ((2 : Int) : ℚ))) ^ (2 : Int).toNat *
        (1 / 2 ^ (2 : Int).toNat) *
        ∑ j in Finset.range (2 ^ (2 : Int).toNat), get1 s.terminalValues j :=
  ⟨_, Asian.new_of_valid_as _ _ _ _ (by norm_num) (by norm_num) (by norm_num) (by norm_num),
    (Asian.price_eq_average Rat.sqrt 100 (1 / 20) (1 / 5) 1 2 (PayoffCall.eval ⟨100⟩)
      (fun agg x n => (agg * n + x) / (n + 1)) _
      (Asian.new_of_valid_as _ _ _ _ (by norm_num) (by norm_num) (by norm_num)
        (by norm_num)) (by norm_num)).1⟩

end crr

namespace opt

variable {α : Type} [LinearOrderedField α]

/-- C22: each two-strike payoff constructor (`PayoffDoubleDigit`, `PayoffBull`,
`PayoffBear`, `PayoffStrangle`, `PayoffButterfly`) fails, with an
invalid-argument error, if and only if `K1 < 0` or `K2 < 0` or `K1 > K2`, and
returns the payoff with these strikes otherwise, in particular for `K1 = K2`;
each single-strike payoff constructor (`PayoffCall`, `PayoffPut`,
`PayoffDigitCall`, `PayoffDigitPut`) fails, with an invalid-argument error, if
and only if `K < 0`, and returns the payoff with this strike otherwise. -/
theorem payoff_new_fails_iff (K K1 K2 : α) :
    (((∃ msg, PayoffDoubleDigit.new K1 K2 = .error (.invalid_argument msg)) ↔
        (K1 < 0 ∨ K2 < 0 ∨ K1 > K2)) ∧
      (¬ (K1 < 0 ∨ K2 < 0 ∨ K1 > K2) → PayoffDoubleDigit.new K1 K2 = .ok ⟨K1, K2⟩)) ∧
    (((∃ msg, PayoffBull.new K1 K2 = .error (.invalid_argument msg)) ↔
        (K1 < 0 ∨ K2 < 0 ∨ K1 > K2)) ∧
      (¬ (K1 < 0 ∨ K2 < 0 ∨ K1 > K2) → PayoffBull.new K1 K2 = .ok ⟨K1, K2⟩)) ∧
    (((∃ msg, PayoffBear.new K1 K2 = .error (.invalid_argument msg)) ↔
        (K1 < 0 ∨ K2 < 0 ∨ K1 > K2)) ∧
      (¬ (K1 < 0 ∨ K2 < 0 ∨ K1 > K2) → PayoffBear.new K1 K2 = .ok ⟨K1, K2⟩)) ∧
    (((∃ msg, PayoffStrangle.new K1 K2 = .error (.invalid_argument msg)) ↔
        (K1 < 0 ∨ K2 < 0 ∨ K1 > K2)) ∧
      (¬ (K1 < 0 ∨ K2 < 0 ∨ K1 > K2) → PayoffStrangle.new K1 K2 = .ok ⟨K1, K2⟩)) ∧
    (((∃ msg, PayoffButterfly.new K1 K2 = .error (.invalid_argument msg)) ↔
        (K1 < 0 ∨ K2 < 0 ∨ K1 > K2)) ∧
      (¬ (K1 < 0 ∨ K2 < 0 ∨ K1 > K2) → PayoffButterfly.new K1 K2 = .ok ⟨K1, K2⟩)) ∧
    (((∃ msg, PayoffCall.new K = .error (.invalid_argument msg)) ↔ K < 0) ∧
      (¬ K < 0 → PayoffCall.new K = .ok ⟨K⟩)) ∧
    (((∃ msg, PayoffPut.new K = .error (.invalid_argument msg)) ↔ K < 0) ∧
      (¬ K < 0 → PayoffPut.new K = .ok ⟨K⟩)) ∧
    (((∃ msg, PayoffDigitCall.new K = .error (.invalid_argument msg)) ↔ K < 0) ∧
      (¬ K < 0 → PayoffDigitCall.new K = .ok ⟨K⟩)) ∧
    (((∃ msg, PayoffDigitPut.new K = .error (.invalid_argument msg)) ↔ K < 0) ∧
      (¬ K < 0 → PayoffDigitPut.new K = .ok ⟨K⟩)) := by
  have two : ∀ {β : Type} (mk : β) (c : Prop) [Decidable c],
      ((∃ msg, (if c then Except.error (Exception.invalid_argument "Strike incorrect")
          else Except.ok mk) = Except.error (Exception.invalid_argument msg)) ↔ c) ∧
        (¬ c → (if c then Except.error (Exception.invalid_argument "Strike incorrect")
          else Except.ok mk) = Except.ok mk) := by
    intro β mk c _
    by_cases hc : c
    · rw [if_pos hc]
      exact ⟨⟨fun _ => hc, fun _ => ⟨_, rfl⟩⟩, fun h => absurd hc h⟩
    · rw [if_neg hc]
      exact ⟨⟨fun ⟨_, h⟩ => (by cases h), fun h => absurd h hc⟩, fun _ => rfl⟩
  have one : ∀ {β : Type} (mk : β) (c : Prop) [Decidable c],
      ((∃ msg, (if c then Except.error
          (Exception.invalid_argument "Strike K doit être non-négatif")
          else Except.ok mk) = Except.error (Exception.invalid_argument msg)) ↔ c) ∧
        (¬ c → (if c then Except.error
          (Exception.invalid_argument "Strike K doit être non-négatif")
          else Except.ok mk) = Except.ok mk) := by
    intro β mk c _
    by_cases hc : c
    · rw [if_pos hc]
      exact ⟨⟨fun _ => hc, fun _ => ⟨_, rfl⟩⟩, fun h => absurd hc h⟩
    · rw [if_neg hc]
      exact ⟨⟨fun ⟨_, h⟩ => (by cases h), fun h => absurd h hc⟩, fun _ => rfl⟩
  exact ⟨two _ _, two _ _, two _ _, two _ _, two _ _, one _ _, one _ _, one _ _, one _ _⟩

end opt

namespace crr

open opt

/-- C23: for `S0 = 100, K = 100, R = 0.05, sigma = 0.2, T = 1` and `N = 400`, the
price of the European call computed on the lattice, in exact real arithmetic,
differs from the Black-Scholes closed-form call price by less than `1e-2`: the
lattice price is between `10.4543` and `10.4544`, and the closed-form price is
within `1e-3` of `10.4506`. -/
theorem European.price_near_blackScholes :
    ∃ (p : PayoffCall ℝ) (e : European ℝ),
      PayoffCall.new 100 = .ok p ∧
      European.new Real.sqrt 100 (5 / 100) (2 / 10) 1 400 p.eval = .ok e ∧
      |e.price - blackScholesCall 100 100 (5 / 100) (2 / 10) 1| < 1 / 100 ∧
      |blackScholesCall 100 100 (5 / 100) (2 / 10) 1 - 104506 / 10000| < 1 / 1000 ∧
      104543 / 10000 < e.price ∧ e.price < 104544 / 10000 := by
  have hsq : Real.sqrt (1 / 400) = 1 / 20 := by
    rw [show (1 / 400 : ℝ) = (1 / 20) ^ 2 by norm_num, Real.sqrt_sq (by norm_num)]
  have he : European.new Real.sqrt (100 : ℝ) (5 / 100) (2 / 10) 1 400
      (PayoffCall.eval (⟨100⟩ : PayoffCall ℝ)) = _ :=
    European.new_of_valid_eu _ _ _ (by norm_num) (by norm_num) (by norm_num) (by norm_num)
  obtain ⟨h1, h2⟩ := European.price_call_400 hsq he
  obtain ⟨b1, b2⟩ := blackScholesCall_bounds
  refine ⟨⟨100⟩, _, PayoffCall.new_of_nonneg (by norm_num), he, ?_, ?_, h1, h2⟩
  · rw [abs_lt]; constructor <;> linarith
  · rw [abs_lt]; constructor <;> linarith

end crr

namespace pde

variable {α : Type} [LinearOrderedField α]

/-- C24: correctness of the Thomas algorithm.  On an accepted scheme (so
`jmax >= 2`), for every time index `i` and every right-hand side `q` of
`jmax + 1` entries, if every pivot `r[j]` (`r[1] = F(i,1)`,
`r[j] = F(i,j) - E(i,j)*G(i,j-1)/r[j-1]`) is non-zero for `1 <= j <= jmax-1`,
then `p = LUDecomposition(i, q)` has `jmax + 1` entries, `p[0] = p[jmax] = 0`,
and solves the tridiagonal system
`E(i,j)*p[j-1] + F(i,j)*p[j] + G(i,j)*p[j+1] = q[j]` for every interior index
`1 <= j <= jmax-1`. -/
theorem ImplicitScheme.LUDecomposition_solves (pde : ParabPDE α) (imax jmax : Int)
    (A B C D E F G : FDMethod α → Int → Int → α) (s : ImplicitScheme α)
    (hs : ImplicitScheme.new pde imax jmax A B C D E F G = .ok s)
    (i : Int) (q : List α) (hq : q.length = jmax.toNat + 1)
    (hpiv : ∀ j : Nat, 1 ≤ j → j ≤ jmax.toNat - 1 → s.pivot i j ≠ 0) :
    2 ≤ jmax ∧
    s.pivot i 1 = s.F i 1 ∧
    (∀ j : Nat, 2 ≤ j →
      s.pivot i j = s.F i j - s.E i j * s.G i ((j : Int) - 1) / s.pivot i (j - 1)) ∧
    (s.LUDecomposition i q).length = jmax.toNat + 1 ∧
    get1 (s.LUDecomposition i q) 0 = 0 ∧
    get1 (s.LUDecomposition i q) jmax.toNat = 0 ∧
    ∀ j : Nat, 1 ≤ j → j ≤ jmax.toNat - 1 →
      s.E i j * get1 (s.LUDecomposition i q) (j - 1) +
        s.F i j * get1 (s.LUDecomposition i q) j +
        s.G i j * get1 (s.LUDecomposition i q) (j + 1) = get1 q j := by
  obtain ⟨hm, -⟩ := ImplicitScheme.new_eq_ok_is hs
  obtain ⟨⟨-, hj⟩, -, -, hjmax, -, -, -⟩ := FDMethod.new_eq_ok_fields hm
  have hjm : 2 ≤ s.jmax_.toNat := by rw [hjmax]; omega
  rw [← hjmax] at hpiv ⊢
  obtain ⟨h0, hJ, hp⟩ := ImplicitScheme.LUDecomposition_tridiagonal s i q hjm hpiv
  refine ⟨by omega, rfl, ?_, ImplicitScheme.length_LUDecomposition s i q, h0, hJ, hp⟩
  intro j h2
  obtain ⟨k, rfl⟩ : ∃ k, j = k + 2 := ⟨j - 2, by omega⟩
  rfl

/-- Witness of C24 over the rationals: the Crank-Nicolson scheme of the heat
operator `a = -1, b = c = d = 0` on the domain `T = 1, Smin = 0, Smax = 3` with
`imax = 1, jmax = 3`, whose pivots at `i = 1` are `2` and `15/8`, and the
right-hand side `q = (0, 1, 2, 0)`. -/
theorem ImplicitScheme.LUDecomposition_solves_witness :
    ∃ (pde : ParabPDE ℚ) (s : ImplicitScheme ℚ),
      ParabPDE.new 1 0 3 (fun _ _ => -1) (fun _ _ => 0) (fun _ _ => 0) (fun _ _ => 0)
        (fun S => S) (fun _ => 0) (fun _ => 3) = .ok pde ∧
      CNMethod.new pde 1 3 = .ok s ∧
      s.pivot 1 1 = 2 ∧ s.pivot 1 2 = 15 / 8 ∧
      get1 (s.LUDecomposition 1 [0, 1, 2, 0]) 0 = 0 ∧
      get1 (s.LUDecomposition 1 [0, 1, 2, 0]) (3 : Int).toNat = 0 ∧
      s.E 1 ((2 : Nat) : Int) * get1 (s.LUDecomposition 1 [0, 1, 2, 0]) (2 - 1) +
        s.F 1 ((2 : Nat) : Int) * get1 (s.LUDecomposition 1 [0, 1, 2, 0]) 2 +
        s.G 1 ((2 : Nat) : Int) * get1 (s.LUDecomposition 1 [0, 1, 2, 0]) (2 + 1) =
          get1 [0, 1, 2, 0] 2 := by
  have hp := ParabPDE.new_of_valid_pde (fun _ _ => (-1 : ℚ)) (fun _ _ => 0) (fun _ _ => 0)
    (fun _ _ => 0) (fun S => S) (fun _ => 0) (fun _ => 3)
    (show (0 : ℚ) < 1 by norm_num) (show (0 : ℚ) < 3 by norm_num) (le_refl 0)
  obtain ⟨s, hs⟩ := ImplicitScheme.new_of_valid_is
    ({ T_ := 1, Smin_ := 0, Smax_ := 3, a := fun _ _ => -1, b := fun _ _ => 0,
       c := fun _ _ => 0, d := fun _ _ => 0, Terminal := fun S => S, Lower := fun _ => 0,
       Upper := fun _ => 3 } : ParabPDE ℚ) 1 3
    CNMethod.A CNMethod.B CNMethod.C CNMethod.D CNMethod.E CNMethod.F CNMethod.G
    (by decide) (by decide)
  obtain ⟨hm, hA, hB, hC, hD, hE, hF, hG⟩ := ImplicitScheme.new_eq_ok_is hs
  obtain ⟨-, hpde, -, -, hdt, hdS, -⟩ := FDMethod.new_eq_ok_fields hm
  have hdt1 : s.dt_ = 1 := by rw [hdt]; norm_num
  have hdS1 : s.dS_ = 1 := by rw [hdS]; norm_num
  have hEv : ∀ j : Int, s.E 1 j = -(1 / 2) := by
    intro j
    rw [hE]
    simp [CNMethod.E, CNMethod.A, FDMethod.a, FDMethod.b, hpde, hdt1, hdS1]
  have hFv : ∀ j : Int, s.F 1 j = 2 := by
    intro j
    rw [hF]
    simp [CNMethod.F, CNMethod.B, FDMethod.a, FDMethod.c, hpde, hdt1, hdS1]
  have hGv : ∀ j : Int, s.G 1 j = -(1 / 2) := by
    intro j
    rw [hG]
    simp [CNMethod.G, CNMethod.C, FDMethod.a, FDMethod.b, hpde, hdt1, hdS1]
  have hp1 : s.pivot 1 1 = 2 := by
    rw [show s.pivot 1 1 = s.F 1 1 from rfl, hFv]
  have hp2 : s.pivot 1 2 = 15 / 8 := by
    rw [show s.pivot 1 2 = s.F 1 ((0 + 2 : Nat) : Int) -
      s.E 1 ((0 + 2 : Nat) : Int) * s.G 1 (((0 + 2 : Nat) : Int) - 1) / s.pivot 1 (0 + 1)
      from rfl, hFv, hEv, hGv, hp1]
    norm_num
  have h := ImplicitScheme.LUDecomposition_solves _ 1 3 _ _ _ _ _ _ _ s hs 1 [0, 1, 2, 0] rfl
    (by
      intro j h1 h2
      have h3 : j ≤ 2 := h2
      interval_cases j
      · rw [hp1]; norm_num
      · rw [hp2]; norm_num)
  exact ⟨_, s, hp, hs, hp1, hp2, h.2.2.2.2.1, h.2.2.2.2.2.1,
    h.2.2.2.2.2.2 2 (by decide) (by decide)⟩

end pde

namespace pde

open opt

variable {α : Type} [LinearOrderedField α]

/-- C25: after `SolvePDE` on a `Diffusion` model (`exp` being the exponential,
`exp 0 = 1`) with `jmax >= 3` and all Thomas pivots non-zero, the grid satisfies
the implicit difference equation at every interior node: for every
`1 <= i <= imax` and `1 <= j <= jmax-1`,
`E(i,j)*V[i-1][j-1] + F(i,j)*V[i-1][j] + G(i,j)*V[i-1][j+1] =
A(i,j)*V[i][j-1] + B(i,j)*V[i][j] + C(i,j)*V[i][j+1] + D(i,j)`, whatever the
coefficient methods of the scheme; for `CNMethod` they satisfy `E = -A`,
`F = 2 - B` and `G = -C`. -/
theorem ImplicitScheme.SolvePDE_difference_equation (exp : α → α) (hexp : exp 0 = 1)
    (T Smin Smax R : α) (payoff : α → α) (vol : α → α → α) (pde : ParabPDE α)
    (imax jmax : Int) (A B C D E F G : FDMethod α → Int → Int → α) (s : ImplicitScheme α)
    (hp : Diffusion.new exp T Smin Smax R payoff vol = .ok pde)
    (hs : ImplicitScheme.new pde imax jmax A B C D E F G = .ok s)
    (hj3 : 3 ≤ jmax)
    (hpiv : ∀ i j : Nat, 1 ≤ i → i ≤ imax.toNat → 1 ≤ j → j ≤ jmax.toNat - 1 →
      s.pivot i j ≠ 0)
    (i j : Nat) (hi1 : 1 ≤ i) (hi2 : i ≤ imax.toNat) (hj1 : 1 ≤ j)
    (hj2 : j ≤ jmax.toNat - 1) :
    (s.E i j * get2 s.SolvePDE.V (i - 1) (j - 1) + s.F i j * get2 s.SolvePDE.V (i - 1) j +
        s.G i j * get2 s.SolvePDE.V (i - 1) (j + 1) =
      s.A i j * get2 s.SolvePDE.V i (j - 1) + s.B i j * get2 s.SolvePDE.V i j +
        s.C i j * get2 s.SolvePDE.V i (j + 1) + s.D i j) ∧
    (∀ (m : FDMethod α) (i j : Int),
      CNMethod.E m i j = -CNMethod.A m i j ∧ CNMethod.F m i j = 2 - CNMethod.B m i j ∧
        CNMethod.G m i j = -CNMethod.C m i j) := by
  refine ⟨?_, fun m i j => ⟨rfl, rfl, rfl⟩⟩
  obtain ⟨hm, -⟩ := ImplicitScheme.new_eq_ok_is hs
  obtain ⟨⟨hi, hj⟩, -, himax, hjmax, -, -, -⟩ := FDMethod.new_eq_ok_fields hm
  obtain ⟨hV, hrow⟩ := FDMethod.shape_of_new hm
  obtain ⟨hlo, hup⟩ := Diffusion.corner_compat hexp hp hm
  rw [← himax] at hi2 hpiv
  rw [← hjmax] at hj2 hpiv
  obtain ⟨n, rfl⟩ : ∃ n, i = n + 1 := ⟨i - 1, by omega⟩
  obtain ⟨h0, hJ⟩ := ImplicitScheme.SolvePDE_boundary_rows s hV hrow (by omega) (by omega)
    hlo hup hi2
  have hstep := ImplicitScheme.SolvePDE_row s hV (n := n) (by omega)
  rw [Nat.add_sub_cancel]
  unfold get2
  rw [hstep]
  exact ImplicitScheme.newRow_equation s (n + 1) _ (by omega)
    (fun j h1 h2 => hpiv (n + 1) j (by omega) hi2 h1 h2) h0 hJ hj1 hj2

/-- Witness of C25 over the reals with the real exponential: a put of strike
`2` on the domain `T = 1, Smin = 0, Smax = 3`, rate `0`, volatility `1`, solved
by Crank-Nicolson with `imax = 1, jmax = 3`; the pivots at `i = 1` are `3/2` and
`17/6`. -/
theorem ImplicitScheme.SolvePDE_difference_equation_witness :
    ∃ (pde : ParabPDE ℝ) (s : ImplicitScheme ℝ),
      Diffusion.new Real.exp 1 0 3 0 (PayoffPut.eval ⟨2⟩) (fun _ _ => 1) = .ok pde ∧
      CNMethod.new pde 1 3 = .ok s ∧
      s.pivot 1 1 = 3 / 2 ∧ s.pivot 1 2 = 17 / 6 ∧
      s.E ((1 : Nat) : Int) ((2 : Nat) : Int) * get2 s.SolvePDE.V (1 - 1) (2 - 1) +
          s.F ((1 : Nat) : Int) ((2 : Nat) : Int) * get2 s.SolvePDE.V (1 - 1) 2 +
          s.G ((1 : Nat) : Int) ((2 : Nat) : Int) * get2 s.SolvePDE.V (1 - 1) (2 + 1) =
        s.A ((1 : Nat) : Int) ((2 : Nat) : Int) * get2 s.SolvePDE.V 1 (2 - 1) +
          s.B ((1 : Nat) : Int) ((2 : Nat) : Int) * get2 s.SolvePDE.V 1 2 +
          s.C ((1 : Nat) : Int) ((2 : Nat) : Int) * get2 s.SolvePDE.V 1 (2 + 1) +
          s.D ((1 : Nat) : Int) ((2 : Nat) : Int) := by
  have hp := ParabPDE.new_of_valid_pde (Diffusion.a fun _ _ => (1 : ℝ))
    (Diffusion.b 0) (Diffusion.c 0) Diffusion.d
    (Diffusion.Terminal (PayoffPut.eval ⟨2⟩))
    (Diffusion.Lower Real.exp (PayoffPut.eval ⟨2⟩) 0 1 0)
    (Diffusion.Upper Real.exp (PayoffPut.eval ⟨2⟩) 0 1 3)
    (show (0 : ℝ) < 1 by norm_num) (show (0 : ℝ) < 3 by norm_num) (le_refl 0)
  obtain ⟨s, hs⟩ := ImplicitScheme.new_of_valid_is
    ({ T_ := 1, Smin_ := 0, Smax_ := 3, a := Diffusion.a fun _ _ => (1 : ℝ),
       b := Diffusion.b 0, c := Diffusion.c 0, d := Diffusion.d,
       Terminal := Diffusion.Terminal (PayoffPut.eval ⟨2⟩),
       Lower := Diffusion.Lower Real.exp (PayoffPut.eval ⟨2⟩) 0 1 0,
       Upper := Diffusion.Upper Real.exp (PayoffPut.eval ⟨2⟩) 0 1 3 } :
      ParabPDE ℝ) 1 3
    CNMethod.A CNMethod.B CNMethod.C CNMethod.D CNMethod.E CNMethod.F CNMethod.G
    (by decide) (by decide)
  obtain ⟨hm, hA, hB, hC, hD, hE, hF, hG⟩ := ImplicitScheme.new_eq_ok_is hs
  obtain ⟨-, hpde, -, -, hdt, hdS, -⟩ := FDMethod.new_eq_ok_fields hm
  have hdt1 : s.dt_ = 1 := by rw [hdt]; norm_num
  have hdS1 : s.dS_ = 1 := by rw [hdS]; norm_num
  have hEv : ∀ j : Int, s.E 1 j = -((j : ℝ) ^ 2 / 4) := by
    intro j
    rw [hE]
    simp [CNMethod.E, CNMethod.A, FDMethod.a, FDMethod.b, FDMethod.S, FDMethod.t, hpde, hdt1,
      hdS1, Diffusion.a, Diffusion.b, ParabPDE.Smin]
    ring
  have hFv : ∀ j : Int, s.F 1 j = 1 + (j : ℝ) ^ 2 / 2 := by
    intro j
    rw [hF]
    simp [CNMethod.F, CNMethod.B, FDMethod.a, FDMethod.c, FDMethod.S, FDMethod.t, hpde, hdt1,
      hdS1, Diffusion.a, Diffusion.c, ParabPDE.Smin]
    ring
  have hGv : ∀ j : Int, s.G 1 j = -((j : ℝ) ^ 2 / 4) := by
    intro j
    rw [hG]
    simp [CNMethod.G, CNMethod.C, FDMethod.a, FDMethod.b, FDMethod.S, FDMethod.t, hpde, hdt1,
      hdS1, Diffusion.a, Diffusion.b, ParabPDE.Smin]
    ring
  have hp1 : s.pivot 1 1 = 3 / 2 := by
    rw [show s.pivot 1 1 = s.F 1 1 from rfl, hFv]
    norm_num
  have hp2 : s.pivot 1 2 = 17 / 6 := by
    rw [show s.pivot 1 2 = s.F 1 ((0 + 2 : Nat) : Int) -
      s.E 1 ((0 + 2 : Nat) : Int) * s.G 1 (((0 + 2 : Nat) : Int) - 1) / s.pivot 1 (0 + 1)
      from rfl, hFv, hEv, hGv, hp1]
    norm_num
  have h := ImplicitScheme.SolvePDE_difference_equation Real.exp Real.exp_zero 1 0 3 0
    (PayoffPut.eval ⟨2⟩) (fun _ _ => 1) _ 1 3 _ _ _ _ _ _ _ s hp hs (by decide)
    (by
      intro i j hi1 hi2 h1 h2
      have hi3 : i ≤ 1 := hi2
      have h3 : j ≤ 2 := h2
      have hi : i = 1 := le_antisymm hi3 hi1
      subst hi
      interval_cases j
      · rw [show (((1 : Nat) : Int)) = 1 from rfl, hp1]; norm_num
      · rw [show (((1 : Nat) : Int)) = 1 from rfl, hp2]; norm_num)
    1 2 (by decide) (by decide) (by decide) (by decide)
  exact ⟨_, s, hp, hs, hp1, hp2, h.1⟩

end pde

namespace pde

open opt

variable {α : Type} [LinearOrderedField α]

/-- C26, the code on a grid with a single interior price: on the `Diffusion`
model of a put of strike `100` on the domain `T = 1, Smin = 0, Smax = 200`, rate
`0`, volatility `1/5`, solved by Crank-Nicolson with `imax = 1, jmax = 2`, the
forcing vector has `w(1)[1] = D(1,1) + C(1,1)*Upper(t(1)) - G(1,1)*Upper(t(0)) = 0`:
the assignment of `w[jmax - 1]` overwrites the assignment of `w[1]` and the
injection of the lower boundary, `A(1,1)*Lower(t(1)) - E(1,1)*Lower(t(0)) = 2`,
is lost, so that the value with both injections is `2`. -/
theorem ImplicitScheme.w_single_interior_drops_lower :
    ∃ (pde : ParabPDE ℝ) (s : ImplicitScheme ℝ),
      Diffusion.new Real.exp 1 0 200 0 (PayoffPut.eval ⟨100⟩) (fun _ _ => 1 / 5) = .ok pde ∧
      CNMethod.new pde 1 2 = .ok s ∧
      get1 (s.w 1) 1 = s.D 1 1 + s.C 1 1 * s.fu 1 - s.G 1 1 * s.fu (1 - 1) ∧
      get1 (s.w 1) 1 = 0 ∧
      s.A 1 1 * s.fl 1 - s.E 1 1 * s.fl (1 - 1) = 2 ∧
      s.D 1 1 + (s.A 1 1 * s.fl 1 - s.E 1 1 * s.fl (1 - 1)) +
        (s.C 1 1 * s.fu 1 - s.G 1 1 * s.fu (1 - 1)) = 2 := by
  have hp := ParabPDE.new_of_valid_pde (Diffusion.a fun _ _ => (1 / 5 : ℝ))
    (Diffusion.b 0) (Diffusion.c 0) Diffusion.d
    (Diffusion.Terminal (PayoffPut.eval ⟨100⟩))
    (Diffusion.Lower Real.exp (PayoffPut.eval ⟨100⟩) 0 1 0)
    (Diffusion.Upper Real.exp (PayoffPut.eval ⟨100⟩) 0 1 200)
    (show (0 : ℝ) < 1 by norm_num) (show (0 : ℝ) < 200 by norm_num) (le_refl 0)
  obtain ⟨s, hs⟩ := ImplicitScheme.new_of_valid_is
    ({ T_ := 1, Smin_ := 0, Smax_ := 200, a := Diffusion.a fun _ _ => (1 / 5 : ℝ),
       b := Diffusion.b 0, c := Diffusion.c 0, d := Diffusion.d,
       Terminal := Diffusion.Terminal (PayoffPut.eval ⟨100⟩),
       Lower := Diffusion.Lower Real.exp (PayoffPut.eval ⟨100⟩) 0 1 0,
       Upper := Diffusion.Upper Real.exp (PayoffPut.eval ⟨100⟩) 0 1 200 } :
      ParabPDE ℝ) 1 2
    CNMethod.A CNMethod.B CNMethod.C CNMethod.D CNMethod.E CNMethod.F CNMethod.G
    (by decide) (by decide)
  obtain ⟨hm, hA, hB, hC, hD, hE, hF, hG⟩ := ImplicitScheme.new_eq_ok_is hs
  obtain ⟨-, hpde, -, hjmax, hdt, hdS, -⟩ := FDMethod.new_eq_ok_fields hm
  have hdt1 : s.dt_ = 1 := by rw [hdt]; norm_num
  have hdS1 : s.dS_ = 100 := by rw [hdS]; norm_num
  have hAv : s.A 1 1 = 1 / 100 := by
    rw [hA]
    simp [CNMethod.A, FDMethod.a, FDMethod.b, FDMethod.S, FDMethod.t, hpde, hdt1,
      hdS1, Diffusion.a, Diffusion.b, ParabPDE.Smin]
    norm_num
  have hCv : s.C 1 1 = 1 / 100 := by
    rw [hC]
    simp [CNMethod.C, FDMethod.a, FDMethod.b, FDMethod.S, FDMethod.t, hpde, hdt1,
      hdS1, Diffusion.a, Diffusion.b, ParabPDE.Smin]
    norm_num
  have hEv : s.E 1 1 = -(1 / 100) := by
    rw [hE]; show -CNMethod.A s.toFDMethod 1 1 = _; rw [← hA, hAv]
  have hGv : s.G 1 1 = -(1 / 100) := by
    rw [hG]; show -CNMethod.C s.toFDMethod 1 1 = _; rw [← hC, hCv]
  have hDv : s.D 1 1 = 0 := by
    rw [hD]
    simp [CNMethod.D, FDMethod.d, hpde, Diffusion.d]
  have hfl : ∀ i : Int, s.fl i = 100 := by
    intro i
    simp [FDMethod.fl, hpde, Diffusion.Lower, PayoffPut.eval]
  have hfu : ∀ i : Int, s.fu i = 0 := by
    intro i
    simp [FDMethod.fu, hpde, Diffusion.Upper, PayoffPut.eval]
    norm_num
  have hw : get1 (s.w 1) 1 = s.D 1 1 + s.C 1 1 * s.fu 1 - s.G 1 1 * s.fu (1 - 1) := by
    have h := ImplicitScheme.get1_w_last s 1 (by rw [hjmax]; decide)
    rw [hjmax] at h
    exact h
  refine ⟨_, s, hp, hs, hw, ?_, ?_, ?_⟩
  · rw [hw, hDv, hfu, hfu]; norm_num
  · rw [hAv, hEv, hfl, hfl]; norm_num
  · rw [hAv, hEv, hCv, hGv, hDv, hfl, hfl, hfu, hfu]; norm_num

end pde

namespace crr

open opt

variable {α : Type} [LinearOrderedField α]

end crr

namespace crr

open opt

variable {α : Type} [LinearOrderedField α]

/-- C28, the claim as stated fails for a negative rate, in each of its two
parts.  On the call of strike `4` at `S0 = 8, R = -1, sigma = 0, T = 1, N = 2`,
an accepted input with `1 + R*T/N = 1/2` (the one-step discount factor is `2`),
the compensator is non-negative but decreases along the path,
`A[2][0] = 1 < 2 = A[1][0 >> 1]`.  On the same call at
`S0 = 8, R = -3, sigma = 0, T = 1, N = 2`, an accepted input with
`1 + R*T/N = -1/2` (the one-step discount factor is `-2`), the compensator is
negative: `A[1][0 >> 1] = -2 < 0`, at `n = 2, j = 0`. -/
theorem American.compensator_increasing_counterexample :
    (∃ a : American ℚ,
      American.new Rat.sqrt 8 (-1) 0 1 2 (PayoffCall.eval ⟨4⟩) = .ok a ∧
      get2 a.A 2 0 = 1 ∧ get2 a.A 1 (0 >>> 1) = 2 ∧
      ¬ (get2 a.A 2 0 ≥ get2 a.A 1 (0 >>> 1))) ∧
    (∃ a : American ℚ,
      American.new Rat.sqrt 8 (-3) 0 1 2 (PayoffCall.eval ⟨4⟩) = .ok a ∧
      get2 a.A (2 - 1) (0 >>> 1) = -2 ∧
      ¬ (get2 a.A (2 - 1) (0 >>> 1) ≥ 0)) := by
  constructor
  · refine ⟨_, American.new_of_valid_am _ _ _ (by norm_num) (by norm_num) (by norm_num)
      (by norm_num), ?_⟩
    generalize hdef : American.buildStockTree
      { toOption := Option.init Rat.sqrt 8 (-1) 0 1 2, payoff_ := PayoffCall.eval ⟨4⟩,
        stockTree_ := [] } = a
    have hN : a.N_.toNat = 2 := by subst hdef; rfl
    have hd : a.discount_ = 2 := by
      subst hdef; simp [American.buildStockTree, Option.init]; norm_num
    have hu : a.u_ = -1 / 2 := by
      subst hdef; simp [American.buildStockTree, Option.init]; norm_num
    have hdn : a.d_ = -1 / 2 := by
      subst hdef; simp [American.buildStockTree, Option.init]; norm_num
    have hS0 : a.S0_ = 8 := by subst hdef; rfl
    have hp : a.payoff_ = PayoffCall.eval ⟨4⟩ := by subst hdef; rfl
    have hS : ∀ n j, n ≤ 2 → j < 2 ^ n →
        get2 (buildStockTreeNR a.toOption) n j = 8 * (1 / 2) ^ n := by
      intro n j hn hj
      rw [get2_buildStockTreeNR _ (by rw [hN]; exact hn) hj, hu, hdn, hS0, mul_assoc,
        ← pow_add, Nat.add_sub_cancel' (popcount_le hj)]
      norm_num
    have hV2 : ∀ j, j < 2 ^ 2 → get2 a.VNR 2 j = 0 := by
      intro j hj
      have := American.get2_VNR_last a (j := j) (by rw [hN]; exact hj)
      rw [hN] at this
      rw [this, hS 2 j (le_refl _) hj, hp]
      norm_num [PayoffCall.eval]
    have hV1 : ∀ j, j < 2 ^ 1 → get2 a.VNR 1 j = 0 := by
      intro j hj
      rw [American.get2_VNR_step a (by rw [hN]; decide) hj, hS 1 j (by decide) hj, hp, hd,
        hV2 _ (by omega), hV2 _ (by omega)]
      norm_num [PayoffCall.eval]
    have hV0 : get2 a.VNR 0 0 = 4 := by
      rw [American.get2_VNR_step a (by rw [hN]; decide) (by decide), hS 0 0 (by decide) (by decide),
        hp, hd, hV1 _ (by decide), hV1 _ (by decide)]
      norm_num [PayoffCall.eval]
    have hi0 : get2 a.incr 0 0 = 4 := by
      rw [American.get2_incr a (by rw [hN]; decide) (by decide), hV0, hV1 _ (by decide),
        hV1 _ (by decide)]
      norm_num
    have hi1 : get2 a.incr 1 0 = 0 := by
      rw [American.get2_incr a (by rw [hN]; decide) (by decide), hV1 _ (by decide),
        hV2 _ (by decide), hV2 _ (by decide)]
      norm_num
    have hA1 : get2 a.A 1 0 = 2 := by
      rw [American.get2_A_succ a (by rw [hN]; decide) (by decide)]
      show (get2 a.A 0 0 + get2 a.incr 0 0) / a.discount_ = 2
      rw [American.get2_A_zero, hi0, hd]
      norm_num
    have hA2 : get2 a.A 2 0 = 1 := by
      rw [American.get2_A_succ a (by rw [hN]; decide) (by decide)]
      show (get2 a.A 1 0 + get2 a.incr 1 0) / a.discount_ = 1
      rw [hA1, hi1, hd]
      norm_num
    refine ⟨hA2, hA1, ?_⟩
    show ¬ (get2 a.A 2 0 ≥ get2 a.A 1 0)
    rw [hA1, hA2]
    norm_num
  · refine ⟨_, American.new_of_valid_am _ _ _ (by norm_num) (by norm_num) (by norm_num)
      (by norm_num), ?_⟩
    generalize hdef : American.buildStockTree
      { toOption := Option.init Rat.sqrt 8 (-3) 0 1 2, payoff_ := PayoffCall.eval ⟨4⟩,
        stockTree_ := [] } = a
    have hN : a.N_.toNat = 2 := by subst hdef; rfl
    have hd : a.discount_ = -2 := by
      subst hdef; simp [American.buildStockTree, Option.init]; norm_num
    have hu : a.u_ = -3 / 2 := by
      subst hdef; simp [American.buildStockTree, Option.init]; norm_num
    have hdn : a.d_ = -3 / 2 := by
      subst hdef; simp [American.buildStockTree, Option.init]; norm_num
    have hS0 : a.S0_ = 8 := by subst hdef; rfl
    have hp : a.payoff_ = PayoffCall.eval ⟨4⟩ := by subst hdef; rfl
    have hS : ∀ n j, n ≤ 2 → j < 2 ^ n →
        get2 (buildStockTreeNR a.toOption) n j = 8 * (-1 / 2) ^ n := by
      intro n j hn hj
      rw [get2_buildStockTreeNR _ (by rw [hN]; exact hn) hj, hu, hdn, hS0, mul_assoc,
        ← pow_add, Nat.add_sub_cancel' (popcount_le hj)]
      norm_num
    have hV2 : ∀ j, j < 2 ^ 2 → get2 a.VNR 2 j = 0 := by
      intro j hj
      have := American.get2_VNR_last a (j := j) (by rw [hN]; exact hj)
      rw [hN] at this
      rw [this, hS 2 j (le_refl _) hj, hp]
      norm_num [PayoffCall.eval]
    have hV1 : ∀ j, j < 2 ^ 1 → get2 a.VNR 1 j = 0 := by
      intro j hj
      rw [American.get2_VNR_step a (by rw [hN]; decide) hj, hS 1 j (by decide) hj, hp, hd,
        hV2 _ (by omega), hV2 _ (by omega)]
      norm_num [PayoffCall.eval]
    have hV0 : get2 a.VNR 0 0 = 4 := by
      rw [American.get2_VNR_step a (by rw [hN]; decide) (by decide), hS 0 0 (by decide) (by decide),
        hp, hd, hV1 _ (by decide), hV1 _ (by decide)]
      norm_num [PayoffCall.eval]
    have hi0 : get2 a.incr 0 0 = 4 := by
      rw [American.get2_incr a (by rw [hN]; decide) (by decide), hV0, hV1 _ (by decide),
        hV1 _ (by decide)]
      norm_num
    have hA1 : get2 a.A 1 0 = -2 := by
      rw [American.get2_A_succ a (by rw [hN]; decide) (by decide)]
      show (get2 a.A 0 0 + get2 a.incr 0 0) / a.discount_ = -2
      rw [American.get2_A_zero, hi0, hd]
      norm_num
    refine ⟨hA1, ?_⟩
    show ¬ (get2 a.A 1 0 ≥ 0)
    rw [hA1]
    norm_num

/-- C28, amended: on an accepted `American`, the cumulative compensator `A` of
`hedgingStrategy` starts at `A[0][0] = 0` and is predictable,
`A[n][2j] = A[n][2j+1]` for every `1 <= n <= N` and every node `j` of level
`n - 1`; when `1 + R*T/N > 0` (the one-step discount factor is positive) it is
non-negative, `A[n][j] >= 0` for every `0 <= n <= N` and `0 <= j < 2^n`; and
when `R*T/N >= 0` (the one-step discount factor is positive and at most 1) it
is moreover increasing along every path: for every `1 <= n <= N` and
`0 <= j < 2^n`, `A[n][j] >= A[n-1][j >> 1] >= 0`. -/
theorem American.compensator_increasing (sqrt : α → α) (S0 R sigma T : α) (N : Int)
    (payoff : α → α) (a : American α)
    (ha : American.new sqrt S0 R sigma T N payoff = .ok a) :
    get2 a.A 0 0 = 0 ∧
    (∀ n j, 1 ≤ n → n ≤ N.toNat → j < 2 ^ (n - 1) →
      get2 a.A n (2 * j) = get2 a.A n (2 * j + 1)) ∧
    (0 < 1 + R * T / (N : α) → ∀ n j, n ≤ N.toNat → j < 2 ^ n → get2 a.A n j ≥ 0) ∧
    (0 ≤ R * T / (N : α) → ∀ n j, 1 ≤ n → n ≤ N.toNat → j < 2 ^ n →
      get2 a.A n j ≥ get2 a.A (n - 1) (j >>> 1) ∧ get2 a.A (n - 1) (j >>> 1) ≥ 0) := by
  obtain ⟨-, ho, -, -⟩ := American.new_eq_ok_am ha
  have hN : a.N_ = N := by rw [ho]; rfl
  have hd : a.discount_ = 1 / (1 + R * T / (N : α)) := by rw [ho]; exact Option.init_discount ..
  have half : ∀ {m j : Nat}, j < 2 ^ (m + 1) → j >>> 1 < 2 ^ m := by
    intro m j hj
    rw [Nat.shiftRight_eq_div_pow, pow_succ] at *
    omega
  have hnn : 0 < 1 + R * T / (N : α) →
      ∀ m, m ≤ a.N_.toNat → ∀ j, j < 2 ^ m → 0 ≤ get2 a.A m j := by
    intro hg
    have hd0 : 0 < a.discount_ := by rw [hd]; exact one_div_pos.mpr hg
    intro m
    induction m with
    | zero =>
      intro _ j hj
      have : j = 0 := by simpa using hj
      subst this
      rw [American.get2_A_zero]
    | succ m ih =>
      intro hm j hj
      rw [American.get2_A_succ a (by omega) hj]
      exact div_nonneg (add_nonneg (ih (by omega) _ (half hj))
        (American.get2_incr_nonneg a (by omega) (half hj))) (le_of_lt hd0)
  refine ⟨American.get2_A_zero a, ?_, ?_, ?_⟩
  · intro n j h1 hn hj
    obtain ⟨m, rfl⟩ : ∃ m, n = m + 1 := ⟨n - 1, by omega⟩
    rw [Nat.add_sub_cancel] at hj
    have hm : m < a.N_.toNat := by rw [hN]; omega
    have e2 : (2 * j) >>> 1 = j := by rw [Nat.shiftRight_eq_div_pow]; omega
    have e3 : (2 * j + 1) >>> 1 = j := by rw [Nat.shiftRight_eq_div_pow]; omega
    rw [American.get2_A_succ a hm (by rw [pow_succ]; omega),
      American.get2_A_succ a hm (by rw [pow_succ]; omega), e2, e3]
  · intro hg n j hn hj
    exact hnn hg n (by rw [hN]; exact hn) j hj
  · intro hR
    have hg : 1 ≤ 1 + R * T / (N : α) := le_add_of_nonneg_right hR
    have hd0 : 0 < a.discount_ := by rw [hd]; exact one_div_pos.mpr (lt_of_lt_of_le one_pos hg)
    have hd1 : a.discount_ ≤ 1 := by
      rw [hd]; exact (div_le_one (lt_of_lt_of_le one_pos hg)).mpr hg
    intro n j h1 hn hj
    obtain ⟨m, rfl⟩ : ∃ m, n = m + 1 := ⟨n - 1, by omega⟩
    rw [Nat.add_sub_cancel]
    have hm : m < a.N_.toNat := by rw [hN]; omega
    have hx := hnn (lt_of_lt_of_le one_pos hg) m (le_of_lt hm) _ (half hj)
    have hi := American.get2_incr_nonneg a hm (half hj)
    refine ⟨?_, hx⟩
    rw [American.get2_A_succ a hm hj, ge_iff_le, le_div_iff₀ hd0]
    calc get2 a.A m (j >>> 1) * a.discount_ ≤ get2 a.A m (j >>> 1) * 1 :=
          mul_le_mul_of_nonneg_left hd1 hx
      _ ≤ get2 a.A m (j >>> 1) + get2 a.incr m (j >>> 1) := by rw [mul_one]; linarith

/-- Witness of C28, amended, on the put of strike `100` at
`S0 = 100, R = 1/20, sigma = 1/5, T = 1, N = 2`. -/
theorem American.compensator_increasing_witness :
    ∃ a : American ℚ,
      American.new Rat.sqrt 100 (1 / 20) (1 / 5) 1 2 (PayoffPut.eval ⟨100⟩) = .ok a ∧
      get2 a.A 0 0 = 0 ∧ get2 a.A 2 (2 * 1) = get2 a.A 2 (2 * 1 + 1) ∧
      get2 a.A 2 3 ≥ 0 ∧
      get2 a.A 2 3 ≥ get2 a.A (2 - 1) (3 >>> 1) ∧ get2 a.A (2 - 1) (3 >>> 1) ≥ 0 :=
  have h := American.compensator_increasing Rat.sqrt 100 (1 / 20) (1 / 5) 1 2
    (PayoffPut.eval ⟨100⟩) _
    (American.new_of_valid_am _ _ _ (by norm_num) (by norm_num) (by norm_num) (by norm_num))
  ⟨_, American.new_of_valid_am _ _ _ (by norm_num) (by norm_num) (by norm_num) (by norm_num),
    h.1, h.2.1 2 1 (by decide) (by decide) (by decide),
    h.2.2.1 (by norm_num) 2 3 (by decide) (by decide),
    h.2.2.2 (by norm_num) 2 3 (by decide) (by decide) (by decide)⟩

end crr

namespace crr

open opt

variable {α : Type} [LinearOrderedField α]

/-- C29, the last part of the claim as stated fails where the two successors of
the root carry the same price: on the call of strike `100` at
`S0 = 100, R = 1/20, sigma = 0, T = 1, N = 1`, an input that the constructor
accepts, the hedge ratio `delta[0][0]` of `hedgingStrategy` is a quotient whose
divisor `S[1][1] - S[1][0]` is zero.  In double arithmetic such a quotient is
NaN or an infinity, and so is `bond[0][0] = M[0][0] - delta[0][0] * S0`;
`bond[0][0] + delta[0][0] * S0` is then not the finite `price()`.  (The
quotient by zero of a field is `0`, so no equation between field elements can
show the failure itself.) -/
theorem American.VNR_eq_treePrice_counterexample :
    ∃ a : American ℚ,
      American.new Rat.sqrt 100 (1 / 20) 0 1 1 (PayoffCall.eval ⟨100⟩) = .ok a ∧
      get2 a.hedgingStrategy.delta 0 0 =
        (get2 a.M 1 1 - get2 a.M 1 0) /
          (get2 (buildStockTreeNR a.toOption) 1 1 - get2 (buildStockTreeNR a.toOption) 1 0) ∧
      get2 (buildStockTreeNR a.toOption) 1 1 - get2 (buildStockTreeNR a.toOption) 1 0 = 0 := by
  have ha : American.new Rat.sqrt (100 : ℚ) (1 / 20) 0 1 1 (PayoffCall.eval ⟨100⟩) = _ :=
    American.new_of_valid_am _ _ _ (by norm_num) (le_refl 0) (by norm_num) (by norm_num)
  obtain ⟨-, ho, -, -⟩ := American.new_eq_ok_am ha
  refine ⟨_, ha, American.get2_delta_am _ (by rw [ho]; decide) (by decide), ?_⟩
  rw [ho]
  exact get2_buildStockTreeNR_succ_sub _ (Option.init_u_eq_d ..) (n := 0) (j := 0)
    (by decide) (by decide)

/-- C29, amended: on an accepted `American`, the valuation on the
non-recombining tree computed by `hedgingStrategy` agrees with the recombining
valuation of `treePrice`: `VNR[n][j] = treePrice()[n][popcount(j)]` for every
`0 <= n <= N` and `0 <= j < 2^n`; hence `M[0][0] = price()`; and when the two
successors of the root carry different prices, `S[1][1] != S[1][0]`, the hedge
ratio at the root is the quotient
`delta[0][0] * (S[1][1] - S[1][0]) = M[1][1] - M[1][0]` and the strategy
returned by `hedgingStrategy` satisfies
`bond[0][0] + delta[0][0] * S0 = price()`. -/
theorem American.VNR_eq_treePrice (sqrt : α → α) (S0 R sigma T : α) (N : Int)
    (payoff : α → α) (a : American α)
    (ha : American.new sqrt S0 R sigma T N payoff = .ok a) :
    (∀ n j, n ≤ N.toNat → j < 2 ^ n →
      get2 a.VNR n j = get2 a.treePrice n (popcount j)) ∧
    get2 a.M 0 0 = a.price ∧
    (get2 (buildStockTreeNR a.toOption) 1 1 ≠ get2 (buildStockTreeNR a.toOption) 1 0 →
      get2 a.hedgingStrategy.delta 0 0 *
          (get2 (buildStockTreeNR a.toOption) 1 1 - get2 (buildStockTreeNR a.toOption) 1 0) =
        get2 a.M 1 1 - get2 a.M 1 0 ∧
      get2 a.hedgingStrategy.bond 0 0 + get2 a.hedgingStrategy.delta 0 0 * S0 = a.price) := by
  obtain ⟨⟨-, -, -, hpos⟩, ho, -, ht⟩ := American.new_eq_ok_am ha
  have hN : a.N_ = N := by rw [ho]; rfl
  have hS : a.S0_ = S0 := by rw [ho]; rfl
  have hN0 : 0 < a.N_.toNat := by rw [hN]; omega
  have hM : get2 a.M 0 0 = a.price := by
    rw [American.get2_M a (Nat.zero_le _) (by norm_num), American.get2_A_zero, add_zero,
      American.get2_VNR_popcount a ht (Nat.zero_le _) (by norm_num), popcount_zero]
    rfl
  refine ⟨?_, hM, fun hne => ⟨?_, ?_⟩⟩
  · intro n j hn hj
    exact American.get2_VNR_popcount a ht (by rw [hN]; exact hn) hj
  · rw [American.get2_delta_am a hN0 (by norm_num)]
    exact div_mul_cancel₀ _ (sub_ne_zero.mpr hne)
  · rw [American.get2_bond_am a hN0 (by norm_num), get2_buildStockTreeNR_zero, hS, hM]
    ring

/-- Witness of the amended C29 on the put of strike `100` at
`S0 = 100, R = 1/20, sigma = 1/5, T = 2, N = 2`, whose root has the successor
prices `125` and `85`. -/
theorem American.VNR_eq_treePrice_witness :
    ∃ a : American ℚ,
      American.new Rat.sqrt 100 (1 / 20) (1 / 5) 2 2 (PayoffPut.eval ⟨100⟩) = .ok a ∧
      get2 a.VNR 2 3 = get2 a.treePrice 2 (popcount 3) ∧
      get2 a.VNR 1 1 = get2 a.treePrice 1 (popcount 1) ∧
      get2 a.M 0 0 = a.price ∧
      get2 (buildStockTreeNR a.toOption) 1 1 ≠ get2 (buildStockTreeNR a.toOption) 1 0 ∧
      get2 a.hedgingStrategy.bond 0 0 + get2 a.hedgingStrategy.delta 0 0 * 100 = a.price := by
  obtain ⟨a, ha⟩ : ∃ a, American.new Rat.sqrt (100 : ℚ) (1 / 20) (1 / 5) 2 2
      (PayoffPut.eval ⟨100⟩) = .ok a :=
    ⟨_, American.new_of_valid_am _ _ _ (by norm_num) (by norm_num) (by norm_num) (by norm_num)⟩
  have h := American.VNR_eq_treePrice Rat.sqrt 100 (1 / 20) (1 / 5) 2 2 (PayoffPut.eval ⟨100⟩)
    a ha
  obtain ⟨-, ho, -, -⟩ := American.new_eq_ok_am ha
  have hsq : Rat.sqrt 1 = 1 := by simp
  have hn : (0 : Nat) < (2 : Int).toNat := by decide
  have hj : (0 : Nat) < 2 ^ 0 := by decide
  have hud : (Option.init Rat.sqrt (100 : ℚ) (1 / 20) (1 / 5) 2 2).u_ ≠
      (Option.init Rat.sqrt (100 : ℚ) (1 / 20) (1 / 5) 2 2).d_ := by
    rw [Option.init_u, Option.init_d]
    norm_num [hsq]
  have hA : get2 (buildStockTreeNR a.toOption) 1 1 ≠ get2 (buildStockTreeNR a.toOption) 1 0 := by
    rw [ho]
    have e1 := get2_buildStockTreeNR_up
      (Option.init Rat.sqrt (100 : ℚ) (1 / 20) (1 / 5) 2 2) hn hj
    have e0 := get2_buildStockTreeNR_down
      (Option.init Rat.sqrt (100 : ℚ) (1 / 20) (1 / 5) 2 2) hn hj
    rw [get2_buildStockTreeNR_zero, Option.init_S0] at e1 e0
    rw [show (1 : Nat) = 2 * 0 + 1 from rfl, e1]
    rw [show (2 * 0 + 1 : Nat) = 0 + 1 from rfl, show get2
        (buildStockTreeNR (Option.init Rat.sqrt (100 : ℚ) (1 / 20) (1 / 5) 2 2)) (0 + 1) 0 =
      get2 (buildStockTreeNR (Option.init Rat.sqrt (100 : ℚ) (1 / 20) (1 / 5) 2 2)) (0 + 1)
        (2 * 0) from rfl, e0]
    intro hc
    exact hud (by linarith)
  exact ⟨a, ha, h.1 2 3 (by decide) (by decide), h.1 1 1 (by decide) (by decide), h.2.1, hA,
    (h.2.2 hA).2⟩

end crr

namespace crr

open opt

variable {α : Type} [LinearOrderedField α]

/-- C30: the non-recombining price tree, the member built by
`Asian::buildStockTreeNR` of an accepted `Asian` and the local tree built by
`American::hedgingStrategy` of an accepted `American` with the same
parameters (the same tree), has `N + 1` levels, level `n` holding exactly
`2^n` prices; it starts at `S0`, the children of node `j` are at the indices
`2j` (down move, factor `1 + down`) and `2j + 1` (up move, factor `1 + up`), and
`stockTreeNR[n][j] = S0 * (1+up)^popcount(j) * (1+down)^(n - popcount(j))` for
every `0 <= n <= N` and `0 <= j < 2^n`. -/
theorem stockTreeNR_closed_form (sqrt : α → α) (S0 R sigma T : α) (N : Int)
    (payoff payoff' : α → α) (aggregator : α → α → Nat → α) (s : Asian α) (a : American α)
    (hs : Asian.new sqrt S0 R sigma T N payoff aggregator = .ok s)
    (ha : American.new sqrt S0 R sigma T N payoff' = .ok a) :
    buildStockTreeNR a.toOption = s.stockTreeNR_ ∧
    s.stockTreeNR_.length = N.toNat + 1 ∧
    (∀ n, n ≤ N.toNat → (s.stockTreeNR_.getD n []).length = 2 ^ n) ∧
    get2 s.stockTreeNR_ 0 0 = S0 ∧
    (∀ n j, n < N.toNat → j < 2 ^ n →
      get2 s.stockTreeNR_ (n + 1) (2 * j) = get2 s.stockTreeNR_ n j * (1 + s.d_) ∧
      get2 s.stockTreeNR_ (n + 1) (2 * j + 1) = get2 s.stockTreeNR_ n j * (1 + s.u_)) ∧
    (∀ n j, n ≤ N.toNat → j < 2 ^ n →
      get2 s.stockTreeNR_ n j =
        S0 * (1 + s.u_) ^ popcount j * (1 + s.d_) ^ (n - popcount j)) := by
  obtain ⟨-, ho, -, -, ht⟩ := Asian.new_eq_ok_as hs
  obtain ⟨-, ho', -, -⟩ := American.new_eq_ok_am ha
  have hN : s.N_ = N := by rw [ho]; rfl
  have hS : s.S0_ = S0 := by rw [ho]; rfl
  refine ⟨by rw [ht, ho, ho'], ?_, ?_, ?_, ?_, ?_⟩
  · rw [ht, ← hN]; exact length_buildStockTreeNR _
  · intro n hn
    rw [ht]; exact length_level_buildStockTreeNR _ (by rw [hN]; exact hn)
  · rw [ht, get2_buildStockTreeNR_zero, hS]
  · intro n j hn hj
    rw [ht]
    exact ⟨get2_buildStockTreeNR_down _ (by rw [hN]; exact hn) hj,
      get2_buildStockTreeNR_up _ (by rw [hN]; exact hn) hj⟩
  · intro n j hn hj
    rw [ht, ← hS]; exact get2_buildStockTreeNR _ (by rw [hN]; exact hn) hj

/-- Witness of C30 at `S0 = 100, R = 1/20, sigma = 1/5, T = 1, N = 2`. -/
theorem stockTreeNR_closed_form_witness :
    ∃ (s : Asian ℚ) (a : American ℚ),
      Asian.new Rat.sqrt 100 (1 / 20) (1 / 5) 1 2 (PayoffCall.eval ⟨100⟩)
        (fun agg S n => (agg * n + S) / (n + 1)) = .ok s ∧
      American.new Rat.sqrt 100 (1 / 20) (1 / 5) 1 2 (PayoffPut.eval ⟨100⟩) = .ok a ∧
      buildStockTreeNR a.toOption = s.stockTreeNR_ ∧ s.stockTreeNR_.length = 3 ∧
      (s.stockTreeNR_.getD 2 []).length = 2 ^ 2 ∧ get2 s.stockTreeNR_ 0 0 = 100 ∧
      get2 s.stockTreeNR_ 2 3 = get2 s.stockTreeNR_ 1 1 * (1 + s.u_) :=
  have h := stockTreeNR_closed_form Rat.sqrt 100 (1 / 20) (1 / 5) 1 2 (PayoffCall.eval ⟨100⟩)
    (PayoffPut.eval ⟨100⟩) (fun agg S n => (agg * n + S) / (n + 1)) _ _
    (Asian.new_of_valid_as _ _ _ _ (by norm_num) (by norm_num) (by norm_num) (by norm_num))
    (American.new_of_valid_am _ _ _ (by norm_num) (by norm_num) (by norm_num) (by norm_num))
  ⟨_, _, Asian.new_of_valid_as _ _ _ _ (by norm_num) (by norm_num) (by norm_num) (by norm_num),
    American.new_of_valid_am _ _ _ (by norm_num) (by norm_num) (by norm_num) (by norm_num),
    h.1, h.2.1, h.2.2.1 2 (by decide), h.2.2.2.1, (h.2.2.2.2.1 1 1 (by decide) (by decide)).2⟩

end crr

namespace crr

open opt

variable {α : Type} [LinearOrderedField α]

/-- C31: for an accepted Asian option and every leaf `0 <= j < 2^N`,
`terminalValues()[j] = payoff(a_N)`, where `a_0 = S0` and
`a_n = aggregator(a_(n-1), s_n, n)` for `n = 1..N`, and
`s_n = stockTreeNR[n][j >> (N-n)]` is the price of the ancestor of leaf `j` at
level `n`, a node of that level: the prices along the path from the root to the
leaf, `s_0 = S0`, `s_n = s_(n-1)*(1+up)` if bit `N-n` of `j` is 1 and
`s_n = s_(n-1)*(1+down)` otherwise. -/
theorem Asian.terminalValues_path (sqrt : α → α) (S0 R sigma T : α) (N : Int)
    (payoff : α → α) (aggregator : α → α → Nat → α) (s : Asian α)
    (hs : Asian.new sqrt S0 R sigma T N payoff aggregator = .ok s)
    (j : Nat) (hj : j < 2 ^ N.toNat) :
    get1 s.terminalValues j = payoff (s.pathAggregate j N.toNat) ∧
    s.pathAggregate j 0 = S0 ∧
    (∀ n, n < N.toNat →
      s.pathAggregate j (n + 1) =
        aggregator (s.pathAggregate j n)
          (get2 s.stockTreeNR_ (n + 1) (j >>> (N.toNat - (n + 1)))) (n + 1)) ∧
    (∀ n, n ≤ N.toNat → j >>> (N.toNat - n) < 2 ^ n) ∧
    get2 s.stockTreeNR_ 0 (j >>> (N.toNat - 0)) = S0 ∧
    (∀ n, n < N.toNat →
      get2 s.stockTreeNR_ (n + 1) (j >>> (N.toNat - (n + 1))) =
        get2 s.stockTreeNR_ n (j >>> (N.toNat - n)) *
          (1 + (if j.testBit (N.toNat - (n + 1)) then s.u_ else s.d_))) := by
  obtain ⟨-, ho, hpay, hagg, ht⟩ := Asian.new_eq_ok_as hs
  have hN : s.N_.toNat = N.toNat := by rw [ho]; rfl
  have hS : s.S0_ = S0 := by rw [ho]; rfl
  have h0 : j >>> (N.toNat - 0) = 0 := by
    have := shiftRight_lt_pow (Nat.zero_le N.toNat) hj
    rw [pow_zero] at this
    exact Nat.lt_one_iff.mp this
  refine ⟨?_, hS, ?_, fun n hn => shiftRight_lt_pow hn hj, ?_, ?_⟩
  · rw [Asian.get1_terminalValues s (by rw [hN]; exact hj), hpay, hN]
  · intro n _
    rw [Asian.pathAggregate, hagg, hN]
  · rw [h0, ht, get2_buildStockTreeNR_zero, hS]
  · intro n hn
    have h := get2_buildStockTreeNR_path s.toOption (n := n) (j := j) (by rw [hN]; exact hn)
      (by rw [hN]; exact hj)
    rw [hN] at h
    rw [ht]
    exact h

/-- Witness of C31 at `S0 = 100, R = 1/20, sigma = 1/5, T = 1, N = 2` with a
call of strike `100` on the running arithmetic mean, at the leaf `j = 2`. -/
theorem Asian.terminalValues_path_witness :
    ∃ s : Asian ℚ,
      Asian.new Rat.sqrt 100 (1 / 20) (1 / 5) 1 2 (PayoffCall.eval ⟨100⟩)
        (fun agg S n => (agg * n + S) / (n + 1)) = .ok s ∧
      get1 s.terminalValues 2 = PayoffCall.eval ⟨100⟩ (s.pathAggregate 2 (2 : Int).toNat) ∧
      s.pathAggregate 2 0 = 100 ∧
      get2 s.stockTreeNR_ (0 + 1) (2 >>> ((2 : Int).toNat - (0 + 1))) =
        get2 s.stockTreeNR_ 0 (2 >>> ((2 : Int).toNat - 0)) *
          (1 + (if Nat.testBit 2 ((2 : Int).toNat - (0 + 1)) then s.u_ else s.d_)) :=
  have h := Asian.terminalValues_path Rat.sqrt 100 (1 / 20) (1 / 5) 1 2 (PayoffCall.eval ⟨100⟩)
    (fun agg S n => (agg * n + S) / (n + 1)) _
    (Asian.new_of_valid_as _ _ _ _ (by norm_num) (by norm_num) (by norm_num) (by norm_num))
    2 (by decide)
  ⟨_, Asian.new_of_valid_as _ _ _ _ (by norm_num) (by norm_num) (by norm_num) (by norm_num),
    h.1, h.2.1, h.2.2.2.2.2 0 (by decide)⟩

end crr

namespace pde

variable {α : Type} [LinearOrderedField α] [FloorRing α]

end pde

namespace crr

open opt

variable {α : Type} [LinearOrderedField α]

/-- C33: closed form of the European lattice value.  For every accepted
European option and every node `0 <= i <= n <= N`,
`treePrice()[n][i] = discount^(N-n) * 2^-(N-n) *
(sum over k = 0 .. N-n of binomial(N-n, k) * payoff(price[N][i+k]))`; in
particular
`price() = discount^N * 2^-N *
(sum over k = 0 .. N of binomial(N, k) * payoff(S0*(1+up)^k*(1+down)^(N-k)))`,
where `discount = 1 / (1 + R*T/N)`. -/
theorem European.treePrice_closed_form (sqrt : α → α) (S0 R sigma T : α) (N : Int)
    (payoff : α → α) (e : European α)
    (he : European.new sqrt S0 R sigma T N payoff = .ok e) :
    e.discount_ = 1 / (1 + R * T / (N : α)) ∧
    (∀ n i, i ≤ n → n ≤ N.toNat →
      get2 e.treePrice n i =
        e.discount_ ^ (N.toNat - n) * ((2 : α) ^ (N.toNat - n))⁻¹ *
          ∑ k in Finset.range (N.toNat - n + 1),
            ((N.toNat - n).choose k : α) * payoff (get2 e.stockTree_ N.toNat (i + k))) ∧
    e.price =
      e.discount_ ^ N.toNat * ((2 : α) ^ N.toNat)⁻¹ *
        ∑ k in Finset.range (N.toNat + 1),
          (N.toNat.choose k : α) * payoff (S0 * (1 + e.u_) ^ k * (1 + e.d_) ^ (N.toNat - k)) := by
  obtain ⟨-, ho, hpay, -⟩ := European.new_eq_ok_eu he
  have hN : e.N_ = N := by rw [ho]; rfl
  have hd : e.discount_ = 1 / (1 + R * T / (N : α)) := by rw [ho]; exact Option.init_discount ..
  have hpow : ∀ m : Nat, (e.discount_ * (1 / 2)) ^ m = e.discount_ ^ m * ((2 : α) ^ m)⁻¹ := by
    intro m
    rw [mul_pow, one_div, inv_pow]
  refine ⟨hd, ?_, ?_⟩
  · intro n i hi hn
    rw [European.get2_treePrice_binomial e n (by rw [hN]; exact hn) i hi, hN, hpay, hpow]
  · rw [European.price_binomial he, hpow]

/-- Witness of C33 on the call of strike `100` at
`S0 = 100, R = 1/20, sigma = 1/5, T = 1, N = 2`. -/
theorem European.treePrice_closed_form_witness :
    ∃ e : European ℚ,
      European.new Rat.sqrt 100 (1 / 20) (1 / 5) 1 2 (PayoffCall.eval ⟨100⟩) = .ok e ∧
      get2 e.treePrice 1 1 =
        e.discount_ ^ ((2 : Int).toNat - 1) * ((2 : ℚ) ^ ((2 : Int).toNat - 1))⁻¹ *
          ∑ k in Finset.range ((2 : Int).toNat - 1 + 1),
            (((2 : Int).toNat - 1).choose k : ℚ) *
              PayoffCall.eval ⟨100⟩ (get2 e.stockTree_ (2 : Int).toNat (1 + k)) ∧
      e.price =
        e.discount_ ^ (2 : Int).toNat * ((2 : ℚ) ^ (2 : Int).toNat)⁻¹ *
          ∑ k in Finset.range ((2 : Int).toNat + 1),
            ((2 : Int).toNat.choose k : ℚ) *
              PayoffCall.eval ⟨100⟩ (100 * (1 + e.u_) ^ k * (1 + e.d_) ^ ((2 : Int).toNat - k)) :=
  have h := European.treePrice_closed_form Rat.sqrt 100 (1 / 20) (1 / 5) 1 2
    (PayoffCall.eval ⟨100⟩) _
    (European.new_of_valid_eu _ _ _ (by norm_num) (by norm_num) (by norm_num) (by norm_num))
  ⟨_, European.new_of_valid_eu _ _ _ (by norm_num) (by norm_num) (by norm_num) (by norm_num),
    h.2.1 1 1 (le_refl 1) (by decide), h.2.2⟩

end crr

namespace crr

open opt

variable {α : Type} [LinearOrderedField α]

/-- C34: the discounted underlying is a martingale under the equal-weight
lattice measure.  For every accepted parameter set with `1 + R*T/N != 0`, the
recombining price tree of the accepted option satisfies
`discount * 1/2 * (price[n+1][i+1] + price[n+1][i]) = price[n][i]` at every node
`0 <= i <= n < N`, and `discount * (1 + (up + down)/2) = 1`, where
`discount = 1 / (1 + R*T/N)`. -/
theorem stockTree_martingale (sqrt : α → α) (S0 R sigma T : α) (N : Int)
    (payoff : α → α) (e : European α)
    (he : European.new sqrt S0 R sigma T N payoff = .ok e)
    (hR : 1 + R * T / (N : α) ≠ 0) :
    e.discount_ = 1 / (1 + R * T / (N : α)) ∧
    (∀ n i, i ≤ n → n < N.toNat →
      e.discount_ * (1 / 2) * (get2 e.stockTree_ (n + 1) (i + 1) + get2 e.stockTree_ (n + 1) i) =
        get2 e.stockTree_ n i) ∧
    e.discount_ * (1 + (e.u_ + e.d_) / 2) = 1 := by
  obtain ⟨-, ho, -, ht⟩ := European.new_eq_ok_eu he
  have hd : e.discount_ = 1 / (1 + R * T / (N : α)) := by rw [ho]; exact Option.init_discount ..
  have hdrift : (1 + e.u_) + (1 + e.d_) = 2 * (1 + R * T / (N : α)) := by
    rw [ho]; exact Option.init_drift ..
  have hg : 1 / (1 + R * T / (N : α)) * (1 + R * T / (N : α)) = 1 := one_div_mul_cancel hR
  refine ⟨hd, ?_, ?_⟩
  · intro n i hi hn
    rw [hd, ht, ho]
    exact get2_buildStockTree_martingale sqrt S0 R sigma T N hR hi hn
  · rw [hd]
    linear_combination (1 / 2 : α) * (1 / (1 + R * T / (N : α))) * hdrift + hg

/-- Witness of C34 at `S0 = 100, R = 1/20, sigma = 1/5, T = 1, N = 2`, at the
node `(1, 0)`. -/
theorem stockTree_martingale_witness :
    ∃ e : European ℚ,
      European.new Rat.sqrt 100 (1 / 20) (1 / 5) 1 2 (PayoffCall.eval ⟨100⟩) = .ok e ∧
      e.discount_ * (1 / 2) * (get2 e.stockTree_ 2 1 + get2 e.stockTree_ 2 0) =
        get2 e.stockTree_ 1 0 ∧
      e.discount_ * (1 + (e.u_ + e.d_) / 2) = 1 :=
  have h := stockTree_martingale Rat.sqrt 100 (1 / 20) (1 / 5) 1 2 (PayoffCall.eval ⟨100⟩) _
    (European.new_of_valid_eu _ _ _ (by norm_num) (by norm_num) (by norm_num) (by norm_num))
    (by norm_num)
  ⟨_, European.new_of_valid_eu _ _ _ (by norm_num) (by norm_num) (by norm_num) (by norm_num),
    h.2.1 1 0 (by decide) (by decide), h.2.2⟩

end crr

namespace crr

open opt

variable {α : Type} [LinearOrderedField α]

/-- C35: early exercise has non-negative value whenever the one-step discount
factor is positive.  For every payoff function and every accepted parameter
set with `1 + R*T/N > 0`, the American and the European option with these
parameters satisfy
`American::treePrice()[n][i] >= European::treePrice()[n][i]` at every node
`0 <= i <= n <= N`. -/
theorem American.treePrice_ge_european_node (sqrt : α → α) (S0 R sigma T : α) (N : Int)
    (payoff : α → α) (a : American α) (e : European α)
    (ha : American.new sqrt S0 R sigma T N payoff = .ok a)
    (he : European.new sqrt S0 R sigma T N payoff = .ok e)
    (hR : 0 < 1 + R * T / (N : α)) :
    ∀ n i, i ≤ n → n ≤ N.toNat → get2 a.treePrice n i ≥ get2 e.treePrice n i := by
  obtain ⟨-, hoa, hpa, hta⟩ := American.new_eq_ok_am ha
  obtain ⟨-, hoe, hpe, hte⟩ := European.new_eq_ok_eu he
  have hN : e.N_ = N := by rw [hoe]; rfl
  intro n i hi hn
  exact American.treePrice_ge_european a e (by rw [hoa, hoe]) (by rw [hoa, hoe])
    (by rw [hpa, hpe]) (by rw [hta, hte, hoa, hoe])
    (by rw [hoe]; exact le_of_lt (Option.init_discount_pos sqrt S0 R sigma T N hR))
    n (by rw [hN]; exact hn) i hi

/-- Witness of C35 on the put of strike `100` at
`S0 = 100, R = 1/20, sigma = 1/5, T = 1, N = 2`, at the node `(1, 0)`. -/
theorem American.treePrice_ge_european_node_witness :
    ∃ (a : American ℚ) (e : European ℚ),
      American.new Rat.sqrt 100 (1 / 20) (1 / 5) 1 2 (PayoffPut.eval ⟨100⟩) = .ok a ∧
      European.new Rat.sqrt 100 (1 / 20) (1 / 5) 1 2 (PayoffPut.eval ⟨100⟩) = .ok e ∧
      get2 a.treePrice 1 0 ≥ get2 e.treePrice 1 0 :=
  ⟨_, _, American.new_of_valid_am _ _ _ (by norm_num) (by norm_num) (by norm_num) (by norm_num),
    European.new_of_valid_eu _ _ _ (by norm_num) (by norm_num) (by norm_num) (by norm_num),
    American.treePrice_ge_european_node Rat.sqrt 100 (1 / 20) (1 / 5) 1 2
      (PayoffPut.eval ⟨100⟩) _ _
      (American.new_of_valid_am _ _ _ (by norm_num) (by norm_num) (by norm_num) (by norm_num))
      (European.new_of_valid_eu _ _ _ (by norm_num) (by norm_num) (by norm_num) (by norm_num))
      (by norm_num) 1 0 (by decide) (by decide)⟩

end crr

namespace crr

open opt

variable {α : Type} [LinearOrderedField α]

/-- C36: for every accepted American instance,
`priceRR() = (8*P(400) - 6*P(200) + P(100)) / 3`, where `P(n)` is `price()` of an
American option with the same `S0`, `R`, `sigma`, `T` and payoff but `n` steps;
the result does not depend on the step count `N` of the instance, and it equals
`L` exactly whenever `P(n) = L + a/n + b/n^2` for `n` in `{100, 200, 400}`. -/
theorem American.priceRR_formula (sqrt : α → α) (S0 R sigma T : α) (N : Int)
    (payoff : α → α) (a : American α)
    (ha : American.new sqrt S0 R sigma T N payoff = .ok a) :
    ∃ a100 a200 a400 : American α,
      American.new sqrt S0 R sigma T 100 payoff = .ok a100 ∧
      American.new sqrt S0 R sigma T 200 payoff = .ok a200 ∧
      American.new sqrt S0 R sigma T 400 payoff = .ok a400 ∧
      a.priceRR sqrt = .ok ((8 * a400.price - 6 * a200.price + a100.price) / 3) ∧
      (∀ (N' : Int) (a' : American α),
        American.new sqrt S0 R sigma T N' payoff = .ok a' → a'.priceRR sqrt = a.priceRR sqrt) ∧
      (∀ L x y : α,
        a100.price = L + x / 100 + y / 100 ^ 2 →
        a200.price = L + x / 200 + y / 200 ^ 2 →
        a400.price = L + x / 400 + y / 400 ^ 2 →
        a.priceRR sqrt = .ok L) := by
  obtain ⟨⟨hS, hsig, hT, -⟩, -, -, -⟩ := American.new_eq_ok_am ha
  have h100 := American.new_of_valid_am sqrt R payoff hS hsig hT (N := 100) (by decide)
  have h200 := American.new_of_valid_am sqrt R payoff hS hsig hT (N := 200) (by decide)
  have h400 := American.new_of_valid_am sqrt R payoff hS hsig hT (N := 400) (by decide)
  have key : ∀ (M : Int) (b : American α), American.new sqrt S0 R sigma T M payoff = .ok b →
      b.priceRR sqrt = .ok ((8 * (American.buildStockTree
        { toOption := Option.init sqrt S0 R sigma T 400, payoff_ := payoff,
          stockTree_ := [] }).price - 6 * (American.buildStockTree
        { toOption := Option.init sqrt S0 R sigma T 200, payoff_ := payoff,
          stockTree_ := [] }).price + (American.buildStockTree
        { toOption := Option.init sqrt S0 R sigma T 100, payoff_ := payoff,
          stockTree_ := [] }).price) / 3) := by
    intro M b hb
    obtain ⟨-, ho, hf, -⟩ := American.new_eq_ok_am hb
    have hS0 : b.S0_ = S0 := by rw [ho]; rfl
    have hR : b.R_ = R := by rw [ho]; rfl
    have hsg : b.sigma_ = sigma := by rw [ho]; rfl
    have hTT : b.T_ = T := by rw [ho]; rfl
    rw [American.priceRR_eq sqrt b _ _ _ (by rw [hS0, hR, hsg, hTT, hf]; exact h100)
      (by rw [hS0, hR, hsg, hTT, hf]; exact h200) (by rw [hS0, hR, hsg, hTT, hf]; exact h400)]
    refine congrArg Except.ok ?_
    generalize (American.buildStockTree
      { toOption := Option.init sqrt S0 R sigma T 400, payoff_ := payoff,
        stockTree_ := [] }).price = P4
    generalize (American.buildStockTree
      { toOption := Option.init sqrt S0 R sigma T 200, payoff_ := payoff,
        stockTree_ := [] }).price = P2
    generalize (American.buildStockTree
      { toOption := Option.init sqrt S0 R sigma T 100, payoff_ := payoff,
        stockTree_ := [] }).price = P1
    ring
  refine ⟨_, _, _, h100, h200, h400, key N a ha, ?_, ?_⟩
  · intro N' a' ha'
    rw [key N' a' ha', key N a ha]
  · intro L x y e1 e2 e4
    rw [key N a ha, e1, e2, e4]
    refine congrArg Except.ok ?_
    ring

/-- Witness of C36 at `S0 = 100, R = 1/20, sigma = 1/5, T = 1, N = 3` with a put
of strike 100. -/
theorem American.priceRR_formula_witness :
    ∃ a a100 a200 a400 : American ℚ,
      American.new Rat.sqrt 100 (1 / 20) (1 / 5) 1 3 (PayoffPut.eval ⟨100⟩) = .ok a ∧
      American.new Rat.sqrt 100 (1 / 20) (1 / 5) 1 100 (PayoffPut.eval ⟨100⟩) = .ok a100 ∧
      American.new Rat.sqrt 100 (1 / 20) (1 / 5) 1 200 (PayoffPut.eval ⟨100⟩) = .ok a200 ∧
      American.new Rat.sqrt 100 (1 / 20) (1 / 5) 1 400 (PayoffPut.eval ⟨100⟩) = .ok a400 ∧
      a.priceRR Rat.sqrt = .ok ((8 * a400.price - 6 * a200.price + a100.price) / 3) := by
  obtain ⟨a100, a200, a400, h1, h2, h4, h, -, -⟩ :=
    American.priceRR_formula Rat.sqrt 100 (1 / 20) (1 / 5) 1 3 (PayoffPut.eval ⟨100⟩) _
      (American.new_of_valid_am _ _ _ (by norm_num) (by norm_num) (by norm_num) (by norm_num))
  exact ⟨_, a100, a200, a400,
    American.new_of_valid_am _ _ _ (by norm_num) (by norm_num) (by norm_num) (by norm_num),
    h1, h2, h4, h⟩

end crr

namespace pde

variable {α : Type} [LinearOrderedField α]

/-- C37: pivot safety of the Thomas solve under diagonal dominance.  For every
scheme with `jmax >= 2` and every time index `i`, if
`|F(i,j)| > |E(i,j)| + |G(i,j)|` for every `1 <= j <= jmax-1`, then every pivot
`r[j]`, `1 <= j <= jmax-1`, computed by the forward elimination of
`LUDecomposition` (it is `r[1] = F(i,1)`, `r[j] = F(i,j) - E(i,j)*G(i,j-1)/r[j-1]`)
satisfies `|r[j]| > |G(i,j)| >= 0` and is therefore not zero.  These pivots are
the only divisors of the method: of the forward elimination (`r[j-1]` for
`2 <= j <= jmax-1`) and of the back-substitution (`r[jmax-1]`, then `r[j]` for
`j = jmax-2, ..., 1`), so the result is zero at both ends and solves the
tridiagonal system on the interior indices. -/
theorem ImplicitScheme.LUDecomposition_pivots_nonzero (s : ImplicitScheme α) (i : Int)
    (q : List α) (hjm : 2 ≤ s.jmax_)
    (hdom : ∀ j : Int, 1 ≤ j → j ≤ s.jmax_ - 1 → |s.F i j| > |s.E i j| + |s.G i j|) :
    (∀ j : Nat, 1 ≤ j → j ≤ s.jmax_.toNat - 1 →
      get1 (s.forwardElimination i q).1 j = s.pivot i j ∧
      |get1 (s.forwardElimination i q).1 j| > |s.G i j| ∧ |s.G i j| ≥ 0 ∧
      get1 (s.forwardElimination i q).1 j ≠ 0) ∧
    s.LUDecomposition i q =
      forDown (fun j p => p.set j
          ((get1 (s.forwardElimination i q).2 j - s.G i j * get1 p (j + 1)) /
            get1 (s.forwardElimination i q).1 j))
        (s.jmax_.toNat - 2)
        ((List.replicate (s.jmax_.toNat + 1) (0 : α)).set (s.jmax_.toNat - 1)
          (get1 (s.forwardElimination i q).2 (s.jmax_.toNat - 1) /
            get1 (s.forwardElimination i q).1 (s.jmax_.toNat - 1))) ∧
    (get1 (s.LUDecomposition i q) 0 = 0 ∧
      get1 (s.LUDecomposition i q) s.jmax_.toNat = 0 ∧
      ∀ j : Nat, 1 ≤ j → j ≤ s.jmax_.toNat - 1 →
        s.E i j * get1 (s.LUDecomposition i q) (j - 1) +
          s.F i j * get1 (s.LUDecomposition i q) j +
          s.G i j * get1 (s.LUDecomposition i q) (j + 1) = get1 q j) := by
  have hjn : 2 ≤ s.jmax_.toNat := by omega
  have hdomN : ∀ j : Nat, 1 ≤ j → j ≤ s.jmax_.toNat - 1 →
      |s.F i j| > |s.E i j| + |s.G i j| := by
    intro j h1 h2
    exact hdom j (by omega) (by omega)
  have hbig := ImplicitScheme.pivot_dominant s i (s.jmax_.toNat - 1) hdomN
  have hne : ∀ j : Nat, 1 ≤ j → j ≤ s.jmax_.toNat - 1 → s.pivot i j ≠ 0 := by
    intro j h1 h2
    exact abs_pos.mp (lt_of_le_of_lt (abs_nonneg _) (hbig j h1 h2))
  refine ⟨?_, ImplicitScheme.LUDecomposition_eq_back s i q,
    ImplicitScheme.LUDecomposition_tridiagonal s i q hjn hne⟩
  intro j h1 h2
  have he := ImplicitScheme.get1_forwardElimination_pivot s i q hjn j h1 h2
  rw [he]
  exact ⟨rfl, hbig j h1 h2, abs_nonneg _, hne j h1 h2⟩

/-- Witness of C37 over the rationals: the Crank-Nicolson scheme of the heat
operator `a = -1, b = c = d = 0` on the domain `T = 1, Smin = 0, Smax = 3` with
`imax = 1, jmax = 3`, whose rows at `i = 1` are `E = G = -1/2`, `F = 2`, and
the right-hand side `q = (0, 1, 2, 0)`: the pivot `r[2]` exceeds `|G(1,2)|`. -/
theorem ImplicitScheme.LUDecomposition_pivots_nonzero_witness :
    ∃ (pde : ParabPDE ℚ) (s : ImplicitScheme ℚ),
      ParabPDE.new 1 0 3 (fun _ _ => -1) (fun _ _ => 0) (fun _ _ => 0) (fun _ _ => 0)
        (fun S => S) (fun _ => 0) (fun _ => 3) = .ok pde ∧
      CNMethod.new pde 1 3 = .ok s ∧
      2 ≤ s.jmax_ ∧
      (∀ j : Int, 1 ≤ j → j ≤ s.jmax_ - 1 → |s.F 1 j| > |s.E 1 j| + |s.G 1 j|) ∧
      |get1 (s.forwardElimination 1 [0, 1, 2, 0]).1 2| > |s.G 1 ((2 : Nat) : Int)| ∧
      get1 (s.forwardElimination 1 [0, 1, 2, 0]).1 2 ≠ 0 := by
  have hp := ParabPDE.new_of_valid_pde (fun _ _ => (-1 : ℚ)) (fun _ _ => 0) (fun _ _ => 0)
    (fun _ _ => 0) (fun S => S) (fun _ => 0) (fun _ => 3)
    (show (0 : ℚ) < 1 by norm_num) (show (0 : ℚ) < 3 by norm_num) (le_refl 0)
  obtain ⟨s, hs⟩ := ImplicitScheme.new_of_valid_is
    ({ T_ := 1, Smin_ := 0, Smax_ := 3, a := fun _ _ => -1, b := fun _ _ => 0,
       c := fun _ _ => 0, d := fun _ _ => 0, Terminal := fun S => S, Lower := fun _ => 0,
       Upper := fun _ => 3 } : ParabPDE ℚ) 1 3
    CNMethod.A CNMethod.B CNMethod.C CNMethod.D CNMethod.E CNMethod.F CNMethod.G
    (by decide) (by decide)
  obtain ⟨hm, hA, hB, hC, hD, hE, hF, hG⟩ := ImplicitScheme.new_eq_ok_is hs
  obtain ⟨-, hpde, -, hjmax, hdt, hdS, -⟩ := FDMethod.new_eq_ok_fields hm
  have hdt1 : s.dt_ = 1 := by rw [hdt]; norm_num
  have hdS1 : s.dS_ = 1 := by rw [hdS]; norm_num
  have hEv : ∀ j : Int, s.E 1 j = -(1 / 2) := by
    intro j
    rw [hE]
    simp [CNMethod.E, CNMethod.A, FDMethod.a, FDMethod.b, hpde, hdt1, hdS1]
  have hFv : ∀ j : Int, s.F 1 j = 2 := by
    intro j
    rw [hF]
    simp [CNMethod.F, CNMethod.B, FDMethod.a, FDMethod.c, hpde, hdt1, hdS1]
  have hGv : ∀ j : Int, s.G 1 j = -(1 / 2) := by
    intro j
    rw [hG]
    simp [CNMethod.G, CNMethod.C, FDMethod.a, FDMethod.b, hpde, hdt1, hdS1]
  have hj2 : 2 ≤ s.jmax_ := by rw [hjmax]; decide
  have hdom : ∀ j : Int, 1 ≤ j → j ≤ s.jmax_ - 1 → |s.F 1 j| > |s.E 1 j| + |s.G 1 j| := by
    intro j _ _
    rw [hEv, hFv, hGv]
    norm_num [abs_of_pos]
  have h := (ImplicitScheme.LUDecomposition_pivots_nonzero s 1 [0, 1, 2, 0] hj2 hdom).1 2
    (by decide) (by rw [hjmax]; decide)
  exact ⟨_, s, hp, hs, hj2, hdom, h.2.1, h.2.2.2⟩

end pde

namespace pde

open opt

variable {α : Type} [LinearOrderedField α]

/-- C38: diagonal dominance of the Crank-Nicolson matrix on a diffusion.  For
`CNMethod` over an accepted `Diffusion` model with `R >= 0`, at every time index
`1 <= i <= imax` and interior price index `1 <= j <= jmax-1` whose volatility
satisfies `vol(t(i-1/2), S(j))^2 * S(j) >= R * dS`, the coefficients satisfy
`E(i,j) <= 0`, `G(i,j) <= 0`, `F(i,j) > 0` and
`F(i,j) - |E(i,j)| - |G(i,j)| = 1 + (1/2)*dt*R >= 1`, so the row is strictly
diagonally dominant: `|F(i,j)| > |E(i,j)| + |G(i,j)|`. -/
theorem CNMethod.diffusion_diagonally_dominant (exp : α → α) (T Smin Smax R : α)
    (payoff : α → α) (vol : α → α → α) (pde : ParabPDE α) (imax jmax : Int)
    (s : ImplicitScheme α)
    (hp : Diffusion.new exp T Smin Smax R payoff vol = .ok pde)
    (hs : CNMethod.new pde imax jmax = .ok s) (hR : 0 ≤ R) (i j : Int)
    (_hi1 : 1 ≤ i) (_hi2 : i ≤ imax) (hj1 : 1 ≤ j) (_hj2 : j ≤ jmax - 1)
    (hvol : vol (s.toFDMethod.t ((i : α) - 1 / 2)) (s.toFDMethod.S j) ^ 2 * s.toFDMethod.S j ≥
      R * s.dS_) :
    (s.E i j ≤ 0 ∧ s.G i j ≤ 0 ∧ 0 < s.F i j) ∧
    s.F i j - |s.E i j| - |s.G i j| = 1 + 1 / 2 * s.dt_ * R ∧
    1 + 1 / 2 * s.dt_ * R ≥ 1 ∧
    |s.F i j| > |s.E i j| + |s.G i j| := by
  obtain ⟨hm, -, -, -, -, hE, hF, hG⟩ := ImplicitScheme.new_eq_ok_is hs
  obtain ⟨⟨-, -, h0⟩, -, ⟨hpa, hpb, hpc, -⟩, -⟩ := Diffusion.new_eq_ok_df hp
  obtain ⟨-, hpde, -, -, -, -, -⟩ := FDMethod.new_eq_ok_fields hm
  obtain ⟨⟨hdt, -⟩, ⟨hdS, -⟩, ⟨-, hSmin, -⟩, -⟩ := FDMethod.steps_of_new hp hm
  have hSj : 0 ≤ s.toFDMethod.S j := by
    rw [FDMethod.S, hSmin]
    have hjc : (0 : α) ≤ (j : α) := by exact_mod_cast (by omega : (0 : Int) ≤ j)
    exact add_nonneg h0 (mul_nonneg (le_of_lt hdS) hjc)
  have hEv : s.E i j = CNMethod.E s.toFDMethod i j := by rw [hE]
  have hFv : s.F i j = CNMethod.F s.toFDMethod i j := by rw [hF]
  have hGv : s.G i j = CNMethod.G s.toFDMethod i j := by rw [hG]
  simp only [CNMethod.E, CNMethod.A, FDMethod.a, FDMethod.b, hpde, hpa, hpb, Diffusion.a,
    Diffusion.b] at hEv
  simp only [CNMethod.F, CNMethod.B, FDMethod.a, FDMethod.c, hpde, hpa, hpc, Diffusion.a,
    Diffusion.c] at hFv
  simp only [CNMethod.G, CNMethod.C, FDMethod.a, FDMethod.b, hpde, hpa, hpb, Diffusion.a,
    Diffusion.b] at hGv
  exact cn_row_dominant hdt hdS hR hSj hvol hEv hFv hGv

/-- Witness of C38 over the rationals (the exponential, which the coefficients
do not use, is replaced by the constant `1`): a put of strike 100 on the domain
`T = 1, Smin = 0, Smax = 200`, rate `1/50`, volatility `1/5`, with
`imax = 1, jmax = 2`, at the node `i = 1, j = 1`, where
`vol^2 * S(1) = 4 >= 2 = R * dS`. -/
theorem CNMethod.diffusion_diagonally_dominant_witness :
    ∃ (pde : ParabPDE ℚ) (s : ImplicitScheme ℚ),
      Diffusion.new (fun _ => 1) 1 0 200 (1 / 50) (PayoffPut.eval ⟨100⟩)
        (fun _ _ => 1 / 5) = .ok pde ∧
      CNMethod.new pde 1 2 = .ok s ∧
      (s.E 1 1 ≤ 0 ∧ s.G 1 1 ≤ 0 ∧ 0 < s.F 1 1) ∧
      s.F 1 1 - |s.E 1 1| - |s.G 1 1| = 1 + 1 / 2 * s.dt_ * (1 / 50) ∧
      |s.F 1 1| > |s.E 1 1| + |s.G 1 1| := by
  have hp : Diffusion.new (fun _ => (1 : ℚ)) 1 0 200 (1 / 50) (PayoffPut.eval ⟨100⟩)
      (fun _ _ => 1 / 5) = .ok _ :=
    ParabPDE.new_of_valid_pde _ _ _ _ _ _ _
      (show (0 : ℚ) < 1 by norm_num) (show (0 : ℚ) < 200 by norm_num) (le_refl 0)
  obtain ⟨s, hs⟩ := ImplicitScheme.new_of_valid_is
    ({ T_ := 1, Smin_ := 0, Smax_ := 200, a := Diffusion.a fun _ _ => (1 / 5 : ℚ),
       b := Diffusion.b (1 / 50), c := Diffusion.c (1 / 50), d := Diffusion.d,
       Terminal := Diffusion.Terminal (PayoffPut.eval ⟨100⟩),
       Lower := Diffusion.Lower (fun _ => 1) (PayoffPut.eval ⟨100⟩) (1 / 50) 1 0,
       Upper := Diffusion.Upper (fun _ => 1) (PayoffPut.eval ⟨100⟩) (1 / 50) 1 200 } :
      ParabPDE ℚ) 1 2
    CNMethod.A CNMethod.B CNMethod.C CNMethod.D CNMethod.E CNMethod.F CNMethod.G
    (by decide) (by decide)
  obtain ⟨hm, -⟩ := ImplicitScheme.new_eq_ok_is hs
  obtain ⟨-, hpde, -, -, -, hdS, -⟩ := FDMethod.new_eq_ok_fields hm
  have hdS1 : s.dS_ = 100 := by rw [hdS]; norm_num
  have hS1 : s.toFDMethod.S 1 = 100 := by
    rw [FDMethod.S, hdS1, hpde]
    norm_num [ParabPDE.Smin]
  have h := CNMethod.diffusion_diagonally_dominant (fun _ => (1 : ℚ)) 1 0 200 (1 / 50)
    (PayoffPut.eval ⟨100⟩) (fun _ _ => 1 / 5) _ 1 2 s hp hs (by norm_num) 1 1
    (by decide) (by decide) (by decide) (by decide)
    (by rw [hS1, hdS1]; norm_num)
  exact ⟨_, s, hp, hs, h.1, h.2.1, h.2.2.2⟩

end pde

namespace crr

open opt

variable {α : Type} [LinearOrderedField α]

/-- C39: the hedge-ratio divisor on the recombining tree.  For an accepted
European option, at every node `0 <= i <= n < N`,
`price[n+1][i+1] - price[n+1][i] = price[n][i] * (up - down) =
2 * price[n][i] * sigma * sqrt(T/N)`; hence, `sqrt` being positive on the
positive numbers, if `S0 > 0`, `sigma > 0`, `T > 0` and `1 + down > 0`, the
divisor `S_up - S_down` of `European::hedgingStrategy` is strictly positive at
every node, and in particular not zero. -/
theorem European.hedge_divisor_pos (sqrt : α → α) (S0 R sigma T : α) (N : Int)
    (payoff : α → α) (e : European α)
    (he : European.new sqrt S0 R sigma T N payoff = .ok e) :
    (∀ n i, i ≤ n → n < N.toNat →
      get2 e.stockTree_ (n + 1) (i + 1) - get2 e.stockTree_ (n + 1) i =
          get2 e.stockTree_ n i * (e.u_ - e.d_) ∧
        get2 e.stockTree_ n i * (e.u_ - e.d_) =
          2 * get2 e.stockTree_ n i * sigma * sqrt (T / (N : α))) ∧
    ((∀ x, 0 < x → 0 < sqrt x) → 0 < S0 → 0 < sigma → 0 < T → 0 < 1 + e.d_ →
      ∀ n i, i ≤ n → n < N.toNat →
        0 < get2 e.stockTree_ (n + 1) (i + 1) - get2 e.stockTree_ (n + 1) i ∧
          get2 e.stockTree_ (n + 1) (i + 1) - get2 e.stockTree_ (n + 1) i ≠ 0) := by
  obtain ⟨⟨-, -, -, hNpos⟩, ho, -, ht⟩ := European.new_eq_ok_eu he
  have hN : e.N_ = N := by rw [ho]; rfl
  have hS : e.S0_ = S0 := by rw [ho]; rfl
  have hu : e.u_ = R * (T / (N : α)) + sigma * sqrt (T / (N : α)) := by rw [ho]; rfl
  have hd : e.d_ = R * (T / (N : α)) - sigma * sqrt (T / (N : α)) := by rw [ho]; rfl
  have hud : e.u_ - e.d_ = 2 * sigma * sqrt (T / (N : α)) := by rw [hu, hd]; ring
  have hdiff : ∀ n i, i ≤ n → n < N.toNat →
      get2 e.stockTree_ (n + 1) (i + 1) - get2 e.stockTree_ (n + 1) i =
        get2 e.stockTree_ n i * (e.u_ - e.d_) := by
    intro n i hi hn
    rw [ht, get2_buildStockTree_up _ hi (by rw [hN]; exact hn),
      get2_buildStockTree_down _ hi (by rw [hN]; exact hn)]
    ring
  refine ⟨fun n i hi hn => ⟨hdiff n i hi hn, by rw [hud]; ring⟩, ?_⟩
  intro hsq hS0 hsig hT hdown n i hi hn
  have hNα : (0 : α) < (N : α) := by exact_mod_cast hNpos
  have hgap : 0 < e.u_ - e.d_ := by
    rw [hud]
    exact mul_pos (mul_pos (by norm_num) hsig) (hsq _ (div_pos hT hNα))
  have hup : 0 < 1 + e.u_ := by linarith
  have hpos : 0 < get2 e.stockTree_ n i := by
    rw [ht, get2_buildStockTree _ hi (by rw [hN]; exact le_of_lt hn), hS]
    exact mul_pos (mul_pos hS0 (pow_pos hup _)) (pow_pos hdown _)
  have hgt : 0 < get2 e.stockTree_ (n + 1) (i + 1) - get2 e.stockTree_ (n + 1) i := by
    rw [hdiff n i hi hn]
    exact mul_pos hpos hgap
  exact ⟨hgt, ne_of_gt hgt⟩

/-- Witness of C39 over the reals with the real square root, at
`S0 = 100, R = 1/20, sigma = 1/5, T = 2, N = 2` and the node `(1, 0)`. -/
theorem European.hedge_divisor_pos_witness :
    ∃ e : European ℝ,
      European.new Real.sqrt 100 (1 / 20) (1 / 5) 2 2 (PayoffCall.eval ⟨100⟩) = .ok e ∧
      get2 e.stockTree_ 2 1 - get2 e.stockTree_ 2 0 = get2 e.stockTree_ 1 0 * (e.u_ - e.d_) ∧
      0 < get2 e.stockTree_ 2 1 - get2 e.stockTree_ 2 0 :=
  have h := European.hedge_divisor_pos Real.sqrt 100 (1 / 20) (1 / 5) 2 2
    (PayoffCall.eval ⟨100⟩) _
    (European.new_of_valid_eu _ _ _ (by norm_num) (by norm_num) (by norm_num) (by norm_num))
  ⟨_, European.new_of_valid_eu _ _ _ (by norm_num) (by norm_num) (by norm_num) (by norm_num),
    (h.1 1 0 (by decide) (by decide)).1,
    (h.2 (fun _ hx => Real.sqrt_pos.mpr hx) (by norm_num) (by norm_num) (by norm_num)
      (by
        show (0 : ℝ) < 1 + (1 / 20 * (2 / ((2 : Int) : ℝ)) -
          1 / 5 * Real.sqrt (2 / ((2 : Int) : ℝ)))
        rw [show (2 : ℝ) / ((2 : Int) : ℝ) = 1 by norm_num, Real.sqrt_one]
        norm_num)
      1 0 (by decide) (by decide)).1⟩

end crr
